import Mathlib

/-!
# lightconf: the value tree, the scanner, the reader and the round-trip writer

A shallow embedding of `lightconf/internal/*.hpp`.

* A `std::string` is the list of its bytes (`Str`, each byte a `Nat` below 256).
* A `double` is carried as its 64-bit IEEE pattern (a `Nat`); the two C library
  conversions the sources call (`strtod` in `scanner::scan_number`, `operator<<`
  on a `std::stringstream` in `stringize_number`) and the signedness of `char`
  are fields of `Platform`.
* A C++ function that may throw returns a `Res`: the state it had mutated when
  it threw is kept, because `config_format::write` goes on with the same
  `writer` after catching. The `what()` text of an exception is not modelled.
* Loops and recursion of the reader and writer run on a fuel counter; `Res.diverge`
  stands for a loop that never ends.
-/

namespace lightconf

/-- The bytes of a `std::string`. -/
abbrev Str := List Nat

/-- The bytes of an ASCII string literal. -/
def lit (s : String) : Str := s.toList.map Char.toNat

/-- What the sources take from outside the repository: `strtod` of the C library
(on the bytes up to the terminating NUL: the value's bit pattern and the number of
characters consumed), `operator<<(double)` on a fresh `std::stringstream`, whether
plain `char` is signed, and the value that the local `bool failed;` of
`scanner::utf8_unescape`, which is declared without an initial value, holds when it is
read before anything has been written to it (it may differ from call to call: it is
given for the text and the position the scanner stands at). -/
structure Platform where
  strtod : Str → Nat × Nat
  ostream_double : Nat → Str
  char_signed : Bool
  indeterminate : Str → Nat → Bool

/-! ## exceptions.hpp -/

/-- The exception classes of `exceptions.hpp`; `utf8_error` derives from
`parse_error`. -/
inductive exn where
  | value_error
  | path_error
  | parse_error (line col : Nat)
  | utf8_error (line col : Nat)
  deriving DecidableEq, Repr

/-- Whether `catch (parse_error e)` catches the exception. -/
def exn.is_parse_error : exn → Bool
  | .parse_error _ _ => true
  | .utf8_error _ _ => true
  | _ => false

/-- Outcome of a call that works on a mutable state `σ`: normal return, an
exception (the state as it was when thrown), or no return at all. -/
inductive Res (σ : Type) (α : Type) where
  | ok (a : α) (s : σ)
  | throw (e : exn) (s : σ)
  | diverge
  deriving DecidableEq, Repr

/-- The exception a call ended with, if it did. -/
def Res.exception {σ α : Type} : Res σ α → Option exn
  | .throw e _ => some e
  | _ => none

/-- Sequencing: the continuation runs on a normal return only. -/
def Res.bind {σ α β : Type} (r : Res σ α) (k : α → σ → Res σ β) : Res σ β :=
  match r with
  | .ok a s => k a s
  | .throw e s => .throw e s
  | .diverge => .diverge

/-! ## value.hpp, group.hpp -/

mutual
/-- The class `value`: the tag `type_` and the member the tag selects. -/
inductive value where
  | invalid
  | number (number_value_ : Nat)
  | string (string_value_ : Str)
  | bool (bool_value_ : Bool)
  | vector (vector_value_ : List value)
  | group (group_value_ : group)
/-- The class `group`: `values_` is the `std::map` (its entries in key order),
`order_` the vector of keys. -/
inductive group where
  | mk (values_ : List (Str × value)) (order_ : List Str)
end

/-- The member `values_`. -/
def group.values_ : group → List (Str × value)
  | .mk m _ => m

/-- The member `order_`. -/
def group.order_ : group → List Str
  | .mk _ o => o

/-- The constructor `group::group()`. -/
def group.empty : group := .mk [] []

instance : Inhabited group := ⟨group.empty⟩

instance : Inhabited value := ⟨value.invalid⟩

/-- The enum `value_type`. -/
inductive value_type where
  | invalid_type | number_type | string_type | bool_type | group_type | vector_type
  deriving DecidableEq, Repr

/-- The accessor `value::type()`. -/
def value.type : value → value_type
  | .invalid => .invalid_type
  | .number _ => .number_type
  | .string _ => .string_type
  | .bool _ => .bool_type
  | .vector _ => .vector_type
  | .group _ => .group_type

/-- The accessor `value::group_value()`: the member `group_value_`, which is an
empty group unless the value was built from a group. -/
def value.group_value : value → lightconf.group
  | .group g => g
  | _ => lightconf.group.empty

/-- The accessor `value::vector_value()`. -/
def value.vector_value : value → List value
  | .vector v => v
  | _ => []

/-! ### std::map<std::string, value> -/

/-- The order `std::string::operator<`: lexicographic on the bytes. -/
def str_lt : Str → Str → Bool
  | [], [] => false
  | [], _ :: _ => true
  | _ :: _, [] => false
  | a :: as, b :: bs => if a < b then true else if b < a then false else str_lt as bs

/-- The lookup `std::map::find`: the mapped value, `none` for `end()`. -/
def map_find : List (Str × value) → Str → Option value
  | [], _ => none
  | (k, v) :: m, key => if k = key then some v else map_find m key

/-- The assignment `m[key] = val`: the entry is overwritten where it is, or
inserted at its place in key order. -/
def map_assign : List (Str × value) → Str → value → List (Str × value)
  | [], key, val => [(key, val)]
  | (k, v) :: m, key, val =>
    if k = key then (key, val) :: m
    else if str_lt key k then (key, val) :: (k, v) :: m
    else (k, v) :: map_assign m key val

/-- The removal `std::map::erase(key)`. -/
def map_erase : List (Str × value) → Str → List (Str × value)
  | [], _ => []
  | (k, v) :: m, key => if k = key then m else (k, v) :: map_erase m key

/-! ## path.hpp -/

/-- The class `path`: its `parts_`. -/
abbrev path := List Str

/-- The loop of `path::parse` from `start`, the segment read so far in `cur`: a
separator ends the segment, and the end of the string ends a segment only when
`start < path_string.size()`, that is when characters follow the last separator. -/
def path.parse_from (separator : Nat) : Str → Str → Bool → path
  | [], cur, pending => if pending then [cur] else []
  | c :: cs, cur, _ =>
    if c = separator then cur :: path.parse_from separator cs [] false
    else path.parse_from separator cs (cur ++ [c]) true

/-- The constructor `path(const std::string&, char separator)`. -/
def path.parse_sep (path_string : Str) (separator : Nat) : path :=
  path.parse_from separator path_string [] false

/-- The constructor `path(const std::string&)`, the separator defaulted to `'.'`;
it is also the implicit conversion of a string to a path. -/
def path.parse (path_string : Str) : path :=
  path.parse_sep path_string '.'.toNat

/-- The method `path::fullpath(char separator)`: every part, and the separator after
every part but the last. -/
def path.fullpath_sep : path → Nat → Str
  | [], _ => []
  | [part], _ => part
  | part :: it :: parts, separator =>
    part ++ separator :: path.fullpath_sep (it :: parts) separator

/-- The method `path::fullpath()`, the separator defaulted to `'.'`. -/
def path.fullpath (p : path) : Str :=
  p.fullpath_sep '.'.toNat

/-! ## value_type_info.hpp, value_impl.hpp -/

/-- The trait `value_type_info<T>`: the three static members of a
specialization. `extract_value` may throw (the `std::vector<U>` adapter calls
`get<U>` on the elements). -/
structure value_type_info (α : Type) where
  can_convert_from : value → Bool
  extract_value : value → Except exn α
  create_value : α → value

/-- The specialization `value_type_info<value>`. -/
def value_info : value_type_info value where
  can_convert_from := fun _ => true
  extract_value := fun val => .ok val
  create_value := fun val => val

/-- The specialization `value_type_info<double>` (`DEFINE_VALUE_TYPE`). -/
def double_info : value_type_info Nat where
  can_convert_from := fun val => val.type = .number_type
  extract_value := fun val => match val with
    | .number x => .ok x
    | _ => .ok 0
  create_value := fun x => .number x

/-- The specialization `value_type_info<bool>`. -/
def bool_info : value_type_info Bool where
  can_convert_from := fun val => val.type = .bool_type
  extract_value := fun val => match val with
    | .bool b => .ok b
    | _ => .ok false
  create_value := fun x => .bool x

/-- The specialization `value_type_info<std::string>`. -/
def string_info : value_type_info Str where
  can_convert_from := fun val => val.type = .string_type
  extract_value := fun val => match val with
    | .string s => .ok s
    | _ => .ok []
  create_value := fun x => .string x

/-- The specialization `value_type_info<value_vector_type>`. -/
def vector_info : value_type_info (List value) where
  can_convert_from := fun val => val.type = .vector_type
  extract_value := fun val => .ok val.vector_value
  create_value := fun x => .vector x

/-- The specialization `value_type_info<group>`. -/
def group_info : value_type_info group where
  can_convert_from := fun val => val.type = .group_type
  extract_value := fun val => .ok val.group_value
  create_value := fun x => .group x

/-- The method `value::get<T>()`. -/
def value.get {α : Type} (T : value_type_info α) (val : value) : Except exn α :=
  if !T.can_convert_from val then .error .value_error
  else T.extract_value val

/-- The method `value::get<T>(def)`. -/
def value.get_or {α : Type} (T : value_type_info α) (val : value) (dflt : α) : Except exn α :=
  if !T.can_convert_from val then .ok dflt
  else T.extract_value val

/-- The method `value::is<T>()`. -/
def value.is {α : Type} (T : value_type_info α) (val : value) : Bool :=
  T.can_convert_from val

/-- The loop of `value_type_info<std::vector<U>>::extract_value`: `u.get<U>()` on
each element in turn; the first one that throws ends the loop. -/
def extract_elements {α : Type} (U : value_type_info α) : List value → Except exn (List α)
  | [] => .ok []
  | u :: inner_vals =>
    match u.get U with
    | .error e => .error e
    | .ok x =>
      match extract_elements U inner_vals with
      | .error e => .error e
      | .ok v => .ok (x :: v)

/-- The specialization `value_type_info<std::vector<U>>`: the compatibility test
looks at the tag of the value only, `extract_value` calls `get<U>` on the elements. -/
def vector_of_info {α : Type} (U : value_type_info α) : value_type_info (List α) where
  can_convert_from := fun val => val.type = .vector_type
  extract_value := fun val =>
    match val.get vector_info with
    | .error e => .error e
    | .ok inner_vals => extract_elements U inner_vals
  create_value := fun x => .vector (x.map U.create_value)

/-! ## group_impl.hpp -/

/-- The method `group::find_value`. Its three results: the value found (`none`
for the null pointer), `*parent_group` (a pointer into the tree, given as the keys
that lead from this group to the group pointed to) and `*key_rest`. -/
def group.find_value : group → path → Except exn (Option value × List Str × path)
  | _, [] => .error .path_error
  | g, [k] =>
    match map_find g.values_ k with
    | none => .ok (none, [], [k])
    | some v => .ok (some v, [], [])
  | g, k :: k2 :: ks =>
    match map_find g.values_ k with
    | some (.group grp) =>
      match group.find_value grp (k2 :: ks) with
      | .ok (r, parent, rest) => .ok (r, k :: parent, rest)
      | .error e => .error e
    | _ => .ok (none, [], k :: k2 :: ks)

/-- The method `group::set_key`. -/
def group.set_key (g : group) (key : Str) (val : value) : group :=
  .mk (map_assign g.values_ key val)
    (if (map_find g.values_ key).isNone then g.order_ ++ [key] else g.order_)

/-- The test of `group::create_value` on the first character of a key
(`(*first)[0]`, the terminating NUL when the key is empty). -/
def key_start_invalid (key : Str) : Bool :=
  let c := key.headD 0
  (c < 'A'.toNat || c > 'Z'.toNat) && (c < 'a'.toNat || c > 'z'.toNat)

/-- The test of `group::create_value` on each character of a key. -/
def key_char_invalid (c : Nat) : Bool :=
  (c < 'A'.toNat || c > 'Z'.toNat) && (c < 'a'.toNat || c > 'z'.toNat)
    && (c < '0'.toNat || c > '9'.toNat) && c != '_'.toNat && c != '-'.toNat

/-- The method `group::create_value` with the value already converted by
`value_type_info<T>::create_value`. The group is changed in place, so what was
created before a throw stays. -/
def group.create_value : group → path → value → Res group Unit
  | g, [], _ => .throw .path_error g
  | g, k :: ks, val =>
    if key_start_invalid k then .throw .path_error g
    else if k.any key_char_invalid then .throw .path_error g
    else
      match ks with
      | [] => .ok () (g.set_key k val)
      | _ :: _ =>
        let g1 := g.set_key k (.group group.empty)
        match map_find g1.values_ k with
        | some (.group grp) =>
          match group.create_value grp ks val with
          | .ok _ grp1 => .ok () (.mk (map_assign g1.values_ k (.group grp1)) g1.order_)
          | .throw e grp1 => .throw e (.mk (map_assign g1.values_ k (.group grp1)) g1.order_)
          | .diverge => .diverge
        | _ => .throw .value_error g1

/-- Running `f` on the group a `parent_group` pointer of `find_value` points to:
the keys are followed from this group and the changed group is stored back where
it was. -/
def group.update_at : group → List Str → (group → Res group Unit) → Res group Unit
  | g, [], f => f g
  | g, k :: ks, f =>
    match map_find g.values_ k with
    | some (.group grp) =>
      match group.update_at grp ks f with
      | .ok _ grp1 => .ok () (.mk (map_assign g.values_ k (.group grp1)) g.order_)
      | .throw e grp1 => .throw e (.mk (map_assign g.values_ k (.group grp1)) g.order_)
      | .diverge => .diverge
    | _ => .ok () g

/-- The method `group::get<T>(key)`. -/
def group.get {α : Type} (T : value_type_info α) (g : group) (key : path) : Except exn α :=
  match g.find_value key with
  | .error e => .error e
  | .ok (some val, _, _) => val.get T
  | .ok (none, _, _) => .error .path_error

/-- The method `group::get<T>(key, def)`. -/
def group.get_or {α : Type} (T : value_type_info α) (g : group) (key : path) (dflt : α) :
    Except exn α :=
  match g.find_value key with
  | .error e => .error e
  | .ok (some val, _, _) => val.get_or T dflt
  | .ok (none, _, _) => .ok dflt

/-- The method `group::set<T>(key, val)`. With a value found, `*result = ...`
assigns to the slot of the last key in the parent group. -/
def group.set {α : Type} (T : value_type_info α) (g : group) (key : path) (val : α) :
    Res group Unit :=
  match g.find_value key with
  | .error e => .throw e g
  | .ok (some _, parent_group, _) =>
    g.update_at parent_group fun p =>
      .ok () (.mk (map_assign p.values_ (key.getLastD []) (T.create_value val)) p.order_)
  | .ok (none, parent_group, key_rest) =>
    g.update_at parent_group fun p => p.create_value key_rest (T.create_value val)

/-- The method `group::has<T>(key)`. -/
def group.has {α : Type} (T : value_type_info α) (g : group) (key : path) : Except exn Bool :=
  match g.find_value key with
  | .error e => .error e
  | .ok (some val, _, _) => .ok (val.is T)
  | .ok (none, _, _) => .ok false

/-- The method `group::unset(key)`. -/
def group.unset (g : group) (key : path) : Res group Unit :=
  match g.find_value key with
  | .error e => .throw e g
  | .ok (some _, parent_group, _) =>
    g.update_at parent_group fun p =>
      .ok () (.mk (map_erase p.values_ (key.getLastD [])) (p.order_.erase (key.getLastD [])))
  | .ok (none, _, _) => .ok () g

/-! ### operator== -/

/-- Whether the pattern of a `double` is a NaN: the eleven exponent bits (from bit 52 on)
are all set and the fraction (the 52 bits below) is not zero. -/
def double_is_nan (x : Nat) : Bool :=
  (x / 0x10000000000000) % 0x800 == 0x7ff && x % 0x10000000000000 != 0

/-- The operator `==` on two `double`s, on their patterns (IEEE 754): a NaN is equal
to nothing, the two zeros are equal, every other number only to itself. -/
def double_eq (x y : Nat) : Bool :=
  if double_is_nan x || double_is_nan y then false
  else if x % 0x8000000000000000 == 0 && y % 0x8000000000000000 == 0 then true
  else x == y

/-- The second loop of `group::operator==`: it runs over the `order_` of the
receiver and reads `rhs.order_` along with it. Reading `rhs.order_` past its end, which
the size test on the maps excludes for groups that keep the order invariant, gives
`false` here. -/
def order_equal : List Str → List Str → Bool
  | [], _ => true
  | _ :: _, [] => false
  | a :: order, b :: rhs_order => if a != b then false else order_equal order rhs_order

mutual
/-- The operator `value::operator==`, by recursion on the first value. The first
value is the receiver `*this` and the second `rhs` unless `swapped`: the members are
compared as `rhs.member == member`, which makes the member of `rhs` the receiver. -/
def value.equal (swapped : Bool) : value → value → Bool
  | .invalid, _ => false
  | .number x, .number y => if swapped then double_eq x y else double_eq y x
  | .number _, _ => false
  | .string s, .string t => decide (s = t)
  | .string _, _ => false
  | .bool a, .bool b => decide (a = b)
  | .bool _, _ => false
  | .vector v, .vector w =>
    decide (v.length = w.length) && value.equal_list (!swapped) v w
  | .vector _, _ => false
  | .group g, .group h => group.equal (!swapped) g h
  | .group _, _ => false
/-- The operator `group::operator==`, by recursion on the first group, which is the
receiver unless `swapped`. -/
def group.equal (swapped : Bool) : group → group → Bool
  | .mk values order, h =>
    if values.length != h.values_.length then false
    else if !value.equal_map swapped values h.values_ then false
    else if swapped then order_equal h.order_ order
    else order_equal order h.order_
/-- The element loop of `std::vector<value>::operator==` (`std::equal`), the sizes
being equal. -/
def value.equal_list (swapped : Bool) : List value → List value → Bool
  | [], _ => true
  | _ :: _, [] => false
  | a :: v, b :: w => value.equal swapped a b && value.equal_list swapped v w
/-- The first loop of `group::operator==` over the entries of the two maps, the sizes
being equal: `*it1 != *it2` compares the keys and the values of the two entries. -/
def value.equal_map (swapped : Bool) : List (Str × value) → List (Str × value) → Bool
  | [], _ => true
  | _ :: _, [] => false
  | (k, a) :: m, (k2, b) :: m2 =>
    decide (k = k2) && value.equal swapped a b && value.equal_map swapped m m2
end

/-- The expression `g1 == g2` on groups: `g1` is the receiver. -/
def group.eq (g1 g2 : group) : Bool := group.equal false g1 g2

/-- The expression `v1 == v2` on values. -/
def value.eq (v1 v2 : value) : Bool := value.equal false v1 v2

/-! ## scanner.hpp -/

/-- The enumerator `empty_flag`. -/
def empty_flag : Nat := 0x00

/-- The enumerator `allow_comments_flag`. -/
def allow_comments_flag : Nat := 0x01

/-- The enumerator `utf8_exceptions_flag`. -/
def utf8_exceptions_flag : Nat := 0x02

/-- The enumerator `blank_line_comment_flag`. -/
def blank_line_comment_flag : Nat := 0x04

/-- The enum `token_type`. -/
inductive token_type where
  | none_token | string_token | identifier_token | number_token
  | char_token | whitespace_token | comment_token | eof_token
  deriving DecidableEq, Repr

/-- The struct `token`. -/
structure token where
  type : token_type
  string_value : Str
  number_value : Nat
  char_value : Nat
  pos : Nat
  line : Nat
  col : Nat
  deriving DecidableEq, Repr

/-- The constructor `token(token_type type)`: every other member is
value-initialized. -/
def token.of_type (type : token_type) : token :=
  ⟨type, [], 0, 0, 0, 0, 0⟩

/-- The method `token::is_char`. -/
def token.is_char (tok : token) (c : Char) : Bool :=
  tok.type = .char_token && tok.char_value = c.toNat

/-- The struct `scanner_params`; the comment function acts on the state `σ` it has
captured by reference (`none` is the empty `std::function`). -/
structure scanner_params (σ : Type) where
  comment_function : Option (Str → σ → σ)
  flags : Nat

/-- The constant `default_scanner_params`. -/
def default_scanner_params {σ : Type} : scanner_params σ :=
  ⟨none, allow_comments_flag ||| blank_line_comment_flag⟩

/-- The data members of the class `scanner`. -/
structure scanner (σ : Type) where
  input_ : Str
  tokens_ : List token
  cur_token_ : Nat
  eof_ : Bool
  pos_ : Nat
  line_ : Nat
  col_ : Nat
  params_ : scanner_params σ

/-- The constructor `scanner::scanner()`. -/
def scanner.init {σ : Type} : scanner σ :=
  ⟨[], [], 0, true, 0, 1, 1, ⟨none, empty_flag⟩⟩

/-- The function `wc_to_utf8`; `std::string(temp)` stops at the first NUL. -/
def wc_to_utf8 (ch : Nat) : Str :=
  let temp : List Nat :=
    if ch < 0x80 then [ch % 256, 0, 0, 0]
    else if ch < 0x800 then [((ch >>> 6) ||| 0xc0) % 256, ((ch &&& 0x3f) ||| 0x80) % 256, 0, 0]
    else if ch < 0x10000 then
      [((ch >>> 12) ||| 0xe0) % 256, (((ch >>> 6) &&& 0x3f) ||| 0x80) % 256,
        ((ch &&& 0x3f) ||| 0x80) % 256, 0]
    else if ch < 0x110000 then
      [((ch >>> 18) ||| 0xf0) % 256, (((ch >>> 12) &&& 0x3f) ||| 0x80) % 256,
        (((ch >>> 6) &&& 0x3f) ||| 0x80) % 256, ((ch &&& 0x3f) ||| 0x80) % 256]
    else [0, 0, 0, 0]
  temp.takeWhile (fun b => b != 0)

/-- The method `scanner::token_available`: `cur_token_ <= tokens_.size() - 1`, where
the right side is computed in `size_t` and is its largest value for an empty vector,
so that the comparison holds then. -/
def scanner.token_available {σ : Type} (sc : scanner σ) : Bool :=
  if sc.tokens_.length = 0 then true else sc.cur_token_ ≤ sc.tokens_.length - 1

/-- The method `scanner::cur_token`. -/
def scanner.cur_token {σ : Type} (sc : scanner σ) : token :=
  if sc.cur_token_ = sc.tokens_.length then token.of_type .eof_token
  else sc.tokens_.getD sc.cur_token_ (token.of_type .none_token)

/-- The loop of `scanner::peek_token` over the tokens from index `i` on. -/
def peek_from : List token → token
  | [] => token.of_type .eof_token
  | t :: ts =>
    if t.type != .whitespace_token && t.type != .comment_token then t else peek_from ts

/-- The method `scanner::peek_token`. -/
def scanner.peek_token {σ : Type} (sc : scanner σ) : token :=
  peek_from (sc.tokens_.drop sc.cur_token_)

/-- The method `scanner::eof`. -/
def scanner.eof {σ : Type} (sc : scanner σ) : Bool := sc.eof_

/-- The method `scanner::ch`. -/
def scanner.ch {σ : Type} (sc : scanner σ) : Nat :=
  if sc.eof then 0 else sc.input_.getD sc.pos_ 0

/-- The method `scanner::next_ch`. -/
def scanner.next_ch {σ : Type} (sc : scanner σ) : scanner σ :=
  if sc.eof then sc
  else
    let col := sc.col_ + 1
    let line := if sc.ch = 10 then sc.line_ + 1 else sc.line_
    let col := if sc.ch = 10 then 1 else col
    let pos := sc.pos_ + 1
    { sc with col_ := col, line_ := line, pos_ := pos,
              eof_ := if pos ≥ sc.input_.length then true else sc.eof_ }

/-- The method `scanner::next_token`. -/
def scanner.next_token {σ : Type} (sc : scanner σ) : scanner σ :=
  if sc.token_available then { sc with cur_token_ := sc.cur_token_ + 1 } else sc

/-- The loop of `scanner::skip_whitespace`; the counter bounds the iterations by
the number of tokens left, each iteration moving the cursor by one. -/
def scanner.skip_whitespace_loop {σ : Type} (ignore_comments : Bool) :
    Nat → scanner σ × σ → scanner σ × σ
  | 0, st => st
  | n + 1, (sc, w) =>
    if sc.cur_token.type = .whitespace_token || sc.cur_token.type = .comment_token then
      let w1 :=
        if sc.cur_token.type = .comment_token && !ignore_comments then
          match sc.params_.comment_function with
          | some f => f sc.cur_token.string_value w
          | none => w
        else w
      scanner.skip_whitespace_loop ignore_comments n (sc.next_token, w1)
    else (sc, w)

/-- The method `scanner::skip_whitespace`. -/
def scanner.skip_whitespace {σ : Type} (ignore_comments : Bool) (st : scanner σ × σ) :
    scanner σ × σ :=
  scanner.skip_whitespace_loop ignore_comments (st.1.tokens_.length + 1) st

/-- The method `scanner::fail`. -/
def scanner.fail {σ α : Type} (st : σ) (line col : Nat) : Res σ α :=
  .throw (.parse_error line col) st

/-- The method `scanner::expect(char c, bool optional)`. -/
def scanner.expect {σ : Type} (c : Char) (optional : Bool) (st : scanner σ × σ) :
    Res (scanner σ × σ) Unit :=
  if st.1.peek_token.is_char c then
    let st1 := scanner.skip_whitespace false st
    .ok () (st1.1.next_token, st1.2)
  else if !optional then scanner.fail st st.1.cur_token.line st.1.cur_token.col
  else .ok () st

/-- The method `scanner::expect_string`. -/
def scanner.expect_string {σ : Type} (st : scanner σ × σ) : Res (scanner σ × σ) Str :=
  let st1 := scanner.skip_whitespace false st
  if st1.1.cur_token.type != .string_token then
    scanner.fail st1 st1.1.cur_token.line st1.1.cur_token.pos
  else .ok st1.1.cur_token.string_value (st1.1.next_token, st1.2)

/-- The method `scanner::expect_identifier`. -/
def scanner.expect_identifier {σ : Type} (st : scanner σ × σ) : Res (scanner σ × σ) Str :=
  let st1 := scanner.skip_whitespace false st
  if st1.1.cur_token.type != .identifier_token then
    scanner.fail st1 st1.1.cur_token.line st1.1.cur_token.pos
  else .ok st1.1.cur_token.string_value (st1.1.next_token, st1.2)

/-- The method `scanner::expect_number`. -/
def scanner.expect_number {σ : Type} (st : scanner σ × σ) : Res (scanner σ × σ) Nat :=
  let st1 := scanner.skip_whitespace false st
  if st1.1.cur_token.type != .number_token then
    scanner.fail st1 st1.1.cur_token.line st1.1.cur_token.pos
  else .ok st1.1.cur_token.number_value (st1.1.next_token, st1.2)

/-- The loop condition of `scanner::scan_identifier`. -/
def is_identifier_char (c : Nat) : Bool :=
  (c ≥ 'A'.toNat && c ≤ 'Z'.toNat) || (c ≥ 'a'.toNat && c ≤ 'z'.toNat)
    || (c ≥ '0'.toNat && c ≤ '9'.toNat) || c = '_'.toNat || c = '-'.toNat

/-- The loop of `scanner::scan_identifier`; the counter bounds the iterations by
the characters left (`ch()` is 0 at the end of the input). -/
def scanner.scan_identifier_loop {σ : Type} : Nat → scanner σ → Str → Str × scanner σ
  | 0, sc, buf => (buf, sc)
  | n + 1, sc, buf =>
    if is_identifier_char sc.ch then
      scanner.scan_identifier_loop n sc.next_ch (buf ++ [sc.ch])
    else (buf, sc)

/-- The method `scanner::scan_identifier`. -/
def scanner.scan_identifier {σ : Type} (sc : scanner σ) : Str × scanner σ :=
  scanner.scan_identifier_loop (sc.input_.length + 1) sc []

/-- The method `scanner::try_read_hex`: the digits read so far in `uch`, `i` digits
still to read; the result is `(failed, value)`. -/
def scanner.try_read_hex_loop {σ : Type} :
    Nat → Nat → Bool → scanner σ → (Bool × Nat) × scanner σ
  | 0, uch, failed, sc => ((failed, uch), sc)
  | i + 1, uch, failed, sc =>
    if sc.eof then ((true, 0), sc)
    else if sc.ch ≥ '0'.toNat && sc.ch ≤ '9'.toNat then
      scanner.try_read_hex_loop i (uch * 16 + (sc.ch - '0'.toNat)) failed sc.next_ch
    else if sc.ch ≥ 'a'.toNat && sc.ch ≤ 'f'.toNat then
      scanner.try_read_hex_loop i (uch * 16 + (sc.ch - 'a'.toNat + 0xa)) failed sc.next_ch
    else if sc.ch ≥ 'A'.toNat && sc.ch ≤ 'F'.toNat then
      scanner.try_read_hex_loop i (uch * 16 + (sc.ch - 'A'.toNat + 0xa)) failed sc.next_ch
    else ((true, 0), sc)

/-- The method `scanner::try_read_hex`; `failed` is what `*failed` holds at the call:
the method writes `true` there when it fails and nothing when it succeeds. -/
def scanner.try_read_hex {σ : Type} (sc : scanner σ) (failed : Bool) :
    (Bool × Nat) × scanner σ :=
  scanner.try_read_hex_loop 4 0 failed sc

/-- The label `invalid:` of `scanner::utf8_unescape`. -/
def scanner.utf8_invalid {σ : Type} (sc : scanner σ) : Res (scanner σ) Str :=
  if sc.params_.flags &&& utf8_exceptions_flag != 0 then
    .throw (.utf8_error sc.line_ sc.col_) sc
  else .ok [0xef, 0xbf, 0xbd] sc

/-- The method `scanner::utf8_unescape`. Its local `bool failed;` has no initial value,
and `try_read_hex` writes to it only when it fails: after a call that read four digits,
`if (failed)` tests the value the variable happened to hold. -/
def scanner.utf8_unescape {σ : Type} (P : Platform) (sc : scanner σ) : Res (scanner σ) Str :=
  let failed := P.indeterminate sc.input_ sc.pos_
  let ((failed, uch), sc) := sc.try_read_hex failed
  if failed then sc.utf8_invalid
  else if uch ≥ 0xd800 && uch ≤ 0xdfff then
    if uch ≥ 0xdc00 then sc.utf8_invalid
    else if sc.ch != 92 || sc.pos_ = sc.input_.length - 1
        || sc.input_.getD (sc.pos_ + 1) 0 != 'u'.toNat then sc.utf8_invalid
    else
      let ((failed, uch2), sc) := sc.next_ch.next_ch.try_read_hex failed
      if failed then sc.utf8_invalid
      else if uch2 < 0xdc00 || uch2 > 0xdfff then sc.utf8_invalid
      else
        let uch := 0x10000 + (((uch - 0xd800) <<< 10) ||| ((uch2 - 0xdc00) &&& 0x3ff))
        if wc_to_utf8 uch = [] then sc.utf8_invalid else .ok (wc_to_utf8 uch) sc
  else if wc_to_utf8 uch = [] then sc.utf8_invalid
  else .ok (wc_to_utf8 uch) sc

/-- The character a backslash escape of `scanner::scan_string` stands for. -/
def unescape_char (c : Nat) : Nat :=
  if c = 'b'.toNat then 8
  else if c = 'f'.toNat then 12
  else if c = 't'.toNat then 9
  else if c = 'r'.toNat then 13
  else if c = 'n'.toNat then 10
  else c

/-- The loop of `scanner::scan_string`; every iteration that does not throw moves
the position, so the counter (the characters of the input plus one) is not used up. -/
def scanner.scan_string_loop {σ : Type} (P : Platform) :
    Nat → scanner σ → Str → Res (scanner σ) Str
  | 0, _, _ => .diverge
  | n + 1, sc, buf =>
    if sc.ch != 34 then
      if sc.eof_ then .throw (.parse_error sc.line_ sc.col_) sc
      else if sc.ch = 13 || sc.ch = 10 then .throw (.parse_error sc.line_ sc.col_) sc
      else if sc.ch = 92 then
        let sc := sc.next_ch
        if sc.ch = 'u'.toNat then
          (sc.next_ch.utf8_unescape P).bind fun utf8 sc =>
            scanner.scan_string_loop P n sc (buf ++ utf8)
        else scanner.scan_string_loop P n sc.next_ch (buf ++ [unescape_char sc.ch])
      else scanner.scan_string_loop P n sc.next_ch (buf ++ [sc.ch])
    else .ok buf sc.next_ch

/-- The method `scanner::scan_string`. -/
def scanner.scan_string {σ : Type} (P : Platform) (sc : scanner σ) : Res (scanner σ) Str :=
  scanner.scan_string_loop P (sc.input_.length + 1) sc.next_ch []

/-- Calling `next_ch()` `n` times. -/
def scanner.next_ch_times {σ : Type} : Nat → scanner σ → scanner σ
  | 0, sc => sc
  | n + 1, sc => scanner.next_ch_times n sc.next_ch

/-- The method `scanner::scan_number`: `strtod` sees the input from `pos_` up to the
NUL that ends `c_str()`. -/
def scanner.scan_number {σ : Type} (P : Platform) (sc : scanner σ) : Nat × scanner σ :=
  let r := P.strtod ((sc.input_.drop sc.pos_).takeWhile (fun b => b != 0))
  (r.1, scanner.next_ch_times r.2 sc)

/-- The comparison `ch() <= 0x20` on a plain `char`. -/
def char_le_0x20 (P : Platform) (c : Nat) : Bool :=
  c ≤ 0x20 || (c ≥ 0x80 && P.char_signed)

/-- The loop that reads a comment in `scanner::scan`. -/
def scanner.scan_comment_loop {σ : Type} : Nat → scanner σ → token → token × scanner σ
  | 0, sc, tok => (tok, sc)
  | n + 1, sc, tok =>
    if !sc.eof && sc.ch != 10 then
      let tok := if sc.ch != 13 then { tok with string_value := tok.string_value ++ [sc.ch] }
                 else tok
      scanner.scan_comment_loop n sc.next_ch tok
    else (tok, sc)

/-- The loop that reads white space in `scanner::scan`; on a second newline, with
the blank line flag set, it pushes the token read so far and an empty comment. -/
def scanner.scan_whitespace_loop {σ : Type} (P : Platform) :
    Nat → scanner σ → token → Bool → token × scanner σ
  | 0, sc, tok, _ => (tok, sc)
  | n + 1, sc, tok, newline_seen =>
    if !sc.eof && char_le_0x20 P sc.ch then
      if sc.ch = 10 then
        if newline_seen && sc.params_.flags &&& blank_line_comment_flag != 0 then
          let blank_line := { token.of_type .none_token with type := .comment_token }
          let sc := { sc with tokens_ := sc.tokens_ ++ [tok, blank_line] }
          scanner.scan_whitespace_loop P n sc.next_ch tok newline_seen
        else
          scanner.scan_whitespace_loop P n sc.next_ch
            { tok with string_value := tok.string_value ++ [sc.ch] } true
      else
        scanner.scan_whitespace_loop P n sc.next_ch
          { tok with string_value := tok.string_value ++ [sc.ch] } newline_seen
    else (tok, sc)

/-- The cases of the `switch (ch())` of `scanner::scan` that read a number. -/
def is_number_start (c : Nat) : Bool :=
  (c ≥ '0'.toNat && c ≤ '9'.toNat) || c = '-'.toNat || c = '.'.toNat

/-- The cases of the `switch (ch())` of `scanner::scan` that read an identifier. -/
def is_identifier_start (c : Nat) : Bool :=
  (c ≥ 'a'.toNat && c ≤ 'z'.toNat) || (c ≥ 'A'.toNat && c ≤ 'Z'.toNat)

/-- The body of the loop of `scanner::scan`: one token is read and pushed. -/
def scanner.scan_step {σ : Type} (P : Platform) (sc : scanner σ) : Res (scanner σ) Unit :=
  let tok : token := ⟨.none_token, [], 0, 0, sc.pos_, sc.line_, sc.col_⟩
  if sc.ch = 34 then
    match sc.scan_string P with
    | .ok v sc => .ok () { sc with tokens_ := sc.tokens_ ++
        [{ tok with type := .string_token, string_value := v }] }
    | .throw e sc => .throw e sc
    | .diverge => .diverge
  else if is_number_start sc.ch then
    let (v, sc) := sc.scan_number P
    .ok () { sc with tokens_ := sc.tokens_ ++ [{ tok with type := .number_token, number_value := v }] }
  else if is_identifier_start sc.ch then
    let (v, sc) := sc.scan_identifier
    .ok () { sc with tokens_ := sc.tokens_ ++
      [{ tok with type := .identifier_token, string_value := v }] }
  else if sc.ch = '/'.toNat then
    if sc.params_.flags &&& allow_comments_flag != 0 && sc.pos_ < sc.input_.length - 1
        && sc.input_.getD (sc.pos_ + 1) 0 = '/'.toNat then
      let (tok, sc) := scanner.scan_comment_loop (sc.input_.length + 1) sc
        { tok with type := .comment_token, string_value := [] }
      .ok () { sc with tokens_ := sc.tokens_ ++ [tok] }
    else
      let sc := sc.next_ch
      .ok () { sc with tokens_ := sc.tokens_ ++ [{ tok with type := .char_token, char_value := '/'.toNat }] }
  else if char_le_0x20 P sc.ch then
    let (tok, sc) := scanner.scan_whitespace_loop P (sc.input_.length + 1) sc
      { tok with type := .whitespace_token, string_value := [] } false
    .ok () { sc with tokens_ := sc.tokens_ ++ [tok] }
  else
    let c := sc.ch
    let sc := sc.next_ch
    .ok () { sc with tokens_ := sc.tokens_ ++ [{ tok with type := .char_token, char_value := c }] }

/-- The loop `while (!eof())` of `scanner::scan`. An iteration that reads no
character leaves the scanner where it was, so the loop never ends; every other
iteration moves the position, and the counter is the length of the input plus one. -/
def scanner.scan_loop {σ : Type} (P : Platform) : Nat → scanner σ → Res (scanner σ) Unit
  | 0, _ => .diverge
  | n + 1, sc =>
    if !sc.eof then (sc.scan_step P).bind fun _ sc => scanner.scan_loop P n sc
    else .ok () sc

/-- The method `scanner::scan(input, params)`. -/
def scanner.scan {σ : Type} (P : Platform) (sc : scanner σ) (input : Str)
    (params : scanner_params σ) : Res (scanner σ) Unit :=
  scanner.scan_loop P (input.length + 1)
    { sc with input_ := input, pos_ := 0, line_ := 1, col_ := 1, cur_token_ := 0,
              eof_ := input.isEmpty, params_ := params }

/-! ## util.hpp, writer.hpp -/

/-- The function `stringize_number`. -/
def stringize_number (P : Platform) (num : Nat) : Str := P.ostream_double num

/-- The character `table[i]` of `escape_string`. -/
def hex_digit (i : Nat) : Nat :=
  (lit "0123456789abcdef").getD i 0

/-- What `escape_string` appends for one byte. -/
def escape_char (c : Nat) : Str :=
  if c = 13 then lit "\\r"
  else if c = 10 then lit "\\n"
  else if c = 92 then lit "\\\\"
  else if c = '/'.toNat then lit "\\/"
  else if c = 34 then lit "\\\""
  else if c = 12 then lit "\\f"
  else if c = 8 then lit "\\b"
  else if c = 9 then lit "\\t"
  else if c < 0x20 || c = 0x7f then lit "\\u00" ++ [hex_digit (c >>> 4), hex_digit (c &&& 0xf)]
  else [c]

/-- The function `escape_string`. -/
def escape_string (str : Str) : Str :=
  str.flatMap escape_char

/-- The struct `writer`; the top of the stack `tabstops` is the head of the list. -/
structure writer where
  buf : Str
  tabstops : List Nat
  line : Nat
  col : Nat
  wrap_length : Int
  deriving DecidableEq, Repr

/-- The constructor `writer::writer()`, with `wrap_length` as `write` sets it. -/
def writer.init (wrap_length : Int) : writer :=
  ⟨[], [0], 0, 0, wrap_length⟩

/-- The method `writer::append`. -/
def writer.append (wr : writer) (str : Str) : writer :=
  { wr with buf := wr.buf ++ str, col := wr.col + str.length }

/-- The method `writer::indent`. -/
def writer.indent (wr : writer) : writer :=
  { wr with tabstops := (wr.tabstops.headD 0 + 4) :: wr.tabstops }

/-- The method `writer::unindent`. -/
def writer.unindent (wr : writer) : writer :=
  { wr with tabstops := wr.tabstops.tail }

/-- The method `writer::newline`. -/
def writer.newline (wr : writer) : writer :=
  let wr := (wr.append [10]).append (List.replicate (wr.tabstops.headD 0) 32)
  { wr with line := wr.line + 1, col := wr.tabstops.headD 0 }

/-! ## config_format.hpp -/

/-- A scanner together with the state its comment function works on. -/
abbrev St (σ : Type) := scanner σ × σ

mutual
/-- The function `config_format::read_value`. -/
def read_value {σ : Type} : Nat → St σ → Res (St σ) value
  | 0, _ => .diverge
  | fuel + 1, st =>
    if st.1.peek_token.is_char '{' then
      (read_group fuel true st).bind fun g st => .ok (.group g) st
    else if st.1.peek_token.is_char '[' then
      (read_vector fuel st).bind fun v st => .ok (.vector v) st
    else
      match st.1.peek_token.type with
      | .identifier_token =>
        (scanner.expect_identifier st).bind fun ident st =>
          if ident = lit "true" then .ok (.bool true) st
          else if ident = lit "false" then .ok (.bool false) st
          else scanner.fail st st.1.peek_token.line st.1.peek_token.col
      | .string_token =>
        (scanner.expect_string st).bind fun str st => .ok (.string str) st
      | .number_token =>
        (scanner.expect_number st).bind fun dbl st => .ok (.number dbl) st
      | .char_token => scanner.fail st st.1.peek_token.line st.1.peek_token.col
      | _ => scanner.fail st st.1.peek_token.line st.1.peek_token.col
/-- The function `config_format::read_group`. -/
def read_group {σ : Type} : Nat → Bool → St σ → Res (St σ) group
  | 0, _, _ => .diverge
  | fuel + 1, braces, st =>
    (if braces then scanner.expect '{' false st else .ok () st).bind fun _ st =>
      read_group_loop fuel braces group.empty st
/-- The `while` loop of `config_format::read_group`. -/
def read_group_loop {σ : Type} : Nat → Bool → group → St σ → Res (St σ) group
  | 0, _, _, _ => .diverge
  | fuel + 1, braces, grp, st =>
    if st.1.peek_token.type != .eof_token && !(braces && st.1.peek_token.is_char '}') then
      (scanner.expect_identifier st).bind fun key st =>
      (scanner.expect '=' false st).bind fun _ st =>
      (read_value fuel st).bind fun val st =>
        match grp.set value_info (path.parse key) val with
        | .throw e _ => .throw e st
        | .diverge => .diverge
        | .ok _ grp =>
          (scanner.expect ',' true st).bind fun _ st =>
            if braces && st.1.peek_token.is_char '}' then
              (scanner.expect '}' false st).bind fun _ st => .ok grp st
            else read_group_loop fuel braces grp st
    else .ok grp st
/-- The function `config_format::read_vector`. -/
def read_vector {σ : Type} : Nat → St σ → Res (St σ) (List value)
  | 0, _ => .diverge
  | fuel + 1, st =>
    (scanner.expect '[' false st).bind fun _ st =>
    (read_vector_loop fuel [] st).bind fun vec st =>
    (scanner.expect ']' false st).bind fun _ st => .ok vec st
/-- The `while` loop of `config_format::read_vector`. -/
def read_vector_loop {σ : Type} : Nat → List value → St σ → Res (St σ) (List value)
  | 0, _, _ => .diverge
  | fuel + 1, vec, st =>
    if !st.1.peek_token.is_char ']' then
      (read_value fuel st).bind fun val st =>
      (scanner.expect ',' true st).bind fun _ st =>
        read_vector_loop fuel (vec ++ [val]) st
    else .ok vec st
end

mutual
/-- The function `config_format::value_length`. -/
def value_length {σ : Type} (P : Platform) : Nat → value → σ → Res σ Nat
  | 0, _, _ => .diverge
  | fuel + 1, val, st =>
    match val with
    | .number x => .ok (stringize_number P x).length st
    | .string s => .ok (2 + (escape_string s).length) st
    | .bool b => .ok (if b then 4 else 5) st
    | .group g => group_length P fuel g g.order_ 3 st
    | .vector v => vector_length P fuel v 3 st
    | .invalid => .ok 0 st
/-- The function `config_format::group_length`: the loop over the keys still to
visit, `sum` so far. -/
def group_length {σ : Type} (P : Platform) : Nat → group → List Str → Nat → σ → Res σ Nat
  | 0, _, _, _, _ => .diverge
  | _ + 1, _, [], sum, st => .ok sum st
  | fuel + 1, gr, key :: keys, sum, st =>
    match gr.get value_info (path.parse key) with
    | .error e => .throw e st
    | .ok val =>
      (value_length P fuel val st).bind fun n st =>
        group_length P fuel gr keys (sum + (4 + key.length + n)) st
/-- The function `config_format::vector_length`: the loop over the values still to
visit, `sum` so far. -/
def vector_length {σ : Type} (P : Platform) : Nat → List value → Nat → σ → Res σ Nat
  | 0, _, _, _ => .diverge
  | _ + 1, [], sum, st => .ok sum st
  | fuel + 1, val :: vec, sum, st =>
    (value_length P fuel val st).bind fun n st =>
      vector_length P fuel vec (sum + (2 + n)) st
end

/-- The function `config_format::make_scanner`. -/
def make_scanner {σ : Type} (P : Platform) (input : Str) : Res (scanner σ) Unit :=
  scanner.scan P scanner.init input default_scanner_params

/-- Running `k` on a scanner that is local to the caller (`scanner dummy_scanner =
make_scanner(input)`) and on the caller's writer: the caller's scanner is untouched. -/
def with_dummy_scanner {α : Type} (P : Platform) (input : Str) (st : St writer)
    (k : St writer → Res (St writer) α) : Res (St writer) α :=
  match make_scanner P input with
  | .ok _ dummy =>
    match k (dummy, st.2) with
    | .ok a (_, wr) => .ok a (st.1, wr)
    | .throw e (_, wr) => .throw e (st.1, wr)
    | .diverge => .diverge
  | .throw e _ => .throw e st
  | .diverge => .diverge

/-- The separator written after a child: a newline or `", "` unless the child ends
the node, a blank when it does and the node is not wrapped. -/
def write_separator (wr : writer) (last wrap : Bool) : writer :=
  if !last then (if wrap then wr.newline else wr.append (lit ", "))
  else if !wrap then wr.append (lit " ")
  else wr

mutual
/-- The function `config_format::write_value`. -/
def write_value (P : Platform) : Nat → value → St writer → Res (St writer) Unit
  | 0, _, _ => .diverge
  | fuel + 1, val, st =>
    match val with
    | .number x =>
      (read_value fuel st).bind fun _ st =>
        .ok () (st.1, st.2.append (stringize_number P x))
    | .string s =>
      (read_value fuel st).bind fun _ st =>
        .ok () (st.1, ((st.2.append (lit "\"")).append (escape_string s)).append (lit "\""))
    | .bool b =>
      (read_value fuel st).bind fun _ st =>
        .ok () (st.1, st.2.append (if b then lit "true" else lit "false"))
    | .group g =>
      if st.1.peek_token.is_char '{' then write_group P fuel true g st
      else
        (read_value fuel st).bind fun _ st =>
          with_dummy_scanner P (lit "\x7b\x7d") st fun st => write_group P fuel true g st
    | .vector v =>
      if st.1.peek_token.is_char '[' then write_vector P fuel v st
      else
        (read_value fuel st).bind fun _ st =>
          with_dummy_scanner P (lit "[]") st fun st => write_vector P fuel v st
    | .invalid => .ok () st
/-- The function `config_format::write_group`. -/
def write_group (P : Platform) : Nat → Bool → group → St writer → Res (St writer) Unit
  | 0, _, _, _ => .diverge
  | fuel + 1, braces, gr, st =>
    (if !braces then .ok 0 st else group_length P fuel gr gr.order_ 3 st).bind fun len st =>
    let wrap : Bool := !braces || decide ((len : Int) > st.2.wrap_length)
    (if braces then
      let wr := (st.2.append (lit "\x7b ")).indent
      let wr := if wrap then wr.newline else wr
      scanner.expect '{' false (st.1, wr)
     else .ok () st).bind fun _ st =>
    (write_group_loop P fuel braces wrap gr gr.order_ st).bind fun keys st =>
    (write_group_rest P fuel wrap gr keys st).bind fun _ st =>
      if braces then
        let wr := st.2.unindent
        let wr := if wrap then wr.newline else wr
        (scanner.expect '}' false (st.1, wr)).bind fun _ st =>
          .ok () (st.1, st.2.append (lit "\x7d"))
      else .ok () st
/-- The `while` loop of `config_format::write_group` over the entries of the old
text; it returns the keys that have not been written. -/
def write_group_loop (P : Platform) :
    Nat → Bool → Bool → group → List Str → St writer → Res (St writer) (List Str)
  | 0, _, _, _, _, _ => .diverge
  | fuel + 1, braces, wrap, gr, keys, st =>
    if st.1.peek_token.type != .eof_token && !(braces && st.1.peek_token.is_char '}') then
      (scanner.expect_identifier st).bind fun key st =>
      (scanner.expect '=' false st).bind fun _ st =>
      (if keys.contains key then
        let wr := (st.2.append key).append (lit " = ")
        match gr.get value_info (path.parse key) with
        | .error e => .throw e (st.1, wr)
        | .ok val =>
          (write_value P fuel val (st.1, wr)).bind fun _ st =>
            let keys := keys.erase key
            let terminate := st.1.peek_token.is_char '}' && keys.isEmpty
            .ok keys (st.1, write_separator st.2 terminate wrap)
       else (read_value fuel st).bind fun _ st => .ok keys st).bind fun keys st =>
      (scanner.expect ',' true st).bind fun _ st =>
        if braces && st.1.peek_token.is_char '}' then .ok keys st
        else write_group_loop P fuel braces wrap gr keys st
    else .ok keys st
/-- The `for` loop of `config_format::write_group` over the keys that are not in
the old text. -/
def write_group_rest (P : Platform) :
    Nat → Bool → group → List Str → St writer → Res (St writer) Unit
  | 0, _, _, _, _ => .diverge
  | _ + 1, _, _, [], st => .ok () st
  | fuel + 1, wrap, gr, key :: keys, st =>
    let wr := (st.2.append key).append (lit " = ")
    match gr.get value_info (path.parse key) with
    | .error e => .throw e (st.1, wr)
    | .ok val =>
      (with_dummy_scanner P (lit "0") (st.1, wr) fun st => write_value P fuel val st).bind
        fun _ st =>
          write_group_rest P fuel wrap gr keys (st.1, write_separator st.2 keys.isEmpty wrap)
/-- The function `config_format::write_vector`. -/
def write_vector (P : Platform) : Nat → List value → St writer → Res (St writer) Unit
  | 0, _, _ => .diverge
  | fuel + 1, vec, st =>
    (vector_length P fuel vec 3 st).bind fun len st =>
    let wrap : Bool := decide ((len : Int) > st.2.wrap_length)
    let wr := (st.2.append (lit "[ ")).indent
    let wr := if wrap then wr.newline else wr
    (scanner.expect '[' false (st.1, wr)).bind fun _ st =>
    (write_vector_loop P fuel wrap vec st).bind fun rest st =>
    (write_vector_rest P fuel wrap rest st).bind fun _ st =>
      let wr := st.2.unindent
      let wr := if wrap then wr.newline else wr
      (scanner.expect ']' false (st.1, wr)).bind fun _ st =>
        .ok () (st.1, st.2.append (lit "]"))
/-- The `while` loop of `config_format::write_vector` over the values of the old
text; `vec` holds the values from index `vals_read` on, and is returned. -/
def write_vector_loop (P : Platform) :
    Nat → Bool → List value → St writer → Res (St writer) (List value)
  | 0, _, _, _ => .diverge
  | fuel + 1, wrap, vec, st =>
    if !st.1.peek_token.is_char ']' then
      (match vec with
       | val :: vec => (write_value P fuel val st).bind fun _ st => .ok vec st
       | [] => (read_value fuel st).bind fun _ st => .ok [] st).bind fun vec st =>
      let terminate := st.1.peek_token.is_char ']' && vec.isEmpty
      (scanner.expect ',' true (st.1, write_separator st.2 terminate wrap)).bind fun _ st =>
        write_vector_loop P fuel wrap vec st
    else .ok vec st
/-- The `for` loop of `config_format::write_vector` over the values that are not
in the old text. -/
def write_vector_rest (P : Platform) :
    Nat → Bool → List value → St writer → Res (St writer) Unit
  | 0, _, _, _ => .diverge
  | _ + 1, _, [], st => .ok () st
  | fuel + 1, wrap, val :: vec, st =>
    (with_dummy_scanner P (lit "0") st fun st => write_value P fuel val st).bind fun _ st =>
      write_vector_rest P fuel wrap vec (st.1, write_separator st.2 vec.isEmpty wrap)
end

mutual
/-- The number of values in a value, itself included. -/
def value.size : value → Nat
  | .invalid => 1
  | .number _ => 1
  | .string _ => 1
  | .bool _ => 1
  | .vector v => 1 + value.size_list v
  | .group g => 1 + g.size
/-- The number of values in a group. -/
def group.size : group → Nat
  | .mk m _ => 1 + value.size_map m
/-- The number of values in a vector. -/
def value.size_list : List value → Nat
  | [] => 0
  | v :: vs => v.size + value.size_list vs
/-- The number of values in a map. -/
def value.size_map : List (Str × value) → Nat
  | [] => 0
  | (_, v) :: m => 1 + v.size + value.size_map m
end

/-- The fuel `read` gives the reader: a value takes three calls at most (`read_value`,
`read_vector` or `read_group`, and the loop) before a token is read, so three times the
number of tokens and a few more never run out (`read_fuel_suffices`). -/
def read_fuel {σ : Type} (sc : scanner σ) : Nat := 3 * sc.tokens_.length + 4

/-- The fuel `write` gives the writer: each call and each iteration reads a token of
the old text or writes a value of the group, and no value or token takes more than four
of them, so the fuel never runs out (`write_fuel_suffices`). -/
def write_fuel (sc : scanner writer) (grp : group) : Nat :=
  4 * (sc.tokens_.length + grp.size) + 8

/-- The function `config_format::read`. -/
def read (P : Platform) (src : Str) : Res Unit group :=
  match scanner.scan P (scanner.init : scanner Unit) src default_scanner_params with
  | .throw e _ => .throw e ()
  | .diverge => .diverge
  | .ok _ sc =>
    match read_group (read_fuel sc) false (sc, ()) with
    | .ok grp _ => .ok grp ()
    | .throw e _ => .throw e ()
    | .diverge => .diverge

/-- The comment function `write` registers: it captures the writer by reference. -/
def write_comment (str : Str) (wr : writer) : writer :=
  (wr.append str).newline

/-- The function `config_format::write`. The scanner runs before the `try`; the
handler goes on with the writer as the failed attempt left it. -/
def write (P : Platform) (grp : group) (src : Str) (wrap_length : Int) : Res Unit Str :=
  let wr := writer.init wrap_length
  let params : scanner_params writer :=
    ⟨some write_comment, allow_comments_flag ||| blank_line_comment_flag⟩
  match scanner.scan P scanner.init src params with
  | .throw e _ => .throw e ()
  | .diverge => .diverge
  | .ok _ sc =>
    match write_group P (write_fuel sc grp) false grp (sc, wr) with
    | .ok _ (_, wr) => .ok wr.buf ()
    | .diverge => .diverge
    | .throw e (_, wr) =>
      if e.is_parse_error then
        match make_scanner P [] with
        | .throw e _ => .throw e ()
        | .diverge => .diverge
        | .ok _ dummy_scanner =>
          match write_group P (write_fuel dummy_scanner grp) false grp (dummy_scanner, wr) with
          | .ok _ (_, wr) => .ok wr.buf ()
          | .throw e _ => .throw e ()
          | .diverge => .diverge
      else .throw e ()

/-! ## json_format.hpp -/

mutual
/-- The function `json_format::read_value`. -/
def json_format.read_value {σ : Type} : Nat → St σ → Res (St σ) value
  | 0, _ => .diverge
  | fuel + 1, st =>
    if st.1.peek_token.is_char '{' then
      (json_format.read_group fuel true st).bind fun g st => .ok (.group g) st
    else if st.1.peek_token.is_char '[' then
      (json_format.read_vector fuel st).bind fun v st => .ok (.vector v) st
    else
      match st.1.peek_token.type with
      | .identifier_token =>
        (scanner.expect_identifier st).bind fun ident st =>
          if ident = lit "true" then .ok (.bool true) st
          else if ident = lit "false" then .ok (.bool false) st
          else if ident = lit "null" then
            scanner.fail st st.1.peek_token.line st.1.peek_token.col
          else scanner.fail st st.1.peek_token.line st.1.peek_token.col
      | .string_token =>
        (scanner.expect_string st).bind fun str st => .ok (.string str) st
      | .number_token =>
        (scanner.expect_number st).bind fun dbl st => .ok (.number dbl) st
      | .char_token => scanner.fail st st.1.peek_token.line st.1.peek_token.col
      | _ => scanner.fail st st.1.peek_token.line st.1.peek_token.col
/-- The function `json_format::read_group`; it does not read its parameter `braces`. -/
def json_format.read_group {σ : Type} : Nat → Bool → St σ → Res (St σ) group
  | 0, _, _ => .diverge
  | fuel + 1, _, st =>
    (scanner.expect '{' false st).bind fun _ st =>
    (json_format.read_group_loop fuel group.empty st).bind fun grp st =>
    (scanner.expect '}' false st).bind fun _ st => .ok grp st
/-- The `while` loop of `json_format::read_group`. -/
def json_format.read_group_loop {σ : Type} : Nat → group → St σ → Res (St σ) group
  | 0, _, _ => .diverge
  | fuel + 1, grp, st =>
    if !st.1.peek_token.is_char '}' then
      (scanner.expect_string st).bind fun key st =>
      (scanner.expect ':' false st).bind fun _ st =>
      (json_format.read_value fuel st).bind fun val st =>
        match grp.set value_info (path.parse key) val with
        | .throw e _ => .throw e st
        | .diverge => .diverge
        | .ok _ grp =>
          if st.1.peek_token.is_char ',' then
            (scanner.expect ',' false st).bind fun _ st =>
              json_format.read_group_loop fuel grp st
          else .ok grp st
    else .ok grp st
/-- The function `json_format::read_vector`. -/
def json_format.read_vector {σ : Type} : Nat → St σ → Res (St σ) (List value)
  | 0, _ => .diverge
  | fuel + 1, st =>
    (scanner.expect '[' false st).bind fun _ st =>
    (json_format.read_vector_loop fuel [] st).bind fun vec st =>
    (scanner.expect ']' false st).bind fun _ st => .ok vec st
/-- The `while` loop of `json_format::read_vector`. -/
def json_format.read_vector_loop {σ : Type} : Nat → List value → St σ → Res (St σ) (List value)
  | 0, _, _ => .diverge
  | fuel + 1, vec, st =>
    if !st.1.peek_token.is_char ']' then
      (json_format.read_value fuel st).bind fun val st =>
        if st.1.peek_token.is_char ',' then
          (scanner.expect ',' false st).bind fun _ st =>
            json_format.read_vector_loop fuel (vec ++ [val]) st
        else .ok (vec ++ [val]) st
    else .ok vec st
end

/-- The function `json_format::read`: `sc.scan(src)` runs with the default parameters
of the scanner. -/
def json_format.read (P : Platform) (src : Str) : Res Unit group :=
  match scanner.scan P (scanner.init : scanner Unit) src default_scanner_params with
  | .throw e _ => .throw e ()
  | .diverge => .diverge
  | .ok _ sc =>
    match json_format.read_group (read_fuel sc) false (sc, ()) with
    | .ok grp _ => .ok grp ()
    | .throw e _ => .throw e ()
    | .diverge => .diverge

/-! ## Notions of the specification and worked examples -/

/-- The key syntax of the specification: a key starts with an ASCII letter and
holds only ASCII letters, digits, `_` and `-`. -/
def valid_key (key : Str) : Bool :=
  (match key with
   | [] => false
   | c :: _ => (65 ≤ c && c ≤ 90) || (97 ≤ c && c ≤ 122))
  && key.all fun c =>
    (65 ≤ c && c ≤ 90) || (97 ≤ c && c ≤ 122) || (48 ≤ c && c ≤ 57) || c == 95 || c == 45

/-- The specification's "not found": the path is empty, or a segment is missing, or
a segment before the last names a value that is not a group. -/
def not_found : group → path → Bool
  | _, [] => true
  | g, [k] => (map_find g.values_ k).isNone
  | g, k :: k2 :: ks =>
    match map_find g.values_ k with
    | none => true
    | some (.group grp) => not_found grp (k2 :: ks)
    | some _ => true

/-- A platform for the worked examples. The two conversions are the C library's on
the arguments the examples pass: `strtod` reads `0` from the text `0` and `1.23` (four
characters) from the text that starts there in `scenario_text`; 7.55, 1.23 and 0 are
printed as such. Elsewhere `strtod` converts nothing. Plain `char` is signed. The
variable `failed` of `scanner::utf8_unescape` holds `false` when it is read without having
been written. -/
def sample_platform : Platform where
  strtod := fun s =>
    if s = lit "0" then (0, 1)
    else if s = lit "1.23 // c\n" then (0x3ff3ae147ae147ae, 4)
    else (0, 0)
  ostream_double := fun x =>
    if x = 0x401e333333333333 then lit "7.55"
    else if x = 0x3ff3ae147ae147ae then lit "1.23"
    else lit "0"
  char_signed := true
  indeterminate := fun _ _ => false

/-- A platform like `sample_platform` on which the variable `failed` of
`scanner::utf8_unescape` holds `true` when it is read without having been written. -/
def stale_platform : Platform :=
  { sample_platform with indeterminate := fun _ _ => true }

/-- The composition `read(write(grp, src, wrap_length))`. -/
def read_write (P : Platform) (grp : group) (src : Str) (wrap_length : Int) : Res Unit group :=
  match write P grp src wrap_length with
  | .ok text _ => read P text
  | .throw e _ => .throw e ()
  | .diverge => .diverge

/-- The group `a = \x7b\x7d`: what `set<group>("a", group())` makes of the empty group. -/
def group_a_empty : group :=
  .mk [(lit "a", .group group.empty)] [lit "a"]

/-- The group `asdf = \x7b\x7d`. -/
def group_asdf : group :=
  .mk [(lit "asdf", .group group.empty)] [lit "asdf"]

/-- The group `a = true`. -/
def group_a_true : group :=
  .mk [(lit "a", .bool true)] [lit "a"]

/-- The group `a = [ ]`. -/
def group_a_vector : group :=
  .mk [(lit "a", .vector [])] [lit "a"]

/-- The text of the scenario: `key1="string"`, a blank line, `key2=1.23 // c`. -/
def scenario_text : Str := lit "key1=\"string\"\n\nkey2=1.23 // c\n"

/-- The composition `write(read(src), src, wrap_length)`. -/
def rewrite (P : Platform) (src : Str) (wrap_length : Int) : Res Unit Str :=
  match read P src with
  | .ok grp _ => write P grp src wrap_length
  | .throw e _ => .throw e ()
  | .diverge => .diverge

/-- The scenario: `scenario_text` is read, `set<double>("key2", 7.55)` is called on the
group, and the group is written against `scenario_text` at width 50. -/
def scenario_output (P : Platform) : Res Unit Str :=
  match read P scenario_text with
  | .ok grp _ =>
    match grp.set double_info (path.parse (lit "key2")) 0x401e333333333333 with
    | .ok _ grp => write P grp scenario_text 50
    | .throw e _ => .throw e ()
    | .diverge => .diverge
  | .throw e _ => .throw e ()
  | .diverge => .diverge

/-- What a path resolves to: the value `find_value` returns for it, `none` when it
returns the null pointer or throws. -/
def group.lookup (g : group) (p : path) : Option value :=
  match g.find_value p with
  | .ok (r, _, _) => r
  | .error _ => none

/-- The group reached from `g` through the groups the keys name (`g` itself for no
key). -/
def group.descend : group → List Str → Option group
  | g, [] => some g
  | g, k :: ks =>
    match map_find g.values_ k with
    | some (.group grp) => grp.descend ks
    | _ => none

/-- The state a call leaves behind, on a normal return as on a throw. -/
def Res.final {σ α : Type} : Res σ α → Option σ
  | .ok _ s => some s
  | .throw _ s => some s
  | .diverge => none

/-- The group `a = [ "x" ]`. -/
def group_a_strings : group :=
  .mk [(lit "a", .vector [.string (lit "x")])] [lit "a"]

mutual
/-- The groups inside a value, at any depth (inside vectors too); a value that is a
group counts itself. -/
def value.groups : value → List group
  | .invalid => []
  | .number _ => []
  | .string _ => []
  | .bool _ => []
  | .vector v => value.groups_list v
  | .group g => g.groups
/-- A group and the groups nested inside it, at any depth. -/
def group.groups : group → List group
  | .mk m o => .mk m o :: value.groups_map m
/-- The groups inside the values of a vector. -/
def value.groups_list : List value → List group
  | [] => []
  | v :: vs => v.groups ++ value.groups_list vs
/-- The groups inside the values of a map. -/
def value.groups_map : List (Str × value) → List group
  | [] => []
  | (_, v) :: m => v.groups ++ value.groups_map m
end

/-- The keys of the lookup map `values_`, in the order of the map. -/
def group.keys (g : group) : List Str := g.values_.map Prod.fst

/-- The keys of a `std::map` are strictly increasing. -/
def keys_sorted (keys : List Str) : Prop := keys.Pairwise fun a b => str_lt a b = true

instance : DecidablePred keys_sorted := fun keys => by
  unfold keys_sorted; infer_instance

/-- The order invariant of one group: `values_` is a map and `order_` lists exactly
its keys, each once (it is a rearrangement of them). -/
def group.order_ok (g : group) : Prop := keys_sorted g.keys ∧ g.order_.Perm g.keys

instance : DecidablePred group.order_ok := fun g => by
  unfold group.order_ok; infer_instance

/-- The group `g` with the group reached through the keys `ks` replaced by `h`: what
an assignment through a `parent_group` pointer makes of `g`. -/
def group.replace_at : group → List Str → group → group
  | _, [], h => h
  | g, k :: ks, h =>
    match map_find g.values_ k with
    | some (.group grp) =>
      .mk (map_assign g.values_ k (.group (grp.replace_at ks h))) g.order_
    | _ => g

/-- The outcome of a call on a part of the state, seen from the whole state. -/
def Res.on_state {σ τ α : Type} (r : Res σ α) (whole : σ → τ) : Res τ α :=
  match r with
  | .ok a s => .ok a (whole s)
  | .throw e s => .throw e (whole s)
  | .diverge => .diverge

/-- The value a chain of new groups along the keys `ks` holds `x` in: `x` itself for
no key. -/
def chain_value : path → value → value
  | [], x => x
  | k :: ks, x => .group (.mk [(k, chain_value ks x)] [k])

/-- The calls `g.set<value>(p, v)` for the pairs of a list, one after the other. -/
def group.set_each : group → List (path × value) → Res group Unit
  | g, [] => .ok () g
  | g, (p, v) :: rest => (g.set value_info p v).bind fun _ g1 => g1.set_each rest

/-- The keys of a list in the order of their first occurrence, after the keys
`seen`. -/
def first_occurrences (seen : List Str) (keys : List Str) : List Str :=
  keys.foldl (fun acc k => if k ∈ acc then acc else acc ++ [k]) seen

/-- A property of single groups that assigning to a key, new when it is valid, and
erasing a key keep. -/
structure kept_by_updates (Q : group → Prop) : Prop where
  empty : Q group.empty
  assign : ∀ (g : group) (k : Str) (v : value), Q g →
    (map_find g.values_ k).isSome = true ∨ valid_key k = true → Q (g.set_key k v)
  erase : ∀ (g : group) (k : Str), Q g →
    Q (.mk (map_erase g.values_ k) (g.order_.erase k))

/-- The groups built by `set`: the empty group, and what a call of `set` leaves of a
group built by `set` (on a normal return as on a throw) when the groups inside the value
stored are built by `set` as well. -/
inductive set_built : group → Prop where
  | empty : set_built group.empty
  | set {α : Type} (T : value_type_info α) (g : group) (p : path) (v : α) (g1 : group) :
      set_built g → (∀ a ∈ (T.create_value v).groups, set_built a) →
      (g.set T p v).final = some g1 → set_built g1

/-- The group `a = \x7b b = true \x7d`. -/
def group_a_b_true : group :=
  .mk [(lit "a", .group (.mk [(lit "b", .bool true)] [lit "b"]))] [lit "a"]

/-- What a call returns, when it returns, has the property `Q`. -/
def Res.yields {σ α : Type} (Q : α → Prop) (r : Res σ α) : Prop :=
  ∀ a s, r = .ok a s → Q a

/-- The groups the interface can make: the empty group, what `read` returns, and what a
call of `set` or `unset` leaves of such a group, on a normal return as on a throw; the
groups inside a value given to `set` are made by the interface as well. -/
inductive reachable : group → Prop where
  | empty : reachable group.empty
  | read (P : Platform) (src : Str) (g : group) : read P src = .ok g () → reachable g
  | set {α : Type} (T : value_type_info α) (g : group) (p : path) (v : α) (g1 : group) :
      reachable g → (∀ a ∈ (T.create_value v).groups, reachable a) →
      (g.set T p v).final = some g1 → reachable g1
  | unset (g : group) (p : path) (g1 : group) :
      reachable g → (g.unset p).final = some g1 → reachable g1

/-! ### Notions for the comparison of groups -/

mutual
/-- A value that holds no value of invalid kind and no NaN, at any depth. -/
def value.plain : value → Bool
  | .invalid => false
  | .number x => !double_is_nan x
  | .string _ => true
  | .bool _ => true
  | .vector v => value.plain_list v
  | .group g => g.plain
/-- A group whose values are plain. -/
def group.plain : group → Bool
  | .mk m _ => value.plain_map m
/-- The values of a vector are plain. -/
def value.plain_list : List value → Bool
  | [] => true
  | v :: vs => v.plain && value.plain_list vs
/-- The values of a map are plain. -/
def value.plain_map : List (Str × value) → Bool
  | [] => true
  | (_, v) :: m => v.plain && value.plain_map m
end

/-- Two numbers are equal as `double`s: neither is a NaN, and they are the same number
(the same pattern, or a zero both, whatever the signs). -/
def double_same (x y : Nat) : Prop :=
  double_is_nan x = false ∧ double_is_nan y = false ∧
    (x = y ∨ (x % 0x8000000000000000 = 0 ∧ y % 0x8000000000000000 = 0))

mutual
/-- Two values are the same by kind and content, in the words of the specification: two
numbers that are equal as `double`s, two strings with the same bytes, two booleans with
the same truth value, two vectors of the same length whose elements are the same one by
one, two groups that are the same; a value of invalid kind is the same as nothing, and
values of different kinds are not the same. -/
def value.same : value → value → Prop
  | .invalid, _ => False
  | .number x, .number y => double_same x y
  | .number _, _ => False
  | .string s, .string t => s = t
  | .string _, _ => False
  | .bool a, .bool b => a = b
  | .bool _, _ => False
  | .vector v, .vector w => value.same_list v w
  | .vector _, _ => False
  | .group g, .group h => group.same g h
  | .group _, _ => False
/-- Two groups are the same: the same key order and, key by key, the same entries in
their maps. -/
def group.same : group → group → Prop
  | .mk m o, h => o = h.order_ ∧ value.same_map m h.values_
/-- Two vectors have the same length and, one by one, the same elements. -/
def value.same_list : List value → List value → Prop
  | [], [] => True
  | [], _ :: _ => False
  | _ :: _, [] => False
  | a :: v, b :: w => value.same a b ∧ value.same_list v w
/-- Two maps have the same keys and, under each key, the same value. -/
def value.same_map : List (Str × value) → List (Str × value) → Prop
  | [], [] => True
  | [], _ :: _ => False
  | _ :: _, [] => False
  | (k, a) :: m, (k2, b) :: m2 => k = k2 ∧ value.same a b ∧ value.same_map m m2
end

/-- The group `a = NaN`, as `set<double>("a", NAN)` makes it of the empty group (the
pattern is that of the quiet NaN). -/
def group_a_nan : group :=
  .mk [(lit "a", .number 0x7ff8000000000000)] [lit "a"]

/-- The group that holds at `a` a value of invalid kind, as `set<value>("a", value())`
makes it of the empty group. -/
def group_a_invalid : group :=
  .mk [(lit "a", .invalid)] [lit "a"]

/-! ### Notions for the scanner -/

/-- The input from the position of the scanner on. -/
def scanner.rest {σ : Type} (sc : scanner σ) : Str :=
  sc.input_.drop sc.pos_

/-- The member `eof_` says whether the position is at the end of the input: `scan`
sets it so and `next_ch` keeps it so. -/
def scanner.synced {σ : Type} (sc : scanner σ) : Prop :=
  sc.eof_ = decide (sc.input_.length ≤ sc.pos_)

instance {σ : Type} (sc : scanner σ) : Decidable sc.synced := by
  unfold scanner.synced; infer_instance

/-- The value of a hexadecimal digit, `none` for another character. -/
def hex_value (c : Nat) : Option Nat :=
  if 48 ≤ c ∧ c ≤ 57 then some (c - 48)
  else if 97 ≤ c ∧ c ≤ 102 then some (c - 87)
  else if 65 ≤ c ∧ c ≤ 70 then some (c - 55)
  else none

/-- The number that hexadecimal digits denote, `none` when a character among them is
no hexadecimal digit. -/
def hex_number (ds : List Nat) : Option Nat :=
  ds.foldl (fun acc c =>
    match acc, hex_value c with
    | some n, some d => some (n * 16 + d)
    | _, _ => none) (some 0)

/-- The UTF-8 encoding of a code point as the standard defines it (RFC 3629), which
the specification refers to: one byte below 0x80, two below 0x800, three below 0x10000,
four otherwise. -/
def utf8_encoding (u : Nat) : Str :=
  if u < 0x80 then [u]
  else if u < 0x800 then [0xc0 + u / 64, 0x80 + u % 64]
  else if u < 0x10000 then [0xe0 + u / 4096, 0x80 + u / 64 % 64, 0x80 + u % 64]
  else [0xf0 + u / 262144, 0x80 + u / 4096 % 64, 0x80 + u / 64 % 64, 0x80 + u % 64]

/-- The strict flag `utf8_exceptions_flag` is set in the parameters of the scanner. -/
def scanner.strict {σ : Type} (sc : scanner σ) : Bool :=
  sc.params_.flags &&& utf8_exceptions_flag != 0

/-- The value the variable `failed` holds in a call of `utf8_unescape` made at this state
of the scanner, as long as `try_read_hex` has not written to it. -/
def scanner.stale {σ : Type} (P : Platform) (sc : scanner σ) : Bool :=
  P.indeterminate sc.input_ sc.pos_

/-- The number of characters behind `\\u` that `utf8_unescape` has read when it gives up
a malformed escape of `k` characters: all of them, or, when the variable `failed` held
`true` from the start, no more than the four digits of the first group. -/
def escape_consumed (stale : Bool) (k : Nat) : Nat :=
  if stale then min k 4 else k

/-- The escape of one byte in the words of the specification: the named escapes, the
escaped slash, `\\u00XX` with two lowercase hexadecimal digits for the other control
bytes and 0x7f, the byte itself otherwise. -/
def escape_of_byte (c : Nat) : Str :=
  if c = 13 then lit "\\r"
  else if c = 10 then lit "\\n"
  else if c = 9 then lit "\\t"
  else if c = 12 then lit "\\f"
  else if c = 8 then lit "\\b"
  else if c = 92 then lit "\\\\"
  else if c = 34 then lit "\\\""
  else if c = 47 then lit "\\/"
  else if c < 0x20 ∨ c = 0x7f then
    lit "\\u00" ++ [(if c / 16 < 10 then 48 + c / 16 else 87 + c / 16),
      (if c % 16 < 10 then 48 + c % 16 else 87 + c % 16)]
  else [c]

/-- The texts of the comment tokens from index `i` up to index `j`. -/
def scanner.comments_between {σ : Type} (sc : scanner σ) (i j : Nat) : List Str :=
  (((sc.tokens_.drop i).take (j - i)).filter fun t => t.type = .comment_token).map
    token.string_value

/-- Calling the comment function of the scanner on each text in turn. -/
def scanner.replay {σ : Type} (sc : scanner σ) (cs : List Str) (w : σ) : σ :=
  match sc.params_.comment_function with
  | some f => cs.foldl (fun w c => f c w) w
  | none => w

/-- The state `st1` comes from `st` by moving the cursor forward and delivering, in
order, the comments passed over; nothing else of the scanner has changed. -/
def St.replayed {σ : Type} (st st1 : St σ) : Prop :=
  st1.1 = { st.1 with cur_token_ := st1.1.cur_token_ } ∧
  st.1.cur_token_ ≤ st1.1.cur_token_ ∧
  (st.1.cur_token_ ≤ st.1.tokens_.length → st1.1.cur_token_ ≤ st.1.tokens_.length) ∧
  st1.2 = st.1.replay (st.1.comments_between st.1.cur_token_ st1.1.cur_token_) st.2

/-- A call that ends (normally or by a throw) leaves a state that is `replayed`. -/
def Res.replayed {σ α : Type} (st : St σ) (r : Res (St σ) α) : Prop :=
  match r with
  | .ok _ st1 => St.replayed st st1
  | .throw _ st1 => St.replayed st st1
  | .diverge => True

/-- The state `st1` has the tokens of `st`, and its cursor is at least `k` tokens
further and within the tokens. -/
def St.advanced {σ : Type} (st st1 : St σ) (k : Nat) : Prop :=
  st1.1.tokens_ = st.1.tokens_ ∧ st.1.cur_token_ + k ≤ st1.1.cur_token_ ∧
    st1.1.cur_token_ ≤ st1.1.tokens_.length

/-- The call ends (it returns or it raises), and if it returns it has moved the cursor
over at least `k` tokens. -/
def Res.ends {σ α : Type} (st : St σ) (k : Nat) (r : Res (St σ) α) : Prop :=
  r ≠ .diverge ∧ ∀ a st1, r = .ok a st1 → St.advanced st st1 k

/-- The number of tokens of white space and comments a list of tokens starts with. -/
def leading_blanks : List token → Nat
  | [] => 0
  | t :: ts =>
    if t.type = .whitespace_token ∨ t.type = .comment_token then leading_blanks ts + 1 else 0

/-- A call of one of the methods of the scanner that consume a token. -/
inductive scanner_call where
  | expect (c : Char) (optional : Bool)
  | expect_identifier
  | expect_string
  | expect_number

/-- Making a call; what the call returns is dropped. -/
def scanner_call.run {σ : Type} : scanner_call → St σ → Res (St σ) Unit
  | .expect c optional, st => scanner.expect c optional st
  | .expect_identifier, st => (scanner.expect_identifier st).bind fun _ st1 => .ok () st1
  | .expect_string, st => (scanner.expect_string st).bind fun _ st1 => .ok () st1
  | .expect_number, st => (scanner.expect_number st).bind fun _ st1 => .ok () st1

/-- Making the calls of a list one after the other. -/
def run_calls {σ : Type} : List scanner_call → St σ → Res (St σ) Unit
  | [], st => .ok () st
  | call :: calls, st => (call.run st).bind fun _ st1 => run_calls calls st1

/-- A scanner over the tokens `a`, the comment `// c1`, the empty comment of a blank
line, `=`, the comment `// c2` and `true`, with a comment function that appends each
text it is called on to a list. -/
def comment_sample : scanner (List Str) :=
  { input_ := [], eof_ := true, pos_ := 0, line_ := 1, col_ := 1, cur_token_ := 0,
    params_ := ⟨some fun text w => w ++ [text],
      allow_comments_flag ||| blank_line_comment_flag⟩,
    tokens_ := [
      { token.of_type .identifier_token with string_value := lit "a" },
      { token.of_type .comment_token with string_value := lit "// c1" },
      token.of_type .comment_token,
      { token.of_type .char_token with char_value := '='.toNat },
      { token.of_type .comment_token with string_value := lit "// c2" },
      { token.of_type .identifier_token with string_value := lit "true" }] }

/-- The scanner as `scan` sets it up for a text and flags (no comment function),
before the first character is read. -/
def scanner.opened (input : Str) (flags : Nat) : scanner Unit :=
  { (scanner.init : scanner Unit) with
    input_ := input, pos_ := 0, line_ := 1, col_ := 1, cur_token_ := 0,
    eof_ := input.isEmpty, params_ := ⟨none, flags⟩ }

/-- An escape is malformed: `malformed_escape rest k` says that the characters `rest`
behind `\\u` are no well-formed escape, and that `k` of them belong to the malformed
one. The cases are those of the specification: fewer than four hexadecimal digits
(the input ends or another character follows), a low surrogate that comes first, a
high surrogate that `\\u` does not follow, and a high surrogate followed by `\\u` and
something that is no low surrogate. -/
inductive malformed_escape : Str → Nat → Prop where
  | short (ds r : Str) (u : Nat) : ds.length < 4 → hex_number ds = some u →
      (r = [] ∨ ∃ d t, r = d :: t ∧ hex_value d = none) → malformed_escape (ds ++ r) ds.length
  | lone_low (ds r : Str) (u : Nat) : ds.length = 4 → hex_number ds = some u →
      0xdc00 ≤ u → u ≤ 0xdfff → malformed_escape (ds ++ r) 4
  | high_alone (ds r : Str) (u : Nat) : ds.length = 4 → hex_number ds = some u →
      0xd800 ≤ u → u < 0xdc00 → (¬ ∃ t, r = 92 :: 117 :: t) → malformed_escape (ds ++ r) 4
  | high_short (ds ds2 r : Str) (u u2 : Nat) : ds.length = 4 → hex_number ds = some u →
      0xd800 ≤ u → u < 0xdc00 → ds2.length < 4 → hex_number ds2 = some u2 →
      (r = [] ∨ ∃ d t, r = d :: t ∧ hex_value d = none) →
      malformed_escape (ds ++ 92 :: 117 :: (ds2 ++ r)) (6 + ds2.length)
  | high_no_low (ds ds2 r : Str) (u u2 : Nat) : ds.length = 4 → hex_number ds = some u →
      0xd800 ≤ u → u < 0xdc00 → ds2.length = 4 → hex_number ds2 = some u2 →
      (u2 < 0xdc00 ∨ 0xdfff < u2) →
      malformed_escape (ds ++ 92 :: 117 :: (ds2 ++ r)) 10

/-- The empty comment token that stands for a blank line. -/
def blank_line_token : token :=
  { token.of_type .none_token with type := .comment_token }

/-- The tokens `scan` leaves for a text under the default parameters. -/
def scan_tokens (P : Platform) (src : Str) : Res Unit (List token) :=
  match scanner.scan P (scanner.init : scanner Unit) src default_scanner_params with
  | .ok _ sc => .ok sc.tokens_ ()
  | .throw e _ => .throw e ()
  | .diverge => .diverge

/-- Whether a call has returned, with a result that passes the test `p`. -/
def Res.check {σ α : Type} (r : Res σ α) (p : α → Bool) : Bool :=
  match r with
  | .ok a _ => p a
  | _ => false

/-- The group `a = [ \x7b\x7d ]`: a vector that holds the empty group. -/
def group_a_vector_of_empty : group :=
  .mk [(lit "a", .vector [.group group.empty])] [lit "a"]

/-- The group `a = \x7b b = \x7b\x7d \x7d`. -/
def group_a_b_empty : group :=
  .mk [(lit "a", .group (.mk [(lit "b", .group group.empty)] [lit "b"]))] [lit "a"]
/-- The line of the character at offset `pos` of a text, counted from 1: one more than
the number of newline characters before it. -/
def line_of (input : Str) (pos : Nat) : Nat :=
  1 + (input.take pos).count 10

/-- The column of the character at offset `pos` of a text, counted from 1: one more than
the number of characters between the last newline before it (or the start of the text)
and it. -/
def col_of (input : Str) (pos : Nat) : Nat :=
  1 + ((input.take pos).reverse.takeWhile fun c => c != 10).length

/-- The text from the offset of the token on starts with the token: with a double quote
for a string, with a digit, `-` or `.` for a number, with the identifier itself for an
identifier, with the character of a character token, with `//` for a comment, and with a
character that passes the test `ch() <= 0x20` for white space. -/
def token.begins (P : Platform) (input : Str) (t : token) : Prop :=
  match t.type, input.drop t.pos with
  | .string_token, c :: _ => c = 34
  | .number_token, c :: _ => is_number_start c = true
  | .identifier_token, c :: r =>
    is_identifier_start c = true ∧ t.string_value ≠ [] ∧ t.string_value <+: c :: r
  | .char_token, c :: _ => c = t.char_value
  | .comment_token, c :: r => c = 47 ∧ r.head? = some 47
  | .whitespace_token, c :: _ => char_le_0x20 P c = true
  | _, _ => False

/-- The token is the marker of a blank line, or it records an offset within the text
at which the token begins, and the line and the column of that offset. -/
def token.placed (P : Platform) (input : Str) (t : token) : Prop :=
  t = blank_line_token ∨
    (t.pos < input.length ∧ t.line = line_of input t.pos ∧ t.col = col_of input t.pos ∧
      token.begins P input t)

/-- The scanner stands within its text, and its line and column are those of its
position. -/
def scanner.placed {σ : Type} (sc : scanner σ) : Prop :=
  sc.synced ∧ sc.pos_ ≤ sc.input_.length ∧
    sc.line_ = line_of sc.input_ sc.pos_ ∧ sc.col_ = col_of sc.input_ sc.pos_

/-- The scanner `sc1` has come from `sc` by reading characters: it is placed, the
text, the parameters, the tokens and the cursor over the tokens are those of `sc`, and
it does not stand before `sc`. -/
def scanner.follows {σ : Type} (sc sc1 : scanner σ) : Prop :=
  sc1.placed ∧ sc1.input_ = sc.input_ ∧ sc1.params_ = sc.params_ ∧
    sc1.tokens_ = sc.tokens_ ∧ sc.pos_ ≤ sc1.pos_ ∧ sc1.cur_token_ = sc.cur_token_

/-- The tokens are in the order of the text: of two tokens with a place, the one that
comes first in the list does not stand behind the other. -/
def tokens_in_order (ts : List token) : Prop :=
  ts.Pairwise fun a b => a = blank_line_token ∨ b = blank_line_token ∨ a.pos ≤ b.pos

/-! ### The layout of the specification -/

/-- The lookup in a table of what has been computed for the entries of a map. -/
def table_find {β : Type} : List (Str × β) → Str → Option β
  | [], _ => none
  | (k, b) :: m, key => if k = key then some b else table_find m key

/-- The sum, over the keys of a group in their order, of the key's length, four
characters (`", = "`) and the estimate of the value, taken from the table. -/
def estimate_entries (tbl : List (Str × Nat)) : List Str → Nat
  | [] => 0
  | k :: ks => 4 + k.length + (table_find tbl k).getD 0 + estimate_entries tbl ks

mutual
/-- The length estimate of a value: the length of what is written for a scalar, the
estimate of the node for a group or a vector. -/
def value.estimate (P : Platform) : value → Nat
  | .invalid => 0
  | .number x => (stringize_number P x).length
  | .string s => 2 + (escape_string s).length
  | .bool b => if b then 4 else 5
  | .vector v => 3 + value.estimate_list P v
  | .group g => g.estimate P
/-- The length estimate of a group: three characters for the braces and the blank, and
for each entry the key, four characters and the estimate of the value. -/
def group.estimate (P : Platform) : group → Nat
  | .mk m o => 3 + estimate_entries (value.estimate_map P m) o
/-- The sum, over the values of a vector, of two characters (`", "`) and the estimate
of the value; the estimate of the vector is three more. -/
def value.estimate_list (P : Platform) : List value → Nat
  | [] => 0
  | v :: vs => 2 + v.estimate P + value.estimate_list P vs
/-- The table of the estimates of the values of a map. -/
def value.estimate_map (P : Platform) : List (Str × value) → List (Str × Nat)
  | [] => []
  | (k, v) :: m => (k, v.estimate P) :: value.estimate_map P m
end

/-- What is written behind a child: between children a newline (to the current
indentation) in a node that is wrapped and `", "` in one that is not; behind the last
child a blank in a node that is not wrapped. -/
def layout_separator (wr : writer) (last wrap : Bool) : writer :=
  if last then (if wrap then wr else wr.append (lit " "))
  else if wrap then wr.newline
  else wr.append (lit ", ")

/-- The entries of a group in the order of its keys, each as `key = value` with the
separator behind it; the table holds what is written for the value of a key. -/
def layout_entries (tbl : List (Str × (writer → writer))) (wrap : Bool) :
    List Str → writer → writer
  | [], wr => wr
  | k :: ks, wr =>
    match table_find tbl k with
    | some f =>
      layout_entries tbl wrap ks
        (layout_separator (f ((wr.append k).append (lit " = "))) ks.isEmpty wrap)
    | none => wr

mutual
/-- The layout of a value as the specification describes it: a scalar is written as
such; a vector is written between `[ ` and `]`, its children one per line, four blanks
deeper, when its estimate exceeds the wrap width, and on one line otherwise. -/
def value.layout (P : Platform) : value → writer → writer
  | .invalid, wr => wr
  | .number x, wr => wr.append (stringize_number P x)
  | .string s, wr => ((wr.append (lit "\"")).append (escape_string s)).append (lit "\"")
  | .bool b, wr => wr.append (if b then lit "true" else lit "false")
  | .vector v, wr =>
    let wrap : Bool := decide (((3 + value.estimate_list P v : Nat) : Int) > wr.wrap_length)
    let wr := (wr.append (lit "[ ")).indent
    let wr := if wrap then wr.newline else wr
    let wr := value.layout_list P wrap v wr
    let wr := wr.unindent
    let wr := if wrap then wr.newline else wr
    wr.append (lit "]")
  | .group g, wr => g.layout P true wr
/-- The layout of a group: the root (no braces) has its entries one per line; a group in
braces is written between `\x7b ` and `\x7d`, its entries one per line, four blanks
deeper, when its estimate exceeds the wrap width, and on one line otherwise. -/
def group.layout (P : Platform) : group → Bool → writer → writer
  | .mk m o, braces, wr =>
    let wrap : Bool := !braces ||
      decide (((3 + estimate_entries (value.estimate_map P m) o : Nat) : Int) > wr.wrap_length)
    let wr :=
      if braces then
        let wr := (wr.append (lit "\x7b ")).indent
        if wrap then wr.newline else wr
      else wr
    let wr := layout_entries (value.layout_map P m) wrap o wr
    if braces then
      let wr := wr.unindent
      let wr := if wrap then wr.newline else wr
      wr.append (lit "\x7d")
    else wr
/-- The children of a vector, each with the separator behind it. -/
def value.layout_list (P : Platform) : Bool → List value → writer → writer
  | _, [], wr => wr
  | wrap, v :: vs, wr =>
    value.layout_list P wrap vs (layout_separator (v.layout P wr) vs.isEmpty wrap)
/-- The table of what is written for the values of a map. -/
def value.layout_map (P : Platform) : List (Str × value) → List (Str × (writer → writer))
  | [] => []
  | (k, v) :: m => (k, v.layout P) :: value.layout_map P m
end

/-- The text of a group laid out at a wrap width, from an empty buffer. -/
def layout_text (P : Platform) (grp : group) (wrap_length : Int) : Str :=
  (grp.layout P false (writer.init wrap_length)).buf

/-- What a token holds, its place in the text apart. -/
def token.content (t : token) : token :=
  { t with pos := 0, line := 0, col := 0 }

/-- The tokens ahead of the cursor that are neither white space nor comments, their
places in the text apart. -/
def scanner.visible {σ : Type} (sc : scanner σ) : List token :=
  ((sc.tokens_.drop sc.cur_token_).filter fun t =>
    t.type != .whitespace_token && t.type != .comment_token).map token.content

/-- Two scanner states show the same tokens, white space, comments and the places of
the tokens apart, and their cursors are within their tokens. -/
def St.alike {σ : Type} (st st1 : St σ) : Prop :=
  st.1.visible = st1.1.visible ∧ st.1.cur_token_ ≤ st.1.tokens_.length ∧
    st1.1.cur_token_ ≤ st1.1.tokens_.length

/-- Two calls end alike: both return, with the same result and states that are alike,
or both raise, or neither ends. -/
def Res.alike {σ α : Type} (r r1 : Res (St σ) α) : Prop :=
  match r, r1 with
  | .ok a st, .ok a1 st1 => a = a1 ∧ St.alike st st1
  | .throw _ _, .throw _ _ => True
  | .diverge, .diverge => True
  | _, _ => False

/-- The text `\x7b"a": true // c`, newline, `\x7d`: an object with a comment at the end
of a line. -/
def json_text_with_comment : Str := lit "\x7b\"a\": true // c\n\x7d"

/-- The scanner as `scan` leaves it for a text under the default parameters (on a throw
too). -/
def scanned (P : Platform) (src : Str) : scanner Unit :=
  match scanner.scan P scanner.init src default_scanner_params with
  | .ok _ sc => sc
  | .throw _ sc => sc
  | .diverge => scanner.init

/-! ### The scanners of the writer for what is new -/

/-- The keys of `order_` are single segments of a path, each is found in the map
`values_`, and there are as many of them as entries of the map. -/
def group.listed (a : group) : Prop :=
  a.order_.length = a.values_.length ∧
    ∀ k ∈ a.order_, path.parse k = [k] ∧ (map_find a.values_ k).isSome = true

/-- The scanner `make_scanner("0")` returns, with its cursor at `cur`: one number token,
whose value `x` is what `strtod` reads. -/
def dummy_zero (x cur : Nat) : scanner writer :=
  ⟨lit "0", [⟨.number_token, [], x, 0, 0, 1, 1⟩], cur, true, 1, 1, 2, default_scanner_params⟩

/-- The scanner `make_scanner("\x7b\x7d")` returns, with its cursor at `cur`. -/
def dummy_braces (cur : Nat) : scanner writer :=
  ⟨lit "\x7b\x7d", [⟨.char_token, [], 0, 123, 0, 1, 1⟩, ⟨.char_token, [], 0, 125, 1, 1, 2⟩],
    cur, true, 2, 1, 3, default_scanner_params⟩

/-- The scanner `make_scanner("[]")` returns, with its cursor at `cur`. -/
def dummy_brackets (cur : Nat) : scanner writer :=
  ⟨lit "[]", [⟨.char_token, [], 0, 91, 0, 1, 1⟩, ⟨.char_token, [], 0, 93, 1, 1, 2⟩],
    cur, true, 2, 1, 3, default_scanner_params⟩

/-- The group `a = [ true, false ]`. -/
def group_a_bools : group :=
  .mk [(lit "a", .vector [.bool true, .bool false])] [lit "a"]

/-- A group in braces or a vector whose estimate exceeds the wrap width `w`: the nodes
that are wrapped, the root apart. -/
def value.wrapped (P : Platform) (w : Int) : value → Bool
  | .vector v => decide (((3 + value.estimate_list P v : Nat) : Int) > w)
  | .group g => decide (((g.estimate P : Nat) : Int) > w)
  | _ => false

/-- The comments of the scanner go to `write_comment`, the comment function `write`
registers, and the text of no comment holds a newline. -/
def scanner.tame (sc : scanner writer) : Prop :=
  ∀ t ∈ sc.tokens_, t.type = .comment_token →
    sc.params_.comment_function = some write_comment ∧ 10 ∉ t.string_value

/-- The group is `listed` and no key of `order_` holds a newline. -/
def group.tidy (a : group) : Prop :=
  a.listed ∧ ∀ k ∈ a.order_, 10 ∉ k

/-- The state `st1` comes from `st` by moving the cursor forward and appending a text to
the buffer of the writer; the text holds a newline for each comment passed over and `lo`
more at least, and none but those of the comments when `q` is set. The width of the
writer and the rest of the scanner have not changed. -/
def St.wrote (q : Bool) (lo : Nat) (st st1 : St writer) : Prop :=
  st1.1 = { st.1 with cur_token_ := st1.1.cur_token_ } ∧
  st.1.cur_token_ ≤ st1.1.cur_token_ ∧
  st1.2.wrap_length = st.2.wrap_length ∧
  ∃ t, st1.2.buf = st.2.buf ++ t ∧
    (st.1.comments_between st.1.cur_token_ st1.1.cur_token_).length + lo ≤ t.count 10 ∧
    (q = true →
      t.count 10 = (st.1.comments_between st.1.cur_token_ st1.1.cur_token_).length)

/-- A call that returns leaves a state that `wrote`. -/
def Res.wrote {α : Type} (q : Bool) (lo : Nat) (st : St writer) (r : Res (St writer) α) :
    Prop :=
  match r with
  | .ok _ st1 => St.wrote q lo st st1
  | .throw _ _ => True
  | .diverge => True

/-- The scanner `write` makes of the old text `src`: what `scan` returns under the
parameters of `write`, and a scanner without tokens when `scan` does not return. -/
def write_scanned (P : Platform) (src : Str) : scanner writer :=
  match scanner.scan P scanner.init src
    ⟨some write_comment, allow_comments_flag ||| blank_line_comment_flag⟩ with
  | .ok _ sc => sc
  | .throw _ _ => scanner.init
  | .diverge => scanner.init

/-- The group `a = [ true ]`. -/
def group_a_one_bool : group :=
  .mk [(lit "a", .vector [.bool true])] [lit "a"]

/-! # Theorems -/

/-! ## The value tree -/

@[simp] theorem group.values_mk (m : List (Str × value)) (o : List Str) :
    (group.mk m o).values_ = m := rfl

@[simp] theorem group.order_mk (m : List (Str × value)) (o : List Str) :
    (group.mk m o).order_ = o := rfl

theorem map_find_assign_self (m : List (Str × value)) (k : Str) (v : value) :
    map_find (map_assign m k v) k = some v := by
  induction m with
  | nil => simp [map_assign, map_find]
  | cons e m ih =>
    obtain ⟨k1, v1⟩ := e
    simp only [map_assign]
    split
    · simp [map_find]
    · split
      · simp [map_find]
      · rename_i h _
        simp [map_find, h, ih]

theorem key_start_invalid_of_valid {k : Str} (h : valid_key k = true) :
    key_start_invalid k = false := by
  cases k with
  | nil => simp [valid_key] at h
  | cons c rest =>
    simp only [valid_key, Bool.and_eq_true] at h
    have h1 := h.1
    simp only [key_start_invalid, List.headD_cons]
    simp at h1 ⊢
    omega

theorem key_char_invalid_of_valid {k : Str} (h : valid_key k = true) :
    k.any key_char_invalid = false := by
  simp only [valid_key, Bool.and_eq_true, List.all_eq_true] at h
  rw [List.any_eq_false]
  intro c hc
  have := h.2 c hc
  simp only [key_char_invalid]
  simp at this ⊢
  omega

/-- Creating a value along a path of valid keys returns, and the value is then
found at that path. -/
theorem create_value_found (p : path) (x : value) :
    ∀ (g : group), p ≠ [] → (∀ k ∈ p, valid_key k = true) →
      ∃ g', g.create_value p x = .ok () g' ∧
        ∃ par rest, g'.find_value p = .ok (some x, par, rest) := by
  induction p with
  | nil => intro g h; exact absurd rfl h
  | cons k ks ih =>
    intro g _ hv
    have hk : valid_key k = true := hv k (List.mem_cons_self _ _)
    cases ks with
    | nil =>
      refine ⟨g.set_key k x, ?_, [], [], ?_⟩
      · rw [group.create_value]
        simp [key_start_invalid_of_valid hk, key_char_invalid_of_valid hk]
      · simp [group.find_value, group.set_key, map_find_assign_self]
    | cons k2 ks =>
      have hv2 : ∀ a ∈ k2 :: ks, valid_key a = true :=
        fun a ha => hv a (List.mem_cons_of_mem _ ha)
      obtain ⟨grp1, h1, par, rest, h2⟩ := ih group.empty (by simp) hv2
      refine ⟨.mk (map_assign (g.set_key k (.group group.empty)).values_ k (.group grp1))
        (g.set_key k (.group group.empty)).order_, ?_, k :: par, rest, ?_⟩
      · rw [group.create_value]
        simp only [key_start_invalid_of_valid hk, key_char_invalid_of_valid hk]
        simp only [group.set_key, group.values_mk, map_find_assign_self, h1]
        simp
      · simp [group.find_value, map_find_assign_self, h2]

/-- After `set`, `find_value` finds the value that was stored. -/
theorem set_found {α : Type} (T : value_type_info α) (v : α) (p : path) :
    ∀ (g : group), p ≠ [] → (∀ k ∈ p, valid_key k = true) →
      ∃ g', g.set T p v = .ok () g' ∧
        ∃ par rest, g'.find_value p = .ok (some (T.create_value v), par, rest) := by
  induction p with
  | nil => intro g h; exact absurd rfl h
  | cons k ks ih =>
    intro g hne hv
    cases ks with
    | nil =>
      cases hm : map_find g.values_ k with
      | none =>
        obtain ⟨g', h1, h2⟩ := create_value_found [k] (T.create_value v) g hne hv
        exact ⟨g', by simp [group.set, group.find_value, hm, group.update_at, h1], h2⟩
      | some old =>
        refine ⟨_, by simp [group.set, group.find_value, hm, group.update_at]; rfl, [], [], ?_⟩
        simp [group.find_value, map_find_assign_self]
    | cons k2 ks =>
      have hv2 : ∀ a ∈ k2 :: ks, valid_key a = true :=
        fun a ha => hv a (List.mem_cons_of_mem _ ha)
      have hcreate : map_find g.values_ k = none ∨
          (∃ old, map_find g.values_ k = some old ∧ ∀ grp, old ≠ .group grp) →
          ∃ g', g.set T (k :: k2 :: ks) v = .ok () g' ∧
            ∃ par rest, g'.find_value (k :: k2 :: ks)
              = .ok (some (T.create_value v), par, rest) := by
        intro h
        obtain ⟨g', h1, h2⟩ := create_value_found (k :: k2 :: ks) (T.create_value v) g hne hv
        refine ⟨g', ?_, h2⟩
        rcases h with hm | ⟨old, hm, hng⟩
        · simp [group.set, group.find_value, hm, group.update_at, h1]
        · cases old <;> simp_all [group.set, group.find_value, group.update_at]
      cases hm : map_find g.values_ k with
      | none => exact hcreate (Or.inl hm)
      | some old =>
        cases old with
        | group grp =>
          obtain ⟨grp', h1, par, rest, h2⟩ := ih grp (by simp) hv2
          refine ⟨.mk (map_assign g.values_ k (.group grp')) g.order_, ?_, k :: par, rest, ?_⟩
          · simp only [group.set] at h1 ⊢
            simp only [group.find_value, hm]
            cases hf : grp.find_value (k2 :: ks) with
            | error e => simp [hf] at h1
            | ok r =>
              obtain ⟨r1, par1, rest1⟩ := r
              cases r1 with
              | none =>
                simp only [hf] at h1
                simp [group.update_at, hm, h1]
              | some old1 =>
                simp only [hf, List.getLastD_cons] at h1
                simp only [group.update_at, hm, List.getLastD_cons, h1]
          · simp [group.find_value, map_find_assign_self, h2]
        | _ => exact hcreate (Or.inr ⟨_, hm, by simp⟩)

/-- On a path that is not empty `find_value` returns, and it returns the null
pointer exactly when the path is not found in the sense of the specification. -/
theorem find_value_result (p : path) :
    ∀ (g : group), p ≠ [] →
      ∃ r par rest, g.find_value p = .ok (r, par, rest) ∧ (r = none ↔ not_found g p = true) := by
  induction p with
  | nil => intro g h; exact absurd rfl h
  | cons k ks ih =>
    intro g _
    cases ks with
    | nil =>
      cases hm : map_find g.values_ k <;> simp [group.find_value, not_found, hm]
    | cons k2 ks =>
      cases hm : map_find g.values_ k with
      | none => simp [group.find_value, not_found, hm]
      | some old =>
        cases old with
        | group grp =>
          obtain ⟨r, par, rest, h1, h2⟩ := ih grp (by simp)
          exact ⟨r, k :: par, rest, by simp [group.find_value, hm, h1],
            by simp [not_found, hm, h2]⟩
        | _ => simp [group.find_value, not_found, hm]

/-- Below a value that is not a group every path is not found. -/
theorem not_found_below (p q : path) (v : value) (hq : q ≠ []) (hv : v.type ≠ .group_type) :
    ∀ (g : group) par rest, g.find_value p = .ok (some v, par, rest) →
      not_found g (p ++ q) = true := by
  induction p with
  | nil => intro g par rest h; simp [group.find_value] at h
  | cons k ks ih =>
    intro g par rest h
    obtain ⟨q1, qs, rfl⟩ := List.exists_cons_of_ne_nil hq
    cases ks with
    | nil =>
      cases hm : map_find g.values_ k with
      | none => simp [group.find_value, hm] at h
      | some old =>
        simp [group.find_value, hm] at h
        obtain ⟨rfl, _, _⟩ := h
        cases old <;> simp_all [not_found, value.type]
    | cons k2 ks =>
      cases hm : map_find g.values_ k with
      | none => simp [group.find_value, hm] at h
      | some old =>
        cases old with
        | group grp =>
          simp only [group.find_value, hm] at h
          cases hf : grp.find_value (k2 :: ks) with
          | error e => simp [hf] at h
          | ok r =>
            obtain ⟨r1, par1, rest1⟩ := r
            simp only [hf, Except.ok.injEq, Prod.mk.injEq] at h
            obtain ⟨rfl, _, _⟩ := h
            have := ih grp par1 rest1 hf
            simpa [not_found, hm] using this
        | _ => simp [group.find_value, hm] at h

/-- C10: for an adapter `T` whose `extract_value` raises no path error, `g.get<T>(p)`
raises the path error exactly when `p` is not found (`p` is empty, or a segment is
missing, or a segment before the last names a value that is not a group); so it raises
none when `p` resolves to a value. And once `set` has stored a value that is not a
group at a path `p` of valid keys, `get<T>` raises the path error on every path below `p`. -/
theorem get_path_error_iff {α : Type} (T : value_type_info α)
    (hT : ∀ val, T.extract_value val ≠ .error .path_error) (g : group) (p : path) :
    (g.get T p = .error .path_error ↔ not_found g p = true) ∧
    (∀ (q : path) (v : value) (g' : group), p ≠ [] → (∀ k ∈ p, valid_key k = true) → q ≠ [] →
      v.type ≠ .group_type → g.set value_info p v = .ok () g' →
      g'.get T (p ++ q) = .error .path_error) := by
  have key : ∀ (g : group) (p : path),
      (g.get T p = .error .path_error ↔ not_found g p = true) := by
    intro g p
    cases p with
    | nil => simp [group.get, group.find_value, not_found]
    | cons k ks =>
      obtain ⟨r, par, rest, h1, h2⟩ := find_value_result (k :: ks) g (by simp)
      cases r with
      | none => simp [group.get, h1, ← h2]
      | some val =>
        have hnf : not_found g (k :: ks) = false := by
          cases hh : not_found g (k :: ks) with
          | false => rfl
          | true => exact absurd (h2.mpr hh) (by simp)
        simp only [group.get, h1, hnf, value.get]
        constructor
        · intro h
          split at h
          · simp at h
          · exact absurd h (hT val)
        · intro h; simp at h
  refine ⟨key g p, ?_⟩
  intro q v g' hne hkeys hq hv hset
  obtain ⟨g'', h1, par, rest, h2⟩ := set_found value_info v p g hne hkeys
  rw [hset] at h1
  cases h1
  rw [key]
  exact not_found_below p q v hq hv g' par rest h2

/-- Witness of C10: the adapter of `double` raises no path error; `a.b` is not found
in the group `a = true`; and below `a`, once it holds a number, `a.x` is not found. -/
theorem get_path_error_iff_witness :
    (∀ val, double_info.extract_value val ≠ .error .path_error) ∧
    (group_a_true.get double_info [lit "a", lit "b"] = .error .path_error ↔
      not_found group_a_true [lit "a", lit "b"] = true) ∧
    (group.mk [(lit "a", .number 0)] [lit "a"]).get double_info ([lit "a"] ++ [lit "x"])
      = .error .path_error :=
  have h : ∀ val, double_info.extract_value val ≠ .error .path_error := by
    intro val; cases val <;> simp [double_info]
  ⟨h, (get_path_error_iff double_info h group_a_true [lit "a", lit "b"]).1,
    (get_path_error_iff double_info h group_a_empty [lit "a"]).2 [lit "x"] (.number 0) _
      (by simp) (by decide) (by simp) (by simp [value.type]) rfl⟩

/-! ## The map and the order list -/

theorem str_lt_iff (a b : Str) : str_lt a b = true ↔ a < b := by
  induction a generalizing b with
  | nil =>
    cases b with
    | nil => simp [str_lt]
    | cons y ys => simp only [str_lt, true_iff]; exact List.Lex.nil
  | cons x xs ih =>
    cases b with
    | nil => simp [str_lt]
    | cons y ys =>
      simp only [str_lt]
      constructor
      · intro h
        split at h
        · exact List.Lex.rel ‹x < y›
        · split at h
          · simp at h
          · have hxy : x = y := by omega
            subst hxy
            exact List.Lex.cons ((ih ys).mp h)
      · intro h
        cases h with
        | rel hxy => simp [hxy]
        | cons h3 => simp [(ih ys).mpr h3]

theorem str_lt_irrefl (a : Str) : str_lt a a = false := by
  cases h : str_lt a a with
  | false => rfl
  | true => exact absurd ((str_lt_iff a a).mp h) (lt_irrefl a)

theorem str_lt_trans {a b c : Str} (h1 : str_lt a b = true) (h2 : str_lt b c = true) :
    str_lt a c = true :=
  (str_lt_iff a c).mpr (lt_trans ((str_lt_iff a b).mp h1) ((str_lt_iff b c).mp h2))

theorem str_lt_asymm {a b : Str} (h1 : str_lt a b = true) : str_lt b a = false := by
  cases h : str_lt b a with
  | false => rfl
  | true => exact absurd ((str_lt_iff b a).mp h) (lt_asymm ((str_lt_iff a b).mp h1))

theorem str_lt_total {a b : Str} (h1 : str_lt a b = false) (h2 : a ≠ b) :
    str_lt b a = true := by
  rcases lt_trichotomy a b with h | h | h
  · rw [(str_lt_iff a b).mpr h] at h1; cases h1
  · exact absurd h h2
  · exact (str_lt_iff b a).mpr h

theorem mem_keys_iff (m : List (Str × value)) (k : Str) :
    k ∈ m.map Prod.fst ↔ (map_find m k).isSome = true := by
  induction m with
  | nil => simp [map_find]
  | cons e m ih =>
    obtain ⟨k1, v1⟩ := e
    by_cases h : k1 = k
    · simp [map_find, h]
    · simp only [List.map_cons, List.mem_cons, map_find, h, if_false, ih]
      constructor
      · rintro (h1 | h1)
        · exact absurd h1.symm h
        · exact h1
      · exact Or.inr

theorem map_find_none_iff (m : List (Str × value)) (k : Str) :
    map_find m k = none ↔ k ∉ m.map Prod.fst := by
  rw [mem_keys_iff]; cases map_find m k <;> simp

theorem map_find_assign_ne (m : List (Str × value)) (k k1 : Str) (v : value) (h : k1 ≠ k) :
    map_find (map_assign m k v) k1 = map_find m k1 := by
  induction m with
  | nil => simp [map_assign, map_find, Ne.symm h]
  | cons e m ih =>
    obtain ⟨k2, v2⟩ := e
    simp only [map_assign]
    split
    · rename_i h2
      simp [map_find, h2, Ne.symm h]
    · split
      · simp [map_find, Ne.symm h]
      · simp [map_find, ih]

theorem keys_assign_found (m : List (Str × value)) (k : Str) (v : value)
    (hs : keys_sorted (m.map Prod.fst)) (hk : k ∈ m.map Prod.fst) :
    (map_assign m k v).map Prod.fst = m.map Prod.fst := by
  induction m with
  | nil => simp at hk
  | cons e m ih =>
    obtain ⟨k2, v2⟩ := e
    simp only [keys_sorted, List.map_cons, List.pairwise_cons] at hs
    simp only [map_assign]
    split
    · rename_i h2; simp [h2]
    · rename_i h2
      have hk1 : k ∈ m.map Prod.fst := by
        simp only [List.map_cons, List.mem_cons] at hk
        rcases hk with hk | hk
        · exact absurd hk.symm h2
        · exact hk
      have : str_lt k k2 = false := str_lt_asymm (hs.1 k hk1)
      simp [this, ih hs.2 hk1]

theorem keys_assign_new (m : List (Str × value)) (k : Str) (v : value)
    (hk : k ∉ m.map Prod.fst) :
    ((map_assign m k v).map Prod.fst).Perm (k :: m.map Prod.fst) := by
  induction m with
  | nil => simp [map_assign]
  | cons e m ih =>
    obtain ⟨k2, v2⟩ := e
    simp only [List.map_cons, List.mem_cons, not_or] at hk
    simp only [map_assign]
    split
    · rename_i h2; exact absurd h2.symm hk.1
    · split
      · simp
      · simp only [List.map_cons]
        exact ((ih hk.2).cons k2).trans (List.Perm.swap k k2 _)

theorem mem_keys_assign (m : List (Str × value)) (k k1 : Str) (v : value) :
    k1 ∈ (map_assign m k v).map Prod.fst ↔ k1 = k ∨ k1 ∈ m.map Prod.fst := by
  rw [mem_keys_iff, mem_keys_iff]
  by_cases h : k1 = k
  · subst h; simp [map_find_assign_self]
  · simp [map_find_assign_ne m k k1 v h, h]

theorem keys_sorted_assign (m : List (Str × value)) (k : Str) (v : value)
    (hs : keys_sorted (m.map Prod.fst)) : keys_sorted ((map_assign m k v).map Prod.fst) := by
  induction m with
  | nil => simp [map_assign, keys_sorted]
  | cons e m ih =>
    obtain ⟨k2, v2⟩ := e
    simp only [keys_sorted, List.map_cons, List.pairwise_cons] at hs
    simp only [map_assign]
    split
    · rename_i h2
      subst h2
      simpa [keys_sorted] using hs
    · rename_i h2
      split
      · rename_i h3
        simp only [keys_sorted, List.map_cons, List.pairwise_cons, List.mem_cons]
        refine ⟨?_, hs⟩
        rintro a (rfl | ha)
        · exact h3
        · exact str_lt_trans h3 (hs.1 a ha)
      · rename_i h3
        have h4 : str_lt k2 k = true := str_lt_total (by simpa using h3) (Ne.symm h2)
        simp only [keys_sorted, List.map_cons, List.pairwise_cons]
        refine ⟨?_, ih hs.2⟩
        intro a ha
        rcases (mem_keys_assign m k a v).mp ha with rfl | ha
        · exact h4
        · exact hs.1 a ha

theorem keys_erase (m : List (Str × value)) (k : Str) :
    (map_erase m k).map Prod.fst = (m.map Prod.fst).erase k := by
  induction m with
  | nil => simp [map_erase]
  | cons e m ih =>
    obtain ⟨k2, v2⟩ := e
    by_cases h : k2 = k
    · simp [map_erase, h]
    · simp [map_erase, h, ih, List.erase_cons_tail]

theorem map_find_erase_ne (m : List (Str × value)) (k k1 : Str) (h : k1 ≠ k) :
    map_find (map_erase m k) k1 = map_find m k1 := by
  induction m with
  | nil => simp [map_erase]
  | cons e m ih =>
    obtain ⟨k2, v2⟩ := e
    by_cases h2 : k2 = k
    · subst h2; simp [map_erase, map_find, Ne.symm h]
    · simp [map_erase, h2, map_find, ih]

theorem keys_sorted_nodup {keys : List Str} (hs : keys_sorted keys) : keys.Nodup := by
  refine List.Pairwise.imp ?_ hs
  intro a b h hab
  subst hab
  rw [str_lt_irrefl] at h
  cases h

theorem map_find_erase_self (m : List (Str × value)) (k : Str)
    (hs : keys_sorted (m.map Prod.fst)) : map_find (map_erase m k) k = none := by
  rw [map_find_none_iff, keys_erase]
  exact fun h => ((keys_sorted_nodup hs).mem_erase_iff.mp h).1 rfl

/-! ## Pointers into the tree -/

theorem update_at_eq (par : List Str) (f : group → Res group Unit) :
    ∀ (g h : group), g.descend par = some h →
      g.update_at par f = (f h).on_state (g.replace_at par) := by
  induction par with
  | nil =>
    intro g h hd
    simp only [group.descend, Option.some.injEq] at hd
    subst hd
    cases hf : f g <;> simp [group.update_at, Res.on_state, group.replace_at, hf]
  | cons k ks ih =>
    intro g h hd
    cases hm : map_find g.values_ k with
    | none => simp [group.descend, hm] at hd
    | some old =>
      cases old with
      | group grp =>
        simp only [group.descend, hm] at hd
        rw [group.update_at]
        simp only [hm, ih grp h hd]
        cases hf : f h <;> simp [Res.on_state, group.replace_at, hm]
      | _ => simp [group.descend, hm] at hd

theorem find_value_some (p : path) :
    ∀ (g : group) (val : value) (par : List Str) (rest : path),
      g.find_value p = .ok (some val, par, rest) →
      ∃ h, par = p.dropLast ∧ rest = [] ∧ g.descend par = some h ∧
        map_find h.values_ (p.getLastD []) = some val := by
  induction p with
  | nil => intro g val par rest h; simp [group.find_value] at h
  | cons k ks ih =>
    intro g val par rest h
    cases ks with
    | nil =>
      cases hm : map_find g.values_ k with
      | none => simp [group.find_value, hm] at h
      | some old =>
        simp only [group.find_value, hm, Except.ok.injEq, Prod.mk.injEq, Option.some.injEq] at h
        obtain ⟨rfl, rfl, rfl⟩ := h
        exact ⟨g, rfl, rfl, rfl, hm⟩
    | cons k2 ks =>
      cases hm : map_find g.values_ k with
      | none => simp [group.find_value, hm] at h
      | some old =>
        cases old with
        | group grp =>
          simp only [group.find_value, hm] at h
          cases hf : grp.find_value (k2 :: ks) with
          | error e => simp [hf] at h
          | ok r =>
            obtain ⟨r1, par1, rest1⟩ := r
            simp only [hf, Except.ok.injEq, Prod.mk.injEq] at h
            obtain ⟨rfl, rfl, rfl⟩ := h
            obtain ⟨h1, hp, hr, hd, hv⟩ := ih grp val par1 rest1 hf
            refine ⟨h1, by simp [hp], hr, by simp [group.descend, hm, hd], ?_⟩
            simpa using hv
        | _ => simp [group.find_value, hm] at h

theorem find_value_none (p : path) :
    ∀ (g : group) (par : List Str) (rest : path),
      g.find_value p = .ok (none, par, rest) →
      ∃ h k ks, p = par ++ k :: ks ∧ rest = k :: ks ∧ g.descend par = some h ∧
        (ks = [] → map_find h.values_ k = none) ∧
        (ks ≠ [] → ∀ grp, map_find h.values_ k ≠ some (.group grp)) := by
  induction p with
  | nil => intro g par rest h; simp [group.find_value] at h
  | cons k ks ih =>
    intro g par rest h
    cases ks with
    | nil =>
      cases hm : map_find g.values_ k with
      | none =>
        simp only [group.find_value, hm, Except.ok.injEq, Prod.mk.injEq, true_and] at h
        obtain ⟨rfl, rfl⟩ := h
        exact ⟨g, k, [], rfl, rfl, rfl, fun _ => hm, fun h => absurd rfl h⟩
      | some old => simp [group.find_value, hm] at h
    | cons k2 ks =>
      have hhere : (∀ grp, map_find g.values_ k ≠ some (.group grp)) →
          g.find_value (k :: k2 :: ks) = .ok (none, [], k :: k2 :: ks) := by
        intro hng
        cases hm : map_find g.values_ k with
        | none => simp [group.find_value, hm]
        | some old => cases old <;> simp_all [group.find_value]
      cases hm : map_find g.values_ k with
      | none =>
        rw [hhere (by simp [hm])] at h
        simp only [Except.ok.injEq, Prod.mk.injEq, true_and] at h
        obtain ⟨rfl, rfl⟩ := h
        exact ⟨g, k, k2 :: ks, rfl, rfl, rfl, by simp, fun _ => by simp [hm]⟩
      | some old =>
        cases old with
        | group grp =>
          simp only [group.find_value, hm] at h
          cases hf : grp.find_value (k2 :: ks) with
          | error e => simp [hf] at h
          | ok r =>
            obtain ⟨r1, par1, rest1⟩ := r
            simp only [hf, Except.ok.injEq, Prod.mk.injEq] at h
            obtain ⟨rfl, rfl, rfl⟩ := h
            obtain ⟨h1, k3, ks3, hp, hr, hd, hv⟩ := ih grp par1 rest1 hf
            exact ⟨h1, k3, ks3, by simp [hp], hr, by simp [group.descend, hm, hd], hv⟩
        | _ =>
          rw [hhere (by simp [hm])] at h
          simp only [Except.ok.injEq, Prod.mk.injEq, true_and] at h
          obtain ⟨rfl, rfl⟩ := h
          exact ⟨g, k, k2 :: ks, rfl, rfl, rfl, by simp, fun _ => by simp [hm]⟩

theorem lookup_single (g : group) (k : Str) : g.lookup [k] = map_find g.values_ k := by
  cases hm : map_find g.values_ k <;> simp [group.lookup, group.find_value, hm]

theorem lookup_cons_cons (g : group) (k k2 : Str) (ks : path) :
    g.lookup (k :: k2 :: ks) =
      match map_find g.values_ k with
      | some (.group grp) => grp.lookup (k2 :: ks)
      | _ => none := by
  cases hm : map_find g.values_ k with
  | none => simp [group.lookup, group.find_value, hm]
  | some old =>
    cases old with
    | group grp =>
      cases hf : grp.find_value (k2 :: ks) with
      | error e => simp [group.lookup, group.find_value, hm, hf]
      | ok r => simp [group.lookup, group.find_value, hm, hf]
    | _ => simp [group.lookup, group.find_value, hm]

theorem get_eq_lookup {α : Type} (T : value_type_info α) (g : group) (p : path) :
    g.get T p = match g.lookup p with
      | some val => val.get T
      | none => .error .path_error := by
  cases p with
  | nil => simp [group.get, group.lookup, group.find_value]
  | cons k ks =>
    obtain ⟨r, par, rest, h1, _⟩ := find_value_result (k :: ks) g (by simp)
    cases r <;> simp [group.get, group.lookup, h1]

theorem descend_append (par q : List Str) :
    ∀ (g h : group), g.descend par = some h → g.descend (par ++ q) = h.descend q := by
  induction par with
  | nil => intro g h hd; simp [group.descend] at hd; simp [hd]
  | cons k ks ih =>
    intro g h hd
    cases hm : map_find g.values_ k with
    | none => simp [group.descend, hm] at hd
    | some old =>
      cases old with
      | group grp =>
        simp only [group.descend, hm] at hd
        simp [group.descend, hm, ih grp h hd]
      | _ => simp [group.descend, hm] at hd

theorem descend_replace_at (par : List Str) (h1 : group) :
    ∀ (g h : group), g.descend par = some h → (g.replace_at par h1).descend par = some h1 := by
  induction par with
  | nil => intro g h _; simp [group.replace_at, group.descend]
  | cons k ks ih =>
    intro g h hd
    cases hm : map_find g.values_ k with
    | none => simp [group.descend, hm] at hd
    | some old =>
      cases old with
      | group grp =>
        simp only [group.descend, hm] at hd
        simp [group.replace_at, group.descend, hm, map_find_assign_self, ih grp h hd]
      | _ => simp [group.descend, hm] at hd

theorem lookup_replace_at (par : List Str) (h1 : group) (q : path) (hq : q ≠ []) :
    ∀ (g h : group), g.descend par = some h →
      (g.replace_at par h1).lookup (par ++ q) = h1.lookup q := by
  induction par with
  | nil => intro g h _; simp [group.replace_at]
  | cons k ks ih =>
    intro g h hd
    cases hm : map_find g.values_ k with
    | none => simp [group.descend, hm] at hd
    | some old =>
      cases old with
      | group grp =>
        simp only [group.descend, hm] at hd
        obtain ⟨k2, ks2, hk⟩ := List.exists_cons_of_ne_nil
          (show ks ++ q ≠ [] by simp [hq])
        rw [List.cons_append, hk, lookup_cons_cons]
        simp only [group.replace_at, hm, group.values_mk, map_find_assign_self]
        rw [← hk]
        exact ih grp h hd
      | _ => simp [group.descend, hm] at hd

theorem order_replace_at (k : Str) (ks : List Str) (g h1 : group) :
    (g.replace_at (k :: ks) h1).order_ = g.order_ := by
  cases hm : map_find g.values_ k with
  | none => simp [group.replace_at, hm]
  | some old => cases old <;> simp [group.replace_at, hm]

theorem find_value_blocked (pre : List Str) (k : Str) (q : path) (hq : q ≠ []) :
    ∀ (g h : group), g.descend pre = some h →
      (∀ grp, map_find h.values_ k ≠ some (.group grp)) →
      g.find_value (pre ++ k :: q) = .ok (none, pre, k :: q) := by
  obtain ⟨k2, ks2, rfl⟩ := List.exists_cons_of_ne_nil hq
  induction pre with
  | nil =>
    intro g h hd hng
    simp only [group.descend, Option.some.injEq] at hd
    subst hd
    cases hm : map_find g.values_ k with
    | none => simp [group.find_value, hm]
    | some old => cases old <;> simp_all [group.find_value]
  | cons k1 ks ih =>
    intro g h hd hng
    cases hm : map_find g.values_ k1 with
    | none => simp [group.descend, hm] at hd
    | some old =>
      cases old with
      | group grp =>
        simp only [group.descend, hm] at hd
        obtain ⟨k3, ks3, hk⟩ := List.exists_cons_of_ne_nil
          (show ks ++ k :: k2 :: ks2 ≠ [] by simp)
        rw [List.cons_append, hk, group.find_value]
        simp only [hm]
        rw [← hk, ih grp h hd hng]
      | _ => simp [group.descend, hm] at hd

theorem find_value_missing (pre : List Str) (k : Str) :
    ∀ (g h : group), g.descend pre = some h → map_find h.values_ k = none →
      g.find_value (pre ++ [k]) = .ok (none, pre, [k]) := by
  induction pre with
  | nil =>
    intro g h hd hm
    simp only [group.descend, Option.some.injEq] at hd
    subst hd
    simp [group.find_value, hm]
  | cons k1 ks ih =>
    intro g h hd hm1
    cases hm : map_find g.values_ k1 with
    | none => simp [group.descend, hm] at hd
    | some old =>
      cases old with
      | group grp =>
        simp only [group.descend, hm] at hd
        obtain ⟨k3, ks3, hk⟩ := List.exists_cons_of_ne_nil
          (show ks ++ [k] ≠ [] by simp)
        rw [List.cons_append, hk, group.find_value]
        simp only [hm]
        rw [← hk, ih grp h hd hm1]
      | _ => simp [group.descend, hm] at hd

/-! ## What `create_value` builds -/

theorem valid_key_iff (k : Str) :
    valid_key k = true ↔ key_start_invalid k = false ∧ k.any key_char_invalid = false := by
  constructor
  · exact fun h => ⟨key_start_invalid_of_valid h, key_char_invalid_of_valid h⟩
  · rintro ⟨h1, h2⟩
    cases k with
    | nil => simp [key_start_invalid] at h1
    | cons c rest =>
      rw [List.any_eq_false] at h2
      simp only [valid_key, Bool.and_eq_true, List.all_eq_true]
      constructor
      · simp only [key_start_invalid, List.headD_cons] at h1
        simp at h1 ⊢
        omega
      · intro a ha
        have := h2 a ha
        simp only [key_char_invalid] at this
        simp at this ⊢
        omega

theorem map_assign_assign (m : List (Str × value)) (k : Str) (a b : value) :
    map_assign (map_assign m k a) k b = map_assign m k b := by
  induction m with
  | nil => simp [map_assign]
  | cons e m ih =>
    obtain ⟨k1, v1⟩ := e
    simp only [map_assign]
    split
    · simp [map_assign]
    · rename_i h1
      split
      · simp [map_assign]
      · rename_i h2
        simp [map_assign, h1, h2, ih]

theorem set_key_set_key (g : group) (k : Str) (a b : value) :
    group.mk (map_assign (g.set_key k a).values_ k b) (g.set_key k a).order_
      = g.set_key k b := by
  simp [group.set_key, map_assign_assign]

/-- Along valid keys `create_value` stores, at the first key, the chain of new groups
that holds the value. -/
theorem create_value_valid (ks : path) (x : value) :
    ∀ (k : Str) (g : group), (∀ a ∈ k :: ks, valid_key a = true) →
      g.create_value (k :: ks) x = .ok () (g.set_key k (chain_value ks x)) := by
  induction ks with
  | nil =>
    intro k g hv
    have hk := (valid_key_iff k).mp (hv k (List.mem_cons_self _ _))
    rw [group.create_value]
    simp [hk.1, hk.2, chain_value]
  | cons k2 ks ih =>
    intro k g hv
    have hk := (valid_key_iff k).mp (hv k (List.mem_cons_self _ _))
    have hv2 : ∀ a ∈ k2 :: ks, valid_key a = true :=
      fun a ha => hv a (List.mem_cons_of_mem _ ha)
    rw [group.create_value]
    simp only [hk.1, hk.2]
    have hfind : map_find (g.set_key k (.group group.empty)).values_ k
        = some (.group group.empty) := by simp [group.set_key, map_find_assign_self]
    simp only [hfind, ih k2 group.empty hv2]
    simp only [Bool.false_eq_true, if_false, set_key_set_key, chain_value]
    simp [group.set_key, group.empty, map_find, map_assign]

/-- With a key that is not valid among them `create_value` raises the path error. -/
theorem create_value_invalid (ks : path) (x : value) :
    ∀ (k : Str) (g : group), (∃ a ∈ k :: ks, valid_key a = false) →
      ∃ g1, g.create_value (k :: ks) x = .throw .path_error g1 := by
  induction ks with
  | nil =>
    intro k g hv
    obtain ⟨a, ha, hva⟩ := hv
    simp only [List.mem_singleton] at ha
    subst ha
    rw [group.create_value]
    by_cases h1 : key_start_invalid a = true
    · exact ⟨g, by simp [h1]⟩
    · by_cases h2 : a.any key_char_invalid = true
      · exact ⟨g, by simp [h1, h2]⟩
      · have := (valid_key_iff a).mpr ⟨by simpa using h1, by simpa using h2⟩
        rw [this] at hva; cases hva
  | cons k2 ks ih =>
    intro k g hv
    rw [group.create_value]
    by_cases h1 : key_start_invalid k = true
    · exact ⟨g, by simp [h1]⟩
    · by_cases h2 : k.any key_char_invalid = true
      · exact ⟨g, by simp [h1, h2]⟩
      · have hk := (valid_key_iff k).mpr ⟨by simpa using h1, by simpa using h2⟩
        have hv2 : ∃ a ∈ k2 :: ks, valid_key a = false := by
          obtain ⟨a, ha, hva⟩ := hv
          rcases List.mem_cons.mp ha with rfl | ha
          · rw [hk] at hva; cases hva
          · exact ⟨a, ha, hva⟩
        obtain ⟨g1, hg1⟩ := ih k2 group.empty hv2
        have hfind : map_find (g.set_key k (.group group.empty)).values_ k
            = some (.group group.empty) := by simp [group.set_key, map_find_assign_self]
        simp only [h1, h2, hfind, hg1]
        exact ⟨_, rfl⟩

/-! ## `set` and `unset` as a change of the parent group -/

theorem set_of_found {α : Type} (T : value_type_info α) (g : group) (p : path) (v : α)
    (val : value) (par : List Str) (rest : path)
    (hf : g.find_value p = .ok (some val, par, rest)) :
    ∃ h, g.descend p.dropLast = some h ∧
      map_find h.values_ (p.getLastD []) = some val ∧
      g.set T p v = .ok () (g.replace_at p.dropLast
        (.mk (map_assign h.values_ (p.getLastD []) (T.create_value v)) h.order_)) := by
  obtain ⟨h, hp, _, hd, hv⟩ := find_value_some p g val par rest hf
  subst hp
  refine ⟨h, hd, hv, ?_⟩
  simp only [group.set, hf]
  rw [update_at_eq _ _ g h hd]
  rfl

theorem set_of_none {α : Type} (T : value_type_info α) (g : group) (p : path) (v : α)
    (par : List Str) (rest : path) (hf : g.find_value p = .ok (none, par, rest)) :
    ∃ h, g.descend par = some h ∧
      g.set T p v = (h.create_value rest (T.create_value v)).on_state (g.replace_at par) := by
  obtain ⟨h, k, ks, _, _, hd, _⟩ := find_value_none p g par rest hf
  refine ⟨h, hd, ?_⟩
  simp only [group.set, hf]
  rw [update_at_eq _ _ g h hd]

theorem unset_of_found (g : group) (p : path) (val : value) (par : List Str) (rest : path)
    (hf : g.find_value p = .ok (some val, par, rest)) :
    ∃ h, g.descend p.dropLast = some h ∧
      map_find h.values_ (p.getLastD []) = some val ∧
      g.unset p = .ok () (g.replace_at p.dropLast
        (.mk (map_erase h.values_ (p.getLastD [])) (h.order_.erase (p.getLastD [])))) := by
  obtain ⟨h, hp, _, hd, hv⟩ := find_value_some p g val par rest hf
  subst hp
  refine ⟨h, hd, hv, ?_⟩
  simp only [group.unset, hf]
  rw [update_at_eq _ _ g h hd]
  rfl

theorem lookup_chain (q : path) (x : value) :
    ∀ (g : group) (k : Str), map_find g.values_ k = some (chain_value q x) →
      g.lookup (k :: q) = some x := by
  induction q with
  | nil => intro g k h; simpa [lookup_single, chain_value] using h
  | cons k2 ks ih =>
    intro g k h
    rw [lookup_cons_cons, h]
    simp only [chain_value]
    exact ih _ k2 (by simp [map_find])

theorem descend_chain (q : path) (x : value) (hq : q ≠ []) :
    ∀ (g : group) (k : Str), map_find g.values_ k = some (chain_value q x) →
      g.descend (k :: q.dropLast) = some (.mk [(q.getLastD [], x)] [q.getLastD []]) := by
  induction q with
  | nil => exact absurd rfl hq
  | cons k2 ks ih =>
    intro g k h
    simp only [group.descend, h, chain_value]
    cases ks with
    | nil => simp [group.descend, chain_value]
    | cons k3 ks =>
      have := ih (by simp) (.mk [(k2, chain_value (k3 :: ks) x)] [k2]) k2 (by simp [map_find])
      simpa using this

theorem set_key_find (g : group) (k : Str) (x : value) :
    map_find (g.set_key k x).values_ k = some x := by
  simp [group.set_key, map_find_assign_self]

theorem set_key_order_found (g : group) (k : Str) (x : value)
    (h : (map_find g.values_ k).isSome = true) : (g.set_key k x).order_ = g.order_ := by
  cases hm : map_find g.values_ k with
  | none => simp [hm] at h
  | some old => simp [group.set_key, hm]

theorem set_key_order_new (g : group) (k : Str) (x : value)
    (h : map_find g.values_ k = none) : (g.set_key k x).order_ = g.order_ ++ [k] := by
  simp [group.set_key, h]

theorem getLastD_append_cons (par : List Str) (k : Str) (ks : List Str) (d : Str) :
    (par ++ k :: ks).getLastD d = ks.getLastD k := by
  rw [List.getLastD_eq_getLast?, List.getLast?_append_of_ne_nil par (by simp),
    ← List.getLastD_eq_getLast?, List.getLastD_cons]

theorem on_state_ok {σ τ α : Type} {r : Res σ α} {whole : σ → τ} {a : α} {t : τ}
    (h : r.on_state whole = .ok a t) : ∃ s, r = .ok a s ∧ t = whole s := by
  cases r with
  | ok b s =>
    simp only [Res.on_state, Res.ok.injEq] at h
    exact ⟨s, by rw [h.1], h.2.symm⟩
  | throw e s => simp [Res.on_state] at h
  | diverge => simp [Res.on_state] at h

theorem create_value_ok (ks : path) (x : value) (k : Str) (g g1 : group)
    (h : g.create_value (k :: ks) x = .ok () g1) :
    (∀ a ∈ k :: ks, valid_key a = true) ∧ g1 = g.set_key k (chain_value ks x) := by
  by_cases hv : ∀ a ∈ k :: ks, valid_key a = true
  · rw [create_value_valid ks x k g hv] at h
    cases h
    exact ⟨hv, rfl⟩
  · have hv1 : ∃ a ∈ k :: ks, valid_key a = false := by
      by_contra hc
      apply hv
      intro a ha
      cases hva : valid_key a with
      | true => rfl
      | false => exact absurd ⟨a, ha, hva⟩ hc
    obtain ⟨g2, hg2⟩ := create_value_invalid ks x k g hv1
    rw [hg2] at h
    cases h

theorem replace_at_cons_eq (k : Str) (ks : List Str) (g h h1 : group)
    (hd : g.descend (k :: ks) = some h) : ∃ y, g.replace_at (k :: ks) h1 = g.set_key k y := by
  cases hm : map_find g.values_ k with
  | none => simp [group.descend, hm] at hd
  | some old =>
    cases old with
    | group grp => exact ⟨_, by simp [group.replace_at, group.set_key, hm]; rfl⟩
    | _ => simp [group.descend, hm] at hd

/-- A `set` that returns has changed, in the group it is called on, the entry of the
first segment only. -/
theorem set_root {α : Type} (T : value_type_info α) (g : group) (p : path) (v : α)
    (g1 : group) (hset : g.set T p v = .ok () g1) : ∃ y, g1 = g.set_key (p.headD []) y := by
  cases hf : g.find_value p with
  | error e => simp [group.set, hf] at hset
  | ok r =>
    obtain ⟨r1, par, rest⟩ := r
    cases r1 with
    | some val =>
      obtain ⟨h, hd, hv, hs⟩ := set_of_found T g p v val par rest hf
      rw [hs] at hset
      cases hset
      cases p with
      | nil => simp [group.find_value] at hf
      | cons k ks =>
        cases ks with
        | nil =>
          simp only [List.dropLast_single, group.descend, Option.some.injEq] at hd
          subst hd
          simp only [List.getLastD_cons, List.getLastD_nil] at hv
          exact ⟨T.create_value v, by simp [group.replace_at, group.set_key, hv]⟩
        | cons k2 ks =>
          rw [List.dropLast_cons_of_ne_nil (by simp)] at hd ⊢
          exact replace_at_cons_eq k _ g h _ hd
    | none =>
      obtain ⟨h, k, ks, hp, hr, hd, _⟩ := find_value_none p g par rest hf
      obtain ⟨h2, hd2, hs⟩ := set_of_none T g p v par rest hf
      rw [hd] at hd2
      cases hd2
      rw [hs] at hset
      obtain ⟨s, hc, hg1⟩ := on_state_ok hset
      subst hg1 hr hp
      cases par with
      | nil =>
        simp only [group.descend, Option.some.injEq] at hd
        subst hd
        exact ⟨_, by simpa [group.replace_at] using (create_value_ok ks _ k g s hc).2⟩
      | cons k1 ks1 => exact replace_at_cons_eq k1 ks1 g h s hd

theorem set_key_order_step (g : group) (k : Str) (y : value)
    (hlink : ∀ a, a ∈ g.order_ ↔ (map_find g.values_ a).isSome = true) :
    (∀ a, a ∈ (g.set_key k y).order_ ↔ (map_find (g.set_key k y).values_ a).isSome = true) ∧
    (g.set_key k y).order_ = if k ∈ g.order_ then g.order_ else g.order_ ++ [k] := by
  cases hm : map_find g.values_ k with
  | none =>
    have hk : k ∉ g.order_ := fun hmem => by
      have := (hlink _).mp hmem
      simp [hm] at this
    refine ⟨fun a => ?_, by simp [group.set_key, hm, hk]⟩
    by_cases ha : a = k
    · subst ha
      simp [group.set_key, hm, map_find_assign_self]
    · simp [group.set_key, hm, map_find_assign_ne _ _ _ _ ha, ha, hlink a]
  | some old =>
    have hk : k ∈ g.order_ := (hlink _).mpr (by simp [hm])
    refine ⟨fun a => ?_, by simp [group.set_key, hm, hk]⟩
    by_cases ha : a = k
    · subst ha
      simp [group.set_key, hm, map_find_assign_self, hk]
    · simp [group.set_key, hm, map_find_assign_ne _ _ _ _ ha, hlink a]

/-! ## Properties of every group of a tree -/

theorem groups_eq (g : group) : g.groups = g :: value.groups_map g.values_ := by
  cases g; simp [group.groups]

theorem mem_groups_self (g : group) : g ∈ g.groups := by
  rw [groups_eq]; exact List.mem_cons_self _ _

theorem mem_groups_map_assign (m : List (Str × value)) (k : Str) (v : value) (a : group)
    (h : a ∈ value.groups_map (map_assign m k v)) : a ∈ v.groups ∨ a ∈ value.groups_map m := by
  induction m with
  | nil => simpa [map_assign, value.groups_map] using h
  | cons e m ih =>
    obtain ⟨k1, v1⟩ := e
    simp only [map_assign] at h
    split at h
    · simp only [value.groups_map, List.mem_append] at h ⊢
      rcases h with h | h
      · exact Or.inl h
      · exact Or.inr (Or.inr h)
    · split at h
      · simp only [value.groups_map, List.mem_append] at h ⊢
        exact h
      · simp only [value.groups_map, List.mem_append] at h ⊢
        rcases h with h | h
        · exact Or.inr (Or.inl h)
        · rcases ih h with h | h
          · exact Or.inl h
          · exact Or.inr (Or.inr h)

theorem mem_groups_map_erase (m : List (Str × value)) (k : Str) (a : group)
    (h : a ∈ value.groups_map (map_erase m k)) : a ∈ value.groups_map m := by
  induction m with
  | nil => simpa [map_erase] using h
  | cons e m ih =>
    obtain ⟨k1, v1⟩ := e
    simp only [map_erase] at h
    split at h
    · simp only [value.groups_map, List.mem_append]
      exact Or.inr h
    · simp only [value.groups_map, List.mem_append] at h ⊢
      exact h.imp id ih

theorem mem_groups_map_find (m : List (Str × value)) (k : Str) (v : value) (a : group)
    (hm : map_find m k = some v) (h : a ∈ v.groups) : a ∈ value.groups_map m := by
  induction m with
  | nil => simp [map_find] at hm
  | cons e m ih =>
    obtain ⟨k1, v1⟩ := e
    simp only [map_find] at hm
    simp only [value.groups_map, List.mem_append]
    split at hm
    · cases hm; exact Or.inl h
    · exact Or.inr (ih hm)

theorem mem_groups_descend (par : List Str) :
    ∀ (g h : group), g.descend par = some h → ∀ a ∈ h.groups, a ∈ g.groups := by
  induction par with
  | nil => intro g h hd; simp [group.descend] at hd; simp [hd]
  | cons k ks ih =>
    intro g h hd a ha
    cases hm : map_find g.values_ k with
    | none => simp [group.descend, hm] at hd
    | some old =>
      cases old with
      | group grp =>
        simp only [group.descend, hm] at hd
        rw [groups_eq]
        exact List.mem_cons_of_mem _
          (mem_groups_map_find _ k _ a hm (by simpa [value.groups] using ih grp h hd a ha))
      | _ => simp [group.descend, hm] at hd

theorem final_on_state {σ τ α : Type} (r : Res σ α) (whole : σ → τ) :
    (r.on_state whole).final = r.final.map whole := by
  cases r <;> rfl


theorem set_key_of_found (g : group) (k : Str) (v : value)
    (h : (map_find g.values_ k).isSome = true) :
    g.set_key k v = .mk (map_assign g.values_ k v) g.order_ := by
  cases hm : map_find g.values_ k with
  | none => simp [hm] at h
  | some old => simp [group.set_key, hm]

theorem all_groups_set_key {Q : group → Prop} (hQ : kept_by_updates Q) (g : group) (k : Str)
    (v : value) (hk : (map_find g.values_ k).isSome = true ∨ valid_key k = true)
    (hg : ∀ a ∈ g.groups, Q a) (hv : ∀ a ∈ v.groups, Q a) :
    ∀ a ∈ (g.set_key k v).groups, Q a := by
  intro a ha
  rw [groups_eq, List.mem_cons] at ha
  rcases ha with rfl | ha
  · exact hQ.assign g k v (hg g (mem_groups_self g)) hk
  · rcases mem_groups_map_assign _ k v a (by simpa [group.set_key] using ha) with h | h
    · exact hv a h
    · exact hg a (by rw [groups_eq]; exact List.mem_cons_of_mem _ h)

theorem all_groups_replace_at {Q : group → Prop} (hQ : kept_by_updates Q) (par : List Str)
    (h1 : group) (h1Q : ∀ a ∈ h1.groups, Q a) :
    ∀ (g h : group), g.descend par = some h → (∀ a ∈ g.groups, Q a) →
      ∀ a ∈ (g.replace_at par h1).groups, Q a := by
  induction par with
  | nil => intro g h _ _; simpa [group.replace_at] using h1Q
  | cons k ks ih =>
    intro g h hd hg
    cases hm : map_find g.values_ k with
    | none => simp [group.descend, hm] at hd
    | some old =>
      cases old with
      | group grp =>
        simp only [group.descend, hm] at hd
        have hgrp : ∀ a ∈ grp.groups, Q a := fun a ha =>
          hg a (by
            rw [groups_eq]
            exact List.mem_cons_of_mem _ (mem_groups_map_find _ k _ a hm (by simpa [value.groups] using ha)))
        have heq : g.replace_at (k :: ks) h1 = g.set_key k (.group (grp.replace_at ks h1)) := by
          rw [set_key_of_found g k _ (by simp [hm])]
          simp [group.replace_at, hm]
        rw [heq]
        exact all_groups_set_key hQ g k _ (Or.inl (by simp [hm])) hg
          (by simpa [value.groups] using ih grp h hd hgrp)
      | _ => simp [group.descend, hm] at hd

theorem all_groups_create_value {Q : group → Prop} (hQ : kept_by_updates Q) (x : value)
    (hx : ∀ a ∈ x.groups, Q a) (rest : path) :
    ∀ (g s : group), (∀ a ∈ g.groups, Q a) → (g.create_value rest x).final = some s →
      ∀ a ∈ s.groups, Q a := by
  induction rest with
  | nil =>
    intro g s hg hs
    simp only [group.create_value, Res.final, Option.some.injEq] at hs
    subst hs
    exact hg
  | cons k ks ih =>
    intro g s hg hs
    by_cases hk : valid_key k = true
    · have hk2 := (valid_key_iff k).mp hk
      cases ks with
      | nil =>
        rw [group.create_value] at hs
        simp only [hk2.1, hk2.2, Bool.false_eq_true, if_false] at hs
        simp only [Res.final, Option.some.injEq] at hs
        subst hs
        exact all_groups_set_key hQ g k x (Or.inr hk) hg hx
      | cons k2 ks =>
        rw [group.create_value] at hs
        simp only [hk2.1, hk2.2, Bool.false_eq_true, if_false] at hs
        simp only [set_key_find] at hs
        have hempty : ∀ a ∈ group.empty.groups, Q a := by
          intro a ha
          simp only [group.empty, group.groups, value.groups_map, List.mem_singleton] at ha
          subst ha
          exact hQ.empty
        cases hc : group.empty.create_value (k2 :: ks) x with
        | diverge => simp [hc, Res.final] at hs
        | ok u s1 =>
          simp only [hc, Res.final, Option.some.injEq, set_key_set_key] at hs
          subst hs
          exact all_groups_set_key hQ g k _ (Or.inr hk) hg
            (by simpa [value.groups] using ih group.empty s1 hempty (by simp [hc, Res.final]))
        | throw e s1 =>
          simp only [hc, Res.final, Option.some.injEq, set_key_set_key] at hs
          subst hs
          exact all_groups_set_key hQ g k _ (Or.inr hk) hg
            (by simpa [value.groups] using ih group.empty s1 hempty (by simp [hc, Res.final]))
    · have hs1 : g.create_value (k :: ks) x = .throw .path_error g := by
        by_cases h1 : key_start_invalid k = true
        · cases ks <;> (rw [group.create_value]; simp [h1])
        · by_cases h2 : k.any key_char_invalid = true
          · cases ks <;> (rw [group.create_value]; simp [h1, h2])
          · exact absurd ((valid_key_iff k).mpr ⟨by simpa using h1, by simpa using h2⟩) hk
      simp only [hs1, Res.final, Option.some.injEq] at hs
      subst hs
      exact hg

/-- What holds of every group of a tree and is kept by the updates of one group holds
of every group of the tree `set` leaves, on a normal return as on a throw. -/
theorem all_groups_set {Q : group → Prop} (hQ : kept_by_updates Q) {α : Type}
    (T : value_type_info α) (g : group) (p : path) (v : α) (s : group)
    (hg : ∀ a ∈ g.groups, Q a) (hv : ∀ a ∈ (T.create_value v).groups, Q a)
    (hs : (g.set T p v).final = some s) : ∀ a ∈ s.groups, Q a := by
  cases hf : g.find_value p with
  | error e =>
    simp only [group.set, hf, Res.final, Option.some.injEq] at hs
    subst hs
    exact hg
  | ok r =>
    obtain ⟨r1, par, rest⟩ := r
    cases r1 with
    | some val =>
      obtain ⟨h, hd, hfound, hset⟩ := set_of_found T g p v val par rest hf
      simp only [hset, Res.final, Option.some.injEq] at hs
      subst hs
      refine all_groups_replace_at hQ _ _ ?_ g h hd hg
      rw [← set_key_of_found h _ _ (by rw [hfound]; rfl)]
      exact all_groups_set_key hQ h _ _ (Or.inl (by rw [hfound]; rfl))
        (fun a ha => hg a (mem_groups_descend _ g h hd a ha)) hv
    | none =>
      obtain ⟨h, hd, hset⟩ := set_of_none T g p v par rest hf
      rw [hset, final_on_state] at hs
      cases hc : (h.create_value rest (T.create_value v)).final with
      | none => simp [hc] at hs
      | some s1 =>
        simp only [hc, Option.map_some', Option.some.injEq] at hs
        subst hs
        exact all_groups_replace_at hQ _ _
          (all_groups_create_value hQ _ hv rest h s1
            (fun a ha => hg a (mem_groups_descend _ g h hd a ha)) hc) g h hd hg

/-- The same for `unset`. -/
theorem all_groups_unset {Q : group → Prop} (hQ : kept_by_updates Q) (g : group) (p : path)
    (s : group) (hg : ∀ a ∈ g.groups, Q a) (hs : (g.unset p).final = some s) :
    ∀ a ∈ s.groups, Q a := by
  cases hf : g.find_value p with
  | error e =>
    simp only [group.unset, hf, Res.final, Option.some.injEq] at hs
    subst hs
    exact hg
  | ok r =>
    obtain ⟨r1, par, rest⟩ := r
    cases r1 with
    | some val =>
      obtain ⟨h, hd, hfound, hset⟩ := unset_of_found g p val par rest hf
      simp only [hset, Res.final, Option.some.injEq] at hs
      subst hs
      refine all_groups_replace_at hQ _ _ ?_ g h hd hg
      intro a ha
      rw [groups_eq, List.mem_cons] at ha
      rcases ha with rfl | ha
      · exact hQ.erase h _ (hg h (mem_groups_descend _ g h hd h (mem_groups_self h)))
      · refine hg a (mem_groups_descend _ g h hd a ?_)
        rw [groups_eq]
        exact List.mem_cons_of_mem _ (mem_groups_map_erase _ _ a (by simpa using ha))
    | none =>
      simp only [group.unset, hf, Res.final, Option.some.injEq] at hs
      subst hs
      exact hg

theorem order_ok_kept : kept_by_updates group.order_ok := by
  refine ⟨?_, ?_, ?_⟩
  · simp [group.order_ok, group.keys, group.empty, keys_sorted]
  · intro g k v hg _
    obtain ⟨hs, hp⟩ := hg
    refine ⟨keys_sorted_assign _ k v hs, ?_⟩
    cases hm : map_find g.values_ k with
    | none =>
      have hk : k ∉ g.values_.map Prod.fst := (map_find_none_iff _ _).mp hm
      simp only [group.set_key, hm, Option.isNone_none, if_true, group.order_mk, group.keys,
        group.values_mk]
      exact ((List.perm_append_singleton k _).trans (hp.cons k)).trans
        (keys_assign_new _ k v hk).symm
    | some old =>
      have hk : k ∈ g.values_.map Prod.fst := (mem_keys_iff _ _).mpr (by simp [hm])
      simp only [group.set_key, hm, Option.isNone_some, Bool.false_eq_true, if_false,
        group.order_mk, group.keys, group.values_mk, keys_assign_found _ k v hs hk]
      exact hp
  · intro g k hg
    obtain ⟨hs, hp⟩ := hg
    simp only [group.order_ok, group.keys, group.values_mk, group.order_mk, keys_erase]
    refine ⟨List.Pairwise.sublist (List.erase_sublist _ _) hs, ?_⟩
    have hn2 : (g.values_.map Prod.fst).Nodup := keys_sorted_nodup hs
    have hn1 : g.order_.Nodup := hp.nodup_iff.mpr hn2
    rw [List.perm_ext_iff_of_nodup (hn1.erase k) (hn2.erase k)]
    intro a
    rw [hn1.mem_erase_iff, hn2.mem_erase_iff, hp.mem_iff]
    rfl

theorem keys_valid_kept : kept_by_updates fun g => ∀ k ∈ g.keys, valid_key k = true := by
  refine ⟨?_, ?_, ?_⟩
  · simp [group.keys, group.empty]
  · intro g k v hg hk a ha
    simp only [group.keys, group.set_key, group.values_mk] at ha
    rcases (mem_keys_assign _ k a v).mp ha with rfl | ha
    · rcases hk with hk | hk
      · exact hg a ((mem_keys_iff _ _).mpr hk)
      · exact hk
    · exact hg a ha
  · intro g k hg a ha
    simp only [group.keys, group.values_mk, keys_erase] at ha
    exact hg a (List.mem_of_mem_erase ha)

/-! ## What `unset` leaves alone -/

theorem lookup_congr (g g1 : group) (k : Str) (r : path)
    (h : map_find g1.values_ k = map_find g.values_ k) :
    g1.lookup (k :: r) = g.lookup (k :: r) := by
  cases r with
  | nil => rw [lookup_single, lookup_single, h]
  | cons k2 ks => rw [lookup_cons_cons, lookup_cons_cons, h]

theorem lookup_none_of_missing (g : group) (k : Str) (r : path)
    (h : map_find g.values_ k = none) : g.lookup (k :: r) = none := by
  cases r with
  | nil => rw [lookup_single, h]
  | cons k2 ks => rw [lookup_cons_cons, h]

theorem lookup_descend (par : List Str) (q : path) (hq : q ≠ []) :
    ∀ (g h : group), g.descend par = some h → g.lookup (par ++ q) = h.lookup q := by
  induction par with
  | nil => intro g h hd; simp [group.descend] at hd; simp [hd]
  | cons k ks ih =>
    intro g h hd
    cases hm : map_find g.values_ k with
    | none => simp [group.descend, hm] at hd
    | some old =>
      cases old with
      | group grp =>
        simp only [group.descend, hm] at hd
        obtain ⟨k2, ks2, hk⟩ := List.exists_cons_of_ne_nil
          (show ks ++ q ≠ [] by simp [hq])
        rw [List.cons_append, hk, lookup_cons_cons, hm]
        simp only
        rw [← hk]
        exact ih grp h hd
      | _ => simp [group.descend, hm] at hd

theorem lookup_replace_at_other (par : List Str) (h1 : group) :
    ∀ (g h : group) (q : path), g.descend par = some h → ¬ par <+: q → ¬ q <+: par →
      (g.replace_at par h1).lookup q = g.lookup q := by
  induction par with
  | nil => intro g h q _ hn _; exact absurd (List.nil_prefix) hn
  | cons k ks ih =>
    intro g h q hd hn1 hn2
    cases q with
    | nil => exact absurd (List.nil_prefix) hn2
    | cons a r =>
      cases hm : map_find g.values_ k with
      | none => simp [group.descend, hm] at hd
      | some old =>
        cases old with
        | group grp =>
          simp only [group.descend, hm] at hd
          by_cases ha : a = k
          · subst ha
            have hr1 : ¬ ks <+: r := fun hp => hn1 ((List.prefix_cons_inj a).mpr hp)
            have hr2 : ¬ r <+: ks := fun hp => hn2 ((List.prefix_cons_inj a).mpr hp)
            cases r with
            | nil => exact absurd (List.nil_prefix) hr2
            | cons k2 r2 =>
              rw [lookup_cons_cons, lookup_cons_cons, hm]
              simp only [group.replace_at, hm, group.values_mk, map_find_assign_self]
              exact ih grp h (k2 :: r2) hd hr1 hr2
          · apply lookup_congr
            simp only [group.replace_at, hm, group.values_mk]
            exact map_find_assign_ne _ _ _ _ ha
        | _ => simp [group.descend, hm] at hd

theorem descend_prefix (q r : List Str) :
    ∀ (g h : group), g.descend (q ++ r) = some h → ∃ hq, g.descend q = some hq := by
  induction q with
  | nil => intro g h _; exact ⟨g, rfl⟩
  | cons k ks ih =>
    intro g h hd
    cases hm : map_find g.values_ k with
    | none => simp [group.descend, hm] at hd
    | some old =>
      cases old with
      | group grp =>
        simp only [List.cons_append, group.descend, hm] at hd
        simpa [group.descend, hm] using ih grp h hd
      | _ => simp [group.descend, hm] at hd

theorem descend_replace_at_prefix (q r : List Str) (h1 : group) :
    ∀ (g h hq : group), g.descend (q ++ r) = some h → g.descend q = some hq →
      (g.replace_at (q ++ r) h1).descend q = some (hq.replace_at r h1) := by
  induction q with
  | nil =>
    intro g h hq _ hdq
    simp only [group.descend, Option.some.injEq] at hdq
    subst hdq
    simp [group.descend]
  | cons k ks ih =>
    intro g h hq hd hdq
    cases hm : map_find g.values_ k with
    | none => simp [group.descend, hm] at hd
    | some old =>
      cases old with
      | group grp =>
        simp only [List.cons_append, group.descend, hm] at hd hdq
        simp only [List.cons_append, group.replace_at, hm, group.descend, group.values_mk,
          map_find_assign_self]
        exact ih grp h hq hd hdq
      | _ => simp [group.descend, hm] at hd

/-! ## The accessors -/

/-- When `find_value` finds a value at `p`, `g.get<T>(p)` raises `value_error`, which is
not the path error, if the value fails the compatibility test of `T`, and otherwise it
is `extract_value` of `T` on the value: it returns what `extract_value` decodes when
that returns, and raises what it raises. -/
theorem get_of_resolved {α : Type} (T : value_type_info α) (g : group) (p : path)
    (val : value) (parent_group : List Str) (key_rest : path)
    (h : g.find_value p = .ok (some val, parent_group, key_rest)) :
    (T.can_convert_from val = false →
      g.get T p = .error .value_error ∧ g.get T p ≠ .error .path_error) ∧
    (T.can_convert_from val = true → g.get T p = T.extract_value val) ∧
    (∀ x, T.can_convert_from val = true → T.extract_value val = .ok x → g.get T p = .ok x) := by
  refine ⟨fun hc => ?_, fun hc => ?_, fun x hc hx => ?_⟩
  · simp [group.get, h, value.get, hc]
  · simp [group.get, h, value.get, hc]
  · simp [group.get, h, value.get, hc, hx]

/-- In the group `a = true`, `get<double>("a")` raises `value_error` and `get<bool>("a")`
returns `true`. -/
theorem get_of_resolved_on_sample :
    group_a_true.find_value [lit "a"] = .ok (some (.bool true), [], []) ∧
    group_a_true.get double_info [lit "a"] = .error .value_error ∧
    group_a_true.get bool_info [lit "a"] = .ok true :=
  ⟨rfl,
    ((get_of_resolved double_info group_a_true [lit "a"] (.bool true) [] [] rfl).1 rfl).1,
    (get_of_resolved bool_info group_a_true [lit "a"] (.bool true) [] [] rfl).2.2 true rfl rfl⟩

/-- C11 (the code fails it): in the group `a = [ "x" ]` the path `a` resolves to a value
that passes the compatibility test of `std::vector<double>` (`has` says so), and
`get<std::vector<double>>("a")` raises `value_error` where the claim has it return the
decoded value: the test of the adapter looks at the tag of the value only, and
`extract_value` calls `get<double>` on the string. So it is for the vector
`[ 1, "x" ]`, whose first element is a number. -/
theorem get_vector_raises_though_test_passes :
    group_a_strings.find_value [lit "a"]
      = .ok (some (.vector [.string (lit "x")]), [], []) ∧
    (vector_of_info double_info).can_convert_from (.vector [.string (lit "x")]) = true ∧
    group_a_strings.has (vector_of_info double_info) [lit "a"] = .ok true ∧
    group_a_strings.get (vector_of_info double_info) [lit "a"] = .error .value_error ∧
    (group.mk [(lit "a", .vector [.number 0x3ff0000000000000, .string (lit "x")])]
      [lit "a"]).get (vector_of_info double_info) [lit "a"] = .error .value_error ∧
    (group.mk [(lit "a", .vector [.number 0x3ff0000000000000])]
      [lit "a"]).get (vector_of_info double_info) [lit "a"] = .ok [0x3ff0000000000000] :=
  ⟨rfl, rfl, rfl, rfl, rfl, rfl⟩

/-- Counterexample of C12: in the group `a = true` the path `a` resolves to a value
that fails the compatibility test of `double`, and `get<double>("a", d)` returns the
default `d` (here 7.55); it raises nothing. -/
theorem get_or_wrong_type_returns_default :
    group_a_true.find_value [lit "a"] = .ok (some (.bool true), [], []) ∧
    double_info.can_convert_from (.bool true) = false ∧
    group_a_true.get_or double_info [lit "a"] 0x401e333333333333
      = .ok 0x401e333333333333 :=
  ⟨rfl, rfl, rfl⟩

/-- C12 as amended: `g.get<T>(p, d)` returns `d` for a wrong type as well: when `p`
resolves to a value that fails the compatibility test of `T` it returns `d` and raises
nothing, and it returns `d` when `p` is not empty and not found. -/
theorem get_or_default {α : Type} (T : value_type_info α) (g : group) (p : path) (d : α) :
    (∀ val parent_group key_rest, g.find_value p = .ok (some val, parent_group, key_rest) →
      T.can_convert_from val = false → g.get_or T p d = .ok d) ∧
    (p ≠ [] → not_found g p = true → g.get_or T p d = .ok d) := by
  refine ⟨fun val par rest h hc => ?_, fun hne hnf => ?_⟩
  · simp [group.get_or, h, value.get_or, hc]
  · obtain ⟨r, par, rest, h1, h2⟩ := find_value_result p g hne
    have hr : r = none := h2.mpr hnf
    subst hr
    simp [group.get_or, h1]

/-- Witness of C12 as amended: the wrong type in the group `a = true`, and the path
`b`, which is not found there. -/
theorem get_or_default_witness :
    group_a_true.get_or double_info [lit "a"] 5 = .ok 5 ∧
    group_a_true.get_or double_info [lit "b"] 5 = .ok 5 :=
  ⟨(get_or_default double_info group_a_true [lit "a"] 5).1 (.bool true) [] [] rfl rfl,
    (get_or_default double_info group_a_true [lit "b"] 5).2 (by simp) rfl⟩

/-- C13 (the code fails it): the group `a = [ "x" ]`, which `set` makes of the empty
group, holds at `a` a value that passes the compatibility test of `std::vector<double>`
(it is a vector), and `get<std::vector<double>>("a", d)` raises `value_error`: the
test does not look at the elements and `extract_value` calls `get<double>` on each. -/
theorem get_or_vector_raises :
    group.empty.set vector_info [lit "a"] [.string (lit "x")] = .ok () group_a_strings ∧
    (vector_of_info double_info).can_convert_from (.vector [.string (lit "x")]) = true ∧
    group_a_strings.get_or (vector_of_info double_info) [lit "a"] [] = .error .value_error :=
  ⟨rfl, rfl, rfl⟩

/-- C14: for a path `p` that is not empty, `g.has<T>(p)` returns; it returns `true`
exactly when `find_value` finds a value at `p` and that value passes the compatibility
test of `T`, and `false` when `p` is not found. -/
theorem has_iff {α : Type} (T : value_type_info α) (g : group) (p : path) (hne : p ≠ []) :
    ∃ b, g.has T p = .ok b ∧
      (b = true ↔ ∃ val parent_group key_rest,
        g.find_value p = .ok (some val, parent_group, key_rest) ∧
          T.can_convert_from val = true) ∧
      (b = true ↔ not_found g p = false ∧
        ∃ val, g.lookup p = some val ∧ T.can_convert_from val = true) := by
  obtain ⟨r, par, rest, h1, h2⟩ := find_value_result p g hne
  cases r with
  | none =>
    have hnf : not_found g p = true := h2.mp rfl
    exact ⟨false, by simp [group.has, h1], by simp [h1], by simp [hnf]⟩
  | some val =>
    have hnf : not_found g p = false := by
      cases hh : not_found g p with
      | false => rfl
      | true => exact absurd (h2.mpr hh) (by simp)
    refine ⟨T.can_convert_from val, by simp [group.has, h1, value.is], ?_, ?_⟩
    · simp [h1]
    · simp [hnf, group.lookup, h1]

/-- Witness of C14: in the group `a = true`, `has<bool>("a")` is true, `has<double>("a")`
and `has<bool>("b")` are false. -/
theorem has_iff_witness :
    ([lit "a"] : path) ≠ [] ∧
    group_a_true.has bool_info [lit "a"] = .ok true ∧
    group_a_true.has double_info [lit "a"] = .ok false ∧
    group_a_true.has bool_info [lit "b"] = .ok false ∧
    ∃ b, group_a_true.has bool_info [lit "a"] = .ok b ∧
      (b = true ↔ ∃ val parent_group key_rest,
        group_a_true.find_value [lit "a"] = .ok (some val, parent_group, key_rest) ∧
          bool_info.can_convert_from val = true) ∧
      (b = true ↔ not_found group_a_true [lit "a"] = false ∧
        ∃ val, group_a_true.lookup [lit "a"] = some val ∧
          bool_info.can_convert_from val = true) :=
  ⟨by simp, rfl, rfl, rfl, has_iff bool_info group_a_true [lit "a"] (by simp)⟩

/-! ## Writing through a value that is not a group -/

/-- Counterexample of C19: in the group `a = true` the first segment of `a.b` names a
value that is not a group, and `set<double>("a.b", 5.0)` returns: it leaves the group
`a = \x7b b = 5 \x7d`. -/
theorem set_through_scalar_returns :
    group_a_true.lookup [lit "a"] = some (.bool true) ∧
    group_a_true.set double_info [lit "a", lit "b"] 0x4014000000000000
      = .ok () (.mk [(lit "a", .group (.mk [(lit "b", .number 0x4014000000000000)] [lit "b"]))]
          [lit "a"]) :=
  ⟨rfl, rfl⟩

/-- C19 as amended: when the segment `k` of `p = pre.k.q` names, in the group `pre`
leads to, a value that is not a group, `g.set(p, v)` raises nothing if `k` and the
segments after it are valid keys, and raises the path error if one of them is not: the
value in the way does not make it raise. -/
theorem set_through_scalar {α : Type} (T : value_type_info α) (g h : group) (pre : List Str)
    (k : Str) (q : path) (v : α) (old : value) (hq : q ≠ [])
    (hd : g.descend pre = some h) (hold : map_find h.values_ k = some old)
    (hng : old.type ≠ .group_type) :
    ((∀ a ∈ k :: q, valid_key a = true) → ∃ g1, g.set T (pre ++ k :: q) v = .ok () g1) ∧
    ((∃ a ∈ k :: q, valid_key a = false) →
      ∃ g1, g.set T (pre ++ k :: q) v = .throw .path_error g1) := by
  have hng1 : ∀ grp, map_find h.values_ k ≠ some (.group grp) := by
    intro grp hh
    rw [hold] at hh
    cases hh
    exact hng rfl
  have hf := find_value_blocked pre k q hq g h hd hng1
  obtain ⟨h1, hd1, hset⟩ := set_of_none T g _ v pre (k :: q) hf
  rw [hd] at hd1
  cases hd1
  constructor
  · intro hv
    rw [hset, create_value_valid q _ k h hv]
    exact ⟨_, rfl⟩
  · intro hv
    obtain ⟨g1, hg1⟩ := create_value_invalid q (T.create_value v) k h hv
    rw [hset, hg1]
    exact ⟨_, rfl⟩

/-- Witness of C19 as amended: `set<double>("a.b", 5.0)` on the group `a = true`
returns, and `set<double>("a._b", 5.0)` raises the path error. -/
theorem set_through_scalar_witness :
    (∃ g1, group_a_true.set double_info ([] ++ lit "a" :: [lit "b"]) 5 = .ok () g1) ∧
    (∃ g1, group_a_true.set double_info ([] ++ lit "a" :: [lit "_b"]) 5
      = .throw .path_error g1) :=
  ⟨(set_through_scalar double_info group_a_true group_a_true [] (lit "a") [lit "b"] 5
      (.bool true) (by simp) rfl rfl (by simp [value.type])).1 (by decide),
    (set_through_scalar double_info group_a_true group_a_true [] (lit "a") [lit "_b"] 5
      (.bool true) (by simp) rfl rfl (by simp [value.type])).2 (by decide)⟩

/-- Counterexample of C20: in the group `a = true` the first segment of `a.9` names a
value that is not a group, and `set<bool>("a.9", true)` does not succeed: it raises the
path error, because `9` is no valid key. -/
theorem set_through_scalar_raises_on_invalid_key :
    group_a_true.lookup [lit "a"] = some (.bool true) ∧
    valid_key (lit "9") = false ∧
    (group_a_true.set bool_info [lit "a", lit "9"] true).exception = some .path_error :=
  ⟨rfl, rfl, rfl⟩

/-- C20 as amended: when the segment `k` of `p = pre.k.q` names, in the group `h` that
`pre` leads to, a value that is not a group, and `k` and the segments after it are valid
keys, `g.set<T>(p, v)` returns; in the group it leaves, `pre` leads to `h` with the value
at `k` replaced by the chain of new groups that holds `v` and with the same key order;
`p` resolves to the value stored, so `get<T>(p)` returns `v` for an adapter that reads
back what it stores; and `get<U>(pre.k)` raises `value_error` for every adapter `U` that
accepts no group, as those of the scalar types. -/
theorem set_replaces_scalar {α : Type} (T : value_type_info α) (g h : group)
    (pre : List Str) (k : Str) (q : path) (v : α) (old : value) (hq : q ≠ [])
    (hd : g.descend pre = some h) (hold : map_find h.values_ k = some old)
    (hng : old.type ≠ .group_type) (hv : ∀ a ∈ k :: q, valid_key a = true) :
    ∃ g1, g.set T (pre ++ k :: q) v = .ok () g1 ∧
      g1.descend pre = some (.mk (map_assign h.values_ k (chain_value q (T.create_value v)))
        h.order_) ∧
      g1.lookup (pre ++ k :: q) = some (T.create_value v) ∧
      (T.can_convert_from (T.create_value v) = true →
        T.extract_value (T.create_value v) = .ok v → g1.get T (pre ++ k :: q) = .ok v) ∧
      ∀ {β : Type} (U : value_type_info β), (∀ grp, U.can_convert_from (.group grp) = false) →
        g1.get U (pre ++ [k]) = .error .value_error := by
  have hng1 : ∀ grp, map_find h.values_ k ≠ some (.group grp) := by
    intro grp hh
    rw [hold] at hh
    cases hh
    exact hng rfl
  have hf := find_value_blocked pre k q hq g h hd hng1
  obtain ⟨h1, hd1, hset⟩ := set_of_none T g _ v pre (k :: q) hf
  rw [hd] at hd1
  cases hd1
  rw [create_value_valid q _ k h hv] at hset
  have hkey : h.set_key k (chain_value q (T.create_value v))
      = .mk (map_assign h.values_ k (chain_value q (T.create_value v))) h.order_ := by
    simp [group.set_key, hold]
  rw [hkey] at hset
  have hlook : (g.replace_at pre (.mk (map_assign h.values_ k
      (chain_value q (T.create_value v))) h.order_)).lookup (pre ++ k :: q)
        = some (T.create_value v) := by
    rw [lookup_replace_at pre _ (k :: q) (by simp) g h hd]
    exact lookup_chain q _ _ k (by simp [map_find_assign_self])
  refine ⟨_, hset, descend_replace_at pre _ g h hd, hlook, ?_, ?_⟩
  · intro hc he
    rw [get_eq_lookup, hlook]
    simp [value.get, hc, he]
  · intro β U hU
    rw [get_eq_lookup, lookup_replace_at pre _ [k] (by simp) g h hd, lookup_single]
    simp only [group.values_mk, map_find_assign_self]
    obtain ⟨k2, ks2, rfl⟩ := List.exists_cons_of_ne_nil hq
    simp [chain_value, value.get, hU]

/-- Witness of C20 as amended: `set<double>("a.b.c", 5.0)` on the group `a = true`
returns, and then `get<double>("a.b.c")` returns 5.0 and `get<bool>("a")` raises
`value_error`. -/
theorem set_replaces_scalar_witness :
    ∃ g1, group_a_true.set double_info [lit "a", lit "b", lit "c"] 0x4014000000000000
        = .ok () g1 ∧
      g1.get double_info [lit "a", lit "b", lit "c"] = .ok 0x4014000000000000 ∧
      g1.get bool_info [lit "a"] = .error .value_error :=
  let ⟨g1, h1, _, _, h4, h5⟩ :=
    set_replaces_scalar double_info group_a_true group_a_true [] (lit "a") [lit "b", lit "c"]
      0x4014000000000000 (.bool true) (by simp) rfl rfl (by simp [value.type]) (by decide)
  ⟨g1, h1, h4 rfl rfl, h5 bool_info (fun _ => rfl)⟩

/-! ## The order of the keys -/

/-- C15: when `g.set<T>(p, v)` returns, the group that holds the last segment of `p`
afterwards has the key order it had before if the key was there, that order with the
key appended if the group was there without the key, and the key alone if the group was
not there (it is new). So the calls `set<value>(p, v)` of a list, made one after the
other on the empty group, leave the first segments of the paths in the order of their
first occurrence: that is the order `begin()` and `end()` iterate in. -/
theorem set_order {α : Type} (T : value_type_info α) (g : group) (p : path) (v : α)
    (g1 : group) (hset : g.set T p v = .ok () g1) :
    (∃ h1, g1.descend p.dropLast = some h1 ∧
      (∀ h, g.descend p.dropLast = some h →
        (map_find h.values_ (p.getLastD [])).isSome = true → h1.order_ = h.order_) ∧
      (∀ h, g.descend p.dropLast = some h →
        map_find h.values_ (p.getLastD []) = none → h1.order_ = h.order_ ++ [p.getLastD []]) ∧
      (g.descend p.dropLast = none → h1.order_ = [p.getLastD []])) ∧
    (∀ (calls : List (path × value)) (g2 : group), group.empty.set_each calls = .ok () g2 →
      g2.order_ = first_occurrences [] (calls.map fun c => c.1.headD [])) := by
  constructor
  · cases hf : g.find_value p with
    | error e => simp [group.set, hf] at hset
    | ok r =>
      obtain ⟨r1, par, rest⟩ := r
      cases r1 with
      | some val =>
        obtain ⟨h, hd, hv, hs⟩ := set_of_found T g p v val par rest hf
        rw [hs] at hset
        cases hset
        refine ⟨_, descend_replace_at _ _ g h hd, ?_, ?_, ?_⟩
        · intro h2 hd2 _
          rw [hd] at hd2
          cases hd2
          rfl
        · intro h2 hd2 hn
          rw [hd] at hd2
          cases hd2
          rw [hv] at hn
          cases hn
        · intro hn
          rw [hd] at hn
          cases hn
      | none =>
        obtain ⟨h, k, ks, hp, hr, hd, hnone, hblocked⟩ := find_value_none p g par rest hf
        obtain ⟨h2, hd2, hs⟩ := set_of_none T g p v par rest hf
        rw [hd] at hd2
        cases hd2
        rw [hs] at hset
        obtain ⟨s, hc, hg1⟩ := on_state_ok hset
        subst hg1 hr hp
        obtain ⟨_, hs1⟩ := create_value_ok ks _ k h s hc
        subst hs1
        rw [getLastD_append_cons]
        cases ks with
        | nil =>
          have hm := hnone rfl
          simp only [List.dropLast_concat, List.getLastD_nil]
          refine ⟨_, descend_replace_at _ _ g h hd, ?_, ?_, ?_⟩
          · intro h2 hd2 hsome
            rw [hd] at hd2
            cases hd2
            rw [hm] at hsome
            cases hsome
          · intro h2 hd2 _
            rw [hd] at hd2
            cases hd2
            exact set_key_order_new h k _ hm
          · intro hn
            rw [hd] at hn
            cases hn
        | cons k2 ks =>
          have hng := hblocked (by simp)
          have hbefore : g.descend (par ++ k :: (k2 :: ks).dropLast) = none := by
            rw [descend_append par _ g h hd]
            cases hm : map_find h.values_ k with
            | none => simp [group.descend, hm]
            | some old =>
              cases old with
              | group grp => exact absurd hm (hng grp)
              | _ => simp [group.descend, hm]
          rw [List.dropLast_append_cons, List.dropLast_cons_of_ne_nil (by simp), hbefore]
          refine ⟨.mk [((k2 :: ks).getLastD [], T.create_value v)] [(k2 :: ks).getLastD []],
            ?_, ?_, ?_, ?_⟩
          · rw [descend_append par _ _ _ (descend_replace_at par _ g h hd)]
            exact descend_chain (k2 :: ks) _ (by simp) _ k (set_key_find h k _)
          · intro h2 hd2; cases hd2
          · intro h2 hd2; cases hd2
          · intro _
            simp only [group.order_mk, List.getLastD_cons]
  · have key : ∀ (calls : List (path × value)) (g0 g2 : group),
        (∀ k, k ∈ g0.order_ ↔ (map_find g0.values_ k).isSome = true) →
        g0.set_each calls = .ok () g2 →
        g2.order_ = first_occurrences g0.order_ (calls.map fun c => c.1.headD []) := by
      intro calls
      induction calls with
      | nil =>
        intro g0 g2 _ h
        simp only [group.set_each, Res.ok.injEq, true_and] at h
        simp [first_occurrences, h]
      | cons c calls ih =>
        intro g0 g2 hlink h
        obtain ⟨p, x⟩ := c
        simp only [group.set_each] at h
        cases hs : g0.set value_info p x with
        | throw e s => simp [hs, Res.bind] at h
        | diverge => simp [hs, Res.bind] at h
        | ok u s =>
          simp only [hs, Res.bind] at h
          obtain ⟨y, hy⟩ := set_root value_info g0 p x s hs
          subst hy
          obtain ⟨hlink1, horder⟩ := set_key_order_step g0 (p.headD []) y hlink
          rw [ih _ g2 hlink1 h, horder]
          simp only [first_occurrences, List.map_cons, List.foldl_cons]
    intro calls g2 h
    exact key calls group.empty g2 (by simp [group.empty, map_find]) h

/-- Witness of C15: on the group `a = true`, `set<bool>("a", false)` keeps the order
`a` and `set<bool>("b", false)` makes it `a`, `b`. -/
theorem set_order_witness :
    (∃ h1, (group.mk [(lit "a", .bool false)] [lit "a"]).descend [] = some h1 ∧
      h1.order_ = [lit "a"]) ∧
    (∃ h1, (group.mk [(lit "a", .bool true), (lit "b", .bool false)]
        [lit "a", lit "b"]).descend [] = some h1 ∧ h1.order_ = [lit "a"] ++ [lit "b"]) := by
  constructor
  · obtain ⟨h1, hd, hsame, _, _⟩ :=
      (set_order bool_info group_a_true [lit "a"] false _ rfl).1
    exact ⟨h1, hd, hsame group_a_true rfl rfl⟩
  · obtain ⟨h1, hd, _, hnew, _⟩ :=
      (set_order bool_info group_a_true [lit "b"] false _ rfl).1
    exact ⟨h1, hd, hnew group_a_true rfl rfl⟩

/-! ## The syntax of keys -/

/-- C18: the keys `g.set<T>(p, v)` would create are the segments `find_value` leaves
for `create_value` (`key_rest`). If one of them is not a valid key (the empty segment is
not), `set` raises the path error; if all of them are valid keys, `set` returns; and it
returns when `p` resolves to a value, where no key is created. So every key of every
group of a tree built by `set` is a valid key. -/
theorem set_validates_keys {α : Type} (T : value_type_info α) (g : group) (p : path) (v : α) :
    (∀ parent_group key_rest, g.find_value p = .ok (none, parent_group, key_rest) →
      ((∃ k ∈ key_rest, valid_key k = false) →
        ∃ g1, g.set T p v = .throw .path_error g1) ∧
      ((∀ k ∈ key_rest, valid_key k = true) → ∃ g1, g.set T p v = .ok () g1)) ∧
    (∀ val parent_group key_rest, g.find_value p = .ok (some val, parent_group, key_rest) →
      ∃ g1, g.set T p v = .ok () g1) ∧
    valid_key [] = false ∧
    (set_built g → ∀ h ∈ g.groups, ∀ k ∈ h.keys, valid_key k = true) := by
  refine ⟨?_, ?_, rfl, ?_⟩
  · intro par rest hf
    obtain ⟨h, k, ks, _, hr, _, _⟩ := find_value_none p g par rest hf
    obtain ⟨h1, _, hset⟩ := set_of_none T g p v par rest hf
    subst hr
    constructor
    · intro hv
      obtain ⟨g1, hg1⟩ := create_value_invalid ks (T.create_value v) k h1 hv
      rw [hset, hg1]
      exact ⟨_, rfl⟩
    · intro hv
      rw [hset, create_value_valid ks _ k h1 hv]
      exact ⟨_, rfl⟩
  · intro val par rest hf
    obtain ⟨h, _, _, hset⟩ := set_of_found T g p v val par rest hf
    exact ⟨_, hset⟩
  · intro hb
    induction hb with
    | empty =>
      intro h hh
      simp only [group.empty, group.groups, value.groups_map, List.mem_singleton] at hh
      subst hh
      simp [group.keys]
    | set T g p v g1 _ _ hs ih1 ih2 =>
      exact all_groups_set keys_valid_kept T g p v g1 ih1
        (fun a ha => ih2 a ha a (mem_groups_self a)) hs

/-- Witness of C18: on the group `a = true`, `set<bool>("_abc", false)` and
`set<bool>("b..c", false)`, whose second segment is empty, raise the path error, and
`set<bool>("b.c", false)` returns. -/
theorem set_validates_keys_witness :
    (∃ g1, group_a_true.set bool_info (path.parse (lit "_abc")) false
      = .throw .path_error g1) ∧
    (∃ g1, group_a_true.set bool_info (path.parse (lit "b..c")) false
      = .throw .path_error g1) ∧
    (∃ g1, group_a_true.set bool_info (path.parse (lit "b.c")) false = .ok () g1) :=
  ⟨((set_validates_keys bool_info group_a_true (path.parse (lit "_abc")) false).1
      [] [lit "_abc"] rfl).1 ⟨lit "_abc", by simp, by decide⟩,
    ((set_validates_keys bool_info group_a_true (path.parse (lit "b..c")) false).1
      [] [lit "b", [], lit "c"] rfl).1 ⟨[], by simp, by decide⟩,
    ((set_validates_keys bool_info group_a_true (path.parse (lit "b.c")) false).1
      [] [lit "b", lit "c"] rfl).2 (by decide)⟩

/-! ## Removing an entry -/

/-- Counterexample of C17: in the group `a = \x7b b = true \x7d` the path `a` resolves
to a value and `a.b`, another path, resolves to `true`; `unset("a")` leaves the empty
group, where `a.b` is not found. -/
theorem unset_removes_paths_below :
    (group_a_b_true.lookup [lit "a"]).isSome = true ∧
    ([lit "a", lit "b"] : path) ≠ [lit "a"] ∧
    group_a_b_true.lookup [lit "a", lit "b"] = some (.bool true) ∧
    group_a_b_true.unset [lit "a"] = .ok () group.empty ∧
    group.empty.lookup [lit "a", lit "b"] = none :=
  ⟨rfl, by decide, rfl, rfl, rfl⟩

/-- C17 as amended, for a group `g` whose groups keep the order invariant and a path
`p` that is not empty. If `p` resolves to a value, `g.unset(p)` returns; in the group it
leaves, the group that held the last segment of `p` is still there, with that key erased
from the map and from the order list and nothing else changed; `p`, and every path that
starts with `p`, is not found; every path that does not start with `p` and is no prefix
of `p` resolves to what it resolved to before; and along every proper prefix of `p`
there is still a group, with the key order it had. If `p` does not resolve to a value,
`g.unset(p)` returns and leaves `g` as it was. -/
theorem unset_frame (g : group) (p : path) (hne : p ≠ [])
    (hg : ∀ a ∈ g.groups, a.order_ok) :
    (∀ val, g.lookup p = some val →
      ∃ g1 h, g.unset p = .ok () g1 ∧ g.descend p.dropLast = some h ∧
        g1.descend p.dropLast = some (.mk (map_erase h.values_ (p.getLastD []))
          (h.order_.erase (p.getLastD []))) ∧
        (∀ q, p <+: q → g1.lookup q = none ∧ not_found g1 q = true) ∧
        (∀ q, ¬ p <+: q → ¬ q <+: p → g1.lookup q = g.lookup q) ∧
        (∀ q, q <+: p → q ≠ p → ∃ hq hq1, g.descend q = some hq ∧
          g1.descend q = some hq1 ∧ (q ≠ p.dropLast → hq1.order_ = hq.order_))) ∧
    (g.lookup p = none → g.unset p = .ok () g) := by
  obtain ⟨r, par, rest, hf, hnf⟩ := find_value_result p g hne
  constructor
  · intro val hval
    have hr : r = some val := by simpa [group.lookup, hf] using hval
    subst hr
    obtain ⟨h, hd, hfound, hset⟩ := unset_of_found g p val par rest hf
    obtain ⟨pre, k, rfl⟩ : ∃ pre k, p = pre ++ [k] :=
      ⟨p.dropLast, p.getLast hne, (List.dropLast_append_getLast hne).symm⟩
    simp only [List.dropLast_concat, List.getLastD_concat] at hd hfound hset ⊢
    have hsorted : keys_sorted (h.values_.map Prod.fst) :=
      (hg h (mem_groups_descend _ g h hd h (mem_groups_self h))).1
    have hbelow : ∀ q, pre ++ [k] <+: q →
        (g.replace_at pre (.mk (map_erase h.values_ k) (h.order_.erase k))).lookup q
          = none := by
      rintro q ⟨r, rfl⟩
      rw [List.append_assoc, lookup_replace_at pre _ _ (by simp) g h hd]
      exact lookup_none_of_missing _ k r (by simpa using map_find_erase_self _ k hsorted)
    refine ⟨_, h, hset, hd, descend_replace_at pre _ g h hd, ?_, ?_, ?_⟩
    · intro q hq
      refine ⟨hbelow q hq, ?_⟩
      obtain ⟨r, rfl⟩ := hq
      obtain ⟨r2, par2, rest2, hf2, hnf2⟩ := find_value_result (pre ++ [k] ++ r)
        (g.replace_at pre (.mk (map_erase h.values_ k) (h.order_.erase k))) (by simp)
      have := hbelow (pre ++ [k] ++ r) ⟨r, rfl⟩
      simp only [group.lookup, hf2] at this
      exact hnf2.mp this
    · intro q hn1 hn2
      by_cases hpre : pre <+: q
      · obtain ⟨r, rfl⟩ := hpre
        cases r with
        | nil => exact absurd ⟨[k], by simp⟩ hn2
        | cons a r =>
          have ha : a ≠ k := by
            rintro rfl
            exact hn1 ⟨r, by simp⟩
          rw [lookup_replace_at pre _ _ (by simp) g h hd, lookup_descend pre _ (by simp) g h hd]
          exact lookup_congr _ _ a r (by simpa using map_find_erase_ne _ k a ha)
      · exact lookup_replace_at_other pre _ g h q hd hpre
          (fun hq => hn2 (hq.trans (List.prefix_append _ _)))
    · intro q hq hqne
      have hq1 : q <+: pre := by
        obtain ⟨r, hr⟩ := hq
        rcases List.eq_nil_or_concat r with rfl | ⟨r1, b, rfl⟩
        · exact absurd (by simpa using hr) hqne
        · rw [List.concat_eq_append, ← List.append_assoc] at hr
          obtain ⟨hr1, _⟩ := List.append_inj' hr rfl
          exact ⟨r1, hr1⟩
      obtain ⟨r, rfl⟩ := hq1
      obtain ⟨hq0, hdq⟩ := descend_prefix q r g h hd
      refine ⟨hq0, _, hdq, descend_replace_at_prefix q r _ g h hq0 hd hdq, ?_⟩
      intro hne2
      cases r with
      | nil => exact absurd (by simp) hne2
      | cons a r => exact order_replace_at a r hq0 _
  · intro hnone
    have hr : r = none := by simpa [group.lookup, hf] using hnone
    subst hr
    simp [group.unset, hf]

/-- Witness of C17 as amended: `unset("a.b")` on the group `a = \x7b b = true \x7d`
leaves the group `a = \x7b \x7d`, and `unset("a.c")` leaves the group as it was. -/
theorem unset_frame_witness :
    (∃ g1 h, group_a_b_true.unset [lit "a", lit "b"] = .ok () g1 ∧
      group_a_b_true.descend [lit "a"] = some h ∧
      g1.descend [lit "a"] = some (.mk (map_erase h.values_ (lit "b"))
        (h.order_.erase (lit "b"))) ∧
      g1.lookup [lit "a", lit "b"] = none) ∧
    group_a_b_true.unset [lit "a", lit "c"] = .ok () group_a_b_true := by
  have hok : ∀ a ∈ group_a_b_true.groups, a.order_ok := by decide
  constructor
  · obtain ⟨g1, h, h1, h2, h3, h4, _, _⟩ :=
      (unset_frame group_a_b_true [lit "a", lit "b"] (by simp) hok).1 (.bool true) rfl
    exact ⟨g1, h, h1, h2, h3, (h4 _ (List.prefix_refl _)).1⟩
  · exact (unset_frame group_a_b_true [lit "a", lit "c"] (by simp) hok).2 rfl

/-! ## The round-trip writer on concrete texts -/

/-- C1 (the code fails it): the group `a = \x7b\x7d`, which `set<group>("a", group())`
makes of the empty group, is written into the empty text as `a = \x7b \x7d`, and `read`
raises a parse error on that text: `read_group` leaves the closing brace of an empty
group unread. -/
theorem read_write_fails_on_empty_group :
    group.empty.set group_info [lit "a"] group.empty = .ok () group_a_empty ∧
    write sample_platform group_a_empty [] 120 = .ok (lit "a = \x7b \x7d") () ∧
    (read_write sample_platform group_a_empty [] 120).exception = some (.parse_error 1 6) :=
  ⟨rfl, by decide!, by decide!⟩

/-- C2 (the code fails it): on a previous text with a string literal that is not
closed, `write` raises the parse error of the scanner, whatever the group and the
wrap width: `scan` is called before the `try`. -/
theorem write_raises_on_unclosed_string (P : Platform) (grp : group) (wrap_length : Int) :
    write P grp (lit "key = \"abc") wrap_length = .throw (.parse_error 1 11) () := by
  rfl

/-- C3 (the code fails it): against `a = true b`, which `read` rejects, the group
`a = true` is written as `a = true`, newline, `a = true`, but as `a = true` against the
empty text; against `asdf = \x7b` the group `asdf = \x7b\x7d` is written as
`asdf = \x7b asdf = \x7b \x7d`, but as `asdf = \x7b \x7d` against the empty text. What
was written before the failure stays in the buffer. -/
theorem write_fallback_keeps_partial_output :
    (read sample_platform (lit "a = true b")).exception = some (.parse_error 0 0) ∧
    write sample_platform group_a_true (lit "a = true b") 50
      = .ok (lit "a = true\na = true") () ∧
    write sample_platform group_a_true [] 50 = .ok (lit "a = true") () ∧
    write sample_platform group_asdf (lit "asdf = \x7b") 50
      = .ok (lit "asdf = \x7b asdf = \x7b \x7d") () ∧
    write sample_platform group_asdf [] 50 = .ok (lit "asdf = \x7b \x7d") () :=
  ⟨by decide!, by decide!, by decide!, by decide!, by decide!⟩

/-- C4 (the code fails it): in the scenario (`scenario_text` read, `key2` set to 7.55,
the group written against `scenario_text` at width 50) the output ends after
`key2 = 7.55` and a newline: the comment `// c`, which follows the last token of the
old text, is not written. -/
theorem scenario_drops_trailing_comment :
    scenario_output sample_platform = .ok (lit "key1 = \"string\"\n\nkey2 = 7.55\n") () := by
  decide!

/-- C5 (the code fails it): the group read from the text `a = true // c`, written
against that same text, gives `a = true` and a newline: the comment of the unchanged
entry is lost. -/
theorem trailing_comment_is_lost :
    rewrite sample_platform (lit "a = true // c\n") 120 = .ok (lit "a = true\n") () := by
  decide!

/-- C6 (the code fails it): `a = true`, the output of `write` for the group `a = true`
and the empty text, is rewritten with a newline added; and the output of `write` for
the group `a = [ ]` against `a = [ ]` wrapped (width 2) is rewritten, at the same
width, with one more empty line. -/
theorem write_is_not_idempotent :
    write sample_platform group_a_true [] 120 = .ok (lit "a = true") () ∧
    rewrite sample_platform (lit "a = true") 120 = .ok (lit "a = true\n") () ∧
    write sample_platform group_a_vector (lit "a = [ \n    \n]") 2
      = .ok (lit "a = [ \n    \n\n]\n") () ∧
    rewrite sample_platform (lit "a = [ \n    \n\n]\n") 2
      = .ok (lit "a = [ \n    \n\n\n]\n") () :=
  ⟨by decide!, by decide!, by decide!, by decide!⟩

/-! ## The order invariant -/

theorem Res.yields_ok {σ α : Type} {Q : α → Prop} {a : α} (s : σ) (h : Q a) :
    (Res.ok a s).yields Q := by
  intro b t hb
  cases hb
  exact h

theorem Res.yields_throw {σ α : Type} (Q : α → Prop) (e : exn) (s : σ) :
    (Res.throw e s : Res σ α).yields Q := by
  intro b t hb
  cases hb

theorem Res.yields_fail {σ α : Type} (Q : α → Prop) (st : St σ) (l c : Nat) :
    (scanner.fail st l c : Res (St σ) α).yields Q := by
  intro b t hb
  simp [scanner.fail] at hb

theorem Res.yields_bind {σ α β : Type} {Q1 : α → Prop} {Q2 : β → Prop} {r : Res σ α}
    {k : α → σ → Res σ β} (h1 : r.yields Q1) (h2 : ∀ a s, Q1 a → (k a s).yields Q2) :
    (r.bind k).yields Q2 := by
  cases r with
  | ok a s => exact h2 a s (h1 a s rfl)
  | throw e s => exact Res.yields_throw Q2 e s
  | diverge => intro b t hb; cases hb

theorem Res.yields_true {σ α : Type} (r : Res σ α) : r.yields fun _ => True :=
  fun _ _ _ => trivial

theorem groups_list_append (vec : List value) (val : value) :
    value.groups_list (vec ++ [val]) = value.groups_list vec ++ val.groups := by
  induction vec with
  | nil => simp [value.groups_list]
  | cons v vs ih => simp [value.groups_list, ih]

/-- What the updates of one group keep holds of every group of what the reader
returns. -/
theorem read_yields {Q : group → Prop} (hQ : kept_by_updates Q) {σ : Type} : ∀ fuel : Nat,
    (∀ st : St σ, (read_value fuel st).yields fun val => ∀ a ∈ val.groups, Q a) ∧
    (∀ b (st : St σ), (read_group fuel b st).yields fun g => ∀ a ∈ g.groups, Q a) ∧
    (∀ b grp (st : St σ), (∀ a ∈ grp.groups, Q a) →
      (read_group_loop fuel b grp st).yields fun g => ∀ a ∈ g.groups, Q a) ∧
    (∀ st : St σ, (read_vector fuel st).yields fun vec => ∀ a ∈ value.groups_list vec, Q a) ∧
    (∀ vec (st : St σ), (∀ a ∈ value.groups_list vec, Q a) →
      (read_vector_loop fuel vec st).yields fun vec => ∀ a ∈ value.groups_list vec, Q a) := by
  intro fuel
  induction fuel with
  | zero =>
    refine ⟨?_, ?_, ?_, ?_, ?_⟩ <;> intros <;> simp [read_value, read_group, read_group_loop,
      read_vector, read_vector_loop, Res.yields]
  | succ fuel ih =>
    obtain ⟨ihv, ihg, ihgl, ihvec, ihvl⟩ := ih
    have hscalar : ∀ (val : value), val.groups = [] → ∀ a ∈ val.groups, Q a := by
      intro val h a ha
      rw [h] at ha
      cases ha
    refine ⟨?_, ?_, ?_, ?_, ?_⟩
    · intro st
      rw [read_value]
      split
      · exact Res.yields_bind (ihg true st) fun g st1 hg =>
          Res.yields_ok st1 (by simpa [value.groups] using hg)
      · split
        · exact Res.yields_bind (ihvec st) fun vec st1 hvec =>
            Res.yields_ok st1 (by simpa [value.groups] using hvec)
        · split
          · refine Res.yields_bind (Res.yields_true _) fun _ st1 _ => ?_
            split
            · exact Res.yields_ok st1 (hscalar _ rfl)
            · split
              · exact Res.yields_ok st1 (hscalar _ rfl)
              · exact Res.yields_fail _ st1 _ _
          · exact Res.yields_bind (Res.yields_true _) fun _ st1 _ =>
              Res.yields_ok st1 (hscalar _ rfl)
          · exact Res.yields_bind (Res.yields_true _) fun _ st1 _ =>
              Res.yields_ok st1 (hscalar _ rfl)
          · exact Res.yields_fail _ st _ _
          · exact Res.yields_fail _ st _ _
    · intro b st
      rw [read_group]
      refine Res.yields_bind (Res.yields_true _) fun _ st1 _ => ihgl b _ st1 ?_
      intro a ha
      simp only [group.empty, group.groups, value.groups_map, List.mem_singleton] at ha
      subst ha
      exact hQ.empty
    · intro b grp st hgrp
      rw [read_group_loop]
      split
      · refine Res.yields_bind (Res.yields_true _) fun key st1 _ => ?_
        refine Res.yields_bind (Res.yields_true _) fun _ st2 _ => ?_
        refine Res.yields_bind (ihv st2) fun val st3 hval => ?_
        split
        · exact Res.yields_throw _ _ st3
        · intro a s ha; cases ha
        · rename_i grp1 hset
          have hgrp1 : ∀ a ∈ grp1.groups, Q a :=
            all_groups_set hQ value_info grp (path.parse key) val grp1 hgrp hval
              (by rw [hset]; rfl)
          refine Res.yields_bind (Res.yields_true _) fun _ st4 _ => ?_
          split
          · exact Res.yields_bind (Res.yields_true _) fun _ st5 _ => Res.yields_ok st5 hgrp1
          · exact ihgl b _ st4 hgrp1
      · exact Res.yields_ok st hgrp
    · intro st
      rw [read_vector]
      refine Res.yields_bind (Res.yields_true _) fun _ st1 _ => ?_
      refine Res.yields_bind (ihvl [] st1 (by simp [value.groups_list])) fun vec st2 hvec => ?_
      exact Res.yields_bind (Res.yields_true _) fun _ st3 _ => Res.yields_ok st3 hvec
    · intro vec st hvec
      rw [read_vector_loop]
      split
      · refine Res.yields_bind (ihv st) fun val st1 hval => ?_
        refine Res.yields_bind (Res.yields_true _) fun _ st2 _ => ihvl _ st2 ?_
        intro a ha
        rw [groups_list_append, List.mem_append] at ha
        exact ha.elim (hvec a) (hval a)
      · exact Res.yields_ok st hvec

theorem all_groups_read {Q : group → Prop} (hQ : kept_by_updates Q) (P : Platform) (src : Str)
    (g : group) (h : read P src = .ok g ()) : ∀ a ∈ g.groups, Q a := by
  simp only [read] at h
  split at h
  · cases h
  · cases h
  · rename_i sc _
    cases hr : read_group (read_fuel sc) false (sc, ()) with
    | ok grp st =>
      simp only [hr, Res.ok.injEq, and_true] at h
      subst h
      exact (read_yields hQ (read_fuel sc)).2.1 false (sc, ()) grp st hr
    | throw e st => simp [hr] at h
    | diverge => simp [hr] at h

theorem all_groups_reachable {Q : group → Prop} (hQ : kept_by_updates Q) (g : group)
    (hr : reachable g) : ∀ a ∈ g.groups, Q a := by
  induction hr with
  | empty =>
    intro a ha
    simp only [group.empty, group.groups, value.groups_map, List.mem_singleton] at ha
    subst ha
    exact hQ.empty
  | read P src g h => exact all_groups_read hQ P src g h
  | set T g p v g1 _ _ hs ih1 ih2 =>
    exact all_groups_set hQ T g p v g1 ih1 (fun a ha => ih2 a ha a (mem_groups_self a)) hs
  | unset g p g1 _ hs ih => exact all_groups_unset hQ g p g1 ih hs

/-- C16: in every group the interface can make (from the empty group or from what
`read` returns, by calls of `set` and `unset`, those that raise included) and in every
group nested inside it, `order_` is a rearrangement of the keys of the map `values_`,
it has no duplicates and its length is the number of entries of the map, whose keys are
distinct. -/
theorem order_invariant (g : group) (hr : reachable g) :
    ∀ h ∈ g.groups, h.order_.Perm h.keys ∧ h.order_.Nodup ∧
      h.order_.length = h.values_.length ∧ h.keys.Nodup := by
  intro h hh
  obtain ⟨hs, hp⟩ := all_groups_reachable order_ok_kept g hr h hh
  have hn : h.keys.Nodup := keys_sorted_nodup hs
  exact ⟨hp, hp.nodup_iff.mpr hn, by simpa [group.keys] using hp.length_eq, hn⟩

/-- Witness of C16: `set<bool>("a._b", true)` on the empty group raises the path error
after it has created the group `a`; the group `a = \x7b\x7d` it leaves keeps the
invariant. -/
theorem order_invariant_witness :
    (group.empty.set bool_info [lit "a", lit "_b"] true).exception = some .path_error ∧
    reachable group_a_empty ∧
    group_a_empty.order_.Perm group_a_empty.keys ∧ group_a_empty.order_.Nodup ∧
      group_a_empty.order_.length = group_a_empty.values_.length ∧
      group_a_empty.keys.Nodup :=
  have hr : reachable group_a_empty :=
    reachable.set bool_info group.empty [lit "a", lit "_b"] true group_a_empty reachable.empty
      (fun a ha => by simp [bool_info, value.groups] at ha) rfl
  ⟨rfl, hr, order_invariant group_a_empty hr group_a_empty (mem_groups_self _)⟩

/-! ## Escaping on output -/

theorem escape_char_eq (c : Nat) : escape_char c = escape_of_byte c := by
  simp only [escape_char, escape_of_byte]
  by_cases h13 : c = 13
  · simp [h13]
  by_cases h10 : c = 10
  · simp [h10]
  by_cases h92 : c = 92
  · simp [h92]
  by_cases h47 : c = 47
  · simp [h47]
  by_cases h34 : c = 34
  · simp [h34]
  by_cases h12 : c = 12
  · simp [h12]
  by_cases h8 : c = 8
  · simp [h8]
  by_cases h9 : c = 9
  · simp [h9]
  have h47' : c ≠ '/'.toNat := by simpa using h47
  simp only [h13, h10, h92, h47, h47', h34, h12, h8, h9, if_false]
  by_cases hc : c < 0x20 ∨ c = 0x7f
  · have hlt : c < 128 := by omega
    have : ∀ n < 128, [hex_digit (n >>> 4), hex_digit (n &&& 0xf)] =
        [(if n / 16 < 10 then 48 + n / 16 else 87 + n / 16),
          (if n % 16 < 10 then 48 + n % 16 else 87 + n % 16)] := by decide
    have hb : (decide (c < 0x20) || decide (c = 0x7f)) = true := by simpa using hc
    rw [if_pos hb, if_pos hc, this c hlt]
  · have hb : ¬ (decide (c < 0x20) || decide (c = 0x7f)) = true := by simpa using hc
    rw [if_neg hb, if_neg hc]

/-- C25: `escape_string` maps the bytes of its input one by one and in order (it is
the concatenation of what it writes for each), and for one byte it writes what the
specification says: a named escape for CR, LF, TAB, FF, BS, backslash and double quote,
backslash and slash for the slash, backslash-u-00 and two lowercase hexadecimal digits
for the other bytes below 0x20 and for 0x7f, and the byte itself otherwise, the bytes
from 0x80 on included. -/
theorem escape_string_bytes (str : Str) :
    escape_string str = str.flatMap escape_of_byte ∧
    (∀ a b : Str, escape_string (a ++ b) = escape_string a ++ escape_string b) ∧
    (∀ c, escape_string [c] = escape_of_byte c) ∧
    (∀ c, 0x80 ≤ c → escape_of_byte c = [c]) := by
  have h : ∀ s : Str, escape_string s = s.flatMap escape_of_byte := by
    intro s
    simp only [escape_string]
    congr 1
    funext c
    exact escape_char_eq c
  refine ⟨h str, ?_, ?_, ?_⟩
  · intro a b
    simp [escape_string, List.flatMap_append]
  · intro c
    simp [h]
  · intro c hc
    have hnamed : c ≠ 13 ∧ c ≠ 10 ∧ c ≠ 92 ∧ c ≠ 47 ∧ c ≠ 34 ∧ c ≠ 12 ∧ c ≠ 8 ∧ c ≠ 9 := by
      omega
    have hctl : ¬ (c < 0x20 ∨ c = 0x7f) := by omega
    simp only [escape_of_byte, hnamed, hctl, if_false]

/-! ## Paths -/

theorem parse_from_segment (separator : Nat) (s : Str) (hs : separator ∉ s) :
    ∀ (cur rest : Str) (pending : Bool),
      path.parse_from separator (s ++ rest) cur pending =
        path.parse_from separator rest (cur ++ s) (pending || !s.isEmpty) := by
  induction s with
  | nil => intro cur rest pending; simp
  | cons c cs ih =>
    intro cur rest pending
    have hc : c ≠ separator := fun h => hs (by simp [h])
    have hcs : separator ∉ cs := fun h => hs (List.mem_cons_of_mem _ h)
    simp only [List.cons_append, path.parse_from, hc, if_false]
    have := ih hcs (cur ++ [c]) rest true
    simp only [List.append_assoc, List.singleton_append] at this
    simpa using this

theorem fullpath_sep_eq (separator : Nat) (p : path) :
    p.fullpath_sep separator = List.intercalate [separator] p := by
  induction p with
  | nil => simp [path.fullpath_sep, List.intercalate]
  | cons s rest ih =>
    cases rest with
    | nil => simp [path.fullpath_sep, List.intercalate]
    | cons t rest =>
      simp only [path.fullpath_sep, ih]
      simp [List.intercalate, List.intersperse]

theorem parse_intercalate (separator : Nat) (segments : List Str)
    (hseg : ∀ s ∈ segments, s ≠ [] ∧ separator ∉ s) :
    path.parse_sep (List.intercalate [separator] segments) separator = segments := by
  induction segments with
  | nil => simp [path.parse_sep, path.parse_from, List.intercalate]
  | cons s rest ih =>
    have hs := hseg s (List.mem_cons_self _ _)
    have hrest : ∀ t ∈ rest, t ≠ [] ∧ separator ∉ t :=
      fun t ht => hseg t (List.mem_cons_of_mem _ ht)
    cases rest with
    | nil =>
      have := parse_from_segment separator s hs.2 [] [] false
      simp only [List.append_nil, List.nil_append] at this
      simp only [path.parse_sep, List.intercalate, List.intersperse, List.flatten_cons,
        List.flatten_nil, List.append_nil, this, path.parse_from]
      cases s with
      | nil => exact absurd rfl hs.1
      | cons c cs => simp
    | cons t rest =>
      have h1 : List.intercalate [separator] (s :: t :: rest)
          = s ++ separator :: List.intercalate [separator] (t :: rest) := by
        simp [List.intercalate, List.intersperse]
      have := parse_from_segment separator s hs.2 []
        (separator :: List.intercalate [separator] (t :: rest)) false
      rw [path.parse_sep, h1, this]
      simp only [List.nil_append, path.parse_from, if_true]
      congr 1
      exact ih hrest

/-- C22: for a list of segments (empty or not) whose segments are not empty and do not
contain the separator, the path made from the segments joined by the separator has
exactly these segments, in that order, and its `fullpath` is the joined string; the
empty string makes the empty path, whose `fullpath` is the empty string. -/
theorem path_of_joined_segments (separator : Nat) (segments : List Str)
    (hseg : ∀ s ∈ segments, s ≠ [] ∧ separator ∉ s) :
    path.parse_sep (List.intercalate [separator] segments) separator = segments ∧
    (path.parse_sep (List.intercalate [separator] segments) separator).fullpath_sep separator
      = List.intercalate [separator] segments ∧
    path.parse_sep [] separator = [] ∧
    (path.parse_sep [] separator).fullpath_sep separator = [] := by
  refine ⟨parse_intercalate separator segments hseg, ?_, rfl, rfl⟩
  rw [parse_intercalate separator segments hseg, fullpath_sep_eq]

/-- Witness of C22: the path of `part1.part2.part3` has the three parts, and its
`fullpath()` is `part1.part2.part3`. -/
theorem path_of_joined_segments_witness :
    path.parse (lit "part1.part2.part3") = [lit "part1", lit "part2", lit "part3"] ∧
    (path.parse (lit "part1.part2.part3")).fullpath = lit "part1.part2.part3" :=
  have h := path_of_joined_segments '.'.toNat [lit "part1", lit "part2", lit "part3"]
    (by decide)
  ⟨h.1, h.2.1⟩

/-! ## Comparing groups -/

theorem double_eq_self (x : Nat) (h : double_is_nan x = false) : double_eq x x = true := by
  simp only [double_eq, h, Bool.or_self, Bool.false_eq_true, if_false]
  split <;> simp

theorem order_equal_self (o : List Str) : order_equal o o = true := by
  induction o with
  | nil => rfl
  | cons a o ih => simp [order_equal, ih]

theorem order_equal_iff (o o2 : List Str) (hl : o.length = o2.length) :
    order_equal o o2 = true ↔ o = o2 := by
  induction o generalizing o2 with
  | nil =>
    cases o2 with
    | nil => simp [order_equal]
    | cons b o2 => simp at hl
  | cons a o ih =>
    cases o2 with
    | nil => simp at hl
    | cons b o2 =>
      simp only [List.length_cons, Nat.add_right_cancel_iff] at hl
      by_cases hab : a = b
      · subst hab
        simp [order_equal, ih o2 hl]
      · simp [order_equal, hab]

mutual
theorem value.equal_self : ∀ (s : Bool) (v : value), v.plain = true → value.equal s v v = true
  | _, .invalid, h => by simp [value.plain] at h
  | s, .number x, h => by
    have hx : double_is_nan x = false := by simpa [value.plain] using h
    cases s <;> simp [value.equal, double_eq_self x hx]
  | _, .string _, _ => by simp [value.equal]
  | _, .bool _, _ => by simp [value.equal]
  | s, .vector v, h => by
    simp only [value.plain] at h
    simp [value.equal, value.equal_list_self (!s) v h]
  | s, .group g, h => by
    simp only [value.plain] at h
    simp [value.equal, group.equal_group_self (!s) g h]
theorem group.equal_group_self : ∀ (s : Bool) (g : group), g.plain = true → group.equal s g g = true
  | s, .mk m o, h => by
    simp only [group.plain] at h
    cases s <;> simp [group.equal, value.equal_map_self _ m h, order_equal_self]
theorem value.equal_list_self : ∀ (s : Bool) (v : List value), value.plain_list v = true →
    value.equal_list s v v = true
  | _, [], _ => by simp [value.equal_list]
  | s, a :: v, h => by
    simp only [value.plain_list, Bool.and_eq_true] at h
    simp [value.equal_list, value.equal_self s a h.1, value.equal_list_self s v h.2]
theorem value.equal_map_self : ∀ (s : Bool) (m : List (Str × value)),
    value.plain_map m = true → value.equal_map s m m = true
  | _, [], _ => by simp [value.equal_map]
  | s, (k, a) :: m, h => by
    simp only [value.plain_map, Bool.and_eq_true] at h
    simp [value.equal_map, value.equal_self s a h.1, value.equal_map_self s m h.2]
end

theorem equal_map_lookup (s : Bool) (m : List (Str × value)) :
    ∀ (m2 : List (Str × value)), m.length = m2.length → value.equal_map s m m2 = true →
      m.map Prod.fst = m2.map Prod.fst ∧
      ∀ k v1 v2, map_find m k = some v1 → map_find m2 k = some v2 →
        value.equal s v1 v2 = true := by
  induction m with
  | nil =>
    intro m2 hl _
    cases m2 with
    | nil => simp [map_find]
    | cons e m2 => simp at hl
  | cons e m ih =>
    intro m2 hl he
    obtain ⟨k, a⟩ := e
    cases m2 with
    | nil => simp at hl
    | cons e2 m2 =>
      obtain ⟨k2, b⟩ := e2
      simp only [List.length_cons, Nat.add_right_cancel_iff] at hl
      simp only [value.equal_map, Bool.and_eq_true, decide_eq_true_eq] at he
      obtain ⟨⟨hk, hab⟩, hrest⟩ := he
      subst hk
      obtain ⟨i1, i2⟩ := ih m2 hl hrest
      refine ⟨by simp [i1], ?_⟩
      intro k1 v1 v2 h1 h2
      simp only [map_find] at h1 h2
      by_cases hkk : k = k1
      · simp only [hkk, if_true, Option.some.injEq] at h1 h2
        subst h1 h2
        exact hab
      · simp only [hkk, if_false] at h1 h2
        exact i2 k1 v1 v2 h1 h2

theorem equal_map_of_lookup (s : Bool) (m : List (Str × value)) :
    ∀ (m2 : List (Str × value)), m.map Prod.fst = m2.map Prod.fst →
      (m.map Prod.fst).Nodup →
      (∀ k v1 v2, map_find m k = some v1 → map_find m2 k = some v2 →
        value.equal s v1 v2 = true) →
      value.equal_map s m m2 = true := by
  induction m with
  | nil => intro m2 _ _ _; simp [value.equal_map]
  | cons e m ih =>
    intro m2 hk hn hv
    obtain ⟨k, a⟩ := e
    cases m2 with
    | nil => simp at hk
    | cons e2 m2 =>
      obtain ⟨k2, b⟩ := e2
      simp only [List.map_cons, List.cons.injEq] at hk
      obtain ⟨hk1, hk2⟩ := hk
      subst hk1
      simp only [List.map_cons, List.nodup_cons] at hn
      simp only [value.equal_map, Bool.and_eq_true, decide_eq_true_eq, true_and]
      refine ⟨hv k a b (by simp [map_find]) (by simp [map_find]), ih m2 hk2 hn.2 ?_⟩
      intro k1 v1 v2 h1 h2
      have hne : k ≠ k1 := by
        rintro rfl
        exact hn.1 ((mem_keys_iff m k).mpr (by simp [h1]))
      exact hv k1 v1 v2 (by simp [map_find, hne, h1]) (by simp [map_find, hne, h2])

/-- Counterexample of C21: the group that holds a value of invalid kind at `a`, which
`set<value>("a", value())` makes of the empty group, is not equal to itself, and
neither is the group `a = NaN`. -/
theorem group_not_equal_to_itself :
    group.empty.set value_info [lit "a"] .invalid = .ok () group_a_invalid ∧
    group_a_invalid.eq group_a_invalid = false ∧
    group.empty.set double_info [lit "a"] 0x7ff8000000000000 = .ok () group_a_nan ∧
    group_a_nan.eq group_a_nan = false :=
  ⟨rfl, by decide!, rfl, by
    simp [group_a_nan, group.eq, group.equal, value.equal_map, value.equal, double_eq,
      double_is_nan]⟩

theorem double_eq_iff_same (x y : Nat) : double_eq x y = true ↔ double_same x y := by
  simp only [double_eq, double_same]
  cases hx : double_is_nan x <;> cases hy : double_is_nan y <;>
    simp only [Bool.or_false, Bool.or_true, Bool.false_eq_true, if_false, if_true,
      false_and, and_false, true_and, Bool.true_eq_false]
  by_cases hz : (x % 0x8000000000000000 == 0 && y % 0x8000000000000000 == 0) = true
  · rw [if_pos hz]
    simp only [Bool.and_eq_true, beq_iff_eq] at hz
    simp [hz]
  · rw [if_neg hz]
    simp only [Bool.and_eq_true, beq_iff_eq] at hz
    simp only [beq_iff_eq]
    constructor
    · exact fun h => Or.inl h
    · rintro (h | h)
      · exact h
      · exact absurd h hz

theorem double_same_comm (x y : Nat) : double_same x y ↔ double_same y x := by
  simp only [double_same]
  constructor <;> rintro ⟨a, b, c⟩ <;> exact ⟨b, a, c.imp Eq.symm And.symm⟩

mutual
/-- On values whose groups have as many keys in `order_` as entries in the map, the
operator `==` of values holds exactly for values that are the same by kind and
content. -/
theorem value.equal_iff_same : ∀ (s : Bool) (v w : value),
    (∀ a ∈ v.groups, a.order_.length = a.values_.length) →
    (∀ a ∈ w.groups, a.order_.length = a.values_.length) →
    (value.equal s v w = true ↔ value.same v w)
  | _, .invalid, _, _, _ => by simp [value.equal, value.same]
  | s, .number x, w, _, _ => by
    cases w <;> simp only [value.equal, value.same, Bool.false_eq_true]
    cases s
    · simp only [Bool.false_eq_true, if_false]
      rw [double_eq_iff_same, double_same_comm]
    · simp only [if_true]
      rw [double_eq_iff_same]
  | _, .string _, w, _, _ => by cases w <;> simp [value.equal, value.same]
  | _, .bool _, w, _, _ => by cases w <;> simp [value.equal, value.same]
  | s, .vector v, w, hv, hw => by
    cases w with
    | vector w =>
      simp only [value.equal, value.same, Bool.and_eq_true, decide_eq_true_eq]
      exact value.equal_list_iff_same (!s) v w hv hw
    | _ => simp [value.equal, value.same]
  | s, .group g, w, hv, hw => by
    cases w with
    | group h =>
      simp only [value.equal, value.same]
      exact group.equal_groups_iff_same (!s) g h hv hw
    | _ => simp [value.equal, value.same]
theorem group.equal_groups_iff_same : ∀ (s : Bool) (g h : group),
    (∀ a ∈ g.groups, a.order_.length = a.values_.length) →
    (∀ a ∈ h.groups, a.order_.length = a.values_.length) →
    (group.equal s g h = true ↔ group.same g h)
  | s, .mk m o, h, hg, hh => by
    obtain ⟨m2, o2⟩ := h
    have hlo : o.length = m.length := hg _ (mem_groups_self _)
    have hlo2 : o2.length = m2.length := hh _ (mem_groups_self _)
    have ih := value.equal_map_iff_same s m m2
      (fun a ha => hg a (by rw [groups_eq]; exact List.mem_cons_of_mem _ ha))
      (fun a ha => hh a (by rw [groups_eq]; exact List.mem_cons_of_mem _ ha))
    simp only [group.equal, group.same, group.values_mk, group.order_mk]
    constructor
    · intro h
      by_cases hl : m.length = m2.length
      · simp only [hl, bne_self_eq_false, Bool.false_eq_true, if_false] at h
        by_cases he : value.equal_map s m m2 = true
        · simp only [he, Bool.not_true, Bool.false_eq_true, if_false] at h
          refine ⟨?_, ih.1 ⟨hl, he⟩⟩
          cases s
          · simp only [Bool.false_eq_true, if_false] at h
            exact (order_equal_iff o o2 (by omega)).mp h
          · simp only [if_true] at h
            exact ((order_equal_iff o2 o (by omega)).mp h).symm
        · simp [he] at h
      · simp [hl] at h
    · rintro ⟨ho, hm⟩
      obtain ⟨hl, he⟩ := ih.2 hm
      subst ho
      cases s <;> simp [hl, he, order_equal_self]
theorem value.equal_list_iff_same : ∀ (s : Bool) (v w : List value),
    (∀ a ∈ value.groups_list v, a.order_.length = a.values_.length) →
    (∀ a ∈ value.groups_list w, a.order_.length = a.values_.length) →
    (v.length = w.length ∧ value.equal_list s v w = true ↔ value.same_list v w)
  | _, [], w, _, _ => by cases w <;> simp [value.equal_list, value.same_list]
  | s, a :: v, w, hv, hw => by
    cases w with
    | nil => simp [value.equal_list, value.same_list]
    | cons b w =>
      have h1 := value.equal_iff_same s a b
        (fun x hx => hv x (by simp [value.groups_list, hx]))
        (fun x hx => hw x (by simp [value.groups_list, hx]))
      have h2 := value.equal_list_iff_same s v w
        (fun x hx => hv x (by simp [value.groups_list, hx]))
        (fun x hx => hw x (by simp [value.groups_list, hx]))
      simp only [value.equal_list, value.same_list, List.length_cons, Bool.and_eq_true,
        Nat.add_right_cancel_iff]
      rw [← h1, ← h2]
      tauto
theorem value.equal_map_iff_same : ∀ (s : Bool) (m m2 : List (Str × value)),
    (∀ a ∈ value.groups_map m, a.order_.length = a.values_.length) →
    (∀ a ∈ value.groups_map m2, a.order_.length = a.values_.length) →
    (m.length = m2.length ∧ value.equal_map s m m2 = true ↔ value.same_map m m2)
  | _, [], m2, _, _ => by cases m2 <;> simp [value.equal_map, value.same_map]
  | s, (k, a) :: m, m2, hv, hw => by
    cases m2 with
    | nil => simp [value.equal_map, value.same_map]
    | cons e m2 =>
      obtain ⟨k2, b⟩ := e
      have h1 := value.equal_iff_same s a b
        (fun x hx => hv x (by simp [value.groups_map, hx]))
        (fun x hx => hw x (by simp [value.groups_map, hx]))
      have h2 := value.equal_map_iff_same s m m2
        (fun x hx => hv x (by simp [value.groups_map, hx]))
        (fun x hx => hw x (by simp [value.groups_map, hx]))
      simp only [value.equal_map, value.same_map, List.length_cons, Bool.and_eq_true,
        Nat.add_right_cancel_iff, decide_eq_true_eq]
      rw [← h1, ← h2]
      tauto
end

/-- C21 as amended: for two groups that keep the order invariant at every depth,
`g1 == g2` holds exactly when they have the same key order, the same keys and, for every
key, values that are the same by kind and content (`value.same`: numbers equal as
`double`s, so that a NaN is the same as nothing, strings with the same bytes, the same
booleans, vectors with the same elements, groups that are the same; a value of invalid
kind is the same as nothing), which is what `value::operator==` finds; `g == g` holds
for a group `g` that holds no value of invalid kind and no NaN, at any depth. -/
theorem group_eq_iff (g1 g2 : group) (h1 : ∀ a ∈ g1.groups, a.order_ok)
    (h2 : ∀ a ∈ g2.groups, a.order_ok) :
    (g1.eq g2 = true ↔
      g1.order_ = g2.order_ ∧ g1.keys = g2.keys ∧
      ∀ k v1 v2, map_find g1.values_ k = some v1 → map_find g2.values_ k = some v2 →
        value.same v1 v2) ∧
    (∀ v1 v2 : value, (∀ a ∈ v1.groups, a.order_ok) → (∀ a ∈ v2.groups, a.order_ok) →
      (v1.eq v2 = true ↔ value.same v1 v2)) ∧
    (∀ v : value, ¬ value.same .invalid v ∧ ¬ value.same v .invalid) ∧
    (∀ x : Nat, value.same (.number x) (.number x) ↔ double_is_nan x = false) ∧
    (∀ v : value, v.plain = true → v.eq v = true) ∧
    (g1.plain = true → g1.eq g1 = true) := by
  have len : ∀ g : group, (∀ a ∈ g.groups, a.order_ok) →
      ∀ a ∈ g.groups, a.order_.length = a.values_.length := by
    intro g hg a ha
    simpa [group.keys] using (hg a ha).2.length_eq
  have vals : ∀ v1 v2 : value, (∀ a ∈ v1.groups, a.order_ok) → (∀ a ∈ v2.groups, a.order_ok) →
      (v1.eq v2 = true ↔ value.same v1 v2) := by
    intro v1 v2 hv1 hv2
    exact value.equal_iff_same false v1 v2
      (fun a ha => by simpa [group.keys] using (hv1 a ha).2.length_eq)
      (fun a ha => by simpa [group.keys] using (hv2 a ha).2.length_eq)
  refine ⟨?_, vals, ?_, ?_, fun v hv => value.equal_self false v hv,
    fun hp => group.equal_group_self false g1 hp⟩
  · have inner : ∀ k v1 v2, map_find g1.values_ k = some v1 → map_find g2.values_ k = some v2 →
        (v1.eq v2 = true ↔ value.same v1 v2) := by
      intro k v1 v2 hf1 hf2
      refine vals v1 v2 (fun a ha => h1 a ?_) (fun a ha => h2 a ?_)
      · rw [groups_eq]
        exact List.mem_cons_of_mem _ (mem_groups_map_find _ k v1 a hf1 ha)
      · rw [groups_eq]
        exact List.mem_cons_of_mem _ (mem_groups_map_find _ k v2 a hf2 ha)
    have ho1 := h1 g1 (mem_groups_self g1)
    have ho2 := h2 g2 (mem_groups_self g2)
    obtain ⟨m, o⟩ := g1
    obtain ⟨m2, o2⟩ := g2
    have hlo : o.length = m.length := by simpa [group.keys] using ho1.2.length_eq
    have hlo2 : o2.length = m2.length := by simpa [group.keys] using ho2.2.length_eq
    simp only [group.values_mk] at inner
    simp only [group.eq, group.equal, group.values_mk, group.order_mk, group.keys]
    constructor
    · intro h
      by_cases hl : m.length = m2.length
      · simp only [hl, bne_self_eq_false, Bool.false_eq_true, if_false] at h
        by_cases he : value.equal_map false m m2 = true
        · simp only [he, Bool.not_true, Bool.false_eq_true, if_false] at h
          obtain ⟨i1, i2⟩ := equal_map_lookup false m m2 hl he
          exact ⟨(order_equal_iff o o2 (by omega)).mp h, i1,
            fun k v1 v2 hf1 hf2 => (inner k v1 v2 hf1 hf2).1 (i2 k v1 v2 hf1 hf2)⟩
        · simp [he] at h
      · simp [hl] at h
    · rintro ⟨ho, hk, hv⟩
      have hl : m.length = m2.length := by
        have := congrArg List.length hk
        simpa using this
      have he := equal_map_of_lookup false m m2 hk (keys_sorted_nodup ho1.1)
        (fun k v1 v2 hf1 hf2 => (inner k v1 v2 hf1 hf2).2 (hv k v1 v2 hf1 hf2))
      simp [hl, he, ho, order_equal_self]
  · intro v
    constructor
    · simp [value.same]
    · cases v <;> simp [value.same]
  · intro x
    simp [value.same, double_same]

/-- Witness of C21 as amended: the group `a = true` keeps the order invariant, is equal
to itself and is not equal to the group `a = \x7b\x7d`, whose value at `a` is of another
kind. -/
theorem group_eq_iff_witness :
    (∀ a ∈ group_a_true.groups, a.order_ok) ∧ group_a_true.plain = true ∧
    group_a_true.eq group_a_true = true ∧
    ¬ value.same (.bool true) (.group group.empty) ∧
    group_a_true.eq group_a_empty = false := by
  have hok : ∀ a ∈ group_a_true.groups, a.order_ok := by decide
  have hok2 : ∀ a ∈ group_a_empty.groups, a.order_ok := by decide
  have h := group_eq_iff group_a_true group_a_empty hok hok2
  have hns : ¬ value.same (.bool true) (.group group.empty) := by simp [value.same]
  refine ⟨hok, rfl, (group_eq_iff group_a_true group_a_true hok hok).2.2.2.2.2 rfl, hns, ?_⟩
  cases he : group_a_true.eq group_a_empty with
  | false => rfl
  | true => exact absurd (h.1.1 he |>.2.2 (lit "a") _ _ rfl rfl) hns

/-! ## The cursor over the tokens -/

theorem scanner.comments_between_self {σ : Type} (sc : scanner σ) (i : Nat) :
    sc.comments_between i i = [] := by
  simp [scanner.comments_between]

theorem scanner.comments_between_append {σ : Type} (sc : scanner σ) {i j k : Nat}
    (hij : i ≤ j) (hjk : j ≤ k) :
    sc.comments_between i j ++ sc.comments_between j k = sc.comments_between i k := by
  simp only [scanner.comments_between, ← List.map_append, ← List.filter_append]
  congr 2
  have h1 : sc.tokens_.drop j = (sc.tokens_.drop i).drop (j - i) := by
    rw [List.drop_drop]; congr 1; omega
  have h2 : k - i = (j - i) + (k - j) := by omega
  rw [h1, h2, List.take_add]

theorem scanner.replay_nil {σ : Type} (sc : scanner σ) (w : σ) : sc.replay [] w = w := by
  simp only [scanner.replay]; split <;> rfl

theorem scanner.replay_append {σ : Type} (sc : scanner σ) (a b : List Str) (w : σ) :
    sc.replay (a ++ b) w = sc.replay b (sc.replay a w) := by
  simp only [scanner.replay]; split <;> simp [List.foldl_append]

theorem St.replayed_refl {σ : Type} (st : St σ) : St.replayed st st := by
  refine ⟨rfl, le_refl _, id, ?_⟩
  simp [scanner.comments_between_self, scanner.replay_nil]

theorem St.replayed_trans {σ : Type} {a b c : St σ} (h1 : St.replayed a b)
    (h2 : St.replayed b c) : St.replayed a c := by
  obtain ⟨e1, l1, b1, w1⟩ := h1
  obtain ⟨e2, l2, b2, w2⟩ := h2
  have ht : b.1.tokens_ = a.1.tokens_ := by rw [e1]
  have hp : b.1.params_ = a.1.params_ := by rw [e1]
  refine ⟨?_, le_trans l1 l2, ?_, ?_⟩
  · rw [e2, e1]
  · intro h; rw [← ht]; exact b2 (by rw [ht]; exact b1 h)
  · rw [w2, w1, ← scanner.comments_between_append a.1 l1 l2, scanner.replay_append]
    simp only [scanner.replay, scanner.comments_between, ht, hp]

theorem Res.replayed_bind {σ α β : Type} {st : St σ} {r : Res (St σ) α}
    {k : α → St σ → Res (St σ) β} (h : Res.replayed st r)
    (hk : ∀ a st1, St.replayed st st1 → Res.replayed st1 (k a st1)) :
    Res.replayed st (r.bind k) := by
  cases r with
  | ok a st1 =>
    simp only [Res.bind]
    have h1 : St.replayed st st1 := h
    have h2 := hk a st1 h1
    cases hr : k a st1 with
    | ok b st2 => rw [hr] at h2; exact St.replayed_trans h1 h2
    | throw e st2 => rw [hr] at h2; exact St.replayed_trans h1 h2
    | diverge => trivial
  | throw e st1 => exact h
  | diverge => trivial

theorem scanner.cur_token_of_lt {σ : Type} (sc : scanner σ)
    (h : sc.cur_token_ < sc.tokens_.length) :
    sc.tokens_.drop sc.cur_token_ = sc.cur_token :: sc.tokens_.drop (sc.cur_token_ + 1) := by
  have hne : sc.cur_token_ ≠ sc.tokens_.length := by omega
  simp only [scanner.cur_token, hne, if_false]
  rw [List.drop_eq_getElem_cons h]
  congr 1
  simp [List.getD_eq_getElem?_getD, List.getElem?_eq_getElem h]

theorem scanner.cur_token_lt {σ : Type} (sc : scanner σ)
    (h : sc.cur_token.type ≠ .eof_token ∧ sc.cur_token.type ≠ .none_token) :
    sc.cur_token_ < sc.tokens_.length := by
  by_contra hlt
  have hge : sc.tokens_.length ≤ sc.cur_token_ := by omega
  by_cases heq : sc.cur_token_ = sc.tokens_.length
  · simp [scanner.cur_token, heq, token.of_type] at h
  · have : sc.tokens_.getD sc.cur_token_ (token.of_type .none_token) = token.of_type .none_token := by
      simp [List.getD_eq_getElem?_getD, List.getElem?_eq_none hge]
    simp only [scanner.cur_token, heq, if_false, this] at h
    simp [token.of_type] at h

theorem scanner.next_token_of_lt {σ : Type} (sc : scanner σ)
    (h : sc.cur_token_ < sc.tokens_.length) :
    sc.next_token = { sc with cur_token_ := sc.cur_token_ + 1 } := by
  have h0 : sc.tokens_.length ≠ 0 := by omega
  have h1 : sc.cur_token_ ≤ sc.tokens_.length - 1 := by omega
  simp [scanner.next_token, scanner.token_available, h0, h1]



theorem scanner.replay_one {σ : Type} (sc : scanner σ) (c : Str) (w : σ) :
    (match sc.params_.comment_function with
      | some f => f c w
      | none => w) = sc.replay [c] w := by
  cases h : sc.params_.comment_function <;> simp [scanner.replay, h]

/-- Moving the cursor over the current token delivers it if it is a comment. -/
theorem scanner.step_replayed {σ : Type} (sc : scanner σ) (w : σ)
    (h : sc.cur_token_ < sc.tokens_.length) :
    St.replayed (sc, w) (sc.next_token,
      if sc.cur_token.type = .comment_token then sc.replay [sc.cur_token.string_value] w
      else w) := by
  rw [scanner.next_token_of_lt sc h]
  refine ⟨rfl, Nat.le_succ _, fun _ => h, ?_⟩
  have hd := scanner.cur_token_of_lt sc h
  simp only [scanner.comments_between, hd, Nat.add_sub_cancel_left, List.take_succ_cons,
    List.take_zero]
  by_cases hc : sc.cur_token.type = .comment_token
  · simp [hc]
  · simp [hc, scanner.replay_nil]

theorem scanner.skip_whitespace_loop_spec {σ : Type} :
    ∀ (n : Nat) (sc : scanner σ) (w : σ), sc.tokens_.length < n + sc.cur_token_ →
      St.replayed (sc, w) (scanner.skip_whitespace_loop false n (sc, w)) ∧
      ((scanner.skip_whitespace_loop false n (sc, w)).1.cur_token.type ≠ .whitespace_token ∧
        (scanner.skip_whitespace_loop false n (sc, w)).1.cur_token.type ≠ .comment_token) ∧
      (sc.cur_token_ ≤ sc.tokens_.length →
        (scanner.skip_whitespace_loop false n (sc, w)).1.cur_token = sc.peek_token) := by
  intro n
  induction n with
  | zero =>
    intro sc w h
    simp only [scanner.skip_whitespace_loop]
    have hne : sc.cur_token_ ≠ sc.tokens_.length := by omega
    have hnone : sc.cur_token = token.of_type .none_token := by
      simp only [scanner.cur_token, hne, if_false]
      simp [List.getD_eq_getElem?_getD, List.getElem?_eq_none (by omega : sc.tokens_.length ≤ sc.cur_token_)]
    refine ⟨St.replayed_refl _, ?_, fun hle => absurd hle (by omega)⟩
    simp [hnone, token.of_type]
  | succ n ih =>
    intro sc w h
    by_cases hc : (sc.cur_token.type = .whitespace_token || sc.cur_token.type = .comment_token)
        = true
    · have hlt : sc.cur_token_ < sc.tokens_.length := by
        apply scanner.cur_token_lt
        simp only [Bool.or_eq_true, decide_eq_true_eq] at hc
        rcases hc with hc | hc <;> simp [hc]
      have hstep := scanner.step_replayed sc w hlt
      have hnext := scanner.next_token_of_lt sc hlt
      simp only [scanner.skip_whitespace_loop, hc, if_true]
      simp only [Bool.and_true, decide_eq_true_eq, Bool.not_false, scanner.replay_one]
      obtain ⟨i1, i2, i3⟩ := ih sc.next_token
        (if sc.cur_token.type = .comment_token then sc.replay [sc.cur_token.string_value] w
          else w) (by rw [hnext]; simp only; omega)
      refine ⟨St.replayed_trans hstep i1, i2, fun _ => ?_⟩
      refine Eq.trans (i3 (by rw [hnext]; simp only; omega)) ?_
      simp only [scanner.peek_token]
      rw [scanner.cur_token_of_lt sc hlt, hnext]
      simp only [Bool.or_eq_true, decide_eq_true_eq] at hc
      rcases hc with hc | hc <;> simp [peek_from, hc]
    · simp only [scanner.skip_whitespace_loop, hc]
      simp only [Bool.or_eq_true, decide_eq_true_eq, not_or] at hc
      refine ⟨St.replayed_refl _, ⟨hc.1, hc.2⟩, fun hle => ?_⟩
      simp only [Bool.false_eq_true, if_false]
      by_cases heq : sc.cur_token_ = sc.tokens_.length
      · simp [scanner.peek_token, scanner.cur_token, heq, peek_from]
      · have hlt : sc.cur_token_ < sc.tokens_.length := by omega
        simp only [scanner.peek_token]
        rw [scanner.cur_token_of_lt sc hlt]
        simp [peek_from, hc.1, hc.2]



theorem scanner.skip_whitespace_spec {σ : Type} (st : St σ) :
    St.replayed st (scanner.skip_whitespace false st) ∧
    ((scanner.skip_whitespace false st).1.cur_token.type ≠ .whitespace_token ∧
      (scanner.skip_whitespace false st).1.cur_token.type ≠ .comment_token) ∧
    (st.1.cur_token_ ≤ st.1.tokens_.length →
      (scanner.skip_whitespace false st).1.cur_token = st.1.peek_token) := by
  obtain ⟨sc, w⟩ := st
  exact scanner.skip_whitespace_loop_spec (sc.tokens_.length + 1) sc w (by omega)

/-- After the white space is skipped, moving over a token that is there delivers
nothing more. -/
theorem scanner.advance_replayed {σ : Type} (st : St σ)
    (h : (scanner.skip_whitespace false st).1.cur_token.type ≠ .eof_token ∧
      (scanner.skip_whitespace false st).1.cur_token.type ≠ .none_token) :
    St.replayed st ((scanner.skip_whitespace false st).1.next_token,
      (scanner.skip_whitespace false st).2) := by
  obtain ⟨h1, ⟨_, h2⟩, _⟩ := scanner.skip_whitespace_spec st
  have hlt := scanner.cur_token_lt _ h
  have hstep := scanner.step_replayed (scanner.skip_whitespace false st).1
    (scanner.skip_whitespace false st).2 hlt
  simp only [h2, if_false] at hstep
  exact St.replayed_trans h1 hstep

theorem scanner.peek_token_eof {σ : Type} (sc : scanner σ)
    (h : sc.tokens_.length ≤ sc.cur_token_) : sc.peek_token = token.of_type .eof_token := by
  simp [scanner.peek_token, List.drop_eq_nil_of_le h, peek_from]

theorem scanner.lt_of_peek_is_char {σ : Type} (sc : scanner σ) (c : Char)
    (h : sc.peek_token.is_char c = true) : sc.cur_token_ < sc.tokens_.length := by
  by_contra hlt
  rw [scanner.peek_token_eof sc (by omega)] at h
  simp [token.is_char, token.of_type] at h

theorem scanner.expect_replayed {σ : Type} (c : Char) (optional : Bool) (st : St σ) :
    Res.replayed st (scanner.expect c optional st) := by
  simp only [scanner.expect]
  split
  · rename_i h
    have hlt := scanner.lt_of_peek_is_char st.1 c h
    obtain ⟨_, _, h3⟩ := scanner.skip_whitespace_spec st
    have hcur := h3 (by omega)
    apply scanner.advance_replayed
    rw [hcur]
    simp only [token.is_char, Bool.and_eq_true, decide_eq_true_eq] at h
    simp [h.1]
  · split
    · exact St.replayed_refl st
    · exact St.replayed_refl st

theorem scanner.expect_identifier_replayed {σ : Type} (st : St σ) :
    Res.replayed st (scanner.expect_identifier st) := by
  simp only [scanner.expect_identifier]
  split
  · exact (scanner.skip_whitespace_spec st).1
  · rename_i h
    apply scanner.advance_replayed
    simp only [bne_iff_ne, ne_eq, Decidable.not_not] at h
    simp [h]

theorem scanner.expect_string_replayed {σ : Type} (st : St σ) :
    Res.replayed st (scanner.expect_string st) := by
  simp only [scanner.expect_string]
  split
  · exact (scanner.skip_whitespace_spec st).1
  · rename_i h
    apply scanner.advance_replayed
    simp only [bne_iff_ne, ne_eq, Decidable.not_not] at h
    simp [h]

theorem scanner.expect_number_replayed {σ : Type} (st : St σ) :
    Res.replayed st (scanner.expect_number st) := by
  simp only [scanner.expect_number]
  split
  · exact (scanner.skip_whitespace_spec st).1
  · rename_i h
    apply scanner.advance_replayed
    simp only [bne_iff_ne, ne_eq, Decidable.not_not] at h
    simp [h]

theorem scanner.skip_whitespace_loop_cursor {σ : Type} (b : Bool) :
    ∀ (n : Nat) (sc : scanner σ) (w : σ), sc.tokens_.length < n + sc.cur_token_ →
      sc.cur_token_ ≤ sc.tokens_.length →
      (scanner.skip_whitespace_loop b n (sc, w)).1.cur_token_ =
        sc.cur_token_ + leading_blanks (sc.tokens_.drop sc.cur_token_) := by
  intro n
  induction n with
  | zero => intro sc w h hle; omega
  | succ n ih =>
    intro sc w h hle
    rw [scanner.skip_whitespace_loop]
    by_cases heq : sc.cur_token_ = sc.tokens_.length
    · have hc : sc.cur_token.type = .eof_token := by simp [scanner.cur_token, heq, token.of_type]
      simp [hc, heq, leading_blanks]
    · have hlt : sc.cur_token_ < sc.tokens_.length := by omega
      have hd := scanner.cur_token_of_lt sc hlt
      have hnext := scanner.next_token_of_lt sc hlt
      by_cases hc : sc.cur_token.type = .whitespace_token ∨ sc.cur_token.type = .comment_token
      · have hb : (decide (sc.cur_token.type = .whitespace_token) ||
            decide (sc.cur_token.type = .comment_token)) = true := by simpa using hc
        rw [if_pos hb, ih _ _ (by rw [hnext]; simp only; omega) (by rw [hnext]; simp only; omega),
          hd, hnext]
        simp only [leading_blanks, hc, if_true]
        omega
      · have hb : ¬ (decide (sc.cur_token.type = .whitespace_token) ||
            decide (sc.cur_token.type = .comment_token)) = true := by simpa using hc
        rw [if_neg hb, hd]
        simp [leading_blanks, hc]

theorem scanner.skip_whitespace_cursor {σ : Type} (b : Bool) (st : St σ)
    (hle : st.1.cur_token_ ≤ st.1.tokens_.length) :
    (scanner.skip_whitespace b st).1.cur_token_ =
      st.1.cur_token_ + leading_blanks (st.1.tokens_.drop st.1.cur_token_) := by
  obtain ⟨sc, w⟩ := st
  exact scanner.skip_whitespace_loop_cursor b (sc.tokens_.length + 1) sc w (by omega) hle

theorem peek_from_eq (ts : List token) :
    peek_from ts = ts.getD (leading_blanks ts) (token.of_type .eof_token) := by
  induction ts with
  | nil => simp [peek_from]
  | cons t ts ih =>
    by_cases hc : t.type = .whitespace_token ∨ t.type = .comment_token
    · have hb : ¬ (t.type != .whitespace_token && t.type != .comment_token) = true := by
        rcases hc with hc | hc <;> simp [hc]
      simp only [peek_from, hb, if_false, leading_blanks, hc, if_true, ih]
      simp
    · have hb : (t.type != .whitespace_token && t.type != .comment_token) = true := by
        simp only [not_or] at hc
        simp [hc.1, hc.2]
      simp [peek_from, hb, leading_blanks, hc]

/-- What a call that consumes a token leaves: the scanner has changed in its cursor
only, which is just past a token that is neither white space nor a comment, and the
comments passed over have been delivered, in order. -/
theorem scanner.consumed {σ : Type} (st : St σ)
    (hle : st.1.cur_token_ ≤ st.1.tokens_.length)
    (h : (scanner.skip_whitespace false st).1.cur_token.type ≠ .eof_token ∧
      (scanner.skip_whitespace false st).1.cur_token.type ≠ .none_token) :
    ((scanner.skip_whitespace false st).1.next_token, (scanner.skip_whitespace false st).2) =
      (({ st.1 with cur_token_ := st.1.cur_token_ +
          leading_blanks (st.1.tokens_.drop st.1.cur_token_) + 1 } : scanner σ),
        st.1.replay (st.1.comments_between st.1.cur_token_
          (st.1.cur_token_ + leading_blanks (st.1.tokens_.drop st.1.cur_token_))) st.2) ∧
    st.1.cur_token_ + leading_blanks (st.1.tokens_.drop st.1.cur_token_) < st.1.tokens_.length ∧
    (scanner.skip_whitespace false st).1.cur_token = st.1.peek_token := by
  obtain ⟨⟨e1, _, _, e4⟩, _, e3⟩ := scanner.skip_whitespace_spec st
  have hcur := scanner.skip_whitespace_cursor false st hle
  have hlt := scanner.cur_token_lt _ h
  have hnext := scanner.next_token_of_lt _ hlt
  have htok : (scanner.skip_whitespace false st).1.tokens_ = st.1.tokens_ := by rw [e1]
  refine ⟨?_, by rw [← hcur, ← htok]; exact hlt, e3 hle⟩
  rw [hnext, e4, hcur]
  congr 1
  rw [e1]

/-- C27: with the cursor within the tokens, the token `peek_token` returns is the
first one from the cursor on that is neither white space nor a comment (the end-of-file
token if there is none). If it is the character `c`, `expect(c, optional)` returns with
the cursor just past that token, the comments before it delivered; otherwise it raises a
parse error when `optional` is false, and when `optional` is true it returns and has
changed nothing: the cursor is where it was and no comment has been delivered. -/
theorem expect_char_spec {σ : Type} (c : Char) (optional : Bool) (st : St σ)
    (hle : st.1.cur_token_ ≤ st.1.tokens_.length) :
    st.1.peek_token = (st.1.tokens_.drop st.1.cur_token_).getD
      (leading_blanks (st.1.tokens_.drop st.1.cur_token_)) (token.of_type .eof_token) ∧
    (st.1.peek_token.is_char c = true →
      scanner.expect c optional st = .ok ()
        (({ st.1 with cur_token_ := st.1.cur_token_ +
            leading_blanks (st.1.tokens_.drop st.1.cur_token_) + 1 } : scanner σ),
          st.1.replay (st.1.comments_between st.1.cur_token_
            (st.1.cur_token_ + leading_blanks (st.1.tokens_.drop st.1.cur_token_))) st.2)) ∧
    (st.1.peek_token.is_char c = false → optional = false →
      ∃ line col, scanner.expect c optional st = .throw (.parse_error line col) st) ∧
    (st.1.peek_token.is_char c = false → optional = true →
      scanner.expect c optional st = .ok () st) := by
  refine ⟨peek_from_eq _, ?_, ?_, ?_⟩
  · intro h
    have hlt := scanner.lt_of_peek_is_char st.1 c h
    obtain ⟨_, _, h3⟩ := scanner.skip_whitespace_spec st
    have hcur := h3 hle
    have hty : st.1.peek_token.type = .char_token := by
      simp only [token.is_char, Bool.and_eq_true, decide_eq_true_eq] at h
      exact h.1
    obtain ⟨hc, _, _⟩ := scanner.consumed st hle (by rw [hcur, hty]; simp)
    simp only [scanner.expect, h, if_true]
    rw [hc]
  · intro h ho
    subst ho
    exact ⟨st.1.cur_token.line, st.1.cur_token.col, by simp [scanner.expect, h, scanner.fail]⟩
  · intro h ho
    subst ho
    simp [scanner.expect, h]

/-- Witness of C27: on the tokens of `a , b` with the cursor after `a`, `expect(',')`
moves the cursor past the comma (from 1 to 3), `expect('=', false)` raises a parse
error and `expect('=', true)` changes nothing. -/
theorem expect_char_spec_witness :
    ∃ sc : scanner Unit, scanner.scan sample_platform scanner.init (lit "a , b")
        default_scanner_params = .ok () sc ∧
      scanner.expect ',' false ({ sc with cur_token_ := 1 }, ())
        = .ok () ({ sc with cur_token_ := 3 }, ()) ∧
      (∃ line col, scanner.expect '=' false ({ sc with cur_token_ := 1 }, ())
        = .throw (.parse_error line col) ({ sc with cur_token_ := 1 }, ())) ∧
      scanner.expect '=' true ({ sc with cur_token_ := 1 }, ())
        = .ok () ({ sc with cur_token_ := 1 }, ()) := by
  refine ⟨_, rfl, ?_, ?_, ?_⟩
  · exact ((expect_char_spec ',' false (_, ()) (by decide)).2.1 (by decide)).trans rfl
  · exact (expect_char_spec '=' false (_, ()) (by decide)).2.2.1 (by decide) rfl
  · exact (expect_char_spec '=' true (_, ()) (by decide)).2.2.2 (by decide) rfl

theorem scanner_call.run_replayed {σ : Type} (call : scanner_call) (st : St σ) :
    Res.replayed st (call.run st) := by
  cases call with
  | expect c optional => exact scanner.expect_replayed c optional st
  | expect_identifier =>
    exact Res.replayed_bind (scanner.expect_identifier_replayed st)
      fun _ st1 _ => St.replayed_refl st1
  | expect_string =>
    exact Res.replayed_bind (scanner.expect_string_replayed st)
      fun _ st1 _ => St.replayed_refl st1
  | expect_number =>
    exact Res.replayed_bind (scanner.expect_number_replayed st)
      fun _ st1 _ => St.replayed_refl st1

/-- A call that returns has done nothing or has left the cursor just past a token that
is neither white space nor a comment. -/
theorem scanner_call.run_past {σ : Type} (call : scanner_call) (st st1 : St σ)
    (hle : st.1.cur_token_ ≤ st.1.tokens_.length) (h : call.run st = .ok () st1) :
    st1 = st ∨ ∃ k, st1.1.cur_token_ = k + 1 ∧ k < st.1.tokens_.length ∧
      (st.1.tokens_.getD k (token.of_type .eof_token)).type ≠ .whitespace_token ∧
      (st.1.tokens_.getD k (token.of_type .eof_token)).type ≠ .comment_token := by
  obtain ⟨_, ⟨hw, hc⟩, _⟩ := scanner.skip_whitespace_spec st
  have hpeek := peek_from_eq (st.1.tokens_.drop st.1.cur_token_)
  have key : (scanner.skip_whitespace false st).1.cur_token.type ≠ .eof_token ∧
      (scanner.skip_whitespace false st).1.cur_token.type ≠ .none_token →
      .ok () ((scanner.skip_whitespace false st).1.next_token,
        (scanner.skip_whitespace false st).2) = Res.ok () st1 →
      ∃ k, st1.1.cur_token_ = k + 1 ∧ k < st.1.tokens_.length ∧
        (st.1.tokens_.getD k (token.of_type .eof_token)).type ≠ .whitespace_token ∧
        (st.1.tokens_.getD k (token.of_type .eof_token)).type ≠ .comment_token := by
    intro hty heq
    obtain ⟨e, hlt, hcur⟩ := scanner.consumed st hle hty
    rw [e] at heq
    simp only [Res.ok.injEq, true_and] at heq
    subst heq
    refine ⟨_, rfl, hlt, ?_⟩
    have : st.1.tokens_.getD (st.1.cur_token_ +
        leading_blanks (st.1.tokens_.drop st.1.cur_token_)) (token.of_type .eof_token)
        = st.1.peek_token := by
      rw [scanner.peek_token, hpeek]
      simp [List.getD_eq_getElem?_getD, List.getElem?_drop]
    rw [this, ← hcur]
    exact ⟨hw, hc⟩
  cases call with
  | expect c optional =>
    simp only [scanner_call.run, scanner.expect] at h
    split at h
    · rename_i hp
      obtain ⟨_, _, h3⟩ := scanner.skip_whitespace_spec st
      have hty : st.1.peek_token.type = .char_token := by
        simp only [token.is_char, Bool.and_eq_true, decide_eq_true_eq] at hp
        exact hp.1
      exact Or.inr (key (by rw [h3 hle, hty]; simp) h)
    · split at h
      · simp [scanner.fail] at h
      · simp only [Res.ok.injEq, true_and] at h
        exact Or.inl h.symm
  | expect_identifier =>
    simp only [scanner_call.run, scanner.expect_identifier] at h
    split at h
    · simp [scanner.fail, Res.bind] at h
    · rename_i hty
      simp only [bne_iff_ne, ne_eq, Decidable.not_not] at hty
      exact Or.inr (key (by simp [hty]) (by simpa [Res.bind] using h))
  | expect_string =>
    simp only [scanner_call.run, scanner.expect_string] at h
    split at h
    · simp [scanner.fail, Res.bind] at h
    · rename_i hty
      simp only [bne_iff_ne, ne_eq, Decidable.not_not] at hty
      exact Or.inr (key (by simp [hty]) (by simpa [Res.bind] using h))
  | expect_number =>
    simp only [scanner_call.run, scanner.expect_number] at h
    split at h
    · simp [scanner.fail, Res.bind] at h
    · rename_i hty
      simp only [bne_iff_ne, ne_eq, Decidable.not_not] at hty
      exact Or.inr (key (by simp [hty]) (by simpa [Res.bind] using h))

/-- C30: when the calls of a list (`expect`, `expect_identifier`, `expect_string`,
`expect_number`) have all returned, the scanner has changed in its cursor only, which
has not moved or is just past the last token consumed (a token that is neither white
space nor a comment), and the state of the comment function is what the function makes
of it when it is called on the texts of the comment tokens between the old and the new
cursor, each once and in the order of the tokens. An optional `expect` that does not
find its character leaves the state as it is; `peek_token` is a value, it has no state
to change. -/
theorem comments_delivered {σ : Type} (calls : List scanner_call) (st st1 : St σ)
    (hle : st.1.cur_token_ ≤ st.1.tokens_.length)
    (h : run_calls calls st = .ok () st1) :
    st1.1 = { st.1 with cur_token_ := st1.1.cur_token_ } ∧
    st.1.cur_token_ ≤ st1.1.cur_token_ ∧ st1.1.cur_token_ ≤ st.1.tokens_.length ∧
    (st1.1.cur_token_ = st.1.cur_token_ ∨ ∃ k, st1.1.cur_token_ = k + 1 ∧
      (st.1.tokens_.getD k (token.of_type .eof_token)).type ≠ .whitespace_token ∧
      (st.1.tokens_.getD k (token.of_type .eof_token)).type ≠ .comment_token) ∧
    (∀ f, st.1.params_.comment_function = some f →
      st1.2 = (st.1.comments_between st.1.cur_token_ st1.1.cur_token_).foldl
        (fun w text => f text w) st.2) ∧
    (st.1.params_.comment_function = none → st1.2 = st.2) ∧
    (∀ c, st.1.peek_token.is_char c = false → scanner.expect c true st = .ok () st) := by
  have key : ∀ (calls : List scanner_call) (st st1 : St σ),
      st.1.cur_token_ ≤ st.1.tokens_.length → run_calls calls st = .ok () st1 →
      St.replayed st st1 ∧
      (st1.1.cur_token_ = st.1.cur_token_ ∨ ∃ k, st1.1.cur_token_ = k + 1 ∧
        (st.1.tokens_.getD k (token.of_type .eof_token)).type ≠ .whitespace_token ∧
        (st.1.tokens_.getD k (token.of_type .eof_token)).type ≠ .comment_token) := by
    intro calls
    induction calls with
    | nil =>
      intro st st1 _ h
      simp only [run_calls, Res.ok.injEq, true_and] at h
      subst h
      exact ⟨St.replayed_refl _, Or.inl rfl⟩
    | cons call calls ih =>
      intro st st1 hle h
      simp only [run_calls] at h
      cases hc : call.run st with
      | throw e s => simp [hc, Res.bind] at h
      | diverge => simp [hc, Res.bind] at h
      | ok u s =>
        simp only [hc, Res.bind] at h
        have hr : St.replayed st s := by
          have := scanner_call.run_replayed call st
          rw [hc] at this
          exact this
        have htok : s.1.tokens_ = st.1.tokens_ := by rw [hr.1]
        obtain ⟨i1, i2⟩ := ih s st1 (by rw [htok]; exact hr.2.2.1 hle) h
        refine ⟨St.replayed_trans hr i1, ?_⟩
        rcases i2 with i2 | ⟨k, hk, hty⟩
        · rcases scanner_call.run_past call st s hle hc with hp | ⟨k, hk, _, hty⟩
          · exact Or.inl (by rw [i2, hp])
          · exact Or.inr ⟨k, by rw [i2, hk], hty⟩
        · exact Or.inr ⟨k, hk, by rw [← htok]; exact hty⟩
  obtain ⟨⟨e1, e2, e3, e4⟩, hp⟩ := key calls st st1 hle h
  refine ⟨e1, e2, e3 hle, hp, ?_, ?_, ?_⟩
  · intro f hf
    rw [e4]
    simp [scanner.replay, hf]
  · intro hf
    rw [e4]
    simp [scanner.replay, hf]
  · intro c hc
    simp [scanner.expect, hc]

/-- Witness of C30: on the tokens `a`, `// c1`, the empty comment of a blank line, `=`,
`// c2`, `true`, with a comment function that appends each text to a list, the calls
`expect_identifier`, `expect('=')`, `expect_identifier` return with the cursor past the
last token, and the list is `// c1`, the empty text, `// c2`. -/
theorem comments_delivered_witness :
    run_calls [.expect_identifier, .expect '=' false, .expect_identifier] (comment_sample, [])
      = .ok () ({ comment_sample with cur_token_ := 6 }, [lit "// c1", [], lit "// c2"]) ∧
    ({ comment_sample with cur_token_ := 6 }, [lit "// c1", [], lit "// c2"]).2
      = (comment_sample.comments_between 0 6).foldl (fun w text => w ++ [text]) [] :=
  ⟨rfl,
    (comments_delivered [.expect_identifier, .expect '=' false, .expect_identifier]
      (comment_sample, []) ({ comment_sample with cur_token_ := 6 },
        [lit "// c1", [], lit "// c2"]) (by decide) rfl).2.2.2.2.1 _ rfl⟩

/-! ## The scanner, character by character -/

theorem scanner.ch_eq {σ : Type} (sc : scanner σ) (hs : sc.synced) :
    sc.ch = sc.rest.headD 0 := by
  simp only [scanner.synced] at hs
  simp only [scanner.ch, scanner.eof, hs, scanner.rest]
  by_cases h : sc.input_.length ≤ sc.pos_
  · simp [h, List.drop_eq_nil_of_le h]
  · have hlt : sc.pos_ < sc.input_.length := by omega
    rw [List.drop_eq_getElem_cons hlt]
    simp [h, List.getD_eq_getElem?_getD, List.getElem?_eq_getElem hlt]

theorem scanner.eof_of_rest {σ : Type} (sc : scanner σ) (hs : sc.synced) :
    sc.eof = decide (sc.rest = []) := by
  simp only [scanner.synced] at hs
  simp only [scanner.eof, hs, scanner.rest, List.drop_eq_nil_iff]

theorem scanner.ch_cons {σ : Type} (sc : scanner σ) (hs : sc.synced) {c : Nat} {r : Str}
    (hr : sc.rest = c :: r) : sc.ch = c ∧ sc.eof = false := by
  rw [scanner.ch_eq sc hs, scanner.eof_of_rest sc hs, hr]
  simp

theorem scanner.next_ch_cons {σ : Type} (sc : scanner σ) (hs : sc.synced) {c : Nat} {r : Str}
    (hr : sc.rest = c :: r) :
    sc.next_ch.synced ∧ sc.next_ch.rest = r ∧ sc.next_ch.input_ = sc.input_ ∧
    sc.next_ch.params_ = sc.params_ ∧ sc.next_ch.tokens_ = sc.tokens_ ∧
    sc.next_ch.pos_ = sc.pos_ + 1 := by
  obtain ⟨_, he⟩ := scanner.ch_cons sc hs hr
  simp only [scanner.synced] at hs
  have hlt : sc.pos_ < sc.input_.length := by
    by_contra hc
    simp only [scanner.rest] at hr
    rw [List.drop_eq_nil_of_le (by omega)] at hr
    cases hr
  have hfalse : sc.eof_ = false := by simpa [scanner.eof] using he
  refine ⟨?_, ?_, ?_, ?_, ?_, ?_⟩
  · simp only [scanner.next_ch, he, Bool.false_eq_true, if_false, scanner.synced]
    by_cases h1 : sc.input_.length ≤ sc.pos_ + 1
    · simp [h1]
    · simp [h1, hfalse]
  · simp only [scanner.next_ch, he, Bool.false_eq_true, if_false]
    simp only [scanner.rest] at hr ⊢
    have := congrArg List.tail hr
    simpa [List.tail_drop] using this
  · simp [scanner.next_ch, he]
  · simp [scanner.next_ch, he]
  · simp [scanner.next_ch, he]
  · simp [scanner.next_ch, he]

theorem scanner.next_ch_nil {σ : Type} (sc : scanner σ) (hs : sc.synced)
    (hr : sc.rest = []) : sc.next_ch = sc := by
  have he : sc.eof = true := by rw [scanner.eof_of_rest sc hs, hr]; simp
  simp [scanner.next_ch, he]

theorem scanner.next_ch_times_succ {σ : Type} (n : Nat) (sc : scanner σ) :
    scanner.next_ch_times (n + 1) sc = (scanner.next_ch_times n sc).next_ch := by
  induction n generalizing sc with
  | zero => rfl
  | succ n ih => rw [scanner.next_ch_times, ih sc.next_ch]; rfl

theorem scanner.next_ch_times_append {σ : Type} (ds : Str) :
    ∀ (sc : scanner σ) (r : Str), sc.synced → sc.rest = ds ++ r →
      (scanner.next_ch_times ds.length sc).synced ∧
      (scanner.next_ch_times ds.length sc).rest = r ∧
      (scanner.next_ch_times ds.length sc).input_ = sc.input_ ∧
      (scanner.next_ch_times ds.length sc).params_ = sc.params_ ∧
      (scanner.next_ch_times ds.length sc).tokens_ = sc.tokens_ ∧
      (scanner.next_ch_times ds.length sc).pos_ = sc.pos_ + ds.length := by
  induction ds with
  | nil => intro sc r hs hr; exact ⟨hs, by simpa using hr, rfl, rfl, rfl, rfl⟩
  | cons d ds ih =>
    intro sc r hs hr
    obtain ⟨h1, h2, h3, h4, h5, h6⟩ := scanner.next_ch_cons sc hs (by simpa using hr)
    obtain ⟨i1, i2, i3, i4, i5, i6⟩ := ih sc.next_ch r h1 h2
    simp only [List.length_cons, scanner.next_ch_times]
    exact ⟨i1, i2, i3.trans h3, i4.trans h4, i5.trans h5, by rw [i6, h6]; omega⟩

theorem scanner.hex_loop_unfold {σ : Type} (sc : scanner σ) (hs : sc.synced) {d : Nat}
    {r : Str} (hr : sc.rest = d :: r) (i u : Nat) (f : Bool) :
    scanner.try_read_hex_loop (i + 1) u f sc =
      if 48 ≤ d ∧ d ≤ 57 then scanner.try_read_hex_loop i (u * 16 + (d - 48)) f sc.next_ch
      else if 97 ≤ d ∧ d ≤ 102 then
        scanner.try_read_hex_loop i (u * 16 + (d - 97 + 10)) f sc.next_ch
      else if 65 ≤ d ∧ d ≤ 70 then
        scanner.try_read_hex_loop i (u * 16 + (d - 65 + 10)) f sc.next_ch
      else ((true, 0), sc) := by
  obtain ⟨hc, he⟩ := scanner.ch_cons sc hs hr
  have c0 : '0'.toNat = 48 := rfl
  have c9 : '9'.toNat = 57 := rfl
  have ca : 'a'.toNat = 97 := rfl
  have cf : 'f'.toNat = 102 := rfl
  have cA : 'A'.toNat = 65 := rfl
  have cF : 'F'.toNat = 70 := rfl
  simp only [scanner.try_read_hex_loop, he, hc, Bool.false_eq_true, if_false, ge_iff_le,
    Bool.and_eq_true, decide_eq_true_eq, c0, c9, ca, cf, cA, cF]

theorem scanner.hex_step {σ : Type} (sc : scanner σ) (hs : sc.synced) {d v : Nat} {r : Str}
    (hr : sc.rest = d :: r) (hv : hex_value d = some v) (i u : Nat) (f : Bool) :
    scanner.try_read_hex_loop (i + 1) u f sc =
      scanner.try_read_hex_loop i (u * 16 + v) f sc.next_ch := by
  rw [scanner.hex_loop_unfold sc hs hr]
  simp only [hex_value] at hv
  by_cases h1 : 48 ≤ d ∧ d ≤ 57
  · rw [if_pos h1] at hv ⊢
    cases hv
    rfl
  · rw [if_neg h1] at hv ⊢
    by_cases h2 : 97 ≤ d ∧ d ≤ 102
    · rw [if_pos h2] at hv ⊢
      cases hv
      have hsub : d - 97 + 10 = d - 87 := by omega
      rw [hsub]
    · rw [if_neg h2] at hv ⊢
      by_cases h3 : 65 ≤ d ∧ d ≤ 70
      · rw [if_pos h3] at hv ⊢
        cases hv
        have hsub : d - 65 + 10 = d - 55 := by omega
        rw [hsub]
      · rw [if_neg h3] at hv
        cases hv

theorem scanner.hex_stop {σ : Type} (sc : scanner σ) (hs : sc.synced)
    (hr : sc.rest = [] ∨ ∃ d r, sc.rest = d :: r ∧ hex_value d = none) (i u : Nat) (f : Bool) :
    scanner.try_read_hex_loop (i + 1) u f sc = ((true, 0), sc) := by
  rcases hr with hr | ⟨d, r, hr, hv⟩
  · have he : sc.eof = true := by rw [scanner.eof_of_rest sc hs, hr]; simp
    simp [scanner.try_read_hex_loop, he]
  · rw [scanner.hex_loop_unfold sc hs hr]
    simp only [hex_value] at hv
    by_cases h1 : 48 ≤ d ∧ d ≤ 57
    · rw [if_pos h1] at hv; cases hv
    · rw [if_neg h1] at hv ⊢
      by_cases h2 : 97 ≤ d ∧ d ≤ 102
      · rw [if_pos h2] at hv; cases hv
      · rw [if_neg h2] at hv ⊢
        by_cases h3 : 65 ≤ d ∧ d ≤ 70
        · rw [if_pos h3] at hv; cases hv
        · rw [if_neg h3]

theorem hex_fold_none (ds : List Nat) :
    ds.foldl (fun acc c =>
      match acc, hex_value c with
      | some n, some d => some (n * 16 + d)
      | _, _ => none) none = none := by
  induction ds with
  | nil => rfl
  | cons d ds ih => simpa using ih

/-- Over hexadecimal digits `try_read_hex` goes on and adds them up. -/
theorem scanner.hex_digits {σ : Type} (ds : List Nat) :
    ∀ (sc : scanner σ) (u n i : Nat) (f : Bool) (r : Str), sc.synced → sc.rest = ds ++ r →
      ds.foldl (fun acc c =>
        match acc, hex_value c with
        | some n, some d => some (n * 16 + d)
        | _, _ => none) (some u) = some n →
      scanner.try_read_hex_loop (ds.length + i) u f sc =
        scanner.try_read_hex_loop i n f (scanner.next_ch_times ds.length sc) := by
  induction ds with
  | nil =>
    intro sc u n i f r _ _ h
    simp only [List.foldl_nil, Option.some.injEq] at h
    subst h
    simp [scanner.next_ch_times]
  | cons d ds ih =>
    intro sc u n i f r hs hr h
    cases hv : hex_value d with
    | none =>
      simp only [List.foldl_cons, hv] at h
      rw [hex_fold_none] at h
      cases h
    | some v =>
      simp only [List.foldl_cons, hv] at h
      obtain ⟨h1, h2, _⟩ := scanner.next_ch_cons sc hs (show sc.rest = d :: (ds ++ r) by simpa using hr)
      have hlen : (d :: ds).length + i = (ds.length + i) + 1 := by simp; omega
      rw [hlen, scanner.hex_step sc hs (show sc.rest = d :: (ds ++ r) by simpa using hr) hv,
        ih sc.next_ch _ n i f r h1 h2 h]
      rfl

/-! ## Unicode escapes -/

theorem hex_value_lt {d v : Nat} (h : hex_value d = some v) : v < 16 := by
  simp only [hex_value] at h
  split_ifs at h <;> cases h <;> omega

theorem hex_fold_lt (ds : List Nat) :
    ∀ (a u : Nat), ds.foldl (fun acc c =>
        match acc, hex_value c with
        | some n, some d => some (n * 16 + d)
        | _, _ => none) (some a) = some u → u < (a + 1) * 16 ^ ds.length := by
  induction ds with
  | nil =>
    intro a u h
    simp only [List.foldl_nil, Option.some.injEq] at h
    subst h
    simp
  | cons d ds ih =>
    intro a u h
    cases hv : hex_value d with
    | none =>
      simp only [List.foldl_cons, hv] at h
      rw [hex_fold_none] at h
      cases h
    | some v =>
      simp only [List.foldl_cons, hv] at h
      have h1 := ih _ _ h
      have h2 := hex_value_lt hv
      have h3 : (a * 16 + v + 1) * 16 ^ ds.length ≤ (a + 1) * 16 ^ (d :: ds).length := by
        rw [List.length_cons, pow_succ, ← mul_assoc, mul_comm (a + 1) (16 ^ ds.length),
          mul_comm (a * 16 + v + 1) (16 ^ ds.length), mul_assoc]
        apply Nat.mul_le_mul_left
        omega
      omega

theorem hex_number_lt {ds : List Nat} {u : Nat} (hl : ds.length = 4)
    (h : hex_number ds = some u) : u < 0x10000 := by
  have := hex_fold_lt ds 0 u h
  rw [hl] at this
  simpa using this

/-- Four hexadecimal digits: `try_read_hex` returns their number and stands behind
them, and `*failed` is what it was. -/
theorem scanner.try_read_hex_ok {σ : Type} (sc : scanner σ) (hs : sc.synced) {ds r : Str}
    {u : Nat} (hr : sc.rest = ds ++ r) (hl : ds.length = 4) (h : hex_number ds = some u)
    (f : Bool) :
    sc.try_read_hex f = ((f, u), scanner.next_ch_times 4 sc) := by
  have := scanner.hex_digits ds sc 0 u 0 f r hs hr h
  rw [hl] at this
  exact this

/-- Fewer than four hexadecimal digits, and then the end of the input or another
character: `try_read_hex` fails and stands at that character. -/
theorem scanner.try_read_hex_fail {σ : Type} (sc : scanner σ) (hs : sc.synced) {ds r : Str}
    {u : Nat} (hr : sc.rest = ds ++ r) (hl : ds.length < 4) (h : hex_number ds = some u)
    (hstop : r = [] ∨ ∃ d t, r = d :: t ∧ hex_value d = none) (f : Bool) :
    sc.try_read_hex f = ((true, 0), scanner.next_ch_times ds.length sc) := by
  obtain ⟨i, hi⟩ : ∃ i, 4 = ds.length + (i + 1) := ⟨3 - ds.length, by omega⟩
  have h1 := scanner.hex_digits ds sc 0 u (i + 1) f r hs hr h
  obtain ⟨s1, s2, _⟩ := scanner.next_ch_times_append ds sc r hs hr
  have h2 := scanner.hex_stop (scanner.next_ch_times ds.length sc) s1
    (by rw [s2]; exact hstop) i u f
  rw [scanner.try_read_hex, hi, h1, h2]

theorem or_c0 : ∀ x, x < 32 → x ||| 0xc0 = x + 0xc0 := by decide
theorem or_80 : ∀ x, x < 64 → x ||| 0x80 = x + 0x80 := by decide
theorem or_e0 : ∀ x, x < 16 → x ||| 0xe0 = x + 0xe0 := by decide
theorem or_f0 : ∀ x, x < 8 → x ||| 0xf0 = x + 0xf0 := by decide

theorem and_3f (x : Nat) : x &&& 0x3f = x % 64 :=
  Nat.and_pow_two_sub_one_eq_mod x 6

theorem takeWhile_nonzero (l z : List Nat) (h : ∀ b ∈ l, b ≠ 0) :
    (l ++ z.map (fun _ => 0)).takeWhile (fun b => b != 0) = l := by
  induction l with
  | nil => cases z <;> simp [List.takeWhile]
  | cons a l ih =>
    have ha : (a != 0) = true := by simpa using h a (by simp)
    rw [List.cons_append, List.takeWhile_cons, ha]
    simp only [if_true]
    rw [ih (fun b hb => h b (by simp [hb]))]

/-- The function `wc_to_utf8` gives the standard encoding of a code point that is not
zero and is below 0x110000. -/
theorem wc_to_utf8_eq {u : Nat} (h0 : u ≠ 0) (h : u < 0x110000) :
    wc_to_utf8 u = utf8_encoding u := by
  have s6 : u >>> 6 = u / 64 := Nat.shiftRight_eq_div_pow u 6
  have s12 : u >>> 12 = u / 4096 := Nat.shiftRight_eq_div_pow u 12
  have s18 : u >>> 18 = u / 262144 := Nat.shiftRight_eq_div_pow u 18
  simp only [wc_to_utf8, utf8_encoding, s6, s12, s18, and_3f]
  by_cases c1 : u < 0x80
  · have e1 : u % 256 = u := Nat.mod_eq_of_lt (by omega)
    rw [if_pos c1, if_pos c1, e1]
    exact takeWhile_nonzero [u] [0, 0, 0] (by simpa using h0)
  · by_cases c2 : u < 0x800
    · rw [if_neg c1, if_pos c2, if_neg c1, if_pos c2, or_c0 _ (by omega),
        or_80 _ (Nat.mod_lt _ (by decide))]
      have e1 : (u / 64 + 0xc0) % 256 = 0xc0 + u / 64 := by omega
      have e2 : (u % 64 + 0x80) % 256 = 0x80 + u % 64 := by omega
      rw [e1, e2]
      exact takeWhile_nonzero [0xc0 + u / 64, 0x80 + u % 64] [0, 0]
        (by intro b hb; simp at hb; omega)
    · by_cases c3 : u < 0x10000
      · rw [if_neg c1, if_neg c2, if_pos c3, if_neg c1, if_neg c2, if_pos c3,
          or_e0 _ (by omega), or_80 _ (Nat.mod_lt _ (by decide)),
          or_80 _ (Nat.mod_lt _ (by decide))]
        have e1 : (u / 4096 + 0xe0) % 256 = 0xe0 + u / 4096 := by omega
        have e2 : (u / 64 % 64 + 0x80) % 256 = 0x80 + u / 64 % 64 := by omega
        have e3 : (u % 64 + 0x80) % 256 = 0x80 + u % 64 := by omega
        rw [e1, e2, e3]
        exact takeWhile_nonzero [0xe0 + u / 4096, 0x80 + u / 64 % 64, 0x80 + u % 64] [0]
          (by intro b hb; simp at hb; omega)
      · rw [if_neg c1, if_neg c2, if_neg c3, if_pos h, if_neg c1, if_neg c2, if_neg c3,
          or_f0 _ (by omega), or_80 _ (Nat.mod_lt _ (by decide)),
          or_80 _ (Nat.mod_lt _ (by decide)), or_80 _ (Nat.mod_lt _ (by decide))]
        have e1 : (u / 262144 + 0xf0) % 256 = 0xf0 + u / 262144 := by omega
        have e2 : (u / 4096 % 64 + 0x80) % 256 = 0x80 + u / 4096 % 64 := by omega
        have e3 : (u / 64 % 64 + 0x80) % 256 = 0x80 + u / 64 % 64 := by omega
        have e4 : (u % 64 + 0x80) % 256 = 0x80 + u % 64 := by omega
        rw [e1, e2, e3, e4]
        exact takeWhile_nonzero
          [0xf0 + u / 262144, 0x80 + u / 4096 % 64, 0x80 + u / 64 % 64, 0x80 + u % 64] []
          (by intro b hb; simp at hb; omega)

theorem utf8_encoding_ne_nil (u : Nat) : utf8_encoding u ≠ [] := by
  simp only [utf8_encoding]
  split_ifs <;> simp

/-- The code point of a surrogate pair as `utf8_unescape` computes it. -/
theorem surrogate_pair_value {hi lo : Nat} (hlo1 : 0xdc00 ≤ lo) (hlo2 : lo ≤ 0xdfff) :
    0x10000 + (((hi - 0xd800) <<< 10) ||| ((lo - 0xdc00) &&& 0x3ff)) =
      0x10000 + ((hi - 0xd800) * 0x400 + (lo - 0xdc00)) := by
  have e1 : (lo - 0xdc00) &&& 0x3ff = lo - 0xdc00 := by
    rw [show (0x3ff : Nat) = 2 ^ 10 - 1 from rfl, Nat.and_pow_two_sub_one_eq_mod]
    exact Nat.mod_eq_of_lt (by omega)
  have e2 : (hi - 0xd800) <<< 10 = 2 ^ 10 * (hi - 0xd800) := by
    rw [Nat.shiftLeft_eq, mul_comm]
  rw [e1, e2, ← Nat.mul_add_lt_is_or (show lo - 0xdc00 < 2 ^ 10 by omega)]
  omega

theorem scanner.next_ch_times_add {σ : Type} (a b : Nat) (sc : scanner σ) :
    scanner.next_ch_times (a + b) sc = scanner.next_ch_times b (scanner.next_ch_times a sc) := by
  induction a generalizing sc with
  | zero => simp [scanner.next_ch_times]
  | succ a ih =>
    rw [show a + 1 + b = (a + b) + 1 by omega]
    simp only [scanner.next_ch_times]
    exact ih sc.next_ch

/-- The test of `utf8_unescape` for what follows a high surrogate fails exactly when
the characters `\\u` come next. -/
theorem scanner.escape_follows {σ : Type} (sc : scanner σ) (hs : sc.synced) :
    (sc.ch != 92 || sc.pos_ = sc.input_.length - 1
        || sc.input_.getD (sc.pos_ + 1) 0 != 'u'.toNat) = false ↔
      ∃ t, sc.rest = 92 :: 117 :: t := by
  have hu : 'u'.toNat = 117 := rfl
  rw [hu]
  have hlen : sc.rest.length = sc.input_.length - sc.pos_ := by simp [scanner.rest]
  have hget : sc.input_.getD (sc.pos_ + 1) 0 = sc.rest.getD 1 0 := by
    simp [scanner.rest, List.getD_eq_getElem?_getD]
  rw [hget]
  cases hr : sc.rest with
  | nil =>
    have hc : sc.ch = 0 := by rw [scanner.ch_eq sc hs, hr]; rfl
    simp [hc]
  | cons c r =>
    obtain ⟨hc, _⟩ := scanner.ch_cons sc hs hr
    rw [hr] at hlen
    cases r with
    | nil =>
      have hp : sc.pos_ = sc.input_.length - 1 := by simp at hlen; omega
      simp [hc, hp]
    | cons d t =>
      have hp : sc.pos_ ≠ sc.input_.length - 1 := by simp at hlen; omega
      simp [hc, hp]

/-- Four hexadecimal digits read while the variable `failed` holds `true`: the test
`if (failed)` sends `utf8_unescape` to its label `invalid` behind the digits, whatever
their number. -/
theorem scanner.utf8_unescape_stale {σ : Type} (P : Platform) (sc : scanner σ)
    (hs : sc.synced) {ds r : Str} {u : Nat} (hr : sc.rest = ds ++ r) (hl : ds.length = 4)
    (h : hex_number ds = some u) (hst : sc.stale P = true) :
    sc.utf8_unescape P = (scanner.next_ch_times 4 sc).utf8_invalid := by
  have hst1 : P.indeterminate sc.input_ sc.pos_ = true := hst
  simp only [scanner.utf8_unescape, hst1, scanner.try_read_hex_ok sc hs hr hl h, if_true]

/-- A single escape: four hexadecimal digits whose number is not zero and is no
surrogate, read while the variable `failed` holds `false`. -/
theorem scanner.utf8_unescape_single {σ : Type} (P : Platform) (sc : scanner σ)
    (hs : sc.synced) (hcl : sc.stale P = false)
    {ds r : Str} {u : Nat} (hr : sc.rest = ds ++ r) (hl : ds.length = 4)
    (h : hex_number ds = some u) (h0 : u ≠ 0) (hsur : u < 0xd800 ∨ 0xdfff < u) :
    sc.utf8_unescape P = .ok (utf8_encoding u) (scanner.next_ch_times 4 sc) := by
  have hlt := hex_number_lt hl h
  have hcl1 : P.indeterminate sc.input_ sc.pos_ = false := hcl
  have hno : (decide (u ≥ 0xd800) && decide (u ≤ 0xdfff)) = false := by
    rcases hsur with h1 | h1
    · simp; omega
    · simp; omega
  simp only [scanner.utf8_unescape, hcl1, scanner.try_read_hex_ok sc hs hr hl h, hno,
    wc_to_utf8_eq h0 (show u < 0x110000 by omega), utf8_encoding_ne_nil,
    Bool.false_eq_true, if_false]

/-- A surrogate pair, read while the variable `failed` holds `false`. -/
theorem scanner.utf8_unescape_pair {σ : Type} (P : Platform) (sc : scanner σ)
    (hs : sc.synced) (hcl : sc.stale P = false)
    {ds ds2 r : Str} {hi lo : Nat} (hr : sc.rest = ds ++ 92 :: 117 :: (ds2 ++ r))
    (hl : ds.length = 4) (h : hex_number ds = some hi)
    (hl2 : ds2.length = 4) (h2 : hex_number ds2 = some lo)
    (hhi1 : 0xd800 ≤ hi) (hhi2 : hi ≤ 0xdbff) (hlo1 : 0xdc00 ≤ lo) (hlo2 : lo ≤ 0xdfff) :
    sc.utf8_unescape P =
      .ok (utf8_encoding (0x10000 + ((hi - 0xd800) * 0x400 + (lo - 0xdc00))))
        (scanner.next_ch_times 10 sc) := by
  have hcl1 : P.indeterminate sc.input_ sc.pos_ = false := hcl
  obtain ⟨s1, s2, _⟩ := scanner.next_ch_times_append ds sc _ hs hr
  rw [hl] at s1 s2
  obtain ⟨a1, a2, _⟩ := scanner.next_ch_cons _ s1 s2
  obtain ⟨b1, b2, _⟩ := scanner.next_ch_cons _ a1 a2
  have hsur : (decide (hi ≥ 0xd800) && decide (hi ≤ 0xdfff)) = true := by simp; omega
  have hlow : ¬ hi ≥ 0xdc00 := by omega
  have hfol := (scanner.escape_follows _ s1).2 ⟨_, s2⟩
  have hlo : (decide (lo < 0xdc00) || decide (lo > 0xdfff)) = false := by simp; omega
  have hten : scanner.next_ch_times 4 (scanner.next_ch_times 4 sc).next_ch.next_ch
      = scanner.next_ch_times 10 sc := by
    rw [show (10 : Nat) = 4 + (1 + (1 + 4)) from rfl, scanner.next_ch_times_add,
      scanner.next_ch_times_add, scanner.next_ch_times_add]
    rfl
  simp only [scanner.utf8_unescape, hcl1, scanner.try_read_hex_ok sc hs hr hl h, hsur, hlow,
    hfol, scanner.try_read_hex_ok _ b1 b2 hl2 h2, hlo, surrogate_pair_value hlo1 hlo2,
    wc_to_utf8_eq (show 0x10000 + ((hi - 0xd800) * 0x400 + (lo - 0xdc00)) ≠ 0 by omega)
      (show 0x10000 + ((hi - 0xd800) * 0x400 + (lo - 0xdc00)) < 0x110000 by omega),
    utf8_encoding_ne_nil, Bool.false_eq_true, if_false, if_true, hten]

theorem scanner.utf8_invalid_eq {σ : Type} (sc : scanner σ) :
    sc.utf8_invalid = if sc.strict then .throw (.utf8_error sc.line_ sc.col_) sc
      else .ok [0xef, 0xbf, 0xbd] sc := by
  simp only [scanner.utf8_invalid, scanner.strict]

theorem scanner.next_ch_times_strict {σ : Type} (n : Nat) (sc : scanner σ) :
    (scanner.next_ch_times n sc).strict = sc.strict := by
  induction n generalizing sc with
  | zero => rfl
  | succ n ih =>
    rw [scanner.next_ch_times, ih]
    simp only [scanner.strict, scanner.next_ch]
    split <;> rfl

theorem scanner.next_ch_times_rest {σ : Type} (n : Nat) (sc : scanner σ) (hs : sc.synced)
    (hn : n ≤ sc.rest.length) :
    (scanner.next_ch_times n sc).synced ∧ (scanner.next_ch_times n sc).rest = sc.rest.drop n := by
  have h := scanner.next_ch_times_append (sc.rest.take n) sc (sc.rest.drop n) hs
    (List.take_append_drop n sc.rest).symm
  rw [List.length_take, Nat.min_eq_left hn] at h
  exact ⟨h.1, h.2.1⟩

/-- A malformed escape: `utf8_unescape` goes to its label `invalid` with the characters
of the escape consumed, or, when the variable `failed` held `true` from the start, behind
the four digits of the first group at the latest. -/
theorem scanner.utf8_unescape_malformed {σ : Type} (P : Platform) (sc : scanner σ)
    (hs : sc.synced) {k : Nat} (hm : malformed_escape sc.rest k) :
    sc.utf8_unescape P =
      (scanner.next_ch_times (escape_consumed (sc.stale P) k) sc).utf8_invalid := by
  generalize hrest : sc.rest = rest at hm
  cases hb : sc.stale P with
  | true =>
    cases hm with
    | short ds r u hl h hstop =>
      have hk : escape_consumed true ds.length = ds.length := by
        simp only [escape_consumed, if_true]
        omega
      rw [hk]
      simp only [scanner.utf8_unescape, scanner.try_read_hex_fail sc hs hrest hl h hstop,
        if_true]
    | lone_low ds r u hl h h1 h2 => exact scanner.utf8_unescape_stale P sc hs hrest hl h hb
    | high_alone ds r u hl h h1 h2 hno =>
      exact scanner.utf8_unescape_stale P sc hs hrest hl h hb
    | high_short ds ds2 r u u2 hl h h1 h2 hl2 h3 hstop =>
      have hk : escape_consumed true (6 + ds2.length) = 4 := by
        simp only [escape_consumed, if_true]
        omega
      rw [hk]
      exact scanner.utf8_unescape_stale P sc hs hrest hl h hb
    | high_no_low ds ds2 r u u2 hl h h1 h2 hl2 h3 hbad =>
      exact scanner.utf8_unescape_stale P sc hs hrest hl h hb
  | false =>
    have hb1 : P.indeterminate sc.input_ sc.pos_ = false := hb
    simp only [escape_consumed, Bool.false_eq_true, if_false]
    cases hm with
    | short ds r u hl h hstop =>
      simp only [scanner.utf8_unescape, scanner.try_read_hex_fail sc hs hrest hl h hstop,
        if_true]
    | lone_low ds r u hl h h1 h2 =>
      have hsur : (decide (u ≥ 0xd800) && decide (u ≤ 0xdfff)) = true := by simp; omega
      have hlow : u ≥ 0xdc00 := h1
      simp only [scanner.utf8_unescape, hb1, scanner.try_read_hex_ok sc hs hrest hl h, hsur,
        hlow, Bool.false_eq_true, if_false, if_true]
    | high_alone ds r u hl h h1 h2 hno =>
      obtain ⟨s1, s2, _⟩ := scanner.next_ch_times_append ds sc _ hs hrest
      rw [hl] at s1 s2
      have hsur : (decide (u ≥ 0xd800) && decide (u ≤ 0xdfff)) = true := by simp; omega
      have hlow : ¬ u ≥ 0xdc00 := by omega
      have hfol : ((scanner.next_ch_times 4 sc).ch != 92
          || (scanner.next_ch_times 4 sc).pos_ = (scanner.next_ch_times 4 sc).input_.length - 1
          || (scanner.next_ch_times 4 sc).input_.getD ((scanner.next_ch_times 4 sc).pos_ + 1) 0
              != 'u'.toNat) = true := by
        rw [← Bool.not_eq_false]
        intro hc
        exact hno (by rw [← s2]; exact (scanner.escape_follows _ s1).1 hc)
      simp only [scanner.utf8_unescape, hb1, scanner.try_read_hex_ok sc hs hrest hl h, hsur,
        hlow, hfol, Bool.false_eq_true, if_false, if_true]
    | high_short ds ds2 r u u2 hl h h1 h2 hl2 h3 hstop =>
      obtain ⟨s1, s2, _⟩ := scanner.next_ch_times_append ds sc _ hs hrest
      rw [hl] at s1 s2
      obtain ⟨a1, a2, _⟩ := scanner.next_ch_cons _ s1 s2
      obtain ⟨b1, b2, _⟩ := scanner.next_ch_cons _ a1 a2
      have hsur : (decide (u ≥ 0xd800) && decide (u ≤ 0xdfff)) = true := by simp; omega
      have hlow : ¬ u ≥ 0xdc00 := by omega
      have hfol := (scanner.escape_follows _ s1).2 ⟨_, s2⟩
      have hk : scanner.next_ch_times ds2.length (scanner.next_ch_times 4 sc).next_ch.next_ch
          = scanner.next_ch_times (6 + ds2.length) sc := by
        rw [show 6 + ds2.length = 4 + (1 + (1 + ds2.length)) by omega,
          scanner.next_ch_times_add, scanner.next_ch_times_add, scanner.next_ch_times_add]
        rfl
      simp only [scanner.utf8_unescape, hb1, scanner.try_read_hex_ok sc hs hrest hl h, hsur,
        hlow, hfol, scanner.try_read_hex_fail _ b1 b2 hl2 h3 hstop, Bool.false_eq_true,
        if_false, if_true, hk]
    | high_no_low ds ds2 r u u2 hl h h1 h2 hl2 h3 hbad =>
      obtain ⟨s1, s2, _⟩ := scanner.next_ch_times_append ds sc _ hs hrest
      rw [hl] at s1 s2
      obtain ⟨a1, a2, _⟩ := scanner.next_ch_cons _ s1 s2
      obtain ⟨b1, b2, _⟩ := scanner.next_ch_cons _ a1 a2
      have hsur : (decide (u ≥ 0xd800) && decide (u ≤ 0xdfff)) = true := by simp; omega
      have hlow : ¬ u ≥ 0xdc00 := by omega
      have hfol := (scanner.escape_follows _ s1).2 ⟨_, s2⟩
      have hlo : (decide (u2 < 0xdc00) || decide (u2 > 0xdfff)) = true := by simp; omega
      have hten : scanner.next_ch_times 4 (scanner.next_ch_times 4 sc).next_ch.next_ch
          = scanner.next_ch_times 10 sc := by
        rw [show (10 : Nat) = 4 + (1 + (1 + 4)) from rfl, scanner.next_ch_times_add,
          scanner.next_ch_times_add, scanner.next_ch_times_add]
        rfl
      simp only [scanner.utf8_unescape, hb1, scanner.try_read_hex_ok sc hs hrest hl h, hsur,
        hlow, hfol, scanner.try_read_hex_ok _ b1 b2 hl2 h3, hlo, Bool.false_eq_true,
        if_false, if_true, hten]

theorem escape_consumed_le (stale : Bool) (k : Nat) : escape_consumed stale k ≤ k := by
  cases stale <;> simp [escape_consumed]

theorem malformed_escape_le {rest : Str} {k : Nat} (hm : malformed_escape rest k) :
    k ≤ rest.length := by
  cases hm <;> simp <;> omega

/-- At the backslash of an escape `\\u`, the loop of `scan_string` calls `utf8_unescape`
behind the two characters and goes on with what it returns. -/
theorem scanner.scan_string_loop_escape {σ : Type} (P : Platform) (sc : scanner σ)
    (hs : sc.synced) {rest : Str} (hr : sc.rest = 92 :: 117 :: rest) (n : Nat) (buf : Str) :
    scanner.scan_string_loop P (n + 1) sc buf =
      (sc.next_ch.next_ch.utf8_unescape P).bind fun utf8 sc1 =>
        scanner.scan_string_loop P n sc1 (buf ++ utf8) := by
  obtain ⟨hc, he⟩ := scanner.ch_cons sc hs hr
  obtain ⟨a1, a2, _⟩ := scanner.next_ch_cons sc hs hr
  obtain ⟨hc2, _⟩ := scanner.ch_cons _ a1 a2
  have he2 : sc.eof_ = false := he
  have hu : 'u'.toNat = 117 := rfl
  simp [scanner.scan_string_loop, hc, he2, hc2, hu]

/-- Well-formed escapes read while the variable `failed` of `utf8_unescape` holds
`false`: at an escape `\\u` with four hexadecimal digits whose number `u` is not zero and
is no surrogate, `utf8_unescape` returns the standard UTF-8 encoding of `u` (one, two or
three bytes according to its value), and the loop of `scan_string` appends these bytes
to the string and goes on behind the six characters. At a high surrogate followed by
`\\u` and a low surrogate, the bytes are the four-byte encoding of
`0x10000 + ((hi - 0xD800) * 0x400 + (lo - 0xDC00))`, and the loop goes on behind the
twelve characters. -/
theorem unicode_escape_decoded {σ : Type} (P : Platform) (sc : scanner σ) (hs : sc.synced)
    (hcl : sc.next_ch.next_ch.stale P = false) :
    (∀ (ds r : Str) (u : Nat), sc.rest = 92 :: 117 :: (ds ++ r) → ds.length = 4 →
      hex_number ds = some u → u ≠ 0 → (u < 0xd800 ∨ 0xdfff < u) →
      sc.next_ch.next_ch.utf8_unescape P
        = .ok (utf8_encoding u) (scanner.next_ch_times 6 sc) ∧
      (∀ (n : Nat) (buf : Str), scanner.scan_string_loop P (n + 1) sc buf =
        scanner.scan_string_loop P n (scanner.next_ch_times 6 sc) (buf ++ utf8_encoding u)) ∧
      (scanner.next_ch_times 6 sc).rest = r ∧
      (utf8_encoding u).length = (if u < 0x80 then 1 else if u < 0x800 then 2 else 3)) ∧
    (∀ (ds ds2 r : Str) (hi lo : Nat), sc.rest = 92 :: 117 :: (ds ++ 92 :: 117 :: (ds2 ++ r)) →
      ds.length = 4 → hex_number ds = some hi → ds2.length = 4 → hex_number ds2 = some lo →
      0xd800 ≤ hi → hi ≤ 0xdbff → 0xdc00 ≤ lo → lo ≤ 0xdfff →
      sc.next_ch.next_ch.utf8_unescape P =
        .ok (utf8_encoding (0x10000 + ((hi - 0xd800) * 0x400 + (lo - 0xdc00))))
          (scanner.next_ch_times 12 sc) ∧
      (∀ (n : Nat) (buf : Str), scanner.scan_string_loop P (n + 1) sc buf =
        scanner.scan_string_loop P n (scanner.next_ch_times 12 sc)
          (buf ++ utf8_encoding (0x10000 + ((hi - 0xd800) * 0x400 + (lo - 0xdc00))))) ∧
      (scanner.next_ch_times 12 sc).rest = r ∧
      (utf8_encoding (0x10000 + ((hi - 0xd800) * 0x400 + (lo - 0xdc00)))).length = 4) := by
  constructor
  · intro ds r u hr hl h h0 hsur
    obtain ⟨a1, a2, _⟩ := scanner.next_ch_cons sc hs hr
    obtain ⟨b1, b2, _⟩ := scanner.next_ch_cons _ a1 a2
    have e := scanner.utf8_unescape_single P _ b1 hcl b2 hl h h0 hsur
    have hsix : scanner.next_ch_times 4 sc.next_ch.next_ch = scanner.next_ch_times 6 sc := rfl
    rw [hsix] at e
    have hlt := hex_number_lt hl h
    refine ⟨e, ?_, ?_, ?_⟩
    · intro n buf
      rw [scanner.scan_string_loop_escape P sc hs hr, e]
      rfl
    · have := (scanner.next_ch_times_append ds _ r b1 b2).2.1
      rw [hl, hsix] at this
      exact this
    · simp only [utf8_encoding]
      split_ifs <;> rfl
  · intro ds ds2 r hi lo hr hl h hl2 h2 hhi1 hhi2 hlo1 hlo2
    obtain ⟨a1, a2, _⟩ := scanner.next_ch_cons sc hs hr
    obtain ⟨b1, b2, _⟩ := scanner.next_ch_cons _ a1 a2
    have e := scanner.utf8_unescape_pair P _ b1 hcl b2 hl h hl2 h2 hhi1 hhi2 hlo1 hlo2
    have htw : scanner.next_ch_times 10 sc.next_ch.next_ch = scanner.next_ch_times 12 sc := rfl
    rw [htw] at e
    refine ⟨e, ?_, ?_, ?_⟩
    · intro n buf
      rw [scanner.scan_string_loop_escape P sc hs hr, e]
      rfl
    · have hr2 : sc.next_ch.next_ch.rest = (ds ++ 92 :: 117 :: ds2) ++ r := by
        rw [b2]; simp
      have := (scanner.next_ch_times_append _ _ r b1 hr2).2.1
      have hlen : (ds ++ 92 :: 117 :: ds2).length = 10 := by simp [hl, hl2]
      rw [hlen, htw] at this
      exact this
    · simp only [utf8_encoding]
      split_ifs <;> first | rfl | omega

/-- Where the variable `failed` holds `false`: in the text `\\u20ac"` the escape gives
the three bytes E2 82 AC of U+20AC, and in `\\ud83d\\ude00"` the pair gives the four
bytes F0 9F 98 80 of U+1F600; the closing quote is what is left. -/
theorem unicode_escape_decoded_on_sample :
    (scanner.opened (lit "\\u20ac\"") 0).synced ∧
    (scanner.opened (lit "\\u20ac\"") 0).next_ch.next_ch.utf8_unescape sample_platform
      = .ok [0xe2, 0x82, 0xac] (scanner.next_ch_times 6 (scanner.opened (lit "\\u20ac\"") 0)) ∧
    (scanner.next_ch_times 6 (scanner.opened (lit "\\u20ac\"") 0)).rest = [34] ∧
    (scanner.opened (lit "\\ud83d\\ude00\"") 0).next_ch.next_ch.utf8_unescape sample_platform
      = .ok [0xf0, 0x9f, 0x98, 0x80]
        (scanner.next_ch_times 12 (scanner.opened (lit "\\ud83d\\ude00\"") 0)) ∧
    (scanner.next_ch_times 12 (scanner.opened (lit "\\ud83d\\ude00\"") 0)).rest = [34] := by
  have h1 := (unicode_escape_decoded sample_platform (scanner.opened (lit "\\u20ac\"") 0)
    (by decide) rfl).1
    (lit "20ac") [34] 0x20ac rfl rfl (by decide) (by decide) (by decide)
  have h2 := (unicode_escape_decoded sample_platform
    (scanner.opened (lit "\\ud83d\\ude00\"") 0)
    (by decide) rfl).2 (lit "d83d") (lit "de00") [34] 0xd83d 0xde00 rfl rfl (by decide) rfl
    (by decide) (by decide) (by decide) (by decide) (by decide)
  exact ⟨by decide, h1.1, h1.2.2.1, h2.1, h2.2.2.1⟩

/-- C23 (the code fails it): `utf8_unescape` declares `bool failed;` without an initial
value, and `try_read_hex` writes to it only when it fails. Where the variable holds
`true` at the call, an escape `\\u` with four hexadecimal digits is not decoded,
whatever its number: `utf8_unescape` goes to its label `invalid` behind the digits. With
the strict flag clear it returns the bytes EF BF BD of U+FFFD, which the loop of
`scan_string` appends before it goes on behind the six characters; with the strict flag
set it raises `utf8_error`. -/
theorem wellformed_escape_not_decoded {σ : Type} (P : Platform) (sc : scanner σ)
    (hs : sc.synced) (ds r : Str) (u : Nat) (hr : sc.rest = 92 :: 117 :: (ds ++ r))
    (hl : ds.length = 4) (h : hex_number ds = some u)
    (hst : sc.next_ch.next_ch.stale P = true) :
    (sc.strict = false →
      sc.next_ch.next_ch.utf8_unescape P
        = .ok [0xef, 0xbf, 0xbd] (scanner.next_ch_times 6 sc) ∧
      ∀ (n : Nat) (buf : Str), scanner.scan_string_loop P (n + 1) sc buf =
        scanner.scan_string_loop P n (scanner.next_ch_times 6 sc)
          (buf ++ [0xef, 0xbf, 0xbd])) ∧
    (sc.strict = true →
      ∃ line col,
        sc.next_ch.next_ch.utf8_unescape P
          = .throw (.utf8_error line col) (scanner.next_ch_times 6 sc) ∧
        ∀ (n : Nat) (buf : Str), scanner.scan_string_loop P (n + 1) sc buf
          = .throw (.utf8_error line col) (scanner.next_ch_times 6 sc)) ∧
    (scanner.next_ch_times 6 sc).rest = r := by
  obtain ⟨a1, a2, _⟩ := scanner.next_ch_cons sc hs hr
  obtain ⟨b1, b2, _⟩ := scanner.next_ch_cons _ a1 a2
  have e := scanner.utf8_unescape_stale P sc.next_ch.next_ch b1 b2 hl h hst
  have hsix : scanner.next_ch_times 4 sc.next_ch.next_ch = scanner.next_ch_times 6 sc := rfl
  have hstr : (scanner.next_ch_times 6 sc).strict = sc.strict :=
    scanner.next_ch_times_strict _ _
  rw [hsix, scanner.utf8_invalid_eq, hstr] at e
  refine ⟨?_, ?_, ?_⟩
  · intro hf
    rw [hf] at e
    refine ⟨e, ?_⟩
    intro n buf
    rw [scanner.scan_string_loop_escape P sc hs hr, e]
    rfl
  · intro hf
    rw [hf] at e
    refine ⟨_, _, e, ?_⟩
    intro n buf
    rw [scanner.scan_string_loop_escape P sc hs hr, e]
    rfl
  · have := (scanner.next_ch_times_append ds _ r b1 b2).2.1
    rw [hl, hsix] at this
    exact this

/-- Witness of C23: in the text `\\u20ac"`, on a platform where the variable `failed`
holds `true`, the escape of U+20AC gives the bytes EF BF BD of U+FFFD (the platform
`sample_platform`, where it holds `false`, gives E2 82 AC), and the string literal
`"\\u20ac"` is scanned as a string token with these three bytes. -/
theorem wellformed_escape_not_decoded_witness :
    hex_number (lit "20ac") = some 0x20ac ∧
    (scanner.opened (lit "\\u20ac\"") 0).next_ch.next_ch.utf8_unescape stale_platform
      = .ok [0xef, 0xbf, 0xbd] (scanner.next_ch_times 6 (scanner.opened (lit "\\u20ac\"") 0)) ∧
    (scanner.next_ch_times 6 (scanner.opened (lit "\\u20ac\"") 0)).rest = [34] ∧
    scan_tokens stale_platform (lit "\"\\u20ac\"")
      = .ok [⟨.string_token, [0xef, 0xbf, 0xbd], 0, 0, 0, 1, 1⟩] () ∧
    scan_tokens sample_platform (lit "\"\\u20ac\"")
      = .ok [⟨.string_token, [0xe2, 0x82, 0xac], 0, 0, 0, 1, 1⟩] () := by
  have h1 := wellformed_escape_not_decoded stale_platform (scanner.opened (lit "\\u20ac\"") 0)
    (by decide) (lit "20ac") [34] 0x20ac rfl rfl (by decide) rfl
  exact ⟨by decide, (h1.1 (by decide)).1, h1.2.2, by decide, by decide⟩

/-- C24: at a malformed escape `\\u` (fewer than four hexadecimal digits, a low
surrogate that comes first, a high surrogate that no `\\u` with a low surrogate follows),
`utf8_unescape` consumes characters of the escape (all `k` of them, or, where the
variable `failed` held `true` from the start, the four digits of the first group at
most); with the strict flag clear it returns the bytes EF BF BD of U+FFFD, which the loop
of `scan_string` appends to the string before it goes on behind the consumed characters;
with the strict flag set it raises `utf8_error`, which is a parse error. -/
theorem malformed_escape_replaced {σ : Type} (P : Platform) (sc : scanner σ)
    (hs : sc.synced) (rest : Str) (k : Nat) (hr : sc.rest = 92 :: 117 :: rest)
    (hm : malformed_escape rest k) :
    (sc.strict = false →
      sc.next_ch.next_ch.utf8_unescape P
        = .ok [0xef, 0xbf, 0xbd]
            (scanner.next_ch_times (2 + escape_consumed (sc.next_ch.next_ch.stale P) k) sc) ∧
      ∀ (n : Nat) (buf : Str), scanner.scan_string_loop P (n + 1) sc buf =
        scanner.scan_string_loop P n
          (scanner.next_ch_times (2 + escape_consumed (sc.next_ch.next_ch.stale P) k) sc)
          (buf ++ [0xef, 0xbf, 0xbd])) ∧
    (sc.strict = true →
      ∃ line col,
        sc.next_ch.next_ch.utf8_unescape P
          = .throw (.utf8_error line col)
              (scanner.next_ch_times (2 + escape_consumed (sc.next_ch.next_ch.stale P) k) sc) ∧
        (∀ (n : Nat) (buf : Str), scanner.scan_string_loop P (n + 1) sc buf
          = .throw (.utf8_error line col)
              (scanner.next_ch_times (2 + escape_consumed (sc.next_ch.next_ch.stale P) k)
                sc)) ∧
        (exn.utf8_error line col).is_parse_error = true) ∧
    (scanner.next_ch_times (2 + escape_consumed (sc.next_ch.next_ch.stale P) k) sc).rest
      = rest.drop (escape_consumed (sc.next_ch.next_ch.stale P) k) ∧
    (sc.next_ch.next_ch.stale P = false →
      escape_consumed (sc.next_ch.next_ch.stale P) k = k) := by
  obtain ⟨a1, a2, _⟩ := scanner.next_ch_cons sc hs hr
  obtain ⟨b1, b2, _⟩ := scanner.next_ch_cons _ a1 a2
  have e := scanner.utf8_unescape_malformed P sc.next_ch.next_ch b1 (by rw [b2]; exact hm)
  have hj : escape_consumed (sc.next_ch.next_ch.stale P) k ≤ k ∧
      (sc.next_ch.next_ch.stale P = false →
        escape_consumed (sc.next_ch.next_ch.stale P) k = k) :=
    ⟨escape_consumed_le _ _, fun hf => by rw [hf]; rfl⟩
  generalize escape_consumed (sc.next_ch.next_ch.stale P) k = j at e hj ⊢
  have hk : scanner.next_ch_times j sc.next_ch.next_ch = scanner.next_ch_times (2 + j) sc := by
    rw [scanner.next_ch_times_add]
    rfl
  have hstr : (scanner.next_ch_times (2 + j) sc).strict = sc.strict :=
    scanner.next_ch_times_strict _ _
  rw [hk, scanner.utf8_invalid_eq, hstr] at e
  refine ⟨?_, ?_, ?_, hj.2⟩
  · intro hf
    rw [hf] at e
    refine ⟨e, ?_⟩
    intro n buf
    rw [scanner.scan_string_loop_escape P sc hs hr, e]
    rfl
  · intro hf
    rw [hf] at e
    refine ⟨_, _, e, ?_, rfl⟩
    intro n buf
    rw [scanner.scan_string_loop_escape P sc hs hr, e]
    rfl
  · have := (scanner.next_ch_times_rest j _ b1
      (by rw [b2]; exact hj.1.trans (malformed_escape_le hm))).2
    rw [hk, b2] at this
    exact this

/-- Witness of C24: in the text `\\u12"` the escape has two digits; without the strict
flag it gives EF BF BD and the closing quote is what is left, with the strict flag
(0x02) it raises `utf8_error`. In the text `\\ud83dx"`, on a platform where the variable
`failed` holds `true`, the high surrogate alone gives EF BF BD as well. -/
theorem malformed_escape_replaced_witness :
    (scanner.opened (lit "\\u12\"") 0).next_ch.next_ch.utf8_unescape sample_platform
      = .ok [0xef, 0xbf, 0xbd] (scanner.next_ch_times 4 (scanner.opened (lit "\\u12\"") 0)) ∧
    (scanner.next_ch_times 4 (scanner.opened (lit "\\u12\"") 0)).rest = [34] ∧
    (∃ line col, (scanner.opened (lit "\\u12\"") 2).next_ch.next_ch.utf8_unescape
        sample_platform
      = .throw (.utf8_error line col)
          (scanner.next_ch_times 4 (scanner.opened (lit "\\u12\"") 2))) ∧
    (scanner.opened (lit "\\ud83dx\"") 0).next_ch.next_ch.utf8_unescape stale_platform
      = .ok [0xef, 0xbf, 0xbd]
          (scanner.next_ch_times 6 (scanner.opened (lit "\\ud83dx\"") 0)) := by
  have hm : malformed_escape ([49, 50] ++ [34]) 2 :=
    malformed_escape.short [49, 50] [34] 0x12 (by decide) (by decide)
      (Or.inr ⟨34, [], rfl, by decide⟩)
  have hm2 : malformed_escape (lit "d83d" ++ lit "x\"") 4 :=
    malformed_escape.high_alone (lit "d83d") (lit "x\"") 0xd83d rfl (by decide) (by decide)
      (by decide) (by rintro ⟨t, ht⟩; simp [lit] at ht)
  have h1 := malformed_escape_replaced sample_platform (scanner.opened (lit "\\u12\"") 0)
    (by decide) _ 2 rfl hm
  have h2 := malformed_escape_replaced sample_platform (scanner.opened (lit "\\u12\"") 2)
    (by decide) _ 2 rfl hm
  have h3 := malformed_escape_replaced stale_platform (scanner.opened (lit "\\ud83dx\"") 0)
    (by decide) _ 4 rfl hm2
  obtain ⟨line, col, h4, _⟩ := h2.2.1 (by decide)
  exact ⟨(h1.1 (by decide)).1, h1.2.2.1, ⟨line, col, h4⟩, (h3.1 (by decide)).1⟩

/-! ## Blank lines -/

theorem char_le_0x20_plain (P : Platform) {c : Nat} (h : char_le_0x20 P c = true) :
    c ≠ 34 ∧ is_number_start c = false ∧ is_identifier_start c = false ∧ c ≠ 47 := by
  have c0 : '0'.toNat = 48 := rfl
  have c9 : '9'.toNat = 57 := rfl
  have ca : 'a'.toNat = 97 := rfl
  have cz : 'z'.toNat = 122 := rfl
  have cA : 'A'.toNat = 65 := rfl
  have cZ : 'Z'.toNat = 90 := rfl
  have cm : '-'.toNat = 45 := rfl
  have cd : '.'.toNat = 46 := rfl
  simp only [char_le_0x20, Bool.or_eq_true, Bool.and_eq_true, decide_eq_true_eq] at h
  simp only [is_number_start, is_identifier_start, c0, c9, ca, cz, cA, cZ, cm, cd]
  refine ⟨by omega, ?_, ?_, by omega⟩
  · simp; omega
  · simp; omega

theorem scanner.with_tokens {σ : Type} (sc : scanner σ) (hs : sc.synced) (ts : List token) :
    ({ sc with tokens_ := ts } : scanner σ).synced ∧
    ({ sc with tokens_ := ts } : scanner σ).rest = sc.rest ∧
    ({ sc with tokens_ := ts } : scanner σ).params_ = sc.params_ :=
  ⟨hs, rfl, rfl⟩

/-- The loop that reads white space, over a run `ws` of such characters that the end of
the input or another character follows: with the blank line flag set, as many empty
comment tokens are pushed as there are newlines in `ws`, the first one apart unless a
newline was seen before; with the flag clear no token is pushed. The other tokens
pushed are the white space read so far. -/
theorem scanner.scan_whitespace_loop_spec {σ : Type} (P : Platform) (ws : Str) :
    ∀ (n : Nat) (sc : scanner σ) (tok : token) (seen : Bool) (r : Str),
      sc.synced → sc.rest = ws ++ r → (∀ c ∈ ws, char_le_0x20 P c = true) →
      (r = [] ∨ ∃ c t, r = c :: t ∧ char_le_0x20 P c = false) → ws.length < n →
      tok.type = .whitespace_token →
      ∃ tok1 sc1 new, scanner.scan_whitespace_loop P n sc tok seen = (tok1, sc1) ∧
        sc1.synced ∧ sc1.rest = r ∧ sc1.params_ = sc.params_ ∧
        tok1.type = .whitespace_token ∧ sc1.tokens_ = sc.tokens_ ++ new ∧
        (∀ t ∈ new, t = blank_line_token ∨ t.type = .whitespace_token) ∧
        ((sc.params_.flags &&& blank_line_comment_flag != 0) = true →
          new.count blank_line_token = if seen then ws.count 10 else ws.count 10 - 1) ∧
        ((sc.params_.flags &&& blank_line_comment_flag != 0) = false →
          new = [] ∧ tok1.string_value = tok.string_value ++ ws) ∧
        tok1 = { tok with string_value := tok1.string_value } := by
  induction ws with
  | nil =>
    intro n sc tok seen r hs hr _ hstop hn htok
    obtain ⟨m, rfl⟩ : ∃ m, n = m + 1 := ⟨n - 1, by simp at hn; omega⟩
    refine ⟨tok, sc, [], ?_, hs, by simpa using hr, rfl, htok, by simp, by simp, by simp,
      by simp, rfl⟩
    rcases hstop with h | ⟨c, t, h, hc⟩
    · subst h
      have he : sc.eof = true := by rw [scanner.eof_of_rest sc hs, hr]; simp
      simp [scanner.scan_whitespace_loop, he]
    · subst h
      obtain ⟨h1, h2⟩ := scanner.ch_cons sc hs (show sc.rest = c :: t by simpa using hr)
      simp [scanner.scan_whitespace_loop, h1, h2, hc]
  | cons c ws ih =>
    intro n sc tok seen r hs hr hall hstop hn htok
    obtain ⟨m, rfl⟩ : ∃ m, n = m + 1 := ⟨n - 1, by simp at hn; omega⟩
    have hr1 : sc.rest = c :: (ws ++ r) := by simpa using hr
    obtain ⟨h1, h2⟩ := scanner.ch_cons sc hs hr1
    have hc : char_le_0x20 P c = true := hall c (by simp)
    have hall1 : ∀ d ∈ ws, char_le_0x20 P d = true := fun d hd => hall d (by simp [hd])
    have hm : ws.length < m := by simp at hn; omega
    by_cases h10 : c = 10
    · subst h10
      by_cases hpush : (seen && sc.params_.flags &&& blank_line_comment_flag != 0) = true
      · obtain ⟨w1, w2, w3⟩ := scanner.with_tokens sc hs (sc.tokens_ ++ [tok, blank_line_token])
        obtain ⟨a1, a2, _, a4, a5, _⟩ := scanner.next_ch_cons _ w1 (w2.trans hr1)
        obtain ⟨tok1, sc1, new, e, s1, s2, s3, s4, s5, s6, s7, s8, s9⟩ :=
          ih m _ tok seen r a1 a2 hall1 hstop hm htok
        have hseen : seen = true := by
          simp only [Bool.and_eq_true] at hpush; exact hpush.1
        have hflag : (sc.params_.flags &&& blank_line_comment_flag != 0) = true := by
          simp only [Bool.and_eq_true] at hpush; exact hpush.2
        have hne : tok ≠ blank_line_token := by
          intro hh; rw [hh] at htok; cases htok
        refine ⟨tok1, sc1, [tok, blank_line_token] ++ new, ?_, s1, s2, ?_, s4, ?_, ?_, ?_, ?_, s9⟩
        · rw [← e]
          simp only [scanner.scan_whitespace_loop, h1, h2, hc, hpush]
          simp [blank_line_token]
        · rw [s3, a4]
        · rw [s5, a5]; simp
        · intro t ht
          simp only [List.mem_append, List.mem_cons, List.mem_singleton, List.not_mem_nil,
            or_false] at ht
          rcases ht with (ht | ht) | ht
          · right; rw [ht]; exact htok
          · left; exact ht
          · exact s6 t ht
        · intro _
          have := s7 (by rw [a4]; exact hflag)
          rw [hseen] at this ⊢
          simp only [if_true] at this ⊢
          rw [List.count_append, this]
          simp [List.count_cons, hne]
          omega
        · intro hf
          rw [hf] at hflag
          cases hflag
      · obtain ⟨a1, a2, _, a4, a5, _⟩ := scanner.next_ch_cons sc hs hr1
        obtain ⟨tok1, sc1, new, e, s1, s2, s3, s4, s5, s6, s7, s8, s9⟩ :=
          ih m sc.next_ch { tok with string_value := tok.string_value ++ [10] } true r a1 a2
            hall1 hstop hm htok
        refine ⟨tok1, sc1, new, ?_, s1, s2, ?_, s4, ?_, s6, ?_, ?_, s9⟩
        · rw [← e]
          simp only [scanner.scan_whitespace_loop, h1, h2, hc, hpush]
          simp
        · rw [s3, a4]
        · rw [s5, a5]
        · intro hflag
          have := s7 (by rw [a4]; exact hflag)
          simp only [if_true] at this
          have hseen : seen = false := by
            cases seen
            · rfl
            · exact absurd (by simp [hflag]) hpush
          rw [this, hseen]
          simp
        · intro hf
          obtain ⟨n1, n2⟩ := s8 (by rw [a4]; exact hf)
          exact ⟨n1, by rw [n2]; simp⟩
    · obtain ⟨a1, a2, _, a4, a5, _⟩ := scanner.next_ch_cons sc hs hr1
      obtain ⟨tok1, sc1, new, e, s1, s2, s3, s4, s5, s6, s7, s8, s9⟩ :=
        ih m sc.next_ch { tok with string_value := tok.string_value ++ [c] } seen r a1 a2
          hall1 hstop hm htok
      refine ⟨tok1, sc1, new, ?_, s1, s2, ?_, s4, ?_, s6, ?_, ?_, s9⟩
      · rw [← e]
        simp only [scanner.scan_whitespace_loop, h1, h2, hc, h10]
        simp
      · rw [s3, a4]
      · rw [s5, a5]
      · intro hflag
        have := s7 (by rw [a4]; exact hflag)
        rw [this]
        simp [List.count_cons, h10]
      · intro hf
        obtain ⟨n1, n2⟩ := s8 (by rw [a4]; exact hf)
        exact ⟨n1, by rw [n2]; simp⟩

theorem countP_eq_count_of_others (p : token → Bool) (b : token) (hb : p b = true)
    (l : List token) (h : ∀ t ∈ l, t = b ∨ p t = false) : l.countP p = l.count b := by
  induction l with
  | nil => rfl
  | cons a l ih =>
    have ih1 := ih (fun t ht => h t (by simp [ht]))
    rcases h a (by simp) with ha | ha
    · subst ha
      simp [List.countP_cons, hb, ih1]
    · have hne : a ≠ b := by
        intro hh; rw [hh, hb] at ha; cases ha
      simp [List.countP_cons, List.count_cons, ha, hne, ih1]

/-- C29: `scan` reads a run `ws` of white space (the end of the input or another
character follows) in one step. With the blank line flag set, the tokens pushed hold
exactly `n - 1` comment tokens with empty text, `n` the number of newlines in `ws`; with
the flag clear the one token pushed is the white space. With the comment flag clear,
`//` is read in two steps as two character tokens `/`. -/
theorem blank_lines_to_comments {σ : Type} (P : Platform) (sc : scanner σ) (hs : sc.synced) :
    (∀ (ws r : Str), sc.rest = ws ++ r → ws ≠ [] → (∀ c ∈ ws, char_le_0x20 P c = true) →
      (r = [] ∨ ∃ c t, r = c :: t ∧ char_le_0x20 P c = false) →
      ∃ sc1 new, sc.scan_step P = .ok () sc1 ∧ sc1.synced ∧ sc1.rest = r ∧
        sc1.tokens_ = sc.tokens_ ++ new ∧
        (∀ t ∈ new, t = blank_line_token ∨ t.type = .whitespace_token) ∧
        ((sc.params_.flags &&& blank_line_comment_flag != 0) = true →
          new.countP (fun t => decide (t.type = .comment_token ∧ t.string_value = []))
            = ws.count 10 - 1) ∧
        ((sc.params_.flags &&& blank_line_comment_flag != 0) = false →
          new = [⟨.whitespace_token, ws, 0, 0, sc.pos_, sc.line_, sc.col_⟩])) ∧
    (∀ (r : Str), sc.rest = 47 :: 47 :: r →
      (sc.params_.flags &&& allow_comments_flag != 0) = false →
      ∃ sc1 sc2, sc.scan_step P = .ok () sc1 ∧ sc1.scan_step P = .ok () sc2 ∧
        sc2.synced ∧ sc2.rest = r ∧
        sc2.tokens_ = sc.tokens_ ++ [⟨.char_token, [], 0, 47, sc.pos_, sc.line_, sc.col_⟩,
          ⟨.char_token, [], 0, 47, sc.pos_ + 1, sc.next_ch.line_, sc.next_ch.col_⟩]) := by
  constructor
  · intro ws r hr hne hall hstop
    obtain ⟨c, ws1, rfl⟩ : ∃ c ws1, ws = c :: ws1 := by
      cases ws with
      | nil => exact absurd rfl hne
      | cons c ws1 => exact ⟨c, ws1, rfl⟩
    obtain ⟨h1, h2⟩ := scanner.ch_cons sc hs (show sc.rest = c :: (ws1 ++ r) by simpa using hr)
    have hc : char_le_0x20 P c = true := hall c (by simp)
    obtain ⟨p1, p2, p3, p4⟩ := char_le_0x20_plain P hc
    have hlen : (c :: ws1).length < sc.input_.length + 1 := by
      have h3 : sc.rest.length = sc.input_.length - sc.pos_ := by simp [scanner.rest]
      rw [hr] at h3
      simp only [List.length_append] at h3
      omega
    obtain ⟨tok1, sc1, new, e, s1, s2, s3, s4, s5, s6, s7, s8, s9⟩ :=
      scanner.scan_whitespace_loop_spec P (c :: ws1) (sc.input_.length + 1) sc
        ⟨.whitespace_token, [], 0, 0, sc.pos_, sc.line_, sc.col_⟩ false r hs hr hall hstop hlen
        rfl
    obtain ⟨w1, w2, _⟩ := scanner.with_tokens sc1 s1 (sc1.tokens_ ++ [tok1])
    have hstep : sc.scan_step P = .ok () { sc1 with tokens_ := sc1.tokens_ ++ [tok1] } := by
      have hsl : ('/'.toNat) = 47 := rfl
      simp only [scanner.scan_step, h1, p1, p2, p3, p4, hc, hsl, if_false, if_true,
        Bool.false_eq_true, e]
    refine ⟨_, new ++ [tok1], hstep, w1, w2.trans s2, ?_, ?_, ?_, ?_⟩
    · show sc1.tokens_ ++ [tok1] = _
      rw [s5, List.append_assoc]
    · intro t ht
      rcases List.mem_append.1 ht with ht | ht
      · exact s6 t ht
      · right
        rw [List.mem_singleton.1 ht]
        exact s4
    · intro hf
      have hall2 : ∀ t ∈ new ++ [tok1], t = blank_line_token ∨
          (fun t : token => decide (t.type = .comment_token ∧ t.string_value = [])) t = false := by
        intro t ht
        rcases List.mem_append.1 ht with ht | ht
        · rcases s6 t ht with h | h
          · exact Or.inl h
          · right; simp [h]
        · right
          rw [List.mem_singleton.1 ht]
          simp [s4]
      rw [countP_eq_count_of_others _ blank_line_token (by decide) _ hall2, List.count_append,
        s7 hf]
      have hne : tok1 ≠ blank_line_token := by
        intro hh; rw [hh] at s4; cases s4
      simp [List.count_cons, hne]
    · intro hf
      obtain ⟨n1, n2⟩ := s8 hf
      rw [n1, s9, n2]
      rfl
  · intro r hr hf
    have hsl : ('/'.toNat) = 47 := rfl
    obtain ⟨h1, h2⟩ := scanner.ch_cons sc hs hr
    obtain ⟨a1, a2, _, a4, a5, a6⟩ := scanner.next_ch_cons sc hs hr
    obtain ⟨w1, w2, w3⟩ := scanner.with_tokens sc.next_ch a1
      (sc.next_ch.tokens_ ++ [⟨.char_token, [], 0, 47, sc.pos_, sc.line_, sc.col_⟩])
    have hn : is_number_start 47 = false := by decide
    have hi : is_identifier_start 47 = false := by decide
    have e1 : sc.scan_step P = .ok () { sc.next_ch with tokens_ := sc.next_ch.tokens_ ++
        [⟨.char_token, [], 0, 47, sc.pos_, sc.line_, sc.col_⟩] } := by
      simp [scanner.scan_step, h1, hn, hi, hsl, hf]
    obtain ⟨g1, g2⟩ := scanner.ch_cons _ w1 (w2.trans a2)
    obtain ⟨b1, b2, _, b4, b5, b6⟩ := scanner.next_ch_cons _ w1 (w2.trans a2)
    have hf2 : (({ sc.next_ch with tokens_ := sc.next_ch.tokens_ ++
        [⟨.char_token, [], 0, 47, sc.pos_, sc.line_, sc.col_⟩] } : scanner σ).params_.flags
          &&& allow_comments_flag != 0) = false := by
      rw [w3, a4]; exact hf
    obtain ⟨v1, v2, _⟩ := scanner.with_tokens _ b1
      (({ sc.next_ch with tokens_ := sc.next_ch.tokens_ ++
        [⟨.char_token, [], 0, 47, sc.pos_, sc.line_, sc.col_⟩] } : scanner σ).next_ch.tokens_ ++
        [⟨.char_token, [], 0, 47, sc.pos_ + 1, sc.next_ch.line_, sc.next_ch.col_⟩])
    refine ⟨_, _, e1, ?_, v1, v2.trans b2, ?_⟩
    · simp only [scanner.scan_step, g1, hn, hi, hsl, hf2]
      simp [a6]
    · show ({ sc.next_ch with tokens_ := sc.next_ch.tokens_ ++
        [⟨.char_token, [], 0, 47, sc.pos_, sc.line_, sc.col_⟩] } : scanner σ).next_ch.tokens_ ++
          [⟨.char_token, [], 0, 47, sc.pos_ + 1, sc.next_ch.line_, sc.next_ch.col_⟩] = _
      rw [b5]
      simp [a5]

/-- Witness of C29: in ` \n \n\n x` the white space holds three newlines; with the
blank line flag (0x04) the step of `scan` pushes two empty comment tokens. In `//x`
without the comment flag, two steps push two character tokens `/`. -/
theorem blank_lines_to_comments_witness :
    (∃ sc1 new, (scanner.opened (lit " \n \n\n x") 4).scan_step sample_platform = .ok () sc1 ∧
      sc1.tokens_ = new ∧ sc1.rest = lit "x" ∧
      new.countP (fun t => decide (t.type = .comment_token ∧ t.string_value = [])) = 2) ∧
    (∃ sc1 sc2, (scanner.opened (lit "//x") 0).scan_step sample_platform = .ok () sc1 ∧
      sc1.scan_step sample_platform = .ok () sc2 ∧
      sc2.tokens_ = [⟨.char_token, [], 0, 47, 0, 1, 1⟩, ⟨.char_token, [], 0, 47, 1, 1, 2⟩]) := by
  constructor
  · obtain ⟨sc1, new, h1, _, h3, h4, _, h6, _⟩ :=
      (blank_lines_to_comments sample_platform (scanner.opened (lit " \n \n\n x") 4)
        (by decide)).1 (lit " \n \n\n ") (lit "x") rfl (by decide) (by decide)
        (Or.inr ⟨120, [], rfl, by decide⟩)
    exact ⟨sc1, new, h1, by rw [h4]; rfl, h3, h6 (by decide)⟩
  · obtain ⟨sc1, sc2, h1, h2, _, _, h5⟩ :=
      (blank_lines_to_comments sample_platform (scanner.opened (lit "//x") 0)
        (by decide)).2 (lit "x") rfl (by decide)
    refine ⟨sc1, sc2, h1, h2, ?_⟩
    rw [h5]
    rfl

/-! ## Positions of parse errors -/

/-- C26 (the code fails it): the string literal of the text `"a\\`, newline, `b"` holds
a raw newline before its closing quote (behind a backslash), and `scan` raises no error:
it returns one string token with the text `a`, newline, `b`. Without the backslash, on
`"a`, newline, `b"`, it raises the parse error at line 1, column 3, and on the literal
`"ab` that is not closed the parse error at line 1, column 4. -/
theorem escaped_newline_in_string_scans :
    scan_tokens sample_platform (lit "\"a\\\nb\"")
      = .ok [⟨.string_token, lit "a\nb", 0, 0, 0, 1, 1⟩] () ∧
    scan_tokens sample_platform (lit "\"a\nb\"") = .throw (.parse_error 1 3) () ∧
    scan_tokens sample_platform (lit "\"ab") = .throw (.parse_error 1 4) () := by
  refine ⟨?_, ?_, ?_⟩ <;> decide!

/-- C28 (the code fails it): in `a=true`, newline, `=` the token `=` that
`expect_identifier` rejects starts at line 2, column 1 (offset 7), and the parse error
of `read` carries line 2, column 7: the offset is passed as the column. In `a true` the
token `true` that `expect('=')` rejects starts at column 3, and the error carries
column 2, the place of the white space before it; in `a=[true`, where the end of the
input is found instead of `]`, the error carries line 0, column 0. -/
theorem expect_error_position_is_off :
    (read sample_platform (lit "a=true\n=")).exception = some (.parse_error 2 7) ∧
    scan_tokens sample_platform (lit "a=true\n=")
      = .ok [⟨.identifier_token, lit "a", 0, 0, 0, 1, 1⟩, ⟨.char_token, [], 0, 61, 1, 1, 2⟩,
          ⟨.identifier_token, lit "true", 0, 0, 2, 1, 3⟩,
          ⟨.whitespace_token, lit "\n", 0, 0, 6, 1, 7⟩, ⟨.char_token, [], 0, 61, 7, 2, 1⟩] () ∧
    (read sample_platform (lit "a true")).exception = some (.parse_error 1 2) ∧
    scan_tokens sample_platform (lit "a true")
      = .ok [⟨.identifier_token, lit "a", 0, 0, 0, 1, 1⟩,
          ⟨.whitespace_token, lit " ", 0, 0, 1, 1, 2⟩,
          ⟨.identifier_token, lit "true", 0, 0, 2, 1, 3⟩] () ∧
    (read sample_platform (lit "a=[true")).exception = some (.parse_error 0 0) := by
  refine ⟨?_, ?_, ?_, ?_, ?_⟩ <;> decide!

/-! ## The escape of the NUL character -/

/-- C40: `wc_to_utf8(0)` is the empty string, so the escape `\\u0000`, well formed as it
is, goes to the label `invalid` of `utf8_unescape` (whatever the variable `failed`, which
has no initial value, holds at the call): with the strict flag clear it gives
the bytes EF BF BD of U+FFFD (no NUL byte), which the loop of `scan_string` appends
before it goes on behind the six characters, and with the strict flag set it raises
`utf8_error`. -/
theorem nul_escape_is_replaced {σ : Type} (P : Platform) (sc : scanner σ) (hs : sc.synced)
    (r : Str)
    (hr : sc.rest = 92 :: 117 :: 48 :: 48 :: 48 :: 48 :: r) :
    wc_to_utf8 0 = [] ∧ hex_number [48, 48, 48, 48] = some 0 ∧
    (sc.strict = false →
      sc.next_ch.next_ch.utf8_unescape P
        = .ok [0xef, 0xbf, 0xbd] (scanner.next_ch_times 6 sc) ∧
      ∀ (n : Nat) (buf : Str), scanner.scan_string_loop P (n + 1) sc buf =
        scanner.scan_string_loop P n (scanner.next_ch_times 6 sc)
          (buf ++ [0xef, 0xbf, 0xbd])) ∧
    (sc.strict = true →
      ∃ line col,
        sc.next_ch.next_ch.utf8_unescape P
          = .throw (.utf8_error line col) (scanner.next_ch_times 6 sc) ∧
        (∀ (n : Nat) (buf : Str), scanner.scan_string_loop P (n + 1) sc buf
          = .throw (.utf8_error line col) (scanner.next_ch_times 6 sc)) ∧
        (exn.utf8_error line col).is_parse_error = true) ∧
    (scanner.next_ch_times 6 sc).rest = r := by
  obtain ⟨a1, a2, _⟩ := scanner.next_ch_cons sc hs hr
  obtain ⟨b1, b2, _⟩ := scanner.next_ch_cons _ a1 a2
  have hread := scanner.try_read_hex_ok sc.next_ch.next_ch b1
    (show sc.next_ch.next_ch.rest = [48, 48, 48, 48] ++ r from b2) rfl
    (show hex_number [48, 48, 48, 48] = some 0 by decide)
  have hsix : scanner.next_ch_times 4 sc.next_ch.next_ch = scanner.next_ch_times 6 sc := rfl
  have hw : wc_to_utf8 0 = [] := by decide
  have e : sc.next_ch.next_ch.utf8_unescape P
      = (scanner.next_ch_times 6 sc).utf8_invalid := by
    simp only [scanner.utf8_unescape, hread, hsix, hw]
    cases P.indeterminate sc.next_ch.next_ch.input_ sc.next_ch.next_ch.pos_ <;> simp
  have hst : (scanner.next_ch_times 6 sc).strict = sc.strict :=
    scanner.next_ch_times_strict _ _
  rw [scanner.utf8_invalid_eq, hst] at e
  refine ⟨hw, by decide, ?_, ?_, ?_⟩
  · intro hf
    rw [hf] at e
    refine ⟨e, ?_⟩
    intro n buf
    rw [scanner.scan_string_loop_escape P sc hs hr, e]
    rfl
  · intro hf
    rw [hf] at e
    refine ⟨_, _, e, ?_, rfl⟩
    intro n buf
    rw [scanner.scan_string_loop_escape P sc hs hr, e]
    rfl
  · have := (scanner.next_ch_times_append [48, 48, 48, 48] _ r b1 b2).2.1
    exact this

/-- Witness of C40: in the text `\\u0000"`, the escape gives EF BF BD without the strict
flag, and the closing quote is what is left; with the strict flag (0x02) it raises
`utf8_error`; and so it is on a platform where the variable `failed` holds `true`. -/
theorem nul_escape_is_replaced_witness :
    (scanner.opened (lit "\\u0000\"") 0).next_ch.next_ch.utf8_unescape sample_platform
      = .ok [0xef, 0xbf, 0xbd] (scanner.next_ch_times 6 (scanner.opened (lit "\\u0000\"") 0)) ∧
    (scanner.next_ch_times 6 (scanner.opened (lit "\\u0000\"") 0)).rest = [34] ∧
    (∃ line col, (scanner.opened (lit "\\u0000\"") 2).next_ch.next_ch.utf8_unescape
        sample_platform
      = .throw (.utf8_error line col)
          (scanner.next_ch_times 6 (scanner.opened (lit "\\u0000\"") 2))) ∧
    (scanner.opened (lit "\\u0000\"") 0).next_ch.next_ch.utf8_unescape stale_platform
      = .ok [0xef, 0xbf, 0xbd]
          (scanner.next_ch_times 6 (scanner.opened (lit "\\u0000\"") 0)) := by
  have h1 := nul_escape_is_replaced sample_platform (scanner.opened (lit "\\u0000\"") 0)
    (by decide) [34] rfl
  have h2 := nul_escape_is_replaced sample_platform (scanner.opened (lit "\\u0000\"") 2)
    (by decide) [34] rfl
  have h4 := nul_escape_is_replaced stale_platform (scanner.opened (lit "\\u0000\"") 0)
    (by decide) [34] rfl
  obtain ⟨line, col, h3, _⟩ := h2.2.2.2.1 (by decide)
  exact ⟨(h1.2.2.1 (by decide)).1, h1.2.2.2.2, ⟨line, col, h3⟩, (h4.2.2.1 (by decide)).1⟩

/-! ## Termination of `scan` -/

/-- At a `-` or a `.` where `strtod` consumes no character, one iteration of the loop of
`scan` pushes a number token and leaves the scanner where it was. -/
theorem scanner.scan_step_stuck {σ : Type} (P : Platform) (sc : scanner σ) (c : Nat) (r : Str)
    (hc : c = 45 ∨ c = 46) (hi : sc.input_ = c :: r) (hp : sc.pos_ = 0) (he : sc.eof_ = false)
    (h0 : (P.strtod ((c :: r).takeWhile (fun b => b != 0))).2 = 0) :
    sc.scan_step P = .ok () { sc with tokens_ := sc.tokens_ ++
      [⟨.number_token, [], (P.strtod ((c :: r).takeWhile (fun b => b != 0))).1, 0,
        sc.pos_, sc.line_, sc.col_⟩] } := by
  have hch : sc.ch = c := by simp [scanner.ch, scanner.eof, he, hi, hp]
  have h34 : c ≠ 34 := by omega
  have hn : is_number_start c = true := by
    rcases hc with rfl | rfl <;> decide
  have hd : List.drop sc.pos_ sc.input_ = c :: r := by rw [hp, hi]; rfl
  simp only [scanner.scan_step, hch, h34, hn, if_false, if_true, scanner.scan_number, hd, h0,
    scanner.next_ch_times]

/-- From such a state the loop of `scan` does not end, however many iterations it is
given. -/
theorem scanner.scan_loop_stuck {σ : Type} (P : Platform) (c : Nat) (r : Str)
    (hc : c = 45 ∨ c = 46)
    (h0 : (P.strtod ((c :: r).takeWhile (fun b => b != 0))).2 = 0) (n : Nat) :
    ∀ sc : scanner σ, sc.input_ = c :: r → sc.pos_ = 0 → sc.eof_ = false →
      scanner.scan_loop P n sc = .diverge := by
  induction n with
  | zero => intro sc _ _ _; rfl
  | succ n ih =>
    intro sc hi hp he
    rw [scanner.scan_loop]
    have hne : (!sc.eof) = true := by simp [scanner.eof, he]
    rw [if_pos hne, scanner.scan_step_stuck P sc c r hc hi hp he h0]
    exact ih _ hi hp he

/-- C36 (the code fails it): on a text that starts with `-` or `.` where `strtod`
converts nothing (it then gives back the pointer it was given, as for the texts `-` and
`.` alone), the iteration of the loop of `scan` pushes a number token and consumes no
character, and `scan` does not return: the loop does not end within any number `n` of
iterations. -/
theorem scan_hangs_on_sign {σ : Type} (P : Platform) (c : Nat) (r : Str)
    (hc : c = 45 ∨ c = 46)
    (h0 : (P.strtod ((c :: r).takeWhile (fun b => b != 0))).2 = 0)
    (sc : scanner σ) (params : scanner_params σ) :
    scanner.scan P sc (c :: r) params = .diverge ∧
    (∀ n, scanner.scan_loop P n
      { sc with input_ := c :: r, pos_ := 0, line_ := 1, col_ := 1, cur_token_ := 0,
                eof_ := false, params_ := params } = .diverge) ∧
    (∃ tok, scanner.scan_step P
      { sc with input_ := c :: r, pos_ := 0, line_ := 1, col_ := 1, cur_token_ := 0,
                eof_ := false, params_ := params } = .ok ()
      { sc with input_ := c :: r, pos_ := 0, line_ := 1, col_ := 1, cur_token_ := 0,
                eof_ := false, params_ := params, tokens_ := sc.tokens_ ++ [tok] }) := by
  refine ⟨?_, ?_, ?_⟩
  · exact scanner.scan_loop_stuck P c r hc h0 _ _ rfl rfl rfl
  · intro n
    exact scanner.scan_loop_stuck P c r hc h0 n _ rfl rfl rfl
  · exact ⟨_, scanner.scan_step_stuck P _ c r hc rfl rfl rfl h0⟩

/-- Witness of C36: `scan` does not return on the text `-`, with a `strtod` that
converts nothing there. -/
theorem scan_hangs_on_sign_witness :
    scanner.scan sample_platform (scanner.init : scanner Unit) (lit "-")
      default_scanner_params = .diverge :=
  (scan_hangs_on_sign sample_platform 45 [] (Or.inl rfl) (by decide) scanner.init
    default_scanner_params).1

/-! ## Texts and paths that should be rejected -/

/-- C31 (the code fails it): on `asdf = \x7b`, where the brace is never closed, `read`
raises nothing and returns the group `asdf = \x7b\x7d`; on `a = \x7b b = true` it
returns the group `a = \x7b b = true \x7d`. The loop of `read_group` ends at the end of
the input, and `expect('\x7d')` is called only when a closing brace is there. -/
theorem read_accepts_unclosed_brace :
    (read sample_platform (lit "asdf = \x7b")).check (fun g => g.eq group_asdf) = true ∧
    (read sample_platform (lit "asdf = \x7b")).exception = none ∧
    (read sample_platform (lit "a = \x7b b = true")).check
      (fun g => g.eq group_a_b_true) = true := by
  refine ⟨?_, ?_, ?_⟩ <;> decide!

/-- C37 (the code fails it): on the group `a = true`, `set<bool>("a.1x", true)` raises
the path error for the key `1x`, and the group it leaves is `a = \x7b\x7d`: the value of
`a` has been replaced by the group made for the first segment. On the empty group,
`set<bool>("a.b.1x", true)` raises the path error and leaves `a = \x7b b = \x7b\x7d \x7d`. -/
theorem failed_set_changes_group :
    group_a_true.set bool_info (path.parse (lit "a.1x")) true
      = .throw .path_error group_a_empty ∧
    group.empty.set bool_info (path.parse (lit "a.b.1x")) true
      = .throw .path_error group_a_b_empty :=
  ⟨rfl, rfl⟩

/-- C34 (the code fails it): the group `a = [ \x7b\x7d ]` is written into the empty text
as `a = [ \x7b \x7d ]`, and `read` raises a parse error on that text; the group
`a = \x7b b = \x7b\x7d \x7d` is written as `a = \x7b b = \x7b \x7d \x7d` at width 120
and over three lines at width 5, and `read` raises a parse error on both texts. -/
theorem round_trip_fails_on_nested_empty_group :
    write sample_platform group_a_vector_of_empty [] 120 = .ok (lit "a = [ \x7b \x7d ]") () ∧
    (read_write sample_platform group_a_vector_of_empty [] 120).exception
      = some (.parse_error 1 9) ∧
    write sample_platform group_a_b_empty [] 120
      = .ok (lit "a = \x7b b = \x7b \x7d \x7d") () ∧
    (read_write sample_platform group_a_b_empty [] 120).exception
      = some (.parse_error 1 14) ∧
    write sample_platform group_a_b_empty [] 5
      = .ok (lit "a = \x7b \n    b = \x7b \x7d\n\x7d") () ∧
    (read_write sample_platform group_a_b_empty [] 5).exception
      = some (.parse_error 3 19) := by
  refine ⟨?_, ?_, ?_, ?_, ?_, ?_⟩ <;> decide!

/-! ## What `set` leaves alone -/

theorem descend_eq_lookup (q : path) (hq : q ≠ []) :
    ∀ g : group, g.descend q = match g.lookup q with
      | some (.group h) => some h
      | _ => none := by
  induction q with
  | nil => exact absurd rfl hq
  | cons k ks ih =>
    intro g
    cases ks with
    | nil =>
      rw [lookup_single]
      cases hm : map_find g.values_ k with
      | none => simp [group.descend, hm]
      | some old => cases old <;> simp [group.descend, hm]
    | cons k2 ks =>
      rw [lookup_cons_cons]
      cases hm : map_find g.values_ k with
      | none => simp [group.descend, hm]
      | some old =>
        cases old with
        | group grp =>
          simp only [group.descend, hm]
          exact ih (by simp) grp
        | _ => simp [group.descend, hm]

/-- In a chain of new groups along `ks`, a path that leaves `ks` finds nothing. -/
theorem lookup_chain_other (ks : path) (x : value) :
    ∀ (g : group) (k : Str) (r : path), map_find g.values_ k = some (chain_value ks x) →
      ¬ ks <+: r → ¬ r <+: ks → g.lookup (k :: r) = none := by
  induction ks with
  | nil => intro g k r _ h1 _; exact absurd List.nil_prefix h1
  | cons k2 ks ih =>
    intro g k r hm h1 h2
    cases r with
    | nil => exact absurd List.nil_prefix h2
    | cons a r =>
      rw [lookup_cons_cons, hm]
      simp only [chain_value]
      by_cases ha : a = k2
      · subst ha
        have h3 : ¬ ks <+: r := fun h => h1 ((List.prefix_cons_inj a).2 h)
        have h4 : ¬ r <+: ks := fun h => h2 ((List.prefix_cons_inj a).2 h)
        exact ih _ a r (by simp [map_find]) h3 h4
      · apply lookup_none_of_missing
        simp [map_find, Ne.symm ha]

/-- Replacing a value of the group at `par` leaves every path alone that is no prefix
of `par ++ [k]` and does not start with it, when the new group differs from the old one
at the key `k` only and both resolve the paths below `k` alike. -/
theorem lookup_replace_at_key (par : List Str) (k : Str) (g h h1 : group) (q : path)
    (hd : g.descend par = some h)
    (hother : ∀ a, a ≠ k → map_find h1.values_ a = map_find h.values_ a)
    (hbelow : ∀ r, par ++ k :: r = q → h1.lookup (k :: r) = h.lookup (k :: r))
    (hq : ¬ q <+: par) :
    (g.replace_at par h1).lookup q = g.lookup q := by
  by_cases hp : par <+: q
  · obtain ⟨r, rfl⟩ := hp
    have hr : r ≠ [] := by
      rintro rfl
      exact hq (by simp)
    rw [lookup_replace_at par h1 r hr g h hd, lookup_descend par r hr g h hd]
    obtain ⟨a, r2, rfl⟩ := List.exists_cons_of_ne_nil hr
    by_cases ha : a = k
    · subst ha
      exact hbelow r2 rfl
    · exact lookup_congr h h1 a r2 (hother a ha)
  · exact lookup_replace_at_other par h1 g h q hd hp hq

/-- C38: for a path `p` of valid keys, `g.set<T>(p, v)` returns, and every path `q` such
that neither of `p` and `q` is a prefix of the other resolves in the group it leaves to
what it resolved to before (to nothing if it resolved to nothing); so a group that `q`
led to is still there, with its values and its key order. -/
theorem set_frame {α : Type} (T : value_type_info α) (g : group) (p : path) (v : α)
    (hne : p ≠ []) (hv : ∀ k ∈ p, valid_key k = true) :
    ∃ g1, g.set T p v = .ok () g1 ∧
      (∀ q, ¬ p <+: q → ¬ q <+: p → g1.lookup q = g.lookup q) ∧
      (∀ q h, ¬ p <+: q → ¬ q <+: p → g.descend q = some h → g1.descend q = some h) := by
  have key : ∃ g1, g.set T p v = .ok () g1 ∧
      (∀ q, ¬ p <+: q → ¬ q <+: p → g1.lookup q = g.lookup q) := by
    obtain ⟨r, par, rest, hf, _⟩ := find_value_result p g hne
    cases r with
    | some val =>
      obtain ⟨h, hd, hm, hset⟩ := set_of_found T g p v val par rest hf
      refine ⟨_, hset, ?_⟩
      intro q hpq hqp
      have hp : p = p.dropLast ++ [p.getLastD []] := by
        rw [List.getLastD_eq_getLast?, List.getLast?_eq_getLast _ hne]
        exact (List.dropLast_append_getLast hne).symm
      apply lookup_replace_at_key p.dropLast (p.getLastD []) g h _ q hd
      · intro a ha
        exact map_find_assign_ne _ _ _ _ ha
      · intro r hr
        have hpr : p ++ r = q :=
          ((congrArg (fun l => l ++ r) hp).trans (by rw [List.append_assoc]; rfl)).trans hr
        exact absurd ⟨r, hpr⟩ hpq
      · intro hx
        exact hqp (hx.trans (List.dropLast_prefix p))
    | none =>
      obtain ⟨h, k, ks, hp, hr, hd, hlast, hmid⟩ := find_value_none p g par rest hf
      obtain ⟨h2, hd2, hset⟩ := set_of_none T g p v par rest hf
      have hh : h2 = h := by rw [hd] at hd2; exact (Option.some.inj hd2).symm
      subst hh
      subst hr
      have hvalid : ∀ a ∈ k :: ks, valid_key a = true := by
        intro a ha
        exact hv a (by rw [hp]; exact List.mem_append_right _ ha)
      rw [create_value_valid ks (T.create_value v) k h2 hvalid] at hset
      refine ⟨_, hset, ?_⟩
      intro q hpq hqp
      apply lookup_replace_at_key par k g h2 _ q hd
      · intro a ha
        simp only [group.set_key, group.values_mk]
        exact map_find_assign_ne _ _ _ _ ha
      · intro r hr
        subst hr
        have h1 : ¬ ks <+: r := by
          intro hx
          apply hpq
          rw [hp]
          exact (List.prefix_append_right_inj par).2 ((List.prefix_cons_inj k).2 hx)
        have h2' : ¬ r <+: ks := by
          intro hx
          apply hqp
          rw [hp]
          exact (List.prefix_append_right_inj par).2 ((List.prefix_cons_inj k).2 hx)
        have hks : ks ≠ [] := by
          rintro rfl
          exact h1 List.nil_prefix
        have hrne : r ≠ [] := by
          rintro rfl
          exact h2' List.nil_prefix
        rw [lookup_chain_other ks _ _ k r (set_key_find h2 k _) h1 h2']
        obtain ⟨a, r2, rfl⟩ := List.exists_cons_of_ne_nil hrne
        rw [lookup_cons_cons]
        cases hm : map_find h2.values_ k with
        | none => rfl
        | some old =>
          cases old with
          | group grp => exact absurd hm (hmid hks grp)
          | _ => rfl
      · intro hx
        apply hqp
        rw [hp]
        exact hx.trans (List.prefix_append par _)
  obtain ⟨g1, hset, hframe⟩ := key
  refine ⟨g1, hset, hframe, ?_⟩
  intro q h hpq hqp hd
  have hq : q ≠ [] := by
    rintro rfl
    exact hqp List.nil_prefix
  rw [descend_eq_lookup q hq] at hd ⊢
  rw [hframe q hpq hqp]
  exact hd

/-- Witness of C38: on the group `a = \x7b b = true \x7d`, `set<bool>("a.c", false)`
returns, and the path `a.b` still resolves to `true`. -/
theorem set_frame_witness :
    ∃ g1, group_a_b_true.set bool_info [lit "a", lit "c"] false = .ok () g1 ∧
      g1.lookup [lit "a", lit "b"] = some (.bool true) := by
  obtain ⟨g1, h1, h2, _⟩ := set_frame bool_info group_a_b_true [lit "a", lit "c"] false
    (by simp) (by decide)
  exact ⟨g1, h1, (h2 [lit "a", lit "b"] (by decide) (by decide)).trans rfl⟩

/-! ## Scanning what `escape_string` wrote -/

theorem scanner.scan_string_loop_plain {σ : Type} (P : Platform) (sc : scanner σ)
    (hs : sc.synced)
    {c : Nat} {r : Str} (hr : sc.rest = c :: r)
    (hc : c ≠ 34 ∧ c ≠ 13 ∧ c ≠ 10 ∧ c ≠ 92) (n : Nat) (buf : Str) :
    scanner.scan_string_loop P (n + 1) sc buf =
      scanner.scan_string_loop P n sc.next_ch (buf ++ [c]) := by
  obtain ⟨h1, h2⟩ := scanner.ch_cons sc hs hr
  have he : sc.eof_ = false := h2
  simp [scanner.scan_string_loop, h1, he, hc.1, hc.2.1, hc.2.2.1, hc.2.2.2]

theorem scanner.scan_string_loop_named {σ : Type} (P : Platform) (sc : scanner σ)
    (hs : sc.synced)
    {x : Nat} {r : Str} (hr : sc.rest = 92 :: x :: r) (hx : x ≠ 117) (n : Nat) (buf : Str) :
    scanner.scan_string_loop P (n + 1) sc buf =
      scanner.scan_string_loop P n sc.next_ch.next_ch (buf ++ [unescape_char x]) := by
  obtain ⟨h1, h2⟩ := scanner.ch_cons sc hs hr
  obtain ⟨a1, a2, _⟩ := scanner.next_ch_cons sc hs hr
  obtain ⟨h3, _⟩ := scanner.ch_cons _ a1 a2
  have he : sc.eof_ = false := h2
  have hu : 'u'.toNat = 117 := rfl
  simp [scanner.scan_string_loop, h1, he, h3, hu, hx]

theorem scanner.scan_string_loop_quote {σ : Type} (P : Platform) (sc : scanner σ)
    (hs : sc.synced)
    {r : Str} (hr : sc.rest = 34 :: r) (n : Nat) (buf : Str) :
    scanner.scan_string_loop P (n + 1) sc buf = .ok buf sc.next_ch := by
  obtain ⟨h1, _⟩ := scanner.ch_cons sc hs hr
  simp [scanner.scan_string_loop, h1]

theorem hex_number_of_escape :
    ∀ c, c < 128 → hex_number [48, 48, (if c / 16 < 10 then 48 + c / 16 else 87 + c / 16),
      (if c % 16 < 10 then 48 + c % 16 else 87 + c % 16)] = some c := by
  decide

/-- One iteration of the loop of `scan_string` over the escape of a byte that is not NUL
appends the byte and stands behind the escape, where the variable `failed` of
`utf8_unescape` holds `false`. -/
theorem scanner.scan_string_loop_byte {σ : Type} (P : Platform)
    (hcl : ∀ t n, P.indeterminate t n = false) (sc : scanner σ) (hs : sc.synced)
    (c : Nat) (hc : c ≠ 0) (r : Str) (hr : sc.rest = escape_of_byte c ++ r)
    (n : Nat) (buf : Str) :
    ∃ sc1 : scanner σ, scanner.scan_string_loop P (n + 1) sc buf =
        scanner.scan_string_loop P n sc1 (buf ++ [c]) ∧
      sc1.synced ∧ sc1.rest = r ∧ sc1.tokens_ = sc.tokens_ := by
  have named : ∀ x, x ≠ 117 → unescape_char x = c → sc.rest = 92 :: x :: r →
      ∃ sc1 : scanner σ, scanner.scan_string_loop P (n + 1) sc buf =
        scanner.scan_string_loop P n sc1 (buf ++ [c]) ∧
      sc1.synced ∧ sc1.rest = r ∧ sc1.tokens_ = sc.tokens_ := by
    intro x hx hux hr1
    obtain ⟨a1, a2, _, _, a5, _⟩ := scanner.next_ch_cons sc hs hr1
    obtain ⟨b1, b2, _, _, b5, _⟩ := scanner.next_ch_cons _ a1 a2
    exact ⟨_, by rw [scanner.scan_string_loop_named P sc hs hr1 hx, hux], b1, b2,
      b5.trans a5⟩
  simp only [escape_of_byte] at hr
  by_cases h13 : c = 13
  · subst h13; exact named 114 (by decide) (by decide) hr
  by_cases h10 : c = 10
  · subst h10; exact named 110 (by decide) (by decide) hr
  by_cases h9 : c = 9
  · subst h9; exact named 116 (by decide) (by decide) hr
  by_cases h12 : c = 12
  · subst h12; exact named 102 (by decide) (by decide) hr
  by_cases h8 : c = 8
  · subst h8; exact named 98 (by decide) (by decide) hr
  by_cases h92 : c = 92
  · subst h92; exact named 92 (by decide) (by decide) hr
  by_cases h34 : c = 34
  · subst h34; exact named 34 (by decide) (by decide) hr
  by_cases h47 : c = 47
  · subst h47; exact named 47 (by decide) (by decide) hr
  simp only [h13, h10, h9, h12, h8, h92, h34, h47, if_false] at hr
  by_cases hctl : c < 0x20 ∨ c = 0x7f
  · rw [if_pos hctl] at hr
    have hlt : c < 128 := by omega
    have hr1 : sc.rest = 92 :: 117 :: ([48, 48,
        (if c / 16 < 10 then 48 + c / 16 else 87 + c / 16),
        (if c % 16 < 10 then 48 + c % 16 else 87 + c % 16)] ++ r) := by
      rw [hr]; rfl
    obtain ⟨a1, a2, _, _, a5, _⟩ := scanner.next_ch_cons sc hs hr1
    obtain ⟨b1, b2, _, _, b5, _⟩ := scanner.next_ch_cons _ a1 a2
    have e := scanner.utf8_unescape_single P _ b1 (hcl _ _) b2 rfl
      (hex_number_of_escape c hlt) hc (Or.inl (by omega))
    obtain ⟨c1, c2, _, _, c5, _⟩ := scanner.next_ch_times_append _ _ r b1 b2
    have henc : utf8_encoding c = [c] := by simp [utf8_encoding, hlt]
    refine ⟨_, ?_, c1, c2, c5.trans (b5.trans a5)⟩
    rw [scanner.scan_string_loop_escape P sc hs hr1, e, henc]
    rfl
  · rw [if_neg hctl] at hr
    have hr1 : sc.rest = c :: r := hr
    obtain ⟨a1, a2, _, _, a5, _⟩ := scanner.next_ch_cons sc hs hr1
    exact ⟨_, scanner.scan_string_loop_plain P sc hs hr1 ⟨h34, h13, h10, h92⟩ n buf, a1, a2,
      a5⟩

/-- The loop of `scan_string` over the escaped form of a string without NUL and the
closing quote: it returns the string, where the variable `failed` holds `false`. -/
theorem scanner.scan_string_loop_escaped {σ : Type} (P : Platform)
    (hcl : ∀ t n, P.indeterminate t n = false) (s : Str) :
    ∀ (sc : scanner σ) (n : Nat) (buf r : Str), sc.synced → (∀ c ∈ s, c ≠ 0) →
      sc.rest = escape_string s ++ 34 :: r → s.length < n →
      ∃ sc1 : scanner σ, scanner.scan_string_loop P n sc buf = .ok (buf ++ s) sc1 ∧
        sc1.synced ∧ sc1.rest = r ∧ sc1.tokens_ = sc.tokens_ := by
  induction s with
  | nil =>
    intro sc n buf r hs _ hr hn
    obtain ⟨m, rfl⟩ : ∃ m, n = m + 1 := ⟨n - 1, by simp at hn; omega⟩
    have hr1 : sc.rest = 34 :: r := by simpa [escape_string] using hr
    obtain ⟨a1, a2, _, _, a5, _⟩ := scanner.next_ch_cons sc hs hr1
    exact ⟨_, by rw [scanner.scan_string_loop_quote P sc hs hr1]; simp, a1, a2, a5⟩
  | cons c s ih =>
    intro sc n buf r hs h0 hr hn
    obtain ⟨m, rfl⟩ : ∃ m, n = m + 1 := ⟨n - 1, by simp at hn; omega⟩
    have hr1 : sc.rest = escape_of_byte c ++ (escape_string s ++ 34 :: r) := by
      rw [hr]
      simp [escape_string, escape_char_eq]
    obtain ⟨sc1, e1, s1, s2, s3⟩ := scanner.scan_string_loop_byte P hcl sc hs c
      (h0 c (by simp)) _ hr1 m buf
    obtain ⟨sc2, e2, t1, t2, t3⟩ := ih sc1 m (buf ++ [c]) r s1
      (fun d hd => h0 d (by simp [hd])) s2 (by simp at hn; omega)
    exact ⟨sc2, by rw [e1, e2]; simp, t1, t2, t3.trans s3⟩

theorem escape_of_byte_cons (c : Nat) : ∃ a t, escape_of_byte c = a :: t := by
  by_cases h13 : c = 13
  · subst h13; exact ⟨_, _, rfl⟩
  by_cases h10 : c = 10
  · subst h10; exact ⟨_, _, rfl⟩
  by_cases h9 : c = 9
  · subst h9; exact ⟨_, _, rfl⟩
  by_cases h12 : c = 12
  · subst h12; exact ⟨_, _, rfl⟩
  by_cases h8 : c = 8
  · subst h8; exact ⟨_, _, rfl⟩
  by_cases h92 : c = 92
  · subst h92; exact ⟨_, _, rfl⟩
  by_cases h34 : c = 34
  · subst h34; exact ⟨_, _, rfl⟩
  by_cases h47 : c = 47
  · subst h47; exact ⟨_, _, rfl⟩
  simp only [escape_of_byte, h13, h10, h9, h12, h8, h92, h34, h47, if_false]
  by_cases hctl : c < 0x20 ∨ c = 0x7f
  · rw [if_pos hctl]; exact ⟨_, _, rfl⟩
  · rw [if_neg hctl]; exact ⟨_, _, rfl⟩

theorem escape_string_length (s : Str) : s.length ≤ (escape_string s).length := by
  induction s with
  | nil => simp [escape_string]
  | cons c s ih =>
    have h1 : escape_string (c :: s) = escape_of_byte c ++ escape_string s := by
      simp [escape_string, escape_char_eq]
    obtain ⟨a, t, h4⟩ := escape_of_byte_cons c
    rw [h1, h4, List.length_append, List.length_cons, List.length_cons]
    omega

/-- On a platform where the variable `failed` of `utf8_unescape` holds `false` whenever
it is read: for every byte string `s` without a NUL byte and whatever the parameters,
`scan` returns on the text made of a double quote, `escape_string(s)` and a double
quote, and the tokens it leaves are one string token, at the start of the text, whose
value is `s`. -/
theorem scan_of_escaped_string {σ : Type} (P : Platform)
    (hcl : ∀ t n, P.indeterminate t n = false) (s : Str) (h0 : ∀ c ∈ s, c ≠ 0)
    (params : scanner_params σ) :
    ∃ sc : scanner σ,
      scanner.scan P scanner.init (34 :: (escape_string s ++ [34])) params = .ok () sc ∧
      sc.tokens_ = [⟨.string_token, s, 0, 0, 0, 1, 1⟩] := by
  have hsync : ({ (scanner.init : scanner σ) with
      input_ := 34 :: (escape_string s ++ [34]), pos_ := 0, line_ := 1, col_ := 1,
      cur_token_ := 0, eof_ := (34 :: (escape_string s ++ [34])).isEmpty,
      params_ := params } : scanner σ).synced := by
    simp [scanner.synced]
  have hrest : ({ (scanner.init : scanner σ) with
      input_ := 34 :: (escape_string s ++ [34]), pos_ := 0, line_ := 1, col_ := 1,
      cur_token_ := 0, eof_ := (34 :: (escape_string s ++ [34])).isEmpty,
      params_ := params } : scanner σ).rest = 34 :: (escape_string s ++ 34 :: []) := rfl
  obtain ⟨h1, h2⟩ := scanner.ch_cons _ hsync hrest
  obtain ⟨a1, a2, _, _, a5, _⟩ := scanner.next_ch_cons _ hsync hrest
  have hlen : s.length < (34 :: (escape_string s ++ [34])).length + 1 := by
    have := escape_string_length s
    simp only [List.length_cons, List.length_append, List.length_nil]
    omega
  obtain ⟨sc1, e1, s1, s2, s3⟩ := scanner.scan_string_loop_escaped P hcl s _
    ((34 :: (escape_string s ++ [34])).length + 1) [] [] a1 h0 a2 hlen
  have hstr : ({ (scanner.init : scanner σ) with
      input_ := 34 :: (escape_string s ++ [34]), pos_ := 0, line_ := 1, col_ := 1,
      cur_token_ := 0, eof_ := (34 :: (escape_string s ++ [34])).isEmpty,
      params_ := params } : scanner σ).scan_string P = .ok s sc1 := by
    simpa [scanner.scan_string] using e1
  obtain ⟨w1, w2, _⟩ := scanner.with_tokens sc1 s1
    (sc1.tokens_ ++ [⟨.string_token, s, 0, 0, 0, 1, 1⟩])
  have heof : ({ sc1 with tokens_ := sc1.tokens_ ++ [⟨.string_token, s, 0, 0, 0, 1, 1⟩] } :
      scanner σ).eof = true := by
    rw [scanner.eof_of_rest _ w1, w2, s2]
    rfl
  refine ⟨{ sc1 with tokens_ := sc1.tokens_ ++ [⟨.string_token, s, 0, 0, 0, 1, 1⟩] }, ?_, ?_⟩
  · simp only [scanner.scan, List.length_cons]
    rw [scanner.scan_loop]
    simp only [h2, Bool.not_false, if_true, scanner.scan_step, h1, hstr, Res.bind]
    rw [scanner.scan_loop]
    simp [heof]
  · show sc1.tokens_ ++ _ = _
    rw [s3, a5]
    rfl

/-- The string `a`, double quote, newline is escaped as `a\\"\\n`, and `scan` makes one
string token with this string of the quoted text. -/
theorem scan_of_escaped_string_on_sample :
    escape_string (lit "a\"\n") = lit "a\\\"\\n" ∧
    ∃ sc : scanner Unit,
      scanner.scan sample_platform scanner.init (lit "\"a\\\"\\n\"") default_scanner_params
        = .ok () sc ∧
      sc.tokens_ = [⟨.string_token, lit "a\"\n", 0, 0, 0, 1, 1⟩] := by
  obtain ⟨sc, h1, h2⟩ := scan_of_escaped_string sample_platform (fun _ _ => rfl)
    (lit "a\"\n") (by decide) (default_scanner_params : scanner_params Unit)
  exact ⟨by decide, sc, h1, h2⟩

/-- C39 (the code fails it): `escape_string` writes the byte 0x01 as `\\u0001`; `scan`
reads that escape through `utf8_unescape`, whose variable `failed` has no initial value.
On a platform where it holds `true` when it is read, the string token `scan` makes of
the text double quote, `escape_string` of the byte, double quote holds the bytes
EF BF BD of U+FFFD and not the byte 0x01 (which it holds where the variable holds
`false`); the same happens to the byte 0x7f and to `a`, 0x1f, `b`. -/
theorem control_byte_not_read_back :
    escape_string [1] = lit "\\u0001" ∧
    scan_tokens stale_platform (34 :: (escape_string [1] ++ [34]))
      = .ok [⟨.string_token, [0xef, 0xbf, 0xbd], 0, 0, 0, 1, 1⟩] () ∧
    scan_tokens sample_platform (34 :: (escape_string [1] ++ [34]))
      = .ok [⟨.string_token, [1], 0, 0, 0, 1, 1⟩] () ∧
    scan_tokens stale_platform (34 :: (escape_string [0x7f] ++ [34]))
      = .ok [⟨.string_token, [0xef, 0xbf, 0xbd], 0, 0, 0, 1, 1⟩] () ∧
    scan_tokens stale_platform (34 :: (escape_string [97, 0x1f, 98] ++ [34]))
      = .ok [⟨.string_token, [97, 0xef, 0xbf, 0xbd, 98], 0, 0, 0, 1, 1⟩] () := by
  decide

/-! ## The places of the tokens -/

theorem line_of_succ (input : Str) (pos : Nat) (h : pos < input.length) :
    line_of input (pos + 1) =
      if input.getD pos 0 = 10 then line_of input pos + 1 else line_of input pos := by
  simp only [line_of]
  rw [List.take_succ, List.getElem?_eq_getElem h, List.getD_eq_getElem _ _ h]
  simp only [Option.toList, List.count_append, List.count_singleton]
  by_cases hc : input[pos] = 10
  · simp [hc]; omega
  · have : ¬ (10 : Nat) = input[pos] := fun h => hc h.symm
    simp [hc, this]

theorem col_of_succ (input : Str) (pos : Nat) (h : pos < input.length) :
    col_of input (pos + 1) = if input.getD pos 0 = 10 then 1 else col_of input pos + 1 := by
  simp only [col_of]
  rw [List.take_succ, List.getElem?_eq_getElem h, List.getD_eq_getElem _ _ h]
  simp only [Option.toList, List.reverse_append, List.reverse_singleton, List.singleton_append,
    List.takeWhile_cons]
  by_cases hc : input[pos] = 10
  · simp [hc]
  · simp [hc]; omega

theorem scanner.follows_refl {σ : Type} (sc : scanner σ) (h : sc.placed) : sc.follows sc :=
  ⟨h, rfl, rfl, rfl, Nat.le_refl _, rfl⟩

theorem scanner.follows_trans {σ : Type} {a b c : scanner σ} (h1 : a.follows b)
    (h2 : b.follows c) : a.follows c :=
  ⟨h2.1, h2.2.1.trans h1.2.1, h2.2.2.1.trans h1.2.2.1, h2.2.2.2.1.trans h1.2.2.2.1,
    Nat.le_trans h1.2.2.2.2.1 h2.2.2.2.2.1, h2.2.2.2.2.2.trans h1.2.2.2.2.2⟩

theorem scanner.next_ch_follows {σ : Type} (sc : scanner σ) (h : sc.placed) :
    sc.follows sc.next_ch := by
  obtain ⟨hs, hp, hl, hc⟩ := h
  cases hr : sc.rest with
  | nil =>
    rw [scanner.next_ch_nil sc hs hr]
    exact ⟨⟨hs, hp, hl, hc⟩, rfl, rfl, rfl, Nat.le_refl _, rfl⟩
  | cons c r =>
    obtain ⟨h1, h2⟩ := scanner.ch_cons sc hs hr
    obtain ⟨a1, a2, a3, a4, a5, a6⟩ := scanner.next_ch_cons sc hs hr
    have hlt : sc.pos_ < sc.input_.length := by
      have : sc.rest.length = sc.input_.length - sc.pos_ := by simp [scanner.rest]
      rw [hr] at this
      simp at this
      omega
    have hch : sc.input_.getD sc.pos_ 0 = c := by
      have := h1
      simp only [scanner.ch, h2, Bool.false_eq_true, if_false] at this
      exact this
    refine ⟨⟨a1, by rw [a6, a3]; omega, ?_, ?_⟩, a3, a4, a5, by rw [a6]; omega,
      by simp [scanner.next_ch, h2]⟩
    · rw [a3, a6, line_of_succ _ _ hlt, hch, ← hl]
      simp only [scanner.next_ch, h2, h1, Bool.false_eq_true, if_false]
    · rw [a3, a6, col_of_succ _ _ hlt, hch, ← hc]
      simp only [scanner.next_ch, h2, h1, Bool.false_eq_true, if_false]

theorem scanner.next_ch_times_follows {σ : Type} (n : Nat) :
    ∀ sc : scanner σ, sc.placed → sc.follows (scanner.next_ch_times n sc) := by
  induction n with
  | zero => intro sc h; exact scanner.follows_refl sc h
  | succ n ih =>
    intro sc h
    have h1 := scanner.next_ch_follows sc h
    exact scanner.follows_trans h1 (ih _ h1.1)

theorem scanner.scan_identifier_loop_follows {σ : Type} (n : Nat) :
    ∀ (sc : scanner σ) (buf : Str), sc.placed →
      sc.follows (scanner.scan_identifier_loop n sc buf).2 := by
  induction n with
  | zero => intro sc buf h; exact scanner.follows_refl sc h
  | succ n ih =>
    intro sc buf h
    rw [scanner.scan_identifier_loop]
    split
    · have h1 := scanner.next_ch_follows sc h
      exact scanner.follows_trans h1 (ih _ _ h1.1)
    · exact scanner.follows_refl sc h

/-- What `scan_identifier` returns is read off the text from the position of the scanner
on: it is a prefix of that text, not empty when the first character is one of an
identifier. -/
theorem scanner.scan_identifier_loop_text {σ : Type} (n : Nat) :
    ∀ (sc : scanner σ) (buf : Str), sc.synced →
      ∃ w, (scanner.scan_identifier_loop n sc buf).1 = buf ++ w ∧ w <+: sc.rest ∧
        (0 < n → is_identifier_char sc.ch = true → w ≠ []) := by
  induction n with
  | zero =>
    intro sc buf _
    exact ⟨[], by simp [scanner.scan_identifier_loop], List.nil_prefix, fun h => by omega⟩
  | succ n ih =>
    intro sc buf hs
    rw [scanner.scan_identifier_loop]
    by_cases hc : is_identifier_char sc.ch = true
    · rw [if_pos hc]
      cases hr : sc.rest with
      | nil =>
        have h0 : sc.ch = 0 := by rw [scanner.ch_eq sc hs, hr]; rfl
        rw [h0] at hc
        exact absurd hc (by decide)
      | cons c r =>
        obtain ⟨h1, _⟩ := scanner.ch_cons sc hs hr
        obtain ⟨a1, a2, _⟩ := scanner.next_ch_cons sc hs hr
        obtain ⟨w, e, p, _⟩ := ih sc.next_ch (buf ++ [sc.ch]) a1
        refine ⟨c :: w, ?_, ?_, fun _ _ => by simp⟩
        · rw [e, h1]; simp
        · rw [a2] at p
          exact List.cons_prefix_cons.2 ⟨rfl, p⟩
    · rw [if_neg hc]
      exact ⟨[], by simp, List.nil_prefix, fun _ h => absurd h hc⟩

theorem identifier_start_is_char (c : Nat) (h : is_identifier_start c = true) :
    is_identifier_char c = true := by
  simp only [is_identifier_start, is_identifier_char, Bool.or_eq_true] at h ⊢
  rcases h with h | h
  · exact Or.inl (Or.inl (Or.inl (Or.inr h)))
  · exact Or.inl (Or.inl (Or.inl (Or.inl h)))

theorem scanner.scan_comment_loop_follows {σ : Type} (n : Nat) :
    ∀ (sc : scanner σ) (tok : token), sc.placed →
      sc.follows (scanner.scan_comment_loop n sc tok).2 ∧
      (scanner.scan_comment_loop n sc tok).1.type = tok.type ∧
      (scanner.scan_comment_loop n sc tok).1.pos = tok.pos ∧
      (scanner.scan_comment_loop n sc tok).1.line = tok.line ∧
      (scanner.scan_comment_loop n sc tok).1.col = tok.col := by
  induction n with
  | zero => intro sc tok h; exact ⟨scanner.follows_refl sc h, rfl, rfl, rfl, rfl⟩
  | succ n ih =>
    intro sc tok h
    rw [scanner.scan_comment_loop]
    split
    · have h1 := scanner.next_ch_follows sc h
      obtain ⟨i1, i0, i2, i3, i4⟩ := ih sc.next_ch
        (if sc.ch != 13 then { tok with string_value := tok.string_value ++ [sc.ch] }
          else tok) h1.1
      refine ⟨scanner.follows_trans h1 i1, ?_, ?_, ?_, ?_⟩
      · rw [i0]; split <;> rfl
      · rw [i2]; split <;> rfl
      · rw [i3]; split <;> rfl
      · rw [i4]; split <;> rfl
    · exact ⟨scanner.follows_refl sc h, rfl, rfl, rfl, rfl⟩

theorem scanner.try_read_hex_loop_follows {σ : Type} (n : Nat) :
    ∀ (u : Nat) (f : Bool) (sc : scanner σ), sc.placed →
      sc.follows (scanner.try_read_hex_loop n u f sc).2 := by
  induction n with
  | zero => intro u f sc h; exact scanner.follows_refl sc h
  | succ n ih =>
    intro u f sc h
    have h1 := scanner.next_ch_follows sc h
    rw [scanner.try_read_hex_loop]
    split
    · exact scanner.follows_refl sc h
    · split
      · exact scanner.follows_trans h1 (ih _ _ _ h1.1)
      · split
        · exact scanner.follows_trans h1 (ih _ _ _ h1.1)
        · split
          · exact scanner.follows_trans h1 (ih _ _ _ h1.1)
          · exact scanner.follows_refl sc h

theorem scanner.utf8_invalid_final {σ : Type} (sc : scanner σ) :
    sc.utf8_invalid.final = some sc := by
  simp only [scanner.utf8_invalid]
  split <;> rfl

theorem scanner.utf8_unescape_follows {σ : Type} (P : Platform) (sc : scanner σ)
    (h : sc.placed) :
    ∀ s, (sc.utf8_unescape P).final = some s → sc.follows s := by
  intro s hfin
  generalize hf : P.indeterminate sc.input_ sc.pos_ = f at hfin
  have h1 := scanner.try_read_hex_loop_follows 4 0 f sc h
  have h2 := scanner.next_ch_follows _ h1.1
  have h3 := scanner.next_ch_follows _ h2.1
  have f1 : sc.follows (sc.try_read_hex f).2 := h1
  have key2 : (∃ f2, s = ((sc.try_read_hex f).2.next_ch.next_ch.try_read_hex f2).2) ∨
      s = (sc.try_read_hex f).2 := by
    simp only [scanner.utf8_unescape, hf] at hfin
    split_ifs at hfin <;> first
      | (rw [scanner.utf8_invalid_final] at hfin
         simp only [Option.some.injEq] at hfin
         first
           | exact Or.inr hfin.symm
           | exact Or.inl ⟨_, hfin.symm⟩)
      | (simp only [Res.final, Option.some.injEq] at hfin
         first
           | exact Or.inr hfin.symm
           | exact Or.inl ⟨_, hfin.symm⟩)
  rcases key2 with ⟨f2, hk⟩ | hk
  · rw [hk]
    have h4 := scanner.try_read_hex_loop_follows 4 0 f2 _ h3.1
    exact scanner.follows_trans h1 (scanner.follows_trans h2 (scanner.follows_trans h3 h4))
  · rw [hk]
    exact f1

theorem scanner.scan_string_loop_follows {σ : Type} (P : Platform) (n : Nat) :
    ∀ (sc : scanner σ) (buf : Str), sc.placed →
      ∀ s, (scanner.scan_string_loop P n sc buf).final = some s → sc.follows s := by
  induction n with
  | zero => intro sc buf _ s hfin; simp [scanner.scan_string_loop, Res.final] at hfin
  | succ n ih =>
    intro sc buf h s hfin
    have h1 := scanner.next_ch_follows sc h
    have h2 := scanner.next_ch_follows _ h1.1
    have h3 := scanner.next_ch_follows _ h2.1
    rw [scanner.scan_string_loop] at hfin
    split at hfin
    · split at hfin
      · simp only [Res.final, Option.some.injEq] at hfin
        subst hfin
        exact scanner.follows_refl sc h
      · split at hfin
        · simp only [Res.final, Option.some.injEq] at hfin
          subst hfin
          exact scanner.follows_refl sc h
        · split at hfin
          · by_cases hu1 : sc.next_ch.ch = 'u'.toNat
            · simp only [hu1, if_true] at hfin
              cases hu : sc.next_ch.next_ch.utf8_unescape P with
                | ok utf8 sc1 =>
                  have f := scanner.utf8_unescape_follows P _ h2.1 sc1 (by rw [hu]; rfl)
                  rw [hu] at hfin
                  exact scanner.follows_trans h1 (scanner.follows_trans h2
                    (scanner.follows_trans f (ih _ _ f.1 s hfin)))
                | throw e sc1 =>
                  have f := scanner.utf8_unescape_follows P _ h2.1 sc1 (by rw [hu]; rfl)
                  rw [hu] at hfin
                  simp only [Res.bind, Res.final, Option.some.injEq] at hfin
                  subst hfin
                  exact scanner.follows_trans h1 (scanner.follows_trans h2 f)
                | diverge =>
                  rw [hu] at hfin
                  simp [Res.bind, Res.final] at hfin
            · simp only [hu1, if_false] at hfin
              exact scanner.follows_trans h1 (scanner.follows_trans h2 (ih _ _ h2.1 s hfin))
          · exact scanner.follows_trans h1 (ih _ _ h1.1 s hfin)
    · simp only [Res.final, Option.some.injEq] at hfin
      subst hfin
      exact h1

/-- The loop that reads white space leaves the scanner placed and not before where it
was; the tokens it pushes are markers of blank lines and tokens with the type and the
place of the token it was given, which the token it returns has too. -/
theorem scanner.scan_whitespace_loop_follows {σ : Type} (P : Platform) (n : Nat) :
    ∀ (sc : scanner σ) (tok : token) (seen : Bool), sc.placed →
      (scanner.scan_whitespace_loop P n sc tok seen).2.placed ∧
      (scanner.scan_whitespace_loop P n sc tok seen).2.input_ = sc.input_ ∧
      (scanner.scan_whitespace_loop P n sc tok seen).2.params_ = sc.params_ ∧
      sc.pos_ ≤ (scanner.scan_whitespace_loop P n sc tok seen).2.pos_ ∧
      (scanner.scan_whitespace_loop P n sc tok seen).2.cur_token_ = sc.cur_token_ ∧
      (∃ new, (scanner.scan_whitespace_loop P n sc tok seen).2.tokens_ = sc.tokens_ ++ new ∧
        ∀ t ∈ new, t = blank_line_token ∨
          (t.type = tok.type ∧ t.pos = tok.pos ∧ t.line = tok.line ∧ t.col = tok.col)) ∧
      (scanner.scan_whitespace_loop P n sc tok seen).1.type = tok.type ∧
      (scanner.scan_whitespace_loop P n sc tok seen).1.pos = tok.pos ∧
      (scanner.scan_whitespace_loop P n sc tok seen).1.line = tok.line ∧
      (scanner.scan_whitespace_loop P n sc tok seen).1.col = tok.col := by
  induction n with
  | zero =>
    intro sc tok seen h
    exact ⟨h, rfl, rfl, Nat.le_refl _, rfl,
      ⟨[], by simp [scanner.scan_whitespace_loop], by simp⟩, rfl, rfl, rfl, rfl⟩
  | succ n ih =>
    intro sc tok seen h
    have h1 := scanner.next_ch_follows sc h
    rw [scanner.scan_whitespace_loop]
    split
    · split
      · split
        · have hp : ({ sc with tokens_ := sc.tokens_ ++ [tok, blank_line_token] } :
              scanner σ).placed := h
          have h2 := scanner.next_ch_follows _ hp
          obtain ⟨i1, i2, i3, i9, ic, ⟨new, i4, i5⟩, i0, i6, i7, i8⟩ := ih _ tok seen h2.1
          refine ⟨i1, i2.trans h2.2.1, i3.trans h2.2.2.1, Nat.le_trans h2.2.2.2.2.1 i9,
            ic.trans h2.2.2.2.2.2,
            ⟨[tok, blank_line_token] ++ new, ?_, ?_⟩, i0, i6, i7, i8⟩
          · exact i4.trans (by rw [h2.2.2.2.1]; simp)
          · intro t ht
            simp only [List.mem_append, List.mem_cons, List.mem_singleton, List.not_mem_nil,
              or_false] at ht
            rcases ht with (ht | ht) | ht
            · right; rw [ht]; exact ⟨rfl, rfl, rfl, rfl⟩
            · left; exact ht
            · exact i5 t ht
        · obtain ⟨i1, i2, i3, i9, ic, ⟨new, i4, i5⟩, i0, i6, i7, i8⟩ := ih sc.next_ch
            { tok with string_value := tok.string_value ++ [sc.ch] } true h1.1
          exact ⟨i1, i2.trans h1.2.1, i3.trans h1.2.2.1, Nat.le_trans h1.2.2.2.2.1 i9,
            ic.trans h1.2.2.2.2.2, ⟨new, by rw [i4, h1.2.2.2.1], i5⟩, i0, i6, i7, i8⟩
      · obtain ⟨i1, i2, i3, i9, ic, ⟨new, i4, i5⟩, i0, i6, i7, i8⟩ := ih sc.next_ch
          { tok with string_value := tok.string_value ++ [sc.ch] } seen h1.1
        exact ⟨i1, i2.trans h1.2.1, i3.trans h1.2.2.1, Nat.le_trans h1.2.2.2.2.1 i9,
          ic.trans h1.2.2.2.2.2, ⟨new, by rw [i4, h1.2.2.2.1], i5⟩, i0, i6, i7, i8⟩
    · exact ⟨h, rfl, rfl, Nat.le_refl _, rfl, ⟨[], by simp, by simp⟩, rfl, rfl, rfl, rfl⟩

theorem scanner.place_placed {σ : Type} (P : Platform) (sc : scanner σ) (h : sc.placed)
    (he : sc.eof = false) (t : token)
    (ht : t.pos = sc.pos_ ∧ t.line = sc.line_ ∧ t.col = sc.col_)
    (hb : token.begins P sc.input_ t) :
    token.placed P sc.input_ t ∧ (t = blank_line_token ∨ t.pos = sc.pos_) := by
  obtain ⟨hs, hp, hl, hc⟩ := h
  refine ⟨?_, Or.inr ht.1⟩
  right
  have hlt : sc.pos_ < sc.input_.length := by
    simp only [scanner.synced] at hs
    simp only [scanner.eof] at he
    rw [he] at hs
    by_contra hx
    have : decide (sc.input_.length ≤ sc.pos_) = true := by simp; omega
    rw [this] at hs
    cases hs
  refine ⟨?_, ?_, ?_, hb⟩
  · rw [ht.1]; exact hlt
  · rw [ht.1, ht.2.1]; exact hl
  · rw [ht.1, ht.2.2]; exact hc

/-- One iteration of the loop of `scan` on a placed scanner: the scanner it leaves, on a
return as on a throw, is placed and does not stand before where the iteration started,
and the tokens it has pushed are markers of blank lines and tokens that begin where the
iteration started, with the line and the column of that offset. -/
theorem scanner.scan_step_placed {σ : Type} (P : Platform) (sc : scanner σ) (h : sc.placed)
    (he : sc.eof = false) :
    ∀ s, (sc.scan_step P).final = some s →
      s.placed ∧ s.input_ = sc.input_ ∧ s.params_ = sc.params_ ∧ sc.pos_ ≤ s.pos_ ∧
      s.cur_token_ = sc.cur_token_ ∧
      ∃ new, s.tokens_ = sc.tokens_ ++ new ∧
        ∀ t ∈ new, token.placed P sc.input_ t ∧ (t = blank_line_token ∨ t.pos = sc.pos_) := by
  intro s hfin
  have h1 := scanner.next_ch_follows sc h
  obtain ⟨c, r, hr⟩ : ∃ c r, sc.rest = c :: r := by
    cases hr : sc.rest with
    | nil =>
      have : sc.eof = true := by rw [scanner.eof_of_rest sc h.1, hr]; rfl
      rw [this] at he
      cases he
    | cons c r => exact ⟨c, r, rfl⟩
  obtain ⟨hch, _⟩ := scanner.ch_cons sc h.1 hr
  have hd : sc.input_.drop sc.pos_ = c :: r := hr
  have push : ∀ (sc1 : scanner σ) (t : token), sc.follows sc1 →
      t.pos = sc.pos_ ∧ t.line = sc.line_ ∧ t.col = sc.col_ → token.begins P sc.input_ t →
      ({ sc1 with tokens_ := sc1.tokens_ ++ [t] } : scanner σ).placed ∧
      ({ sc1 with tokens_ := sc1.tokens_ ++ [t] } : scanner σ).input_ = sc.input_ ∧
      ({ sc1 with tokens_ := sc1.tokens_ ++ [t] } : scanner σ).params_ = sc.params_ ∧
      sc.pos_ ≤ ({ sc1 with tokens_ := sc1.tokens_ ++ [t] } : scanner σ).pos_ ∧
      ({ sc1 with tokens_ := sc1.tokens_ ++ [t] } : scanner σ).cur_token_ = sc.cur_token_ ∧
      ∃ new, ({ sc1 with tokens_ := sc1.tokens_ ++ [t] } : scanner σ).tokens_
          = sc.tokens_ ++ new ∧
        ∀ t1 ∈ new, token.placed P sc.input_ t1 ∧
          (t1 = blank_line_token ∨ t1.pos = sc.pos_) := by
    intro sc1 t hf ht hb
    refine ⟨hf.1, hf.2.1, hf.2.2.1, hf.2.2.2.2.1, hf.2.2.2.2.2, [t], ?_, ?_⟩
    · show sc1.tokens_ ++ [t] = _
      rw [hf.2.2.2.1]
    · intro t1 ht1
      rw [List.mem_singleton.1 ht1]
      exact scanner.place_placed P sc h he t ht hb
  simp only [scanner.scan_step] at hfin
  by_cases c1 : sc.ch = 34
  · simp only [c1, if_true] at hfin
    cases hstr : sc.scan_string P with
    | ok v sc1 =>
      have f := scanner.scan_string_loop_follows P _ _ _ h1.1 sc1
        (by rw [← scanner.scan_string, hstr]; rfl)
      rw [hstr] at hfin
      simp only [Res.final, Option.some.injEq] at hfin
      subst hfin
      refine push sc1 _ (scanner.follows_trans h1 f) ⟨rfl, rfl, rfl⟩ ?_
      simp only [token.begins, hd]
      rw [← hch, c1]
    | throw e sc1 =>
      have f := scanner.scan_string_loop_follows P _ _ _ h1.1 sc1
        (by rw [← scanner.scan_string, hstr]; rfl)
      rw [hstr] at hfin
      simp only [Res.final, Option.some.injEq] at hfin
      subst hfin
      have f2 := scanner.follows_trans h1 f
      exact ⟨f2.1, f2.2.1, f2.2.2.1, f2.2.2.2.2.1, f2.2.2.2.2.2, [],
        by simp [f2.2.2.2.1], by simp⟩
    | diverge =>
      rw [hstr] at hfin
      simp [Res.final] at hfin
  · simp only [c1, if_false] at hfin
    by_cases c2 : is_number_start sc.ch = true
    · simp only [c2, if_true, scanner.scan_number, Res.final, Option.some.injEq] at hfin
      subst hfin
      refine push _ _ (scanner.next_ch_times_follows _ sc h) ⟨rfl, rfl, rfl⟩ ?_
      simp only [token.begins, hd]
      rw [← hch]
      exact c2
    · simp only [c2, Bool.false_eq_true, if_false] at hfin
      by_cases c3 : is_identifier_start sc.ch = true
      · simp only [c3, if_true, scanner.scan_identifier, Res.final, Option.some.injEq] at hfin
        subst hfin
        refine push _ _ (scanner.scan_identifier_loop_follows _ sc [] h) ⟨rfl, rfl, rfl⟩ ?_
        obtain ⟨w, e, p, hne⟩ := scanner.scan_identifier_loop_text (sc.input_.length + 1) sc []
          h.1
        simp only [token.begins, hd]
        rw [e, List.nil_append]
        rw [hr] at p
        refine ⟨by rw [← hch]; exact c3, hne (Nat.succ_pos _) (identifier_start_is_char _ c3), p⟩
      · simp only [c3, Bool.false_eq_true, if_false] at hfin
        by_cases c4 : sc.ch = '/'.toNat
        · simp only [c4, if_true] at hfin
          split at hfin
          next hcond =>
            obtain ⟨i1, i0, i2, i3, i4⟩ := scanner.scan_comment_loop_follows
              (sc.input_.length + 1) sc
              { type := .comment_token, string_value := [], number_value := 0, char_value := 0,
                pos := sc.pos_, line := sc.line_, col := sc.col_ } h
            simp only [Res.final, Option.some.injEq] at hfin
            subst hfin
            refine push _ _ i1 ⟨i2, i3, i4⟩ ?_
            simp only [Bool.and_eq_true, decide_eq_true_eq] at hcond
            have hget : sc.input_.getD (sc.pos_ + 1) 0 = sc.rest.getD 1 0 := by
              simp [scanner.rest, List.getD_eq_getElem?_getD]
            have hlen : sc.rest.length = sc.input_.length - sc.pos_ := by simp [scanner.rest]
            have h47 : '/'.toNat = 47 := rfl
            rw [hget, hr, h47] at hcond
            rw [hr] at hlen
            have hc47 : c = 47 := by rw [← hch, c4]; rfl
            cases hrr : r with
            | nil =>
              rw [hrr] at hlen
              simp only [List.length_cons, List.length_nil] at hlen
              omega
            | cons d t =>
              rw [hrr] at hcond
              have hd47 : d = 47 := by simpa using hcond.2
              simp only [token.begins, i0, i2, hd, hrr]
              exact ⟨hc47, by rw [hd47]; rfl⟩
          next hcond =>
            simp only [Res.final, Option.some.injEq] at hfin
            subst hfin
            refine push _ _ h1 ⟨rfl, rfl, rfl⟩ ?_
            simp only [token.begins, hd]
            rw [← hch, c4]
        · simp only [c4, if_false] at hfin
          by_cases c5 : char_le_0x20 P sc.ch = true
          · have key := scanner.scan_whitespace_loop_follows P (sc.input_.length + 1) sc
              { type := .whitespace_token, string_value := [], number_value := 0,
                char_value := 0, pos := sc.pos_, line := sc.line_, col := sc.col_ } false h
            simp only [c5, if_true, Res.final, Option.some.injEq] at hfin
            generalize scanner.scan_whitespace_loop P (sc.input_.length + 1) sc
              { type := .whitespace_token, string_value := [], number_value := 0,
                char_value := 0, pos := sc.pos_, line := sc.line_, col := sc.col_ } false
              = res at hfin key
            obtain ⟨tok1, sc1⟩ := res
            obtain ⟨i1, i2, i3, i9, ic, ⟨new, i4, i5⟩, i0, i6, i7, i8⟩ := key
            subst hfin
            have white : ∀ t : token, t.type = .whitespace_token → t.pos = sc.pos_ →
                token.begins P sc.input_ t := by
              intro t ht1 ht2
              simp only [token.begins, ht1, ht2, hd]
              rw [← hch]
              exact c5
            refine ⟨i1, i2, i3, i9, ic, new ++ [tok1], ?_, ?_⟩
            · show sc1.tokens_ ++ [tok1] = _
              rw [i4, List.append_assoc]
            · intro t ht
              rcases List.mem_append.1 ht with ht | ht
              · rcases i5 t ht with hb | hb
                · exact ⟨Or.inl hb, Or.inl hb⟩
                · exact scanner.place_placed P sc h he t hb.2 (white t hb.1 hb.2.1)
              · rw [List.mem_singleton.1 ht]
                exact scanner.place_placed P sc h he _ ⟨i6, i7, i8⟩ (white _ i0 i6)
          · simp only [c5, Bool.false_eq_true, if_false, Res.final, Option.some.injEq] at hfin
            subst hfin
            refine push _ _ h1 ⟨rfl, rfl, rfl⟩ ?_
            simp only [token.begins, hd]
            exact hch.symm

theorem scanner.scan_loop_placed {σ : Type} (P : Platform) (n : Nat) :
    ∀ sc : scanner σ, sc.placed →
      ∀ s, (scanner.scan_loop P n sc).final = some s →
        s.input_ = sc.input_ ∧ s.cur_token_ = sc.cur_token_ ∧
        ∃ new, s.tokens_ = sc.tokens_ ++ new ∧
          (∀ t ∈ new, token.placed P sc.input_ t ∧ (t = blank_line_token ∨ sc.pos_ ≤ t.pos)) ∧
          tokens_in_order new := by
  induction n with
  | zero => intro sc _ s hfin; simp [scanner.scan_loop, Res.final] at hfin
  | succ n ih =>
    intro sc h s hfin
    rw [scanner.scan_loop] at hfin
    by_cases he : sc.eof = false
    · simp only [he, Bool.not_false, if_true] at hfin
      have first : ∀ new : List token,
          (∀ t ∈ new, token.placed P sc.input_ t ∧ (t = blank_line_token ∨ t.pos = sc.pos_)) →
          (∀ t ∈ new, token.placed P sc.input_ t ∧ (t = blank_line_token ∨ sc.pos_ ≤ t.pos)) ∧
          tokens_in_order new := by
        intro new p5
        refine ⟨fun t ht => ⟨(p5 t ht).1, (p5 t ht).2.imp id (fun e => Nat.le_of_eq e.symm)⟩, ?_⟩
        apply List.pairwise_of_forall_mem_list
        intro a ha b hb
        rcases (p5 a ha).2 with h1 | h1
        · exact Or.inl h1
        · rcases (p5 b hb).2 with h2 | h2
          · exact Or.inr (Or.inl h2)
          · exact Or.inr (Or.inr (by rw [h1, h2]))
      cases hstep : sc.scan_step P with
      | ok u sc1 =>
        obtain ⟨p1, p2, _, p3, pc, new, p4, p5⟩ := scanner.scan_step_placed P sc h he sc1
          (by rw [hstep]; rfl)
        rw [hstep] at hfin
        obtain ⟨q1, qc, new2, q2, q3, q4⟩ := ih sc1 p1 s hfin
        obtain ⟨f1, f2⟩ := first new p5
        refine ⟨q1.trans p2, qc.trans pc, new ++ new2, by rw [q2, p4, List.append_assoc],
          ?_, ?_⟩
        · intro t ht
          rcases List.mem_append.1 ht with ht | ht
          · exact f1 t ht
          · rw [← p2]
            exact ⟨(q3 t ht).1, (q3 t ht).2.imp id (fun e => Nat.le_trans p3 e)⟩
        · refine List.pairwise_append.2 ⟨f2, q4, ?_⟩
          intro a ha b hb
          rcases (p5 a ha).2 with h1 | h1
          · exact Or.inl h1
          · rcases (q3 b hb).2 with h2 | h2
            · exact Or.inr (Or.inl h2)
            · exact Or.inr (Or.inr (by rw [h1]; exact Nat.le_trans p3 h2))
      | throw e sc1 =>
        obtain ⟨_, p2, _, _, pc, new, p4, p5⟩ := scanner.scan_step_placed P sc h he sc1
          (by rw [hstep]; rfl)
        rw [hstep] at hfin
        simp only [Res.bind, Res.final, Option.some.injEq] at hfin
        subst hfin
        obtain ⟨f1, f2⟩ := first new p5
        exact ⟨p2, pc, new, p4, f1, f2⟩
      | diverge =>
        rw [hstep] at hfin
        simp [Res.bind, Res.final] at hfin
    · have he1 : sc.eof = true := by simpa using he
      simp only [he1, Bool.not_true, Bool.false_eq_true, if_false, Res.final,
        Option.some.injEq] at hfin
      subst hfin
      exact ⟨rfl, rfl, [], by simp, by simp, List.Pairwise.nil⟩

/-- The scanner `scan` leaves, on a return as on a throw, has its cursor at the first
token. -/
theorem scan_cursor {σ : Type} (P : Platform) (input : Str) (params : scanner_params σ)
    (s : scanner σ) (h : (scanner.scan P scanner.init input params).final = some s) :
    s.cur_token_ = 0 := by
  have hp : ({ (scanner.init : scanner σ) with
      input_ := input, pos_ := 0, line_ := 1, col_ := 1, cur_token_ := 0,
      eof_ := input.isEmpty, params_ := params } : scanner σ).placed := by
    refine ⟨?_, Nat.zero_le _, ?_, ?_⟩
    · cases input <;> simp [scanner.synced]
    · simp [line_of]
    · simp [col_of]
  exact (scanner.scan_loop_placed P _ _ hp s h).2.1

/-- C35: every token `scan` has pushed, when it returns or raises, is the marker of a
blank line or holds an offset `pos` within the text at which the token begins (the text
from that offset on starts with the double quote of a string, the first character of a
number, the identifier itself, the character of a character token, the `//` of a comment
or the first character of the white space), together with the line and the column of
that offset: the line is one more than the number of newline characters before the
offset, the column one more than the number of characters between the last newline
before it (or the start of the text) and it. The tokens stand in the order of the
text. -/
theorem tokens_record_their_place {σ : Type} (P : Platform) (input : Str)
    (params : scanner_params σ) (s : scanner σ)
    (h : (scanner.scan P scanner.init input params).final = some s) :
    (∀ t ∈ s.tokens_, t = blank_line_token ∨
      (t.pos < input.length ∧
        t.line = 1 + (input.take t.pos).count 10 ∧
        t.col = 1 + ((input.take t.pos).reverse.takeWhile fun c => c != 10).length ∧
        token.begins P input t)) ∧
    tokens_in_order s.tokens_ := by
  have hp : ({ (scanner.init : scanner σ) with
      input_ := input, pos_ := 0, line_ := 1, col_ := 1, cur_token_ := 0,
      eof_ := input.isEmpty, params_ := params } : scanner σ).placed := by
    refine ⟨?_, Nat.zero_le _, ?_, ?_⟩
    · cases input <;> simp [scanner.synced]
    · simp [line_of]
    · simp [col_of]
  obtain ⟨_, _, new, h2, h3, h4⟩ := scanner.scan_loop_placed P _ _ hp s h
  have h5 : s.tokens_ = new := by
    rw [h2]
    simp only [scanner.init, List.nil_append]
  rw [h5]
  exact ⟨fun t ht => (h3 t ht).1, h4⟩

/-- Witness of C35: of the text `a = true`, newline, two blanks, `b`, the tokens `scan`
returns begin at the offsets 0, 1, 2, 3, 4, 8 and 11 and stand at the lines and columns
1:1, 1:2, 1:3, 1:4, 1:5, 1:9 and 2:3. -/
theorem tokens_record_their_place_witness :
    ∃ sc : scanner Unit,
      scanner.scan sample_platform scanner.init (lit "a = true\n  b") default_scanner_params
        = .ok () sc ∧
      sc.tokens_.map (fun t => (t.pos, t.line, t.col))
        = [(0, 1, 1), (1, 1, 2), (2, 1, 3), (3, 1, 4), (4, 1, 5), (8, 1, 9), (11, 2, 3)] ∧
      (∀ t ∈ sc.tokens_, t = blank_line_token ∨
        (t.pos < (lit "a = true\n  b").length ∧
          t.line = 1 + ((lit "a = true\n  b").take t.pos).count 10 ∧
          t.col = 1 + (((lit "a = true\n  b").take t.pos).reverse.takeWhile
            fun c => c != 10).length ∧
          token.begins sample_platform (lit "a = true\n  b") t)) ∧
      tokens_in_order sc.tokens_ :=
  ⟨_, rfl, rfl, tokens_record_their_place sample_platform (lit "a = true\n  b")
    default_scanner_params _ rfl⟩

/-! ## The fuel of the reader -/

theorem St.advanced_len {σ : Type} {st st1 : St σ} {k : Nat} (h : St.advanced st st1 k) :
    st1.1.tokens_.length = st.1.tokens_.length := by
  rw [h.1]

theorem Res.ends_ok {σ α : Type} (st : St σ) (hle : st.1.cur_token_ ≤ st.1.tokens_.length)
    (a : α) : Res.ends st 0 (.ok a st) := by
  refine ⟨by simp, ?_⟩
  intro b st1 h
  simp only [Res.ok.injEq] at h
  rw [← h.2]
  exact ⟨rfl, Nat.le_refl _, hle⟩

theorem Res.ends_throw {σ α : Type} (st : St σ) (k : Nat) (e : exn) (s : St σ) :
    Res.ends st k (.throw e s : Res (St σ) α) :=
  ⟨by simp, by intro a st1 h; cases h⟩

theorem scanner.fail_ends {σ α : Type} (st : St σ) (k : Nat) (s : St σ) (line col : Nat) :
    Res.ends st k (scanner.fail s line col : Res (St σ) α) :=
  Res.ends_throw st k _ s

theorem Res.ends_mono {σ α : Type} {st : St σ} {k j : Nat} {r : Res (St σ) α}
    (h : Res.ends st k r) (hj : j ≤ k) : Res.ends st j r :=
  ⟨h.1, fun a st1 hr => ⟨(h.2 a st1 hr).1, by have := (h.2 a st1 hr).2.1; omega,
    (h.2 a st1 hr).2.2⟩⟩

theorem Res.ends_bind {σ α β : Type} {st : St σ} {k : Nat} (j : Nat) {m : Nat}
    {r : Res (St σ) α} {f : α → St σ → Res (St σ) β} (h1 : Res.ends st k r)
    (h2 : ∀ a st1, r = .ok a st1 → Res.ends st1 j (f a st1)) (hm : m ≤ k + j) :
    Res.ends st m (r.bind f) := by
  cases hr : r with
  | ok a st1 =>
    obtain ⟨a1, a2⟩ := h2 a st1 hr
    have b := h1.2 a st1 hr
    simp only [Res.bind]
    refine ⟨a1, ?_⟩
    intro c st2 hc
    have d := a2 c st2 hc
    exact ⟨d.1.trans b.1, by have := b.2.1; have := d.2.1; omega, d.2.2⟩
  | throw e s => exact Res.ends_throw st m e s
  | diverge => exact absurd hr h1.1

/-- Behind the white space, moving over a token that is there moves the cursor by one
token at least. -/
theorem scanner.advance_ends {σ α : Type} (st : St σ)
    (h : (scanner.skip_whitespace false st).1.cur_token.type ≠ .eof_token ∧
      (scanner.skip_whitespace false st).1.cur_token.type ≠ .none_token) (a : α) :
    Res.ends st 1 (.ok a ((scanner.skip_whitespace false st).1.next_token,
      (scanner.skip_whitespace false st).2) : Res (St σ) α) := by
  obtain ⟨h1, _, _⟩ := scanner.skip_whitespace_spec st
  have hlt := scanner.cur_token_lt _ h
  have hnext := scanner.next_token_of_lt _ hlt
  have htok : (scanner.skip_whitespace false st).1.tokens_ = st.1.tokens_ := by rw [h1.1]
  refine ⟨by simp, ?_⟩
  intro b st1 hb
  simp only [Res.ok.injEq] at hb
  rw [← hb.2, hnext]
  refine ⟨htok, ?_, ?_⟩
  · have := h1.2.1
    show st.1.cur_token_ + 1 ≤ (scanner.skip_whitespace false st).1.cur_token_ + 1
    omega
  · show (scanner.skip_whitespace false st).1.cur_token_ + 1
      ≤ (scanner.skip_whitespace false st).1.tokens_.length
    omega

theorem scanner.expect_ends {σ : Type} (c : Char) (optional : Bool) (st : St σ)
    (hle : st.1.cur_token_ ≤ st.1.tokens_.length) :
    Res.ends st (if optional then 0 else 1) (scanner.expect c optional st) := by
  simp only [scanner.expect]
  by_cases h : st.1.peek_token.is_char c = true
  · rw [if_pos h]
    obtain ⟨_, _, h3⟩ := scanner.skip_whitespace_spec st
    have hcur := h3 hle
    refine Res.ends_mono (scanner.advance_ends st ?_ ()) (by cases optional <;> simp)
    rw [hcur]
    simp only [token.is_char, Bool.and_eq_true, decide_eq_true_eq] at h
    simp [h.1]
  · rw [if_neg h]
    cases optional
    · exact Res.ends_throw st _ _ _
    · exact Res.ends_ok st hle ()

theorem scanner.expect_identifier_ends {σ : Type} (st : St σ) :
    Res.ends st 1 (scanner.expect_identifier st) := by
  simp only [scanner.expect_identifier]
  split
  · exact Res.ends_throw st _ _ _
  · rename_i h
    apply scanner.advance_ends st
    simp only [bne_iff_ne, ne_eq, Decidable.not_not] at h
    simp [h]

theorem scanner.expect_string_ends {σ : Type} (st : St σ) :
    Res.ends st 1 (scanner.expect_string st) := by
  simp only [scanner.expect_string]
  split
  · exact Res.ends_throw st _ _ _
  · rename_i h
    apply scanner.advance_ends st
    simp only [bne_iff_ne, ne_eq, Decidable.not_not] at h
    simp [h]

theorem scanner.expect_number_ends {σ : Type} (st : St σ) :
    Res.ends st 1 (scanner.expect_number st) := by
  simp only [scanner.expect_number]
  split
  · exact Res.ends_throw st _ _ _
  · rename_i h
    apply scanner.advance_ends st
    simp only [bne_iff_ne, ne_eq, Decidable.not_not] at h
    simp [h]

/-- A call of `set` ends: it returns or raises. -/
theorem set_ends {α : Type} (T : value_type_info α) (g : group) (p : path) (v : α) :
    g.set T p v ≠ .diverge := by
  cases p with
  | nil => simp [group.set, group.find_value]
  | cons k ks =>
    obtain ⟨r, par, rest, hf, _⟩ := find_value_result (k :: ks) g (by simp)
    cases r with
    | some val =>
      obtain ⟨h, _, _, hs⟩ := set_of_found T g _ v val par rest hf
      rw [hs]
      simp
    | none =>
      obtain ⟨h, _, hs⟩ := set_of_none T g _ v par rest hf
      obtain ⟨h2, k2, ks2, _, hrest, _⟩ := find_value_none (k :: ks) g par rest hf
      rw [hs, hrest]
      by_cases hv : ∀ a ∈ k2 :: ks2, valid_key a = true
      · rw [create_value_valid ks2 _ k2 h hv]
        simp [Res.on_state]
      · have hv1 : ∃ a ∈ k2 :: ks2, valid_key a = false := by
          by_contra hc
          apply hv
          intro a ha
          cases hva : valid_key a with
          | true => rfl
          | false => exact absurd ⟨a, ha, hva⟩ hc
        obtain ⟨g1, hg1⟩ := create_value_invalid ks2 (T.create_value v) k2 h hv1
        rw [hg1]
        simp [Res.on_state]

/-- With three times the number of tokens from the cursor on and a few more as fuel, the
functions of the reader end: they return or raise a parse error, and what returns has
moved the cursor forward, `read_value`, `read_vector` and `read_group` with braces over
one token at least. -/
theorem read_ends {σ : Type} (fuel : Nat) :
    (∀ st : St σ, st.1.cur_token_ ≤ st.1.tokens_.length →
      3 * (st.1.tokens_.length - st.1.cur_token_) + 3 ≤ fuel →
      Res.ends st 1 (read_value fuel st)) ∧
    (∀ (braces : Bool) (st : St σ), st.1.cur_token_ ≤ st.1.tokens_.length →
      3 * (st.1.tokens_.length - st.1.cur_token_) + 2 ≤ fuel →
      Res.ends st (if braces then 1 else 0) (read_group fuel braces st)) ∧
    (∀ (braces : Bool) (grp : group) (st : St σ), st.1.cur_token_ ≤ st.1.tokens_.length →
      3 * (st.1.tokens_.length - st.1.cur_token_) + 1 ≤ fuel →
      Res.ends st 0 (read_group_loop fuel braces grp st)) ∧
    (∀ st : St σ, st.1.cur_token_ ≤ st.1.tokens_.length →
      3 * (st.1.tokens_.length - st.1.cur_token_) + 2 ≤ fuel →
      Res.ends st 1 (read_vector fuel st)) ∧
    (∀ (vec : List value) (st : St σ), st.1.cur_token_ ≤ st.1.tokens_.length →
      3 * (st.1.tokens_.length - st.1.cur_token_) + 4 ≤ fuel →
      Res.ends st 0 (read_vector_loop fuel vec st)) := by
  induction fuel with
  | zero =>
    refine ⟨?_, ?_, ?_, ?_, ?_⟩ <;> intros <;> omega
  | succ fuel ih =>
    obtain ⟨ihv, ihg, ihgl, ihvec, ihvl⟩ := ih
    refine ⟨?_, ?_, ?_, ?_, ?_⟩
    · intro st hle hf
      rw [read_value]
      split
      · exact Res.ends_bind 0 (ihg true st hle (by omega))
          (fun g st1 h1 => Res.ends_ok st1 ((ihg true st hle (by omega)).2 g st1 h1).2.2 _)
          (by simp)
      · split
        · exact Res.ends_bind 0 (ihvec st hle (by omega))
            (fun v st1 h1 => Res.ends_ok st1 ((ihvec st hle (by omega)).2 v st1 h1).2.2 _)
            (by simp)
        · split
          · refine Res.ends_bind 0 (scanner.expect_identifier_ends st) ?_ (Nat.le_add_right _ _)
            intro ident st1 h1
            have hle1 := ((scanner.expect_identifier_ends st).2 ident st1 h1).2.2
            split
            · exact Res.ends_ok st1 hle1 _
            · split
              · exact Res.ends_ok st1 hle1 _
              · exact Res.ends_throw _ _ _ _
          · exact Res.ends_bind 0 (scanner.expect_string_ends st)
              (fun a st1 h1 => Res.ends_ok st1
                ((scanner.expect_string_ends st).2 a st1 h1).2.2 _) (Nat.le_add_right _ _)
          · exact Res.ends_bind 0 (scanner.expect_number_ends st)
              (fun a st1 h1 => Res.ends_ok st1
                ((scanner.expect_number_ends st).2 a st1 h1).2.2 _) (Nat.le_add_right _ _)
          · exact Res.ends_throw _ _ _ _
          · exact Res.ends_throw _ _ _ _
    · intro braces st hle hf
      rw [read_group]
      cases braces with
      | false =>
        simp only [Bool.false_eq_true, if_false, Res.bind]
        exact ihgl false group.empty st hle (by omega)
      | true =>
        simp only [if_true]
        have he := scanner.expect_ends '{' false st hle
        simp only [Bool.false_eq_true, if_false] at he
        refine Res.ends_bind 0 he ?_ (Nat.le_refl (1 + 0))
        intro u st1 h1
        have a := he.2 u st1 h1
        have t := congrArg List.length a.1
        have c := a.2.1
        have b := a.2.2
        exact ihgl true group.empty st1 b (by omega)
    · intro braces grp st hle hf
      rw [read_group_loop]
      split
      · have e1 := scanner.expect_identifier_ends st
        refine Res.ends_bind 2 e1 ?_ (Nat.zero_le (1 + 2))
        intro key st1 h1
        have a1 := e1.2 key st1 h1
        have t1 := congrArg List.length a1.1
        have c1 := a1.2.1
        have b1 := a1.2.2
        have e2 := scanner.expect_ends '=' false st1 a1.2.2
        simp only [Bool.false_eq_true, if_false] at e2
        refine Res.ends_bind 1 e2 ?_ (Nat.le_refl (1 + 1))
        intro u st2 h2
        have a2 := e2.2 u st2 h2
        have t2 := congrArg List.length a2.1
        have c2 := a2.2.1
        have b2 := a2.2.2
        have e3 := ihv st2 a2.2.2 (by omega)
        refine Res.ends_bind 0 e3 ?_ (Nat.le_refl (1 + 0))
        intro val st3 h3
        have a3 := e3.2 val st3 h3
        have t3 := congrArg List.length a3.1
        have c3 := a3.2.1
        have b3 := a3.2.2
        cases hs : grp.set value_info (path.parse key) val with
        | throw e g1 => exact Res.ends_throw _ _ _ _
        | diverge => exact absurd hs (set_ends _ _ _ _)
        | ok u1 grp1 =>
          simp only
          have e4 := scanner.expect_ends ',' true st3 a3.2.2
          simp only [if_true] at e4
          refine Res.ends_bind 0 e4 ?_ (Nat.le_refl (0 + 0))
          intro u2 st4 h4
          have a4 := e4.2 u2 st4 h4
          have t4 := congrArg List.length a4.1
          have c4 := a4.2.1
          have b4 := a4.2.2
          split
          · have e5 := scanner.expect_ends '}' false st4 a4.2.2
            refine Res.ends_bind 0 e5 ?_ (Nat.zero_le _)
            intro u3 st5 h5
            exact Res.ends_ok st5 (e5.2 u3 st5 h5).2.2 _
          · exact ihgl braces grp1 st4 a4.2.2 (by omega)
      · exact Res.ends_ok st hle _
    · intro st hle hf
      rw [read_vector]
      have e1 := scanner.expect_ends '[' false st hle
      simp only [Bool.false_eq_true, if_false] at e1
      refine Res.ends_bind 0 e1 ?_ (Nat.le_refl (1 + 0))
      intro u st1 h1
      have a1 := e1.2 u st1 h1
      have t1 := congrArg List.length a1.1
      have c1 := a1.2.1
      have b1 := a1.2.2
      have e2 := ihvl [] st1 a1.2.2 (by omega)
      refine Res.ends_bind 0 e2 ?_ (Nat.le_refl (0 + 0))
      intro vec st2 h2
      have a2 := e2.2 vec st2 h2
      have t2 := congrArg List.length a2.1
      have c2 := a2.2.1
      have b2 := a2.2.2
      have e3 := scanner.expect_ends ']' false st2 a2.2.2
      refine Res.ends_bind 0 e3 ?_ (Nat.zero_le _)
      intro u3 st3 h3
      exact Res.ends_ok st3 (e3.2 u3 st3 h3).2.2 _
    · intro vec st hle hf
      rw [read_vector_loop]
      split
      · have e1 := ihv st hle (by omega)
        refine Res.ends_bind 0 e1 ?_ (Nat.zero_le (1 + 0))
        intro val st1 h1
        have a1 := e1.2 val st1 h1
        have t1 := congrArg List.length a1.1
        have c1 := a1.2.1
        have b1 := a1.2.2
        have e2 := scanner.expect_ends ',' true st1 a1.2.2
        simp only [if_true] at e2
        refine Res.ends_bind 0 e2 ?_ (Nat.le_refl (0 + 0))
        intro u st2 h2
        have a2 := e2.2 u st2 h2
        have t2 := congrArg List.length a2.1
        have c2 := a2.2.1
        have b2 := a2.2.2
        exact ihvl _ st2 a2.2.2 (by omega)
      · exact Res.ends_ok st hle _

/-- The fuel `read` gives the reader does not run out: when `scan` has returned,
`read` returns a group or raises, whatever the text. -/
theorem read_fuel_suffices (P : Platform) (src : Str)
    (h : scanner.scan P (scanner.init : scanner Unit) src default_scanner_params ≠ .diverge) :
    read P src ≠ .diverge := by
  simp only [read]
  cases hs : scanner.scan P (scanner.init : scanner Unit) src default_scanner_params with
  | diverge => exact absurd hs h
  | throw e sc => simp
  | ok u sc =>
    have hsc : sc.cur_token_ = 0 := scan_cursor P src default_scanner_params sc
      (by rw [hs]; rfl)
    have he := (read_ends (read_fuel sc)).2.1 false (sc, ())
      (by simp [hsc]) (by simp only [read_fuel, hsc]; omega)
    simp only
    cases hr : read_group (read_fuel sc) false (sc, ()) with
    | diverge => exact absurd hr he.1
    | throw e st => simp
    | ok g st => simp

/-- The functions of the JSON reader end as those of `config_format` do. -/
theorem json_read_ends {σ : Type} (fuel : Nat) :
    (∀ st : St σ, st.1.cur_token_ ≤ st.1.tokens_.length →
      3 * (st.1.tokens_.length - st.1.cur_token_) + 3 ≤ fuel →
      Res.ends st 1 (json_format.read_value fuel st)) ∧
    (∀ (braces : Bool) (st : St σ), st.1.cur_token_ ≤ st.1.tokens_.length →
      3 * (st.1.tokens_.length - st.1.cur_token_) + 2 ≤ fuel →
      Res.ends st 1 (json_format.read_group fuel braces st)) ∧
    (∀ (grp : group) (st : St σ), st.1.cur_token_ ≤ st.1.tokens_.length →
      3 * (st.1.tokens_.length - st.1.cur_token_) + 1 ≤ fuel →
      Res.ends st 0 (json_format.read_group_loop fuel grp st)) ∧
    (∀ st : St σ, st.1.cur_token_ ≤ st.1.tokens_.length →
      3 * (st.1.tokens_.length - st.1.cur_token_) + 2 ≤ fuel →
      Res.ends st 1 (json_format.read_vector fuel st)) ∧
    (∀ (vec : List value) (st : St σ), st.1.cur_token_ ≤ st.1.tokens_.length →
      3 * (st.1.tokens_.length - st.1.cur_token_) + 4 ≤ fuel →
      Res.ends st 0 (json_format.read_vector_loop fuel vec st)) := by
  induction fuel with
  | zero =>
    refine ⟨?_, ?_, ?_, ?_, ?_⟩ <;> intros <;> omega
  | succ fuel ih =>
    obtain ⟨ihv, ihg, ihgl, ihvec, ihvl⟩ := ih
    refine ⟨?_, ?_, ?_, ?_, ?_⟩
    · intro st hle hf
      rw [json_format.read_value]
      split
      · exact Res.ends_bind 0 (ihg true st hle (by omega))
          (fun g st1 h1 => Res.ends_ok st1 ((ihg true st hle (by omega)).2 g st1 h1).2.2 _)
          (by simp)
      · split
        · exact Res.ends_bind 0 (ihvec st hle (by omega))
            (fun v st1 h1 => Res.ends_ok st1 ((ihvec st hle (by omega)).2 v st1 h1).2.2 _)
            (by simp)
        · split
          · refine Res.ends_bind 0 (scanner.expect_identifier_ends st) ?_
              (Nat.le_add_right _ _)
            intro ident st1 h1
            have hle1 := ((scanner.expect_identifier_ends st).2 ident st1 h1).2.2
            split
            · exact Res.ends_ok st1 hle1 _
            · split
              · exact Res.ends_ok st1 hle1 _
              · split
                · exact Res.ends_throw _ _ _ _
                · exact Res.ends_throw _ _ _ _
          · exact Res.ends_bind 0 (scanner.expect_string_ends st)
              (fun a st1 h1 => Res.ends_ok st1
                ((scanner.expect_string_ends st).2 a st1 h1).2.2 _) (Nat.le_add_right _ _)
          · exact Res.ends_bind 0 (scanner.expect_number_ends st)
              (fun a st1 h1 => Res.ends_ok st1
                ((scanner.expect_number_ends st).2 a st1 h1).2.2 _) (Nat.le_add_right _ _)
          · exact Res.ends_throw _ _ _ _
          · exact Res.ends_throw _ _ _ _
    · intro braces st hle hf
      rw [json_format.read_group]
      have e1 := scanner.expect_ends '{' false st hle
      simp only [Bool.false_eq_true, if_false] at e1
      refine Res.ends_bind 0 e1 ?_ (Nat.le_refl (1 + 0))
      intro u st1 h1
      have a1 := e1.2 u st1 h1
      have t1 := congrArg List.length a1.1
      have c1 := a1.2.1
      have b1 := a1.2.2
      have e2 := ihgl group.empty st1 b1 (by omega)
      refine Res.ends_bind 0 e2 ?_ (Nat.le_refl (0 + 0))
      intro grp st2 h2
      have a2 := e2.2 grp st2 h2
      have e3 := scanner.expect_ends '}' false st2 a2.2.2
      refine Res.ends_bind 0 e3 ?_ (Nat.zero_le _)
      intro u3 st3 h3
      exact Res.ends_ok st3 (e3.2 u3 st3 h3).2.2 _
    · intro grp st hle hf
      rw [json_format.read_group_loop]
      split
      · have e1 := scanner.expect_string_ends st
        refine Res.ends_bind 2 e1 ?_ (Nat.zero_le (1 + 2))
        intro key st1 h1
        have a1 := e1.2 key st1 h1
        have t1 := congrArg List.length a1.1
        have c1 := a1.2.1
        have b1 := a1.2.2
        have e2 := scanner.expect_ends ':' false st1 b1
        simp only [Bool.false_eq_true, if_false] at e2
        refine Res.ends_bind 1 e2 ?_ (Nat.le_refl (1 + 1))
        intro u st2 h2
        have a2 := e2.2 u st2 h2
        have t2 := congrArg List.length a2.1
        have c2 := a2.2.1
        have b2 := a2.2.2
        have e3 := ihv st2 b2 (by omega)
        refine Res.ends_bind 0 e3 ?_ (Nat.le_refl (1 + 0))
        intro val st3 h3
        have a3 := e3.2 val st3 h3
        have t3 := congrArg List.length a3.1
        have c3 := a3.2.1
        have b3 := a3.2.2
        cases hs : grp.set value_info (path.parse key) val with
        | throw e g1 => exact Res.ends_throw _ _ _ _
        | diverge => exact absurd hs (set_ends _ _ _ _)
        | ok u1 grp1 =>
          simp only
          split
          · have e4 := scanner.expect_ends ',' false st3 b3
            simp only [Bool.false_eq_true, if_false] at e4
            refine Res.ends_bind 0 e4 ?_ (Nat.zero_le _)
            intro u2 st4 h4
            have a4 := e4.2 u2 st4 h4
            have t4 := congrArg List.length a4.1
            have c4 := a4.2.1
            have b4 := a4.2.2
            exact ihgl grp1 st4 b4 (by omega)
          · exact Res.ends_ok st3 b3 _
      · exact Res.ends_ok st hle _
    · intro st hle hf
      rw [json_format.read_vector]
      have e1 := scanner.expect_ends '[' false st hle
      simp only [Bool.false_eq_true, if_false] at e1
      refine Res.ends_bind 0 e1 ?_ (Nat.le_refl (1 + 0))
      intro u st1 h1
      have a1 := e1.2 u st1 h1
      have t1 := congrArg List.length a1.1
      have c1 := a1.2.1
      have b1 := a1.2.2
      have e2 := ihvl [] st1 b1 (by omega)
      refine Res.ends_bind 0 e2 ?_ (Nat.le_refl (0 + 0))
      intro vec st2 h2
      have a2 := e2.2 vec st2 h2
      have e3 := scanner.expect_ends ']' false st2 a2.2.2
      refine Res.ends_bind 0 e3 ?_ (Nat.zero_le _)
      intro u3 st3 h3
      exact Res.ends_ok st3 (e3.2 u3 st3 h3).2.2 _
    · intro vec st hle hf
      rw [json_format.read_vector_loop]
      split
      · have e1 := ihv st hle (by omega)
        refine Res.ends_bind 0 e1 ?_ (Nat.zero_le (1 + 0))
        intro val st1 h1
        have a1 := e1.2 val st1 h1
        have t1 := congrArg List.length a1.1
        have c1 := a1.2.1
        have b1 := a1.2.2
        split
        · have e2 := scanner.expect_ends ',' false st1 b1
          simp only [Bool.false_eq_true, if_false] at e2
          refine Res.ends_bind 0 e2 ?_ (Nat.zero_le _)
          intro u st2 h2
          have a2 := e2.2 u st2 h2
          have t2 := congrArg List.length a2.1
          have c2 := a2.2.1
          have b2 := a2.2.2
          exact ihvl _ st2 b2 (by omega)
        · exact Res.ends_ok st1 b1 _
      · exact Res.ends_ok st hle _

/-- The fuel `json_format::read` gives the reader does not run out either. -/
theorem json_read_fuel_suffices (P : Platform) (src : Str)
    (h : scanner.scan P (scanner.init : scanner Unit) src default_scanner_params ≠ .diverge) :
    json_format.read P src ≠ .diverge := by
  simp only [json_format.read]
  cases hs : scanner.scan P (scanner.init : scanner Unit) src default_scanner_params with
  | diverge => exact absurd hs h
  | throw e sc => simp
  | ok u sc =>
    have hsc : sc.cur_token_ = 0 := scan_cursor P src default_scanner_params sc
      (by rw [hs]; rfl)
    have he := (json_read_ends (read_fuel sc)).2.1 false (sc, ())
      (by simp [hsc]) (by simp only [read_fuel, hsc]; omega)
    simp only
    cases hr : json_format.read_group (read_fuel sc) false (sc, ()) with
    | diverge => exact absurd hr he.1
    | throw e st => simp
    | ok g st => simp

/-- The text `a=[[[[[[`, whose brackets are never closed: `read` raises a parse error at
the end of the input, which is reported as line 0, column 0. -/
theorem read_raises_on_unclosed_brackets :
    (read sample_platform (lit "a=[[[[[[")).exception = some (.parse_error 0 0) ∧
    (json_format.read sample_platform (lit "\x7b\"a\":[[[[[[")).exception
      = some (.parse_error 0 0) := by
  constructor <;> decide!

/-! ## The JSON reader and comments -/

theorem peek_from_visible (ts : List token) :
    (peek_from ts).content = ((ts.filter fun t =>
      t.type != .whitespace_token && t.type != .comment_token).map token.content).headD
        (token.of_type .eof_token) := by
  induction ts with
  | nil => rfl
  | cons t ts ih =>
    by_cases hb : (t.type != .whitespace_token && t.type != .comment_token) = true
    · simp [peek_from, hb]
    · simp only [peek_from, hb, if_false, List.filter_cons]
      exact ih

theorem scanner.peek_token_visible {σ : Type} (sc : scanner σ) :
    sc.peek_token.content = sc.visible.headD (token.of_type .eof_token) :=
  peek_from_visible _

theorem visible_after_blanks (ts : List token) (h : leading_blanks ts < ts.length) :
    ((ts.drop (leading_blanks ts + 1)).filter
        (fun t => t.type != .whitespace_token && t.type != .comment_token)).map token.content =
      ((ts.filter fun t => t.type != .whitespace_token && t.type != .comment_token).map
        token.content).tail := by
  induction ts with
  | nil => simp at h
  | cons t ts ih =>
    by_cases hc : t.type = .whitespace_token ∨ t.type = .comment_token
    · have hb : ¬ (t.type != .whitespace_token && t.type != .comment_token) = true := by
        rcases hc with hc | hc <;> simp [hc]
      simp only [leading_blanks, hc, if_true, List.drop_succ_cons, List.filter_cons, hb,
        if_false]
      apply ih
      simp only [leading_blanks, hc, if_true, List.length_cons] at h
      omega
    · have hb : (t.type != .whitespace_token && t.type != .comment_token) = true := by
        simp only [not_or] at hc
        simp [hc.1, hc.2]
      simp [leading_blanks, hc, hb]

/-- A call that consumes the token `peek_token` shows leaves the tokens behind it to be
seen. -/
theorem scanner.consumed_visible {σ : Type} (st : St σ)
    (hle : st.1.cur_token_ ≤ st.1.tokens_.length)
    (h : st.1.peek_token.type ≠ .eof_token ∧ st.1.peek_token.type ≠ .none_token) :
    (scanner.skip_whitespace false st).1.cur_token = st.1.peek_token ∧
    ((scanner.skip_whitespace false st).1.next_token).visible = st.1.visible.tail ∧
    ((scanner.skip_whitespace false st).1.next_token).cur_token_ ≤
      ((scanner.skip_whitespace false st).1.next_token).tokens_.length := by
  obtain ⟨_, _, h3⟩ := scanner.skip_whitespace_spec st
  have hcur := h3 hle
  obtain ⟨e1, e2, _⟩ := scanner.consumed st hle (by rw [hcur]; exact h)
  have e3 := congrArg Prod.fst e1
  simp only at e3
  refine ⟨hcur, ?_, ?_⟩
  · rw [e3]
    simp only [scanner.visible]
    have hd : st.1.tokens_.drop (st.1.cur_token_ +
        leading_blanks (st.1.tokens_.drop st.1.cur_token_) + 1) =
        (st.1.tokens_.drop st.1.cur_token_).drop
          (leading_blanks (st.1.tokens_.drop st.1.cur_token_) + 1) := by
      rw [List.drop_drop]
      congr 1
    rw [hd]
    apply visible_after_blanks
    simp only [List.length_drop]
    omega
  · rw [e3]
    show _ + _ + 1 ≤ st.1.tokens_.length
    omega

theorem St.alike_peek {σ : Type} {st st1 : St σ} (h : St.alike st st1) :
    (∀ c, st1.1.peek_token.is_char c = st.1.peek_token.is_char c) ∧
    st1.1.peek_token.type = st.1.peek_token.type ∧
    st1.1.peek_token.string_value = st.1.peek_token.string_value ∧
    st1.1.peek_token.number_value = st.1.peek_token.number_value := by
  have hc : st1.1.peek_token.content = st.1.peek_token.content := by
    rw [scanner.peek_token_visible, scanner.peek_token_visible, h.1]
  have h1 : ∀ c, st1.1.peek_token.content.is_char c = st.1.peek_token.content.is_char c :=
    fun c => by rw [hc]
  have h2 : st1.1.peek_token.content.type = st.1.peek_token.content.type := by rw [hc]
  have h3 : st1.1.peek_token.content.string_value = st.1.peek_token.content.string_value := by
    rw [hc]
  have h4 : st1.1.peek_token.content.number_value = st.1.peek_token.content.number_value := by
    rw [hc]
  exact ⟨h1, h2, h3, h4⟩

theorem Res.alike_bind {σ α β : Type} {r r1 : Res (St σ) α}
    {k k1 : α → St σ → Res (St σ) β} (h : Res.alike r r1)
    (hk : ∀ a st st1, St.alike st st1 → Res.alike (k a st) (k1 a st1)) :
    Res.alike (r.bind k) (r1.bind k1) := by
  cases r <;> cases r1 <;> simp only [Res.alike] at h <;> try exact h.elim
  · obtain ⟨rfl, h2⟩ := h
    exact hk _ _ _ h2
  · trivial
  · trivial

theorem scanner.expect_alike {σ : Type} (c : Char) (optional : Bool) {st st1 : St σ}
    (h : St.alike st st1) :
    Res.alike (scanner.expect c optional st) (scanner.expect c optional st1) := by
  obtain ⟨hp, hpt, _, _⟩ := St.alike_peek h
  simp only [scanner.expect, hp]
  by_cases hc : st.1.peek_token.is_char c = true
  · have hty : st.1.peek_token.type ≠ .eof_token ∧ st.1.peek_token.type ≠ .none_token := by
      simp only [token.is_char, Bool.and_eq_true, decide_eq_true_eq] at hc
      simp [hc.1]
    obtain ⟨_, a2, a3⟩ := scanner.consumed_visible st h.2.1 hty
    obtain ⟨_, b2, b3⟩ := scanner.consumed_visible st1 h.2.2 (by rw [hpt]; exact hty)
    simp only [hc, if_true]
    exact ⟨rfl, by rw [a2, b2, h.1], a3, b3⟩
  · simp only [hc, Bool.false_eq_true, if_false]
    cases optional
    · simp [scanner.fail, Res.alike]
    · simp only [Bool.not_true, Bool.false_eq_true, if_false]
      exact ⟨rfl, h⟩

theorem scanner.expect_string_alike {σ : Type} {st st1 : St σ} (h : St.alike st st1) :
    Res.alike (scanner.expect_string st) (scanner.expect_string st1) := by
  obtain ⟨hp, hpt, hps, hpn⟩ := St.alike_peek h
  obtain ⟨_, _, a3⟩ := scanner.skip_whitespace_spec st
  obtain ⟨_, _, b3⟩ := scanner.skip_whitespace_spec st1
  have ha := a3 h.2.1
  have hb := b3 h.2.2
  simp only [scanner.expect_string, ha, hb, hpt, hps, hpn]
  by_cases hc : st.1.peek_token.type = .string_token
  · have hty : st.1.peek_token.type ≠ .eof_token ∧ st.1.peek_token.type ≠ .none_token := by
      simp [hc]
    obtain ⟨_, a2, a4⟩ := scanner.consumed_visible st h.2.1 hty
    obtain ⟨_, b2, b4⟩ := scanner.consumed_visible st1 h.2.2 (by rw [hpt]; exact hty)
    simp only [hc, bne_self_eq_false, Bool.false_eq_true, if_false]
    exact ⟨rfl, by rw [a2, b2, h.1], a4, b4⟩
  · have hne : (st.1.peek_token.type != .string_token) = true := by simpa using hc
    simp [hne, scanner.fail, Res.alike]

theorem scanner.expect_identifier_alike {σ : Type} {st st1 : St σ} (h : St.alike st st1) :
    Res.alike (scanner.expect_identifier st) (scanner.expect_identifier st1) := by
  obtain ⟨hp, hpt, hps, hpn⟩ := St.alike_peek h
  obtain ⟨_, _, a3⟩ := scanner.skip_whitespace_spec st
  obtain ⟨_, _, b3⟩ := scanner.skip_whitespace_spec st1
  have ha := a3 h.2.1
  have hb := b3 h.2.2
  simp only [scanner.expect_identifier, ha, hb, hpt, hps, hpn]
  by_cases hc : st.1.peek_token.type = .identifier_token
  · have hty : st.1.peek_token.type ≠ .eof_token ∧ st.1.peek_token.type ≠ .none_token := by
      simp [hc]
    obtain ⟨_, a2, a4⟩ := scanner.consumed_visible st h.2.1 hty
    obtain ⟨_, b2, b4⟩ := scanner.consumed_visible st1 h.2.2 (by rw [hpt]; exact hty)
    simp only [hc, bne_self_eq_false, Bool.false_eq_true, if_false]
    exact ⟨rfl, by rw [a2, b2, h.1], a4, b4⟩
  · have hne : (st.1.peek_token.type != .identifier_token) = true := by simpa using hc
    simp [hne, scanner.fail, Res.alike]

theorem scanner.expect_number_alike {σ : Type} {st st1 : St σ} (h : St.alike st st1) :
    Res.alike (scanner.expect_number st) (scanner.expect_number st1) := by
  obtain ⟨hp, hpt, hps, hpn⟩ := St.alike_peek h
  obtain ⟨_, _, a3⟩ := scanner.skip_whitespace_spec st
  obtain ⟨_, _, b3⟩ := scanner.skip_whitespace_spec st1
  have ha := a3 h.2.1
  have hb := b3 h.2.2
  simp only [scanner.expect_number, ha, hb, hpt, hps, hpn]
  by_cases hc : st.1.peek_token.type = .number_token
  · have hty : st.1.peek_token.type ≠ .eof_token ∧ st.1.peek_token.type ≠ .none_token := by
      simp [hc]
    obtain ⟨_, a2, a4⟩ := scanner.consumed_visible st h.2.1 hty
    obtain ⟨_, b2, b4⟩ := scanner.consumed_visible st1 h.2.2 (by rw [hpt]; exact hty)
    simp only [hc, bne_self_eq_false, Bool.false_eq_true, if_false]
    exact ⟨rfl, by rw [a2, b2, h.1], a4, b4⟩
  · have hne : (st.1.peek_token.type != .number_token) = true := by simpa using hc
    simp [hne, scanner.fail, Res.alike]

/-- The five functions of the JSON reader end alike on states that are alike. -/
theorem json_read_alike {σ : Type} (fuel : Nat) :
    (∀ st st1 : St σ, St.alike st st1 →
      Res.alike (json_format.read_value fuel st) (json_format.read_value fuel st1)) ∧
    (∀ (b : Bool) (st st1 : St σ), St.alike st st1 →
      Res.alike (json_format.read_group fuel b st) (json_format.read_group fuel b st1)) ∧
    (∀ (grp : group) (st st1 : St σ), St.alike st st1 →
      Res.alike (json_format.read_group_loop fuel grp st)
        (json_format.read_group_loop fuel grp st1)) ∧
    (∀ st st1 : St σ, St.alike st st1 →
      Res.alike (json_format.read_vector fuel st) (json_format.read_vector fuel st1)) ∧
    (∀ (vec : List value) (st st1 : St σ), St.alike st st1 →
      Res.alike (json_format.read_vector_loop fuel vec st)
        (json_format.read_vector_loop fuel vec st1)) := by
  induction fuel with
  | zero =>
    refine ⟨?_, ?_, ?_, ?_, ?_⟩ <;> intros <;>
      simp [json_format.read_value, json_format.read_group, json_format.read_group_loop,
        json_format.read_vector, json_format.read_vector_loop, Res.alike]
  | succ fuel ih =>
    obtain ⟨ihv, ihg, ihgl, ihvec, ihvl⟩ := ih
    refine ⟨?_, ?_, ?_, ?_, ?_⟩
    · intro st st1 h
      obtain ⟨hp, hpt, _, _⟩ := St.alike_peek h
      rw [json_format.read_value, json_format.read_value]
      simp only [hp, hpt]
      by_cases c1 : st.1.peek_token.is_char '{' = true
      · simp only [c1, if_true]
        exact Res.alike_bind (ihg true st st1 h) fun g s s1 hs => ⟨rfl, hs⟩
      · simp only [c1, Bool.false_eq_true, if_false]
        by_cases c2 : st.1.peek_token.is_char '[' = true
        · simp only [c2, if_true]
          exact Res.alike_bind (ihvec st st1 h) fun g s s1 hs => ⟨rfl, hs⟩
        · simp only [c2, Bool.false_eq_true, if_false]
          cases hty : st.1.peek_token.type with
          | identifier_token =>
            simp only
            apply Res.alike_bind (scanner.expect_identifier_alike h)
            intro ident s s1 hs
            split
            · exact ⟨rfl, hs⟩
            · split
              · exact ⟨rfl, hs⟩
              · split <;> simp [scanner.fail, Res.alike]
          | string_token =>
            simp only
            exact Res.alike_bind (scanner.expect_string_alike h) fun g s s1 hs => ⟨rfl, hs⟩
          | number_token =>
            simp only
            exact Res.alike_bind (scanner.expect_number_alike h) fun g s s1 hs => ⟨rfl, hs⟩
          | _ => simp [scanner.fail, Res.alike]
    · intro b st st1 h
      rw [json_format.read_group, json_format.read_group]
      apply Res.alike_bind (scanner.expect_alike '{' false h)
      intro _ s s1 hs
      apply Res.alike_bind (ihgl group.empty s s1 hs)
      intro grp t t1 ht
      exact Res.alike_bind (scanner.expect_alike '}' false ht) fun _ u u1 hu => ⟨rfl, hu⟩
    · intro grp st st1 h
      obtain ⟨hp, _, _, _⟩ := St.alike_peek h
      rw [json_format.read_group_loop, json_format.read_group_loop]
      simp only [hp]
      by_cases c1 : (!st.1.peek_token.is_char '}') = true
      · simp only [c1, if_true]
        apply Res.alike_bind (scanner.expect_string_alike h)
        intro key s s1 hs
        apply Res.alike_bind (scanner.expect_alike ':' false hs)
        intro _ t t1 ht
        apply Res.alike_bind (ihv t t1 ht)
        intro val u u1 hu
        obtain ⟨hq, _, _, _⟩ := St.alike_peek hu
        cases hset : grp.set value_info (path.parse key) val with
        | ok _ grp1 =>
          simp only [hq]
          split
          · exact Res.alike_bind (scanner.expect_alike ',' false hu)
              fun _ w w1 hw => ihgl grp1 w w1 hw
          · exact ⟨rfl, hu⟩
        | throw e g1 => trivial
        | diverge => trivial
      · simp only [c1, Bool.false_eq_true, if_false]
        exact ⟨rfl, h⟩
    · intro st st1 h
      rw [json_format.read_vector, json_format.read_vector]
      apply Res.alike_bind (scanner.expect_alike '[' false h)
      intro _ s s1 hs
      apply Res.alike_bind (ihvl [] s s1 hs)
      intro vec t t1 ht
      exact Res.alike_bind (scanner.expect_alike ']' false ht) fun _ u u1 hu => ⟨rfl, hu⟩
    · intro vec st st1 h
      obtain ⟨hp, _, _, _⟩ := St.alike_peek h
      rw [json_format.read_vector_loop, json_format.read_vector_loop]
      simp only [hp]
      by_cases c1 : (!st.1.peek_token.is_char ']') = true
      · simp only [c1, if_true]
        apply Res.alike_bind (ihv st st1 h)
        intro val u u1 hu
        obtain ⟨hq, _, _, _⟩ := St.alike_peek hu
        simp only [hq]
        split
        · exact Res.alike_bind (scanner.expect_alike ',' false hu)
            fun _ w w1 hw => ihvl _ w w1 hw
        · exact ⟨rfl, hu⟩
      · simp only [c1, Bool.false_eq_true, if_false]
        exact ⟨rfl, h⟩

/-- Counterexample of C32: `json_format::read` returns the group `a = true` for the
object `\x7b"a": true // c`, newline, `\x7d`, which holds a comment at the end of its
first line. -/
theorem json_read_accepts_comment :
    (json_format.read sample_platform json_text_with_comment).check
      (fun g => g.eq group_a_true) = true ∧
    (json_format.read sample_platform json_text_with_comment).exception = none := by
  constructor <;> decide!

/-- C32 as amended: `json_format::read` scans with the default parameters, which hold
the flag that allows comments, and its functions read the tokens through `peek_token`
and the `expect` methods, which pass over comment tokens as over white space: on two
states that show the same tokens, white space, comments and places apart, `read_group`
ends alike (it returns the same group, or raises on both, or ends on neither). -/
theorem json_reads_past_comments {σ : Type} (fuel : Nat) (braces : Bool) (st st1 : St σ)
    (h : St.alike st st1) :
    Res.alike (json_format.read_group fuel braces st)
      (json_format.read_group fuel braces st1) ∧
    (default_scanner_params : scanner_params σ).flags &&& allow_comments_flag ≠ 0 :=
  ⟨(json_read_alike fuel).2.1 braces st st1 h, by
    show (allow_comments_flag ||| blank_line_comment_flag) &&& allow_comments_flag ≠ 0
    decide⟩


/-- Witness of C32 as amended: the tokens of `\x7b"a": true // c`, newline, `\x7d` and
those of `\x7b"a": true\x7d` are alike, and so is what `read_group` makes of them, the
group `a = true`. -/
theorem json_reads_past_comments_witness :
    St.alike (scanned sample_platform json_text_with_comment, ())
      (scanned sample_platform (lit "\x7b\"a\": true\x7d"), ()) ∧
    Res.alike
      (json_format.read_group 12 false (scanned sample_platform json_text_with_comment, ()))
      (json_format.read_group 12 false
        (scanned sample_platform (lit "\x7b\"a\": true\x7d"), ())) ∧
    (json_format.read_group 12 false
      (scanned sample_platform json_text_with_comment, ())).check
        (fun g => g.eq group_a_true) = true :=
  ⟨⟨by decide!, by decide!, by decide!⟩,
    (json_reads_past_comments 12 false _ _ ⟨by decide!, by decide!, by decide!⟩).1,
    by decide!⟩

/-! ## The layout of a fresh text -/

theorem table_find_estimate (P : Platform) (m : List (Str × value)) (k : Str) :
    table_find (value.estimate_map P m) k = (map_find m k).map (value.estimate P) := by
  induction m with
  | nil => rfl
  | cons e m ih =>
    obtain ⟨k1, v1⟩ := e
    simp only [value.estimate_map, table_find, map_find]
    split
    · rfl
    · exact ih

theorem table_find_layout (P : Platform) (m : List (Str × value)) (k : Str) :
    table_find (value.layout_map P m) k = (map_find m k).map (value.layout P) := by
  induction m with
  | nil => rfl
  | cons e m ih =>
    obtain ⟨k1, v1⟩ := e
    simp only [value.layout_map, table_find, map_find]
    split
    · rfl
    · exact ih

theorem write_separator_eq (wr : writer) (last wrap : Bool) :
    write_separator wr last wrap = layout_separator wr last wrap := by
  cases last <;> cases wrap <;> rfl

theorem value.size_pos (v : value) : 1 ≤ v.size := by
  cases v <;> simp [value.size]

theorem size_list_mem (vec : List value) (v : value) (h : v ∈ vec) :
    v.size + vec.length ≤ value.size_list vec + 1 := by
  induction vec with
  | nil => simp at h
  | cons a vec ih =>
    simp only [value.size_list, List.length_cons]
    rcases List.mem_cons.1 h with rfl | h1
    · have : vec.length ≤ value.size_list vec := by
        clear ih h
        induction vec with
        | nil => simp
        | cons b vec ih2 =>
          have := value.size_pos b
          simp only [value.size_list, List.length_cons]
          omega
      omega
    · have := ih h1
      have := value.size_pos a
      omega

theorem size_map_find (m : List (Str × value)) (k : Str) (v : value)
    (h : map_find m k = some v) : v.size + m.length ≤ value.size_map m := by
  have hlen : ∀ m : List (Str × value), m.length ≤ value.size_map m := by
    intro m
    induction m with
    | nil => simp
    | cons e m ih =>
      obtain ⟨k1, v1⟩ := e
      simp only [value.size_map, List.length_cons]
      omega
  induction m with
  | nil => simp [map_find] at h
  | cons e m ih =>
    obtain ⟨k1, v1⟩ := e
    simp only [map_find] at h
    simp only [value.size_map, List.length_cons]
    split at h
    · cases h
      have := hlen m
      omega
    · have := ih h
      omega

theorem mem_groups_list (vec : List value) (v : value) (a : group) (hv : v ∈ vec)
    (h : a ∈ v.groups) : a ∈ value.groups_list vec := by
  induction vec with
  | nil => simp at hv
  | cons b vec ih =>
    simp only [value.groups_list, List.mem_append]
    rcases List.mem_cons.1 hv with rfl | h1
    · exact Or.inl h
    · exact Or.inr (ih h1)

theorem get_of_listed (m : List (Str × value)) (o : List Str) (k : Str) (v : value)
    (hp : path.parse k = [k]) (hm : map_find m k = some v) :
    (group.mk m o).get value_info (path.parse k) = .ok v := by
  rw [hp, get_eq_lookup, lookup_single]
  simp [hm, value.get, value_info]

/-- With enough fuel the three functions that estimate a length return the estimates of
the specification. -/
theorem lengths_eq {σ : Type} (P : Platform) (fuel : Nat) :
    (∀ (val : value) (st : σ), (∀ a ∈ val.groups, a.listed) → 3 * val.size ≤ fuel →
      value_length P fuel val st = .ok (val.estimate P) st) ∧
    (∀ (m : List (Str × value)) (o keys : List Str) (sum : Nat) (st : σ),
      (∀ k ∈ keys, path.parse k = [k] ∧ ∃ v, map_find m k = some v ∧
        (∀ a ∈ v.groups, a.listed) ∧ 3 * v.size + keys.length + 1 ≤ fuel) → 1 ≤ fuel →
      group_length P fuel (.mk m o) keys sum st =
        .ok (sum + estimate_entries (value.estimate_map P m) keys) st) ∧
    (∀ (vec : List value) (sum : Nat) (st : σ),
      (∀ v ∈ vec, (∀ a ∈ v.groups, a.listed) ∧ 3 * v.size + vec.length + 1 ≤ fuel) → 1 ≤ fuel →
      vector_length P fuel vec sum st = .ok (sum + value.estimate_list P vec) st) := by
  induction fuel with
  | zero =>
    refine ⟨?_, ?_, ?_⟩
    · intro val st _ h
      have := value.size_pos val
      omega
    · intro m o keys sum st _ h; omega
    · intro vec sum st _ h; omega
  | succ fuel ih =>
    obtain ⟨ihv, ihg, ihvec⟩ := ih
    refine ⟨?_, ?_, ?_⟩
    · intro val st hg hs
      cases val with
      | invalid => simp [value_length, value.estimate]
      | number x => simp [value_length, value.estimate]
      | string s => simp [value_length, value.estimate]
      | bool b => simp [value_length, value.estimate]
      | vector vec =>
        simp only [value_length, value.estimate]
        simp only [value.size] at hs
        apply ihvec
        · intro v hv
          refine ⟨fun a ha => hg a (mem_groups_list vec v a hv ha), ?_⟩
          have := size_list_mem vec v hv
          have := List.length_pos_of_mem hv
          omega
        · omega
      | group g =>
        obtain ⟨m, o⟩ := g
        simp only [value_length, value.estimate, group.estimate, group.order_mk]
        simp only [value.size, group.size] at hs
        have hl : (group.mk m o).listed := hg _ (by simp [value.groups, group.groups])
        apply ihg
        · intro k hk
          obtain ⟨hp, hf⟩ := hl.2 k hk
          obtain ⟨v, hv⟩ := Option.isSome_iff_exists.1 hf
          refine ⟨hp, v, hv, ?_, ?_⟩
          · intro a ha
            apply hg
            simp only [value.groups, group.groups, List.mem_cons]
            exact Or.inr (mem_groups_map_find m k v a hv ha)
          · have h1 := size_map_find m k v hv
            have h2 : o.length = m.length := hl.1
            omega
        · omega
    · intro m o keys sum st hk h1
      cases keys with
      | nil => simp [group_length, estimate_entries]
      | cons k keys =>
        obtain ⟨hp, v, hv, hgv, hsz⟩ := hk k (List.mem_cons_self _ _)
        simp only [List.length_cons] at hsz
        rw [group_length, get_of_listed m o k v hp hv]
        simp only
        rw [ihv v st hgv (by omega)]
        simp only [Res.bind]
        rw [ihg m o keys _ st _ (by omega)]
        · simp only [estimate_entries, table_find_estimate, hv, Option.map_some',
            Option.getD_some]
          congr 1
          omega
        · intro k1 hk1
          obtain ⟨hp1, v1, hv1, hgv1, hsz1⟩ := hk k1 (List.mem_cons_of_mem _ hk1)
          simp only [List.length_cons] at hsz1
          exact ⟨hp1, v1, hv1, hgv1, by omega⟩
    · intro vec sum st hv h1
      cases vec with
      | nil => simp [vector_length, value.estimate_list]
      | cons v vec =>
        obtain ⟨hgv, hsz⟩ := hv v (List.mem_cons_self _ _)
        simp only [List.length_cons] at hsz
        rw [vector_length, ihv v st hgv (by omega)]
        simp only [Res.bind]
        rw [ihvec vec _ st _ (by omega)]
        · simp only [value.estimate_list]
          congr 1
          omega
        · intro v1 hv1
          obtain ⟨hgv1, hsz1⟩ := hv v1 (List.mem_cons_of_mem _ hv1)
          simp only [List.length_cons] at hsz1
          exact ⟨hgv1, by omega⟩

theorem make_scanner_zero (P : Platform) (hP : (P.strtod (lit "0")).2 = 1) :
    (make_scanner P (lit "0") : Res (scanner writer) Unit) =
      .ok () (dummy_zero (P.strtod (lit "0")).1 0) := by
  simp only [make_scanner, scanner.scan, dummy_zero]
  have h1 : (lit "0").length + 1 = 2 := rfl
  rw [h1, scanner.scan_loop]
  have hs : (lit "0") = [48] := rfl
  have hP1 : (P.strtod [48]).2 = 1 := hP
  simp [scanner.scan_step, scanner.ch, scanner.eof, scanner.scan_number, hs, hP1,
    scanner.init, is_number_start, scanner.next_ch_times, scanner.next_ch, scanner.scan_loop,
    Res.bind]

theorem make_scanner_braces (P : Platform) :
    (make_scanner P (lit "\x7b\x7d") : Res (scanner writer) Unit) = .ok () (dummy_braces 0) :=
  rfl

theorem make_scanner_brackets (P : Platform) :
    (make_scanner P (lit "[]") : Res (scanner writer) Unit) = .ok () (dummy_brackets 0) :=
  rfl

theorem read_value_zero (x fuel : Nat) (wr : writer) :
    read_value (fuel + 1) (dummy_zero x 0, wr) = .ok (.number x) (dummy_zero x 1, wr) :=
  rfl

theorem expect_open_brace (wr : writer) :
    scanner.expect '{' false (dummy_braces 0, wr) = .ok () (dummy_braces 1, wr) :=
  rfl

theorem expect_close_brace (wr : writer) :
    scanner.expect '}' false (dummy_braces 1, wr) = .ok () (dummy_braces 2, wr) :=
  rfl

theorem expect_open_bracket (wr : writer) :
    scanner.expect '[' false (dummy_brackets 0, wr) = .ok () (dummy_brackets 1, wr) :=
  rfl

theorem expect_close_bracket (wr : writer) :
    scanner.expect ']' false (dummy_brackets 1, wr) = .ok () (dummy_brackets 2, wr) :=
  rfl

theorem write_group_loop_closed (P : Platform) (fuel : Nat) (wrap : Bool) (gr : group)
    (keys : List Str) (wr : writer) :
    write_group_loop P (fuel + 1) true wrap gr keys (dummy_braces 1, wr) =
      .ok keys (dummy_braces 1, wr) :=
  rfl

theorem write_vector_loop_closed (P : Platform) (fuel : Nat) (wrap : Bool)
    (vec : List value) (wr : writer) :
    write_vector_loop P (fuel + 1) wrap vec (dummy_brackets 1, wr) =
      .ok vec (dummy_brackets 1, wr) :=
  rfl

theorem with_dummy_scanner_ok {α : Type} (P : Platform) (input : Str) (st : St writer)
    (k : St writer → Res (St writer) α) (dummy sc1 : scanner writer) (a : α) (wr : writer)
    (h1 : make_scanner P input = .ok () dummy) (h2 : k (dummy, st.2) = .ok a (sc1, wr)) :
    with_dummy_scanner P input st k = .ok a (st.1, wr) := by
  simp only [with_dummy_scanner, h1, h2]

/-- With enough fuel, and on the scanners `write` makes for what is not in the old text,
the functions of the writer write the layout of the specification. -/
theorem write_layout (P : Platform) (hP : (P.strtod (lit "0")).2 = 1) (fuel : Nat) :
    (∀ (val : value) (x : Nat) (wr : writer), (∀ a ∈ val.groups, a.listed) →
      4 * val.size ≤ fuel →
      ∃ sc1, write_value P fuel val (dummy_zero x 0, wr) = .ok () (sc1, val.layout P wr)) ∧
    (∀ (m : List (Str × value)) (o : List Str) (wr : writer),
      (∀ a ∈ (group.mk m o).groups, a.listed) → 4 * (group.mk m o).size ≤ fuel →
      ∃ sc1, write_group P fuel true (.mk m o) (dummy_braces 0, wr) =
        .ok () (sc1, (group.mk m o).layout P true wr)) ∧
    (∀ (m : List (Str × value)) (o keys : List Str) (wrap : Bool) (sc : scanner writer)
      (wr : writer),
      (∀ k ∈ keys, path.parse k = [k] ∧ ∃ v, map_find m k = some v ∧
        (∀ a ∈ v.groups, a.listed) ∧ 4 * v.size + keys.length + 1 ≤ fuel) → 1 ≤ fuel →
      write_group_rest P fuel wrap (.mk m o) keys (sc, wr) =
        .ok () (sc, layout_entries (value.layout_map P m) wrap keys wr)) ∧
    (∀ (vec : List value) (wr : writer), (∀ a ∈ value.groups_list vec, a.listed) →
      4 * value.size_list vec + 3 ≤ fuel →
      ∃ sc1, write_vector P fuel vec (dummy_brackets 0, wr) =
        .ok () (sc1, (value.vector vec).layout P wr)) ∧
    (∀ (vec : List value) (wrap : Bool) (sc : scanner writer) (wr : writer),
      (∀ v ∈ vec, (∀ a ∈ v.groups, a.listed) ∧ 4 * v.size + vec.length + 1 ≤ fuel) →
      1 ≤ fuel →
      write_vector_rest P fuel wrap vec (sc, wr) =
        .ok () (sc, value.layout_list P wrap vec wr)) := by
  induction fuel with
  | zero =>
    refine ⟨?_, ?_, ?_, ?_, ?_⟩
    · intro val x wr _ h
      have := value.size_pos val
      omega
    · intro m o wr _ h
      simp only [group.size] at h
      omega
    · intro m o keys wrap sc wr _ h; omega
    · intro vec wr _ h; omega
    · intro vec wrap sc wr _ h; omega
  | succ fuel ih =>
    obtain ⟨ihv, ihg, ihr, ihvec, ihvr⟩ := ih
    refine ⟨?_, ?_, ?_, ?_, ?_⟩
    · -- write_value
      intro val x wr hg hs
      obtain ⟨f1, rfl⟩ : ∃ f1, fuel = f1 + 1 := by
        have := value.size_pos val
        exact ⟨fuel - 1, by omega⟩
      cases val with
      | invalid => exact ⟨_, rfl⟩
      | number y =>
        refine ⟨dummy_zero x 1, ?_⟩
        simp only [write_value, read_value_zero, Res.bind, value.layout]
      | string s =>
        refine ⟨dummy_zero x 1, ?_⟩
        simp only [write_value, read_value_zero, Res.bind, value.layout]
      | bool b =>
        refine ⟨dummy_zero x 1, ?_⟩
        simp only [write_value, read_value_zero, Res.bind, value.layout]
      | group g =>
        obtain ⟨m, o⟩ := g
        simp only [value.size] at hs
        obtain ⟨sc1, h1⟩ := ihg m o wr (fun a ha => hg a (by simpa [value.groups] using ha))
          (by omega)
        refine ⟨dummy_zero x 1, ?_⟩
        have hpk : (dummy_zero x 0).peek_token.is_char '{' = false := rfl
        simp only [write_value, hpk, Bool.false_eq_true, if_false, read_value_zero, Res.bind,
          value.layout]
        exact with_dummy_scanner_ok P _ _ _ _ sc1 () _ (make_scanner_braces P) h1
      | vector vec =>
        simp only [value.size] at hs
        obtain ⟨sc1, h1⟩ := ihvec vec wr (fun a ha => hg a (by simpa [value.groups] using ha))
          (by omega)
        refine ⟨dummy_zero x 1, ?_⟩
        have hpk : (dummy_zero x 0).peek_token.is_char '[' = false := rfl
        simp only [write_value, hpk, Bool.false_eq_true, if_false, read_value_zero, Res.bind]
        exact with_dummy_scanner_ok P _ _ _ _ sc1 () _ (make_scanner_brackets P) h1
    · -- write_group
      intro m o wr hg hs
      simp only [group.size] at hs
      obtain ⟨f1, rfl⟩ : ∃ f1, fuel = f1 + 1 := ⟨fuel - 1, by omega⟩
      have hl : (group.mk m o).listed := hg _ (mem_groups_self _)
      have hkeys : ∀ k ∈ o, path.parse k = [k] ∧ ∃ v, map_find m k = some v ∧
          (∀ a ∈ v.groups, a.listed) ∧ 4 * v.size + o.length + 1 ≤ f1 + 1 := by
        intro k hk
        obtain ⟨hp, hf⟩ := hl.2 k hk
        obtain ⟨v, hv⟩ := Option.isSome_iff_exists.1 hf
        refine ⟨hp, v, hv, ?_, ?_⟩
        · intro a ha
          apply hg
          rw [groups_eq]
          exact List.mem_cons_of_mem _ (mem_groups_map_find m k v a hv ha)
        · have h1 := size_map_find m k v hv
          have h2 : o.length = m.length := hl.1
          omega
      have hlen := (lengths_eq (σ := St writer) P (f1 + 1)).2.1 m o o 3 (dummy_braces 0, wr)
        (fun k hk => by
          obtain ⟨hp, v, hv, hgv, hsz⟩ := hkeys k hk
          exact ⟨hp, v, hv, hgv, by omega⟩) (by omega)
      have hrest := ihr m o o
      refine ⟨dummy_braces 2, ?_⟩
      rw [write_group]
      simp only [Bool.not_true, Bool.false_eq_true, if_false, group.order_mk, hlen, Res.bind,
        if_true, expect_open_brace, write_group_loop_closed, hrest _ _ _ hkeys (by omega),
        expect_close_brace, group.layout, Bool.false_or]
    · -- write_group_rest
      intro m o keys wrap sc wr hk h1
      cases keys with
      | nil => rfl
      | cons k keys =>
        obtain ⟨hp, v, hv, hgv, hsz⟩ := hk k (List.mem_cons_self _ _)
        simp only [List.length_cons] at hsz
        obtain ⟨sc1, hw⟩ := ihv v (P.strtod (lit "0")).1 ((wr.append k).append (lit " = ")) hgv
          (by omega)
        have hd := with_dummy_scanner_ok P (lit "0") (sc, (wr.append k).append (lit " = "))
          (fun st => write_value P fuel v st) _ sc1 () _ (make_scanner_zero P hP) hw
        rw [write_group_rest, get_of_listed m o k v hp hv]
        simp only [hd, Res.bind, write_separator_eq]
        rw [ihr m o keys wrap sc _ _ (by omega)]
        · simp only [layout_entries, table_find_layout, hv, Option.map_some']
        · intro k1 hk1
          obtain ⟨hp1, v1, hv1, hgv1, hsz1⟩ := hk k1 (List.mem_cons_of_mem _ hk1)
          simp only [List.length_cons] at hsz1
          exact ⟨hp1, v1, hv1, hgv1, by omega⟩
    · -- write_vector
      intro vec wr hg hs
      obtain ⟨f1, rfl⟩ : ∃ f1, fuel = f1 + 1 := ⟨fuel - 1, by omega⟩
      have hvals : ∀ v ∈ vec, (∀ a ∈ v.groups, a.listed) ∧
          4 * v.size + vec.length + 1 ≤ f1 + 1 := by
        intro v hv
        refine ⟨fun a ha => hg a (mem_groups_list vec v a hv ha), ?_⟩
        have := size_list_mem vec v hv
        have := List.length_pos_of_mem hv
        omega
      have hlen := (lengths_eq (σ := St writer) P (f1 + 1)).2.2 vec 3 (dummy_brackets 0, wr)
        (fun v hv => by
          obtain ⟨hgv, hsz⟩ := hvals v hv
          exact ⟨hgv, by omega⟩) (by omega)
      refine ⟨dummy_brackets 2, ?_⟩
      rw [write_vector]
      simp only [hlen, Res.bind, expect_open_bracket, write_vector_loop_closed,
        ihvr vec _ _ _ hvals (by omega), expect_close_bracket, value.layout]
    · -- write_vector_rest
      intro vec wrap sc wr hv h1
      cases vec with
      | nil => rfl
      | cons v vec =>
        obtain ⟨hgv, hsz⟩ := hv v (List.mem_cons_self _ _)
        simp only [List.length_cons] at hsz
        obtain ⟨sc1, hw⟩ := ihv v (P.strtod (lit "0")).1 wr hgv (by omega)
        have hd := with_dummy_scanner_ok P (lit "0") (sc, wr)
          (fun st => write_value P fuel v st) _ sc1 () _ (make_scanner_zero P hP) hw
        rw [write_vector_rest]
        simp only [hd, Res.bind, write_separator_eq]
        rw [ihvr vec wrap sc _ _ (by omega)]
        · simp only [value.layout_list]
        · intro v1 hv1
          obtain ⟨hgv1, hsz1⟩ := hv v1 (List.mem_cons_of_mem _ hv1)
          simp only [List.length_cons] at hsz1
          exact ⟨hgv1, by omega⟩

theorem parse_of_valid_key (k : Str) (h : valid_key k = true) : path.parse k = [k] := by
  have h1 : k ≠ [] := by
    rintro rfl
    simp [valid_key] at h
  have h2 : (46 : Nat) ∉ k := by
    intro hm
    simp only [valid_key, Bool.and_eq_true, List.all_eq_true] at h
    have := h.2 46 hm
    simp at this
  have := parse_intercalate 46 [k] (by simpa using ⟨h1, h2⟩)
  simpa [List.intercalate, path.parse] using this

theorem listed_of_reachable (G : group) (hG : reachable G) : ∀ a ∈ G.groups, a.listed := by
  intro a ha
  have ho : a.order_ok := all_groups_reachable order_ok_kept G hG a ha
  have hk : ∀ k ∈ a.keys, valid_key k = true :=
    all_groups_reachable keys_valid_kept G hG a ha
  refine ⟨?_, ?_⟩
  · have := ho.2.length_eq
    simpa [group.keys] using this
  · intro k hko
    have hkk : k ∈ a.keys := ho.2.mem_iff.1 hko
    refine ⟨?_, (mem_keys_iff a.values_ k).1 hkk⟩
    exact parse_of_valid_key k (hk k hkk)

theorem Res.bind_ok {σ α β : Type} {r : Res σ α} {k : α → σ → Res σ β} {b : β} {s2 : σ}
    (h : r.bind k = .ok b s2) : ∃ a s1, r = .ok a s1 ∧ k a s1 = .ok b s2 := by
  cases r with
  | ok a s1 => exact ⟨a, s1, rfl, h⟩
  | throw e s1 => simp [Res.bind] at h
  | diverge => simp [Res.bind] at h

theorem Res.replayed_ok {σ α : Type} {st st1 : St σ} {r : Res (St σ) α} {a : α}
    (h : Res.replayed st r) (hr : r = .ok a st1) : St.replayed st st1 := by
  subst hr
  exact h

theorem writer.newline_buf (wr : writer) :
    wr.newline.buf = wr.buf ++ 10 :: List.replicate (wr.tabstops.headD 0) 32 := by
  simp [writer.newline, writer.append]

theorem count_newline_blanks (n : Nat) : (10 :: List.replicate n 32).count 10 = 1 := by
  simp [List.count_replicate]

/-- The comment function of `write`, called on comments without a newline, appends a text
with one newline for each of them and leaves the width alone. -/
theorem write_comment_fold (cs : List Str) (h : ∀ c ∈ cs, 10 ∉ c) :
    ∀ wr : writer, ∃ t, (cs.foldl (fun w c => write_comment c w) wr).buf = wr.buf ++ t ∧
      t.count 10 = cs.length ∧
      (cs.foldl (fun w c => write_comment c w) wr).wrap_length = wr.wrap_length := by
  induction cs with
  | nil => intro wr; exact ⟨[], by simp, rfl, rfl⟩
  | cons c cs ih =>
    intro wr
    obtain ⟨t, h1, h2, h3⟩ := ih (fun c hc => h c (List.mem_cons_of_mem _ hc))
      (write_comment c wr)
    refine ⟨c ++ 10 :: List.replicate (wr.tabstops.headD 0) 32 ++ t, ?_, ?_, ?_⟩
    · simp only [List.foldl_cons, h1]
      simp [write_comment, writer.newline, writer.append]
    · have hc := h c (List.mem_cons_self _ _)
      rw [List.count_append, List.count_append, count_newline_blanks, h2,
        List.count_eq_zero_of_not_mem hc, List.length_cons]
      omega
    · simp only [List.foldl_cons, h3]
      rfl

theorem scanner.mem_comments_between {σ : Type} (sc : scanner σ) (i j : Nat) (c : Str)
    (h : c ∈ sc.comments_between i j) :
    ∃ t ∈ sc.tokens_, t.type = .comment_token ∧ t.string_value = c := by
  simp only [scanner.comments_between, List.mem_map, List.mem_filter,
    decide_eq_true_eq] at h
  obtain ⟨t, ⟨ht, hty⟩, rfl⟩ := h
  exact ⟨t, List.mem_of_mem_drop (List.mem_of_mem_take ht), hty, rfl⟩

theorem scanner.comments_between_quiet {σ : Type} (sc : scanner σ) (i j : Nat)
    (h : ∀ t ∈ sc.tokens_, t.type ≠ .comment_token) : sc.comments_between i j = [] := by
  apply List.eq_nil_iff_forall_not_mem.2
  intro c hc
  obtain ⟨t, h1, h2, _⟩ := scanner.mem_comments_between sc i j c hc
  exact h t h1 h2

theorem St.wrote_writer (q : Bool) (lo : Nat) (st : St writer) (wr : writer) (t : Str)
    (hw : wr.wrap_length = st.2.wrap_length) (hb : wr.buf = st.2.buf ++ t)
    (hlo : lo ≤ t.count 10) (hq : q = true → t.count 10 = 0) : St.wrote q lo st (st.1, wr) := by
  refine ⟨rfl, le_refl _, hw, t, hb, ?_, ?_⟩
  · simp only [scanner.comments_between_self, List.length_nil]
    omega
  · intro h
    simp only [scanner.comments_between_self, List.length_nil]
    exact hq h

theorem St.wrote_refl (st : St writer) : St.wrote true 0 st st := by
  have := St.wrote_writer true 0 st st.2 [] rfl (by simp) (by simp) (by simp)
  exact this

theorem St.wrote_mono {q q1 : Bool} {lo lo1 : Nat} {st st1 : St writer}
    (h : St.wrote q lo st st1) (hq : q1 = true → q = true) (hl : lo1 ≤ lo) :
    St.wrote q1 lo1 st st1 := by
  obtain ⟨e, c, w, t, b, n, x⟩ := h
  exact ⟨e, c, w, t, b, by omega, fun h1 => x (hq h1)⟩

theorem St.wrote_trans {q1 q2 : Bool} {l1 l2 : Nat} {a b c : St writer}
    (h1 : St.wrote q1 l1 a b) (h2 : St.wrote q2 l2 b c) :
    St.wrote (q1 && q2) (l1 + l2) a c := by
  obtain ⟨e1, c1, w1, t1, b1, n1, x1⟩ := h1
  obtain ⟨e2, c2, w2, t2, b2, n2, x2⟩ := h2
  have ht : b.1.tokens_ = a.1.tokens_ := by rw [e1]
  have hc : b.1.comments_between b.1.cur_token_ c.1.cur_token_ =
      a.1.comments_between b.1.cur_token_ c.1.cur_token_ := by
    simp only [scanner.comments_between, ht]
  rw [hc] at n2 x2
  have hl := congrArg List.length (scanner.comments_between_append a.1 c1 c2)
  rw [List.length_append] at hl
  refine ⟨?_, le_trans c1 c2, w2.trans w1, t1 ++ t2, ?_, ?_, ?_⟩
  · rw [e2, e1]
  · rw [b2, b1, List.append_assoc]
  · rw [List.count_append]
    omega
  · intro h
    simp only [Bool.and_eq_true] at h
    rw [List.count_append, x1 h.1, x2 h.2]
    omega

/-- Two steps of the same kind make one of that kind. -/
theorem St.wrote_step {q : Bool} {a b c : St writer} (h1 : St.wrote q 0 a b)
    (h2 : St.wrote q 0 b c) : St.wrote q 0 a c :=
  St.wrote_mono (St.wrote_trans h1 h2) (by simp) (by simp)

theorem St.tame_of_wrote {q : Bool} {lo : Nat} {st st1 : St writer}
    (h : St.wrote q lo st st1) (ht : st.1.tame) : st1.1.tame := by
  have e := h.1
  intro t h1 h2
  rw [e] at h1 ⊢
  exact ht t h1 h2

theorem St.width_of_wrote {q : Bool} {lo : Nat} {st st1 : St writer}
    (h : St.wrote q lo st st1) : st1.2.wrap_length = st.2.wrap_length :=
  h.2.2.1

/-- A scanner that is `tame` delivers its comments as text with one newline each. -/
theorem St.wrote_of_replayed {st st1 : St writer} (ht : st.1.tame)
    (h : St.replayed st st1) : St.wrote true 0 st st1 := by
  obtain ⟨e, c, _, w⟩ := h
  have hc : ∀ x ∈ st.1.comments_between st.1.cur_token_ st1.1.cur_token_,
      st.1.params_.comment_function = some write_comment ∧ 10 ∉ x := by
    intro x hx
    obtain ⟨t, h1, h2, rfl⟩ := scanner.mem_comments_between _ _ _ _ hx
    exact ht t h1 h2
  unfold St.wrote
  refine ⟨e, c, ?_⟩
  generalize st.1.comments_between st.1.cur_token_ st1.1.cur_token_ = cs at w hc ⊢
  cases cs with
  | nil =>
    rw [scanner.replay_nil] at w
    rw [w]
    exact ⟨rfl, [], by simp, by simp, fun _ => by simp⟩
  | cons x cs =>
    have hf := (hc x (List.mem_cons_self _ _)).1
    simp only [scanner.replay, hf] at w
    obtain ⟨t, h1, h2, h3⟩ := write_comment_fold (x :: cs) (fun y hy => (hc y hy).2) st.2
    rw [w]
    exact ⟨h3, t, h1, by omega, fun _ => h2⟩

theorem St.wrote_of_call {α : Type} {st st1 : St writer} {r : Res (St writer) α} {a : α}
    (ht : st.1.tame) (h : Res.replayed st r) (hr : r = .ok a st1) : St.wrote true 0 st st1 :=
  St.wrote_of_replayed ht (Res.replayed_ok h hr)

theorem St.wrote_append (st : St writer) (s : Str) (h : 10 ∉ s) :
    St.wrote true 0 st (st.1, st.2.append s) :=
  St.wrote_writer true 0 st _ s rfl rfl (Nat.zero_le _)
    (fun _ => List.count_eq_zero_of_not_mem h)

theorem separator_wrote (st : St writer) (last wrap : Bool) :
    St.wrote (!wrap) 0 st (st.1, write_separator st.2 last wrap) := by
  cases last <;> cases wrap
  · exact St.wrote_append st (lit ", ") (by decide)
  · exact St.wrote_writer false 0 st _ _ rfl (writer.newline_buf st.2) (Nat.zero_le _)
      (by simp)
  · exact St.wrote_append st (lit " ") (by decide)
  · exact St.wrote_mono (St.wrote_refl st) (by simp) (Nat.le_refl _)

/-- The opening bracket of a node: a newline follows it when the node is wrapped. -/
theorem open_wrote (st : St writer) (s : Str) (h : 10 ∉ s) (b : Bool) :
    St.wrote (!b) (if b then 1 else 0) st
      (st.1, if b then ((st.2.append s).indent).newline else (st.2.append s).indent) := by
  cases b
  · exact St.wrote_writer true 0 st _ s rfl rfl (Nat.zero_le _)
      (fun _ => List.count_eq_zero_of_not_mem h)
  · refine St.wrote_writer false 1 st _
      (s ++ 10 :: List.replicate (((st.2.append s).indent).tabstops.headD 0) 32) rfl ?_ ?_
      (by simp)
    · rw [if_pos rfl, writer.newline_buf]
      simp [writer.indent, writer.append]
    · rw [List.count_append, count_newline_blanks]
      omega

/-- The closing bracket of a node: a newline precedes it when the node is wrapped. -/
theorem close_wrote (st : St writer) (b : Bool) :
    St.wrote (!b) 0 st (st.1, if b then (st.2.unindent).newline else st.2.unindent) := by
  cases b
  · exact St.wrote_writer true 0 st _ [] rfl (by simp [writer.unindent]) (Nat.zero_le _)
      (by simp)
  · exact St.wrote_writer false 0 st _ _ rfl
      (by rw [if_pos rfl, writer.newline_buf]; rfl) (Nat.zero_le _) (by simp)

/-- What the writer does on its own scanner shows on the scanner of the caller as text
appended, the cursor where it was. -/
theorem with_dummy_wrote {α : Type} (P : Platform) (input : Str) (st st1 : St writer)
    (k : St writer → Res (St writer) α) (q : Bool) (lo : Nat) (dummy : scanner writer) (a : α)
    (hm : make_scanner P input = .ok () dummy)
    (hd : ∀ t ∈ dummy.tokens_, t.type ≠ .comment_token)
    (hk : ∀ s1, k (dummy, st.2) = .ok a s1 → St.wrote q lo (dummy, st.2) s1)
    (h : with_dummy_scanner P input st k = .ok a st1) : St.wrote q lo st st1 := by
  simp only [with_dummy_scanner, hm] at h
  cases hr : k (dummy, st.2) with
  | ok a1 s1 =>
    rw [hr] at h
    simp only [Res.ok.injEq] at h
    obtain ⟨rfl, rfl⟩ := h
    obtain ⟨e, c, w, t, b, n, x⟩ := hk s1 hr
    have hq := scanner.comments_between_quiet dummy dummy.cur_token_ s1.1.cur_token_ hd
    simp only [hq, List.length_nil] at n x
    exact St.wrote_writer q lo st s1.2 t w b (by omega) x
  | throw e s1 => rw [hr] at h; simp at h
  | diverge => rw [hr] at h; simp at h

/-- The reader moves the cursor forward and delivers the comments it passes; nothing else
of the state changes. -/
theorem read_replayed {σ : Type} (fuel : Nat) :
    (∀ st : St σ, Res.replayed st (read_value fuel st)) ∧
    (∀ (braces : Bool) (st : St σ), Res.replayed st (read_group fuel braces st)) ∧
    (∀ (braces : Bool) (grp : group) (st : St σ),
      Res.replayed st (read_group_loop fuel braces grp st)) ∧
    (∀ st : St σ, Res.replayed st (read_vector fuel st)) ∧
    (∀ (vec : List value) (st : St σ), Res.replayed st (read_vector_loop fuel vec st)) := by
  induction fuel with
  | zero =>
    refine ⟨?_, ?_, ?_, ?_, ?_⟩ <;> intros <;> trivial
  | succ fuel ih =>
    obtain ⟨ihv, ihg, ihgl, ihvec, ihvl⟩ := ih
    refine ⟨?_, ?_, ?_, ?_, ?_⟩
    · intro st
      rw [read_value]
      split
      · exact Res.replayed_bind (ihg true st) fun g st1 _ => St.replayed_refl st1
      · split
        · exact Res.replayed_bind (ihvec st) fun g st1 _ => St.replayed_refl st1
        · split
          · refine Res.replayed_bind (scanner.expect_identifier_replayed st) ?_
            intro ident st1 _
            split
            · exact St.replayed_refl st1
            · split
              · exact St.replayed_refl st1
              · exact St.replayed_refl st1
          · exact Res.replayed_bind (scanner.expect_string_replayed st)
              fun g st1 _ => St.replayed_refl st1
          · exact Res.replayed_bind (scanner.expect_number_replayed st)
              fun g st1 _ => St.replayed_refl st1
          · exact St.replayed_refl st
          · exact St.replayed_refl st
    · intro braces st
      rw [read_group]
      cases braces with
      | false =>
        simp only [Bool.false_eq_true, if_false, Res.bind]
        exact ihgl false group.empty st
      | true =>
        simp only [if_true]
        exact Res.replayed_bind (scanner.expect_replayed _ _ st)
          fun _ st1 _ => ihgl true group.empty st1
    · intro braces grp st
      rw [read_group_loop]
      split
      · refine Res.replayed_bind (scanner.expect_identifier_replayed st) ?_
        intro key st1 _
        refine Res.replayed_bind (scanner.expect_replayed _ _ st1) ?_
        intro _ st2 _
        refine Res.replayed_bind (ihv st2) ?_
        intro val st3 _
        cases hs : grp.set value_info (path.parse key) val with
        | throw e g1 => exact St.replayed_refl st3
        | diverge => trivial
        | ok u1 grp1 =>
          simp only
          refine Res.replayed_bind (scanner.expect_replayed _ _ st3) ?_
          intro _ st4 _
          split
          · exact Res.replayed_bind (scanner.expect_replayed _ _ st4)
              fun _ st5 _ => St.replayed_refl st5
          · exact ihgl braces grp1 st4
      · exact St.replayed_refl st
    · intro st
      rw [read_vector]
      refine Res.replayed_bind (scanner.expect_replayed _ _ st) ?_
      intro _ st1 _
      refine Res.replayed_bind (ihvl [] st1) ?_
      intro vec st2 _
      exact Res.replayed_bind (scanner.expect_replayed _ _ st2)
        fun _ st3 _ => St.replayed_refl st3
    · intro vec st
      rw [read_vector_loop]
      split
      · refine Res.replayed_bind (ihv st) ?_
        intro val st1 _
        refine Res.replayed_bind (scanner.expect_replayed _ _ st1) ?_
        intro _ st2 _
        exact ihvl _ st2
      · exact St.replayed_refl st

/-- Skipping a value of the old text shows as the comments passed. -/
theorem read_value_wrote (fuel : Nat) (st st1 : St writer) (v : value) (ht : st.1.tame)
    (h : read_value fuel st = .ok v st1) : St.wrote true 0 st st1 :=
  St.wrote_of_call ht ((read_replayed fuel).1 st) h

theorem hex_digit_no_newline (i : Nat) : hex_digit i ≠ 10 := by
  by_cases h : i < 16
  · interval_cases i <;> decide
  · have hl : (lit "0123456789abcdef").length ≤ i := by
      have : (lit "0123456789abcdef").length = 16 := rfl
      omega
    simp [hex_digit, List.getD_eq_getElem?_getD, List.getElem?_eq_none hl]

theorem escape_char_no_newline (c : Nat) : 10 ∉ escape_char c := by
  unfold escape_char
  split_ifs with h1 h2 h3 h4 h5 h6 h7 h8 h9
  · decide
  · decide
  · decide
  · decide
  · decide
  · decide
  · decide
  · decide
  · have a := hex_digit_no_newline (c >>> 4)
    have b := hex_digit_no_newline (c &&& 0xf)
    have e : lit "\\u00" = [92, 117, 48, 48] := rfl
    simp only [e, List.cons_append, List.nil_append, List.mem_cons, List.mem_singleton,
      List.mem_nil_iff, or_false]
    omega
  · simp only [List.mem_singleton]
    omega

theorem escape_string_no_newline (s : Str) : 10 ∉ escape_string s := by
  simp only [escape_string, List.mem_flatMap, not_exists, not_and]
  intro c _
  exact escape_char_no_newline c

theorem estimate_entries_mem (tbl : List (Str × Nat)) (keys : List Str) (k : Str)
    (hk : k ∈ keys) : (table_find tbl k).getD 0 ≤ estimate_entries tbl keys := by
  induction keys with
  | nil => simp at hk
  | cons a keys ih =>
    simp only [estimate_entries]
    rcases List.mem_cons.1 hk with rfl | h1
    · omega
    · have := ih h1
      omega

theorem estimate_list_mem (P : Platform) (vec : List value) (v : value) (hv : v ∈ vec) :
    v.estimate P ≤ value.estimate_list P vec := by
  induction vec with
  | nil => simp at hv
  | cons a vec ih =>
    simp only [value.estimate_list]
    rcases List.mem_cons.1 hv with rfl | h1
    · omega
    · have := ih h1
      omega

/-- A value whose estimate is within the wrap width is not wrapped. -/
theorem wrapped_of_estimate (P : Platform) (w : Int) (v : value)
    (h : ((v.estimate P : Nat) : Int) ≤ w) : v.wrapped P w = false := by
  cases v with
  | invalid => rfl
  | number x => rfl
  | string s => rfl
  | bool b => rfl
  | vector vec =>
    simp only [value.estimate] at h
    simp only [value.wrapped, decide_eq_false_iff_not, gt_iff_lt, not_lt]
    exact h
  | group g =>
    simp only [value.estimate] at h
    simp only [value.wrapped, decide_eq_false_iff_not, gt_iff_lt, not_lt]
    exact h

/-- When the three functions that estimate a length return, they return the estimates of
the specification and leave the state alone. -/
theorem lengths_sound {σ : Type} (P : Platform) (fuel : Nat) :
    (∀ (val : value) (st st1 : σ) (n : Nat), (∀ a ∈ val.groups, a.listed) →
      value_length P fuel val st = .ok n st1 → n = val.estimate P ∧ st1 = st) ∧
    (∀ (m : List (Str × value)) (o keys : List Str) (sum : Nat) (st st1 : σ) (n : Nat),
      (∀ k ∈ keys, path.parse k = [k] ∧ ∃ v, map_find m k = some v ∧
        ∀ a ∈ v.groups, a.listed) →
      group_length P fuel (.mk m o) keys sum st = .ok n st1 →
      n = sum + estimate_entries (value.estimate_map P m) keys ∧ st1 = st) ∧
    (∀ (vec : List value) (sum : Nat) (st st1 : σ) (n : Nat),
      (∀ v ∈ vec, ∀ a ∈ v.groups, a.listed) →
      vector_length P fuel vec sum st = .ok n st1 →
      n = sum + value.estimate_list P vec ∧ st1 = st) := by
  induction fuel with
  | zero =>
    refine ⟨?_, ?_, ?_⟩
    · intro val st st1 n _ h
      simp [value_length] at h
    · intro m o keys sum st st1 n _ h
      simp [group_length] at h
    · intro vec sum st st1 n _ h
      simp [vector_length] at h
  | succ fuel ih =>
    obtain ⟨ihv, ihg, ihvec⟩ := ih
    refine ⟨?_, ?_, ?_⟩
    · intro val st st1 n hg h
      cases val with
      | invalid =>
        simp only [value_length, Res.ok.injEq] at h
        exact ⟨h.1.symm, h.2.symm⟩
      | number x =>
        simp only [value_length, Res.ok.injEq] at h
        exact ⟨h.1.symm, h.2.symm⟩
      | string s =>
        simp only [value_length, Res.ok.injEq] at h
        exact ⟨h.1.symm, h.2.symm⟩
      | bool b =>
        simp only [value_length, Res.ok.injEq] at h
        exact ⟨h.1.symm, h.2.symm⟩
      | vector vec =>
        simp only [value_length] at h
        exact ihvec vec 3 st st1 n (fun v hv a ha => hg a (mem_groups_list vec v a hv ha)) h
      | group g =>
        obtain ⟨m, o⟩ := g
        simp only [value_length, group.order_mk] at h
        have hl : (group.mk m o).listed := hg _ (by simp [value.groups, group.groups])
        refine ihg m o o 3 st st1 n ?_ h
        intro k hk
        obtain ⟨hp, hf⟩ := hl.2 k hk
        obtain ⟨v, hv⟩ := Option.isSome_iff_exists.1 hf
        refine ⟨hp, v, hv, ?_⟩
        intro a ha
        apply hg
        simp only [value.groups, group.groups, List.mem_cons]
        exact Or.inr (mem_groups_map_find m k v a hv ha)
    · intro m o keys sum st st1 n hk h
      cases keys with
      | nil =>
        simp only [group_length, Res.ok.injEq] at h
        exact ⟨by simp [estimate_entries, h.1], h.2.symm⟩
      | cons k keys =>
        obtain ⟨hp, v, hv, hgv⟩ := hk k (List.mem_cons_self _ _)
        rw [group_length, get_of_listed m o k v hp hv] at h
        simp only at h
        obtain ⟨n1, s1, h1, h2⟩ := Res.bind_ok h
        obtain ⟨rfl, rfl⟩ := ihv v st s1 n1 hgv h1
        obtain ⟨rfl, rfl⟩ := ihg m o keys _ s1 st1 n
          (fun k1 hk1 => hk k1 (List.mem_cons_of_mem _ hk1)) h2
        refine ⟨?_, rfl⟩
        simp only [estimate_entries, table_find_estimate, hv, Option.map_some',
          Option.getD_some]
        omega
    · intro vec sum st st1 n hv h
      cases vec with
      | nil =>
        simp only [vector_length, Res.ok.injEq] at h
        exact ⟨by simp [value.estimate_list, h.1], h.2.symm⟩
      | cons v vec =>
        rw [vector_length] at h
        obtain ⟨n1, s1, h1, h2⟩ := Res.bind_ok h
        obtain ⟨rfl, rfl⟩ := ihv v st s1 n1 (hv v (List.mem_cons_self _ _)) h1
        obtain ⟨rfl, rfl⟩ := ihvec vec _ s1 st1 n
          (fun v1 hv1 => hv v1 (List.mem_cons_of_mem _ hv1)) h2
        refine ⟨?_, rfl⟩
        simp only [value.estimate_list]
        omega

theorem scanner.tame_of_quiet (sc : scanner writer)
    (h : ∀ t ∈ sc.tokens_, t.type ≠ .comment_token) : sc.tame :=
  fun t h1 h2 => absurd h2 (h t h1)

theorem dummy_zero_quiet (x cur : Nat) :
    ∀ t ∈ (dummy_zero x cur).tokens_, t.type ≠ .comment_token := by
  intro t ht
  simp only [dummy_zero, List.mem_singleton] at ht
  rw [ht]
  simp

theorem dummy_braces_quiet (cur : Nat) :
    ∀ t ∈ (dummy_braces cur).tokens_, t.type ≠ .comment_token := by
  intro t ht
  simp only [dummy_braces, List.mem_cons, List.mem_singleton, List.mem_nil_iff,
    or_false] at ht
  rcases ht with rfl | rfl <;> simp

theorem dummy_brackets_quiet (cur : Nat) :
    ∀ t ∈ (dummy_brackets cur).tokens_, t.type ≠ .comment_token := by
  intro t ht
  simp only [dummy_brackets, List.mem_cons, List.mem_singleton, List.mem_nil_iff,
    or_false] at ht
  rcases ht with rfl | rfl <;> simp

theorem St.wrote_quiet {q : Bool} {a b : St writer} (h : St.wrote true 0 a b) :
    St.wrote q 0 a b :=
  St.wrote_mono h (fun _ => rfl) (Nat.le_refl _)

/-- What the functions of the writer append, whatever the old text: a newline for each
comment they pass; a node that is wrapped adds one at least, a value that is not adds
none. -/
theorem write_wrote (P : Platform) (hP : (P.strtod (lit "0")).2 = 1)
    (hnum : ∀ x, 10 ∉ stringize_number P x) (w : Int) (fuel : Nat) :
    (∀ (val : value) (st st1 : St writer), st.2.wrap_length = w → st.1.tame →
      (∀ a ∈ val.groups, a.tidy) → write_value P fuel val st = .ok () st1 →
      St.wrote (!val.wrapped P w) (if val.wrapped P w then 1 else 0) st st1) ∧
    (∀ (m : List (Str × value)) (o : List Str) (st st1 : St writer),
      st.2.wrap_length = w → st.1.tame → (∀ a ∈ (group.mk m o).groups, a.tidy) →
      write_group P fuel true (.mk m o) st = .ok () st1 →
      St.wrote (!(value.group (.mk m o)).wrapped P w)
        (if (value.group (.mk m o)).wrapped P w then 1 else 0) st st1) ∧
    (∀ (braces wrap : Bool) (m : List (Str × value)) (o keys keys1 : List Str)
      (st st1 : St writer), st.2.wrap_length = w → st.1.tame →
      (∀ k ∈ keys, path.parse k = [k] ∧ 10 ∉ k ∧ ∃ v, map_find m k = some v ∧
        (∀ a ∈ v.groups, a.tidy) ∧ (wrap = false → v.wrapped P w = false)) →
      write_group_loop P fuel braces wrap (.mk m o) keys st = .ok keys1 st1 →
      St.wrote (!wrap) 0 st st1 ∧ ∀ k ∈ keys1, k ∈ keys) ∧
    (∀ (wrap : Bool) (m : List (Str × value)) (o keys : List Str) (st st1 : St writer),
      st.2.wrap_length = w → st.1.tame →
      (∀ k ∈ keys, path.parse k = [k] ∧ 10 ∉ k ∧ ∃ v, map_find m k = some v ∧
        (∀ a ∈ v.groups, a.tidy) ∧ (wrap = false → v.wrapped P w = false)) →
      write_group_rest P fuel wrap (.mk m o) keys st = .ok () st1 →
      St.wrote (!wrap) 0 st st1) ∧
    (∀ (vec : List value) (st st1 : St writer), st.2.wrap_length = w → st.1.tame →
      (∀ a ∈ (value.vector vec).groups, a.tidy) →
      write_vector P fuel vec st = .ok () st1 →
      St.wrote (!(value.vector vec).wrapped P w)
        (if (value.vector vec).wrapped P w then 1 else 0) st st1) ∧
    (∀ (wrap : Bool) (vec rest : List value) (st st1 : St writer),
      st.2.wrap_length = w → st.1.tame →
      (∀ v ∈ vec, (∀ a ∈ v.groups, a.tidy) ∧ (wrap = false → v.wrapped P w = false)) →
      write_vector_loop P fuel wrap vec st = .ok rest st1 →
      St.wrote (!wrap) 0 st st1 ∧ ∀ v ∈ rest, v ∈ vec) ∧
    (∀ (wrap : Bool) (vec : List value) (st st1 : St writer),
      st.2.wrap_length = w → st.1.tame →
      (∀ v ∈ vec, (∀ a ∈ v.groups, a.tidy) ∧ (wrap = false → v.wrapped P w = false)) →
      write_vector_rest P fuel wrap vec st = .ok () st1 →
      St.wrote (!wrap) 0 st st1) := by
  induction fuel with
  | zero =>
    refine ⟨?_, ?_, ?_, ?_, ?_, ?_, ?_⟩
    · intro val st st1 _ _ _ h
      simp [write_value] at h
    · intro m o st st1 _ _ _ h
      simp [write_group] at h
    · intro braces wrap m o keys keys1 st st1 _ _ _ h
      simp [write_group_loop] at h
    · intro wrap m o keys st st1 _ _ _ h
      simp [write_group_rest] at h
    · intro vec st st1 _ _ _ h
      simp [write_vector] at h
    · intro wrap vec rest st st1 _ _ _ h
      simp [write_vector_loop] at h
    · intro wrap vec st st1 _ _ _ h
      simp [write_vector_rest] at h
  | succ fuel ih =>
    obtain ⟨ihv, ihg, ihgl, ihgr, ihvec, ihvl, ihvr⟩ := ih
    refine ⟨?_, ?_, ?_, ?_, ?_, ?_, ?_⟩
    · -- write_value
      intro val st st1 hw ht hg h
      cases val with
      | invalid =>
        simp only [write_value, Res.ok.injEq, true_and] at h
        subst h
        exact St.wrote_refl st
      | number x =>
        simp only [write_value] at h
        obtain ⟨v, s1, h1, h2⟩ := Res.bind_ok h
        simp only [Res.ok.injEq, true_and] at h2
        subst h2
        exact St.wrote_step (read_value_wrote fuel st s1 v ht h1)
          (St.wrote_append s1 _ (hnum x))
      | string s =>
        simp only [write_value] at h
        obtain ⟨v, s1, h1, h2⟩ := Res.bind_ok h
        simp only [Res.ok.injEq, true_and] at h2
        subst h2
        have a1 := read_value_wrote fuel st s1 v ht h1
        have a2 := St.wrote_append s1 (lit "\"") (by decide)
        have a3 := St.wrote_append (s1.1, s1.2.append (lit "\"")) (escape_string s)
          (escape_string_no_newline s)
        have a4 := St.wrote_append
          (s1.1, (s1.2.append (lit "\"")).append (escape_string s)) (lit "\"") (by decide)
        exact St.wrote_step a1 (St.wrote_step a2 (St.wrote_step a3 a4))
      | bool b =>
        simp only [write_value] at h
        obtain ⟨v, s1, h1, h2⟩ := Res.bind_ok h
        simp only [Res.ok.injEq, true_and] at h2
        subst h2
        exact St.wrote_step (read_value_wrote fuel st s1 v ht h1)
          (St.wrote_append s1 _ (by cases b <;> decide))
      | group g =>
        obtain ⟨m, o⟩ := g
        have hg1 : ∀ a ∈ (group.mk m o).groups, a.tidy :=
          fun a ha => hg a (by simpa [value.groups] using ha)
        simp only [write_value] at h
        split at h
        · exact ihg m o st st1 hw ht hg1 h
        · obtain ⟨v, s1, h1, h2⟩ := Res.bind_ok h
          have a1 := read_value_wrote fuel st s1 v ht h1
          have hw1 : s1.2.wrap_length = w := (St.width_of_wrote a1).trans hw
          have a2 := with_dummy_wrote P _ s1 st1 _ _ _ (dummy_braces 0) ()
            (make_scanner_braces P) (dummy_braces_quiet 0)
            (fun s2 hs2 => ihg m o (dummy_braces 0, s1.2) s2 hw1
              (scanner.tame_of_quiet _ (dummy_braces_quiet 0)) hg1 hs2) h2
          exact St.wrote_mono (St.wrote_trans a1 a2) (by simp) (by simp)
      | vector vec =>
        simp only [write_value] at h
        split at h
        · exact ihvec vec st st1 hw ht hg h
        · obtain ⟨v, s1, h1, h2⟩ := Res.bind_ok h
          have a1 := read_value_wrote fuel st s1 v ht h1
          have hw1 : s1.2.wrap_length = w := (St.width_of_wrote a1).trans hw
          have a2 := with_dummy_wrote P _ s1 st1 _ _ _ (dummy_brackets 0) ()
            (make_scanner_brackets P) (dummy_brackets_quiet 0)
            (fun s2 hs2 => ihvec vec (dummy_brackets 0, s1.2) s2 hw1
              (scanner.tame_of_quiet _ (dummy_brackets_quiet 0)) hg hs2) h2
          exact St.wrote_mono (St.wrote_trans a1 a2) (by simp) (by simp)
    · -- write_group
      intro m o st st1 hw ht hg h
      have hroot : (group.mk m o).tidy := hg _ (mem_groups_self _)
      have hkeys : ∀ k ∈ o, path.parse k = [k] ∧ 10 ∉ k ∧ ∃ v, map_find m k = some v ∧
          ∀ a ∈ v.groups, a.tidy := by
        intro k hk
        obtain ⟨hp, hf⟩ := hroot.1.2 k hk
        obtain ⟨v, hv⟩ := Option.isSome_iff_exists.1 hf
        refine ⟨hp, hroot.2 k hk, v, hv, ?_⟩
        intro a ha
        apply hg
        rw [groups_eq]
        exact List.mem_cons_of_mem _ (mem_groups_map_find m k v a hv ha)
      rw [write_group] at h
      simp only [Bool.not_true, Bool.false_eq_true, if_false, if_true, Bool.false_or,
        group.order_mk] at h
      replace h := Res.bind_ok h
      obtain ⟨len, s0, h0, h⟩ := h
      obtain ⟨rfl, rfl⟩ := (lengths_sound P fuel).2.1 m o o 3 st s0 len
        (fun k hk => by
          obtain ⟨hp, _, v, hv, hgv⟩ := hkeys k hk
          exact ⟨hp, v, hv, fun a ha => (hgv a ha).1⟩) h0
      have hb : (value.group (.mk m o)).wrapped P w =
          decide (((3 + estimate_entries (value.estimate_map P m) o : Nat) : Int) >
            s0.2.wrap_length) := by
        simp only [value.wrapped, group.estimate, hw]
      rw [hb]
      have hbe : decide (((3 + estimate_entries (value.estimate_map P m) o : Nat) : Int) >
            s0.2.wrap_length) = false →
          ((3 + estimate_entries (value.estimate_map P m) o : Nat) : Int) ≤ w := by
        intro hd
        simp only [decide_eq_false_iff_not, gt_iff_lt, not_lt] at hd
        rw [← hw]
        exact hd
      generalize decide (((3 + estimate_entries (value.estimate_map P m) o : Nat) : Int) >
            s0.2.wrap_length) = b at h hbe ⊢
      have hK : ∀ k ∈ o, path.parse k = [k] ∧ 10 ∉ k ∧ ∃ v, map_find m k = some v ∧
          (∀ a ∈ v.groups, a.tidy) ∧ (b = false → v.wrapped P w = false) := by
        intro k hk
        obtain ⟨hp, hn, v, hv, hgv⟩ := hkeys k hk
        refine ⟨hp, hn, v, hv, hgv, ?_⟩
        intro hbf
        apply wrapped_of_estimate
        have e1 := estimate_entries_mem (value.estimate_map P m) o k hk
        rw [table_find_estimate, hv] at e1
        simp only [Option.map_some', Option.getD_some] at e1
        have e2 := hbe hbf
        omega
      replace h := Res.bind_ok h
      obtain ⟨u1, s1, h1, h⟩ := h
      have a0 := open_wrote s0 (lit "\x7b ") (by decide) b
      have a1 := St.wrote_of_call (by exact ht) (scanner.expect_replayed _ _ _) h1
      have ht1 := St.tame_of_wrote a1 (by exact ht)
      have hw1 : s1.2.wrap_length = w :=
        ((St.width_of_wrote a1).trans (St.width_of_wrote a0)).trans hw
      replace h := Res.bind_ok h
      obtain ⟨keys1, s2, h2, h⟩ := h
      obtain ⟨a2, sub2⟩ := ihgl true b m o o keys1 s1 s2 hw1 ht1 hK h2
      have ht2 := St.tame_of_wrote a2 ht1
      have hw2 : s2.2.wrap_length = w := (St.width_of_wrote a2).trans hw1
      replace h := Res.bind_ok h
      obtain ⟨u3, s3, h3, h⟩ := h
      have a3 := ihgr b m o keys1 s2 s3 hw2 ht2 (fun k hk => hK k (sub2 k hk)) h3
      have ht3 := St.tame_of_wrote a3 ht2
      replace h := Res.bind_ok h
      obtain ⟨u5, s5, h5, h⟩ := h
      have a4 := close_wrote s3 b
      have a5 := St.wrote_of_call (by exact ht3) (scanner.expect_replayed _ _ _) h5
      simp only [Res.ok.injEq, true_and] at h
      subst h
      have a6 := St.wrote_append s5 (lit "\x7d") (by decide)
      have rest := St.wrote_step (St.wrote_quiet a1) (St.wrote_step a2 (St.wrote_step a3
        (St.wrote_step a4 (St.wrote_step (St.wrote_quiet a5) (St.wrote_quiet a6)))))
      exact St.wrote_mono (St.wrote_trans a0 rest) (by simp) (by simp)
    · -- write_group_loop
      intro braces wrap m o keys keys1 st st1 hw ht hk h
      rw [write_group_loop] at h
      split at h
      · obtain ⟨key, s1, h1, h⟩ := Res.bind_ok h
        have a1 := St.wrote_of_call ht (scanner.expect_identifier_replayed st) h1
        have ht1 := St.tame_of_wrote a1 ht
        have hw1 : s1.2.wrap_length = w := (St.width_of_wrote a1).trans hw
        replace h := Res.bind_ok h
        obtain ⟨u2, s2, h2, h⟩ := h
        have a2 := St.wrote_of_call ht1 (scanner.expect_replayed _ _ s1) h2
        have ht2 := St.tame_of_wrote a2 ht1
        have hw2 : s2.2.wrap_length = w := (St.width_of_wrote a2).trans hw1
        replace h := Res.bind_ok h
        obtain ⟨keys2, s3, h3, h⟩ := h
        have main3 : St.wrote (!wrap) 0 s2 s3 ∧ ∀ k ∈ keys2, k ∈ keys := by
          split at h3
          · rename_i hc
            have hmem : key ∈ keys := by simpa using hc
            obtain ⟨hp, hn, v, hv, hgv, hwv⟩ := hk key hmem
            rw [get_of_listed m o key v hp hv] at h3
            dsimp only at h3
            replace h3 := Res.bind_ok h3
            obtain ⟨u5, s5, h5, h3⟩ := h3
            simp only [Res.ok.injEq] at h3
            obtain ⟨rfl, rfl⟩ := h3
            have b1 := St.wrote_append s2 key hn
            have b2 := St.wrote_append (s2.1, s2.2.append key) (lit " = ") (by decide)
            have b3 := ihv v (s2.1, (s2.2.append key).append (lit " = ")) s5 hw2 ht2 hgv h5
            have b3q : St.wrote (!wrap) 0 (s2.1, (s2.2.append key).append (lit " = ")) s5 := by
              refine St.wrote_mono b3 ?_ (Nat.zero_le _)
              intro hq
              cases wrap
              · rw [hwv rfl]; rfl
              · simp at hq
            have b4 := separator_wrote s5
              (s5.1.peek_token.is_char '}' && (keys.erase key).isEmpty) wrap
            exact ⟨St.wrote_step (St.wrote_quiet b1) (St.wrote_step (St.wrote_quiet b2)
              (St.wrote_step b3q b4)), fun k hk1 => List.mem_of_mem_erase hk1⟩
          · obtain ⟨v, s5, h5, h3⟩ := Res.bind_ok h3
            simp only [Res.ok.injEq] at h3
            obtain ⟨rfl, rfl⟩ := h3
            exact ⟨St.wrote_quiet (read_value_wrote fuel s2 s5 v ht2 h5), fun k hk1 => hk1⟩
        have ht3 := St.tame_of_wrote main3.1 ht2
        have hw3 : s3.2.wrap_length = w := (St.width_of_wrote main3.1).trans hw2
        replace h := Res.bind_ok h
        obtain ⟨u4, s4, h4, h⟩ := h
        have a4 := St.wrote_of_call ht3 (scanner.expect_replayed _ _ s3) h4
        have ht4 := St.tame_of_wrote a4 ht3
        have hw4 : s4.2.wrap_length = w := (St.width_of_wrote a4).trans hw3
        have upto : St.wrote (!wrap) 0 st s4 :=
          St.wrote_step (St.wrote_quiet a1) (St.wrote_step (St.wrote_quiet a2)
            (St.wrote_step main3.1 (St.wrote_quiet a4)))
        split at h
        · simp only [Res.ok.injEq] at h
          obtain ⟨rfl, rfl⟩ := h
          exact ⟨upto, main3.2⟩
        · obtain ⟨a5, sub5⟩ := ihgl braces wrap m o keys2 keys1 s4 st1 hw4 ht4
            (fun k hk1 => hk k (main3.2 k hk1)) h
          exact ⟨St.wrote_step upto a5, fun k hk1 => main3.2 k (sub5 k hk1)⟩
      · simp only [Res.ok.injEq] at h
        obtain ⟨rfl, rfl⟩ := h
        exact ⟨St.wrote_quiet (St.wrote_refl st), fun k hk1 => hk1⟩
    · -- write_group_rest
      intro wrap m o keys st st1 hw ht hk h
      cases keys with
      | nil =>
        simp only [write_group_rest, Res.ok.injEq, true_and] at h
        subst h
        exact St.wrote_quiet (St.wrote_refl st)
      | cons k keys =>
        obtain ⟨hp, hn, v, hv, hgv, hwv⟩ := hk k (List.mem_cons_self _ _)
        rw [write_group_rest, get_of_listed m o k v hp hv] at h
        replace h := Res.bind_ok h
        obtain ⟨u1, s1, h1, h⟩ := h
        have b1 := St.wrote_append st k hn
        have b2 := St.wrote_append (st.1, st.2.append k) (lit " = ") (by decide)
        have b3 := with_dummy_wrote P _ (st.1, (st.2.append k).append (lit " = ")) s1 _ _ _
          (dummy_zero (P.strtod (lit "0")).1 0) () (make_scanner_zero P hP)
          (dummy_zero_quiet _ 0)
          (fun s2 hs2 => ihv v (dummy_zero (P.strtod (lit "0")).1 0,
              (st.2.append k).append (lit " = ")) s2 hw
            (scanner.tame_of_quiet _ (dummy_zero_quiet _ 0)) hgv hs2) h1
        have b3q : St.wrote (!wrap) 0 (st.1, (st.2.append k).append (lit " = ")) s1 := by
          refine St.wrote_mono b3 ?_ (Nat.zero_le _)
          intro hq
          cases wrap
          · rw [hwv rfl]; rfl
          · simp at hq
        have upto : St.wrote (!wrap) 0 st s1 :=
          St.wrote_step (St.wrote_quiet b1) (St.wrote_step (St.wrote_quiet b2) b3q)
        have ht1 := St.tame_of_wrote upto ht
        have hw1 : s1.2.wrap_length = w := (St.width_of_wrote upto).trans hw
        have b4 := separator_wrote s1 keys.isEmpty wrap
        have b5 := ihgr wrap m o keys (s1.1, write_separator s1.2 keys.isEmpty wrap) st1
          ((St.width_of_wrote b4).trans hw1) (St.tame_of_wrote b4 ht1)
          (fun k1 hk1 => hk k1 (List.mem_cons_of_mem _ hk1)) h
        exact St.wrote_step upto (St.wrote_step b4 b5)
    · -- write_vector
      intro vec st st1 hw ht hg h
      have hvals : ∀ v ∈ vec, ∀ a ∈ v.groups, a.tidy :=
        fun v hv a ha => hg a (mem_groups_list vec v a hv ha)
      rw [write_vector] at h
      replace h := Res.bind_ok h
      obtain ⟨len, s0, h0, h⟩ := h
      obtain ⟨rfl, rfl⟩ := (lengths_sound P fuel).2.2 vec 3 st s0 len
        (fun v hv a ha => (hvals v hv a ha).1) h0
      have hb : (value.vector vec).wrapped P w =
          decide (((3 + value.estimate_list P vec : Nat) : Int) > s0.2.wrap_length) := by
        simp only [value.wrapped, hw]
      rw [hb]
      have hbe : decide (((3 + value.estimate_list P vec : Nat) : Int) >
            s0.2.wrap_length) = false →
          ((3 + value.estimate_list P vec : Nat) : Int) ≤ w := by
        intro hd
        simp only [decide_eq_false_iff_not, gt_iff_lt, not_lt] at hd
        rw [← hw]
        exact hd
      generalize decide (((3 + value.estimate_list P vec : Nat) : Int) >
            s0.2.wrap_length) = b at h hbe ⊢
      have hV : ∀ v ∈ vec, (∀ a ∈ v.groups, a.tidy) ∧
          (b = false → v.wrapped P w = false) := by
        intro v hv
        refine ⟨hvals v hv, ?_⟩
        intro hbf
        apply wrapped_of_estimate
        have e1 := estimate_list_mem P vec v hv
        have e2 := hbe hbf
        omega
      replace h := Res.bind_ok h
      obtain ⟨u1, s1, h1, h⟩ := h
      have a0 := open_wrote s0 (lit "[ ") (by decide) b
      have a1 := St.wrote_of_call (by exact ht) (scanner.expect_replayed _ _ _) h1
      have ht1 := St.tame_of_wrote a1 (by exact ht)
      have hw1 : s1.2.wrap_length = w :=
        ((St.width_of_wrote a1).trans (St.width_of_wrote a0)).trans hw
      replace h := Res.bind_ok h
      obtain ⟨rest1, s2, h2, h⟩ := h
      obtain ⟨a2, sub2⟩ := ihvl b vec rest1 s1 s2 hw1 ht1 hV h2
      have ht2 := St.tame_of_wrote a2 ht1
      have hw2 : s2.2.wrap_length = w := (St.width_of_wrote a2).trans hw1
      replace h := Res.bind_ok h
      obtain ⟨u3, s3, h3, h⟩ := h
      have a3 := ihvr b rest1 s2 s3 hw2 ht2 (fun v hv => hV v (sub2 v hv)) h3
      have ht3 := St.tame_of_wrote a3 ht2
      replace h := Res.bind_ok h
      obtain ⟨u5, s5, h5, h⟩ := h
      have a4 := close_wrote s3 b
      have a5 := St.wrote_of_call (by exact ht3) (scanner.expect_replayed _ _ _) h5
      simp only [Res.ok.injEq, true_and] at h
      subst h
      have a6 := St.wrote_append s5 (lit "]") (by decide)
      have rest := St.wrote_step (St.wrote_quiet a1) (St.wrote_step a2 (St.wrote_step a3
        (St.wrote_step a4 (St.wrote_step (St.wrote_quiet a5) (St.wrote_quiet a6)))))
      exact St.wrote_mono (St.wrote_trans a0 rest) (by simp) (by simp)
    · -- write_vector_loop
      intro wrap vec rest st st1 hw ht hv h
      have tail : ∀ (vec1 : List value) (s1 : St writer), St.wrote (!wrap) 0 st s1 →
          (∀ v ∈ vec1, v ∈ vec) →
          ((scanner.expect ',' true (s1.1, write_separator s1.2
              (s1.1.peek_token.is_char ']' && vec1.isEmpty) wrap)).bind fun _ st =>
            write_vector_loop P fuel wrap vec1 st) = .ok rest st1 →
          St.wrote (!wrap) 0 st st1 ∧ ∀ v ∈ rest, v ∈ vec := by
        intro vec1 s1 m1 sub1 h
        have ht1 := St.tame_of_wrote m1 ht
        replace h := Res.bind_ok h
        obtain ⟨u2, s2, h2, h⟩ := h
        have b4 := separator_wrote s1 (s1.1.peek_token.is_char ']' && vec1.isEmpty) wrap
        have a2 := St.wrote_of_call (by exact St.tame_of_wrote b4 ht1)
          (scanner.expect_replayed _ _ _) h2
        have upto : St.wrote (!wrap) 0 st s2 :=
          St.wrote_step m1 (St.wrote_step b4 (St.wrote_quiet a2))
        obtain ⟨a5, sub5⟩ := ihvl wrap vec1 rest s2 st1
          ((St.width_of_wrote upto).trans hw) (St.tame_of_wrote upto ht)
          (fun v hv1 => hv v (sub1 v hv1)) h
        exact ⟨St.wrote_step upto a5, fun v hv1 => sub1 v (sub5 v hv1)⟩
      cases vec with
      | nil =>
        rw [write_vector_loop] at h
        split at h
        · replace h := Res.bind_ok h
          obtain ⟨vec1, s1, h1, h⟩ := h
          replace h1 := Res.bind_ok h1
          obtain ⟨v, s5, h5, h1⟩ := h1
          simp only [Res.ok.injEq] at h1
          obtain ⟨rfl, rfl⟩ := h1
          exact tail [] s5 (St.wrote_quiet (read_value_wrote fuel st s5 v ht h5))
            (fun v hv1 => hv1) h
        · simp only [Res.ok.injEq] at h
          obtain ⟨rfl, rfl⟩ := h
          exact ⟨St.wrote_quiet (St.wrote_refl st), fun v hv1 => hv1⟩
      | cons val vec =>
        rw [write_vector_loop] at h
        split at h
        · replace h := Res.bind_ok h
          obtain ⟨vec1, s1, h1, h⟩ := h
          replace h1 := Res.bind_ok h1
          obtain ⟨u5, s5, h5, h1⟩ := h1
          simp only [Res.ok.injEq] at h1
          obtain ⟨rfl, rfl⟩ := h1
          obtain ⟨hgv, hwv⟩ := hv val (List.mem_cons_self _ _)
          have b3 := ihv val st s5 hw ht hgv h5
          refine tail vec s5 (St.wrote_mono b3 ?_ (Nat.zero_le _))
            (fun v hv1 => List.mem_cons_of_mem _ hv1) h
          intro hq
          cases wrap
          · rw [hwv rfl]; rfl
          · simp at hq
        · simp only [Res.ok.injEq] at h
          obtain ⟨rfl, rfl⟩ := h
          exact ⟨St.wrote_quiet (St.wrote_refl st), fun v hv1 => hv1⟩
    · -- write_vector_rest
      intro wrap vec st st1 hw ht hv h
      cases vec with
      | nil =>
        simp only [write_vector_rest, Res.ok.injEq, true_and] at h
        subst h
        exact St.wrote_quiet (St.wrote_refl st)
      | cons v vec =>
        obtain ⟨hgv, hwv⟩ := hv v (List.mem_cons_self _ _)
        rw [write_vector_rest] at h
        replace h := Res.bind_ok h
        obtain ⟨u1, s1, h1, h⟩ := h
        have b3 := with_dummy_wrote P _ st s1 _ _ _
          (dummy_zero (P.strtod (lit "0")).1 0) () (make_scanner_zero P hP)
          (dummy_zero_quiet _ 0)
          (fun s2 hs2 => ihv v (dummy_zero (P.strtod (lit "0")).1 0, st.2) s2 hw
            (scanner.tame_of_quiet _ (dummy_zero_quiet _ 0)) hgv hs2) h1
        have upto : St.wrote (!wrap) 0 st s1 := by
          refine St.wrote_mono b3 ?_ (Nat.zero_le _)
          intro hq
          cases wrap
          · rw [hwv rfl]; rfl
          · simp at hq
        have ht1 := St.tame_of_wrote upto ht
        have hw1 : s1.2.wrap_length = w := (St.width_of_wrote upto).trans hw
        have b4 := separator_wrote s1 vec.isEmpty wrap
        have b5 := ihvr wrap vec (s1.1, write_separator s1.2 vec.isEmpty wrap) st1
          ((St.width_of_wrote b4).trans hw1) (St.tame_of_wrote b4 ht1)
          (fun v1 hv1 => hv v1 (List.mem_cons_of_mem _ hv1)) h
        exact St.wrote_step upto (St.wrote_step b4 b5)

theorem scanner.scan_comment_loop_text {σ : Type} (n : Nat) :
    ∀ (sc : scanner σ) (tok : token), 10 ∉ tok.string_value →
      10 ∉ (scanner.scan_comment_loop n sc tok).1.string_value := by
  induction n with
  | zero => intro sc tok h; exact h
  | succ n ih =>
    intro sc tok h
    rw [scanner.scan_comment_loop]
    split
    · rename_i hc
      simp only [Bool.and_eq_true, bne_iff_ne, ne_eq] at hc
      apply ih
      split
      · simp only [List.mem_append, List.mem_singleton, not_or]
        exact ⟨h, fun e => hc.2 e.symm⟩
      · exact h
    · exact h

/-- One iteration of the loop of `scan` pushes no comment with a newline in its text. -/
theorem scanner.scan_step_texts {σ : Type} (P : Platform) (sc : scanner σ) (h : sc.placed)
    (s : scanner σ) (hs : sc.scan_step P = .ok () s) :
    ∃ new, s.tokens_ = sc.tokens_ ++ new ∧
      ∀ t ∈ new, t.type = .comment_token → 10 ∉ t.string_value := by
  have h1 := scanner.next_ch_follows sc h
  have push : ∀ (sc1 : scanner σ) (t : token), sc.follows sc1 →
      (t.type = .comment_token → 10 ∉ t.string_value) →
      ∃ new, ({ sc1 with tokens_ := sc1.tokens_ ++ [t] } : scanner σ).tokens_
          = sc.tokens_ ++ new ∧
        ∀ t1 ∈ new, t1.type = .comment_token → 10 ∉ t1.string_value := by
    intro sc1 t hf ht
    refine ⟨[t], ?_, ?_⟩
    · show sc1.tokens_ ++ [t] = _
      rw [hf.2.2.2.1]
    · intro t1 ht1
      rw [List.mem_singleton.1 ht1]
      exact ht
  simp only [scanner.scan_step] at hs
  by_cases c1 : sc.ch = 34
  · simp only [c1, if_true] at hs
    cases hstr : sc.scan_string P with
    | ok v sc1 =>
      have f := scanner.scan_string_loop_follows P _ _ _ h1.1 sc1
        (by rw [← scanner.scan_string, hstr]; rfl)
      rw [hstr] at hs
      simp only [Res.ok.injEq, true_and] at hs
      subst hs
      exact push sc1 _ (scanner.follows_trans h1 f) (fun e => by cases e)
    | throw e sc1 =>
      rw [hstr] at hs
      simp at hs
    | diverge =>
      rw [hstr] at hs
      simp at hs
  · simp only [c1, if_false] at hs
    by_cases c2 : is_number_start sc.ch = true
    · simp only [c2, if_true, scanner.scan_number, Res.ok.injEq, true_and] at hs
      subst hs
      exact push _ _ (scanner.next_ch_times_follows _ sc h) (fun e => by cases e)
    · simp only [c2, Bool.false_eq_true, if_false] at hs
      by_cases c3 : is_identifier_start sc.ch = true
      · simp only [c3, if_true, scanner.scan_identifier, Res.ok.injEq, true_and] at hs
        subst hs
        exact push _ _ (scanner.scan_identifier_loop_follows _ sc [] h) (fun e => by cases e)
      · simp only [c3, Bool.false_eq_true, if_false] at hs
        by_cases c4 : sc.ch = '/'.toNat
        · simp only [c4, if_true] at hs
          split at hs
          · obtain ⟨i1, _⟩ := scanner.scan_comment_loop_follows
              (sc.input_.length + 1) sc
              { type := .comment_token, string_value := [], number_value := 0, char_value := 0,
                pos := sc.pos_, line := sc.line_, col := sc.col_ } h
            simp only [Res.ok.injEq, true_and] at hs
            subst hs
            refine push _ _ i1 (fun _ => ?_)
            exact scanner.scan_comment_loop_text _ sc _ (by simp)
          · simp only [Res.ok.injEq, true_and] at hs
            subst hs
            exact push _ _ h1 (fun e => by cases e)
        · simp only [c4, if_false] at hs
          by_cases c5 : char_le_0x20 P sc.ch = true
          · have key := scanner.scan_whitespace_loop_follows P (sc.input_.length + 1) sc
              { type := .whitespace_token, string_value := [], number_value := 0,
                char_value := 0, pos := sc.pos_, line := sc.line_, col := sc.col_ } false h
            simp only [c5, if_true, Res.ok.injEq, true_and] at hs
            generalize scanner.scan_whitespace_loop P (sc.input_.length + 1) sc
              { type := .whitespace_token, string_value := [], number_value := 0,
                char_value := 0, pos := sc.pos_, line := sc.line_, col := sc.col_ } false
              = res at hs key
            obtain ⟨tok1, sc1⟩ := res
            obtain ⟨_, _, _, _, _, ⟨new, i4, i5⟩, i0, _, _, _⟩ := key
            subst hs
            refine ⟨new ++ [tok1], ?_, ?_⟩
            · show sc1.tokens_ ++ [tok1] = _
              rw [i4, List.append_assoc]
            · intro t ht hty
              rcases List.mem_append.1 ht with ht | ht
              · rcases i5 t ht with hb | hb
                · rw [hb]
                  simp [blank_line_token, token.of_type]
                · rw [hb.1] at hty
                  cases hty
              · rw [List.mem_singleton.1 ht, i0] at hty
                cases hty
          · simp only [c5, Bool.false_eq_true, if_false, Res.ok.injEq, true_and] at hs
            subst hs
            exact push _ _ h1 (fun e => by cases e)

theorem scanner.scan_loop_texts {σ : Type} (P : Platform) (n : Nat) :
    ∀ sc : scanner σ, sc.placed → ∀ s, scanner.scan_loop P n sc = .ok () s →
      s.params_ = sc.params_ ∧ ∃ new, s.tokens_ = sc.tokens_ ++ new ∧
        ∀ t ∈ new, t.type = .comment_token → 10 ∉ t.string_value := by
  induction n with
  | zero => intro sc _ s hs; simp [scanner.scan_loop] at hs
  | succ n ih =>
    intro sc h s hs
    rw [scanner.scan_loop] at hs
    by_cases he : sc.eof = false
    · simp only [he, Bool.not_false, if_true] at hs
      obtain ⟨u, sc1, h1, h2⟩ := Res.bind_ok hs
      obtain ⟨p1, _, p3, _⟩ := scanner.scan_step_placed P sc h he sc1 (by rw [h1]; rfl)
      obtain ⟨new, n1, n2⟩ := scanner.scan_step_texts P sc h sc1 h1
      obtain ⟨q1, new2, q2, q3⟩ := ih sc1 p1 s h2
      refine ⟨q1.trans p3, new ++ new2, by rw [q2, n1, List.append_assoc], ?_⟩
      intro t ht
      rcases List.mem_append.1 ht with ht | ht
      · exact n2 t ht
      · exact q3 t ht
    · have he1 : sc.eof = true := by simpa using he
      simp only [he1, Bool.not_true, Bool.false_eq_true, if_false, Res.ok.injEq,
        true_and] at hs
      subst hs
      exact ⟨rfl, [], by simp, by simp⟩

/-- The scanner `write` makes of the old text is `tame`: its comments go to
`write_comment` and hold no newline. -/
theorem scan_tame (P : Platform) (src : Str) (flags : Nat) (sc : scanner writer)
    (h : scanner.scan P scanner.init src ⟨some write_comment, flags⟩ = .ok () sc) :
    sc.tame := by
  have hp : ({ (scanner.init : scanner writer) with
      input_ := src, pos_ := 0, line_ := 1, col_ := 1, cur_token_ := 0,
      eof_ := src.isEmpty, params_ := ⟨some write_comment, flags⟩ } : scanner writer).placed := by
    refine ⟨?_, Nat.zero_le _, ?_, ?_⟩
    · cases src <;> simp [scanner.synced]
    · simp [line_of]
    · simp [col_of]
  obtain ⟨q1, new, q2, q3⟩ := scanner.scan_loop_texts P _ _ hp sc h
  intro t ht hty
  refine ⟨by rw [q1], ?_⟩
  rw [q2] at ht
  simp only [scanner.init, List.nil_append] at ht
  exact q3 t ht hty

theorem Res.ends_ok_writer {α : Type} (st : St writer)
    (hle : st.1.cur_token_ ≤ st.1.tokens_.length) (wr : writer) (a : α) :
    Res.ends st 0 (.ok a (st.1, wr)) := by
  refine ⟨by simp, ?_⟩
  intro b st1 h
  simp only [Res.ok.injEq] at h
  rw [← h.2]
  exact ⟨rfl, Nat.le_refl _, hle⟩

/-- The keys the loop of `write_group` returns are among those it was given. -/
theorem write_group_loop_keys (P : Platform) (fuel : Nat) :
    ∀ (braces wrap : Bool) (gr : group) (keys keys1 : List Str) (st st1 : St writer),
      write_group_loop P fuel braces wrap gr keys st = .ok keys1 st1 →
      (∀ k ∈ keys1, k ∈ keys) ∧ keys1.length ≤ keys.length := by
  induction fuel with
  | zero => intro braces wrap gr keys keys1 st st1 h; simp [write_group_loop] at h
  | succ fuel ih =>
    intro braces wrap gr keys keys1 st st1 h
    rw [write_group_loop] at h
    split at h
    · replace h := Res.bind_ok h
      obtain ⟨key, s1, _, h⟩ := h
      replace h := Res.bind_ok h
      obtain ⟨u2, s2, _, h⟩ := h
      replace h := Res.bind_ok h
      obtain ⟨keys2, s3, h3, h⟩ := h
      replace h := Res.bind_ok h
      obtain ⟨u4, s4, _, h⟩ := h
      have main3 : (∀ k ∈ keys2, k ∈ keys) ∧ keys2.length ≤ keys.length := by
        split at h3
        · cases hget : gr.get value_info (path.parse key) with
          | error e => rw [hget] at h3; simp at h3
          | ok val =>
            rw [hget] at h3
            replace h3 := Res.bind_ok h3
            obtain ⟨u5, s5, _, h3⟩ := h3
            simp only [Res.ok.injEq] at h3
            rw [← h3.1]
            exact ⟨fun k hk => List.mem_of_mem_erase hk,
              (List.erase_sublist key keys).length_le⟩
        · replace h3 := Res.bind_ok h3
          obtain ⟨v, s5, _, h3⟩ := h3
          simp only [Res.ok.injEq] at h3
          rw [← h3.1]
          exact ⟨fun k hk => hk, Nat.le_refl _⟩
      split at h
      · simp only [Res.ok.injEq] at h
        rw [← h.1]
        exact main3
      · obtain ⟨i1, i2⟩ := ih braces wrap gr keys2 keys1 s4 st1 h
        exact ⟨fun k hk => main3.1 k (i1 k hk), Nat.le_trans i2 main3.2⟩
    · simp only [Res.ok.injEq] at h
      rw [← h.1]
      exact ⟨fun k hk => hk, Nat.le_refl _⟩

/-- The values the loop of `write_vector` returns are among those it was given. -/
theorem write_vector_loop_rest (P : Platform) (fuel : Nat) :
    ∀ (wrap : Bool) (vec rest : List value) (st st1 : St writer),
      write_vector_loop P fuel wrap vec st = .ok rest st1 →
      (∀ v ∈ rest, v ∈ vec) ∧ value.size_list rest ≤ value.size_list vec := by
  induction fuel with
  | zero => intro wrap vec rest st st1 h; simp [write_vector_loop] at h
  | succ fuel ih =>
    intro wrap vec rest st st1 h
    cases vec with
    | nil =>
      rw [write_vector_loop] at h
      split at h
      · replace h := Res.bind_ok h
        obtain ⟨vec1, s1, h1, h⟩ := h
        replace h1 := Res.bind_ok h1
        obtain ⟨v, s5, _, h1⟩ := h1
        simp only [Res.ok.injEq] at h1
        rw [← h1.1] at h
        replace h := Res.bind_ok h
        obtain ⟨u2, s2, _, h⟩ := h
        exact ih wrap [] rest s2 st1 h
      · simp only [Res.ok.injEq] at h
        rw [← h.1]
        exact ⟨fun v hv => hv, Nat.le_refl _⟩
    | cons val vec =>
      rw [write_vector_loop] at h
      split at h
      · replace h := Res.bind_ok h
        obtain ⟨vec1, s1, h1, h⟩ := h
        replace h1 := Res.bind_ok h1
        obtain ⟨u5, s5, _, h1⟩ := h1
        simp only [Res.ok.injEq] at h1
        rw [← h1.1] at h
        replace h := Res.bind_ok h
        obtain ⟨u2, s2, _, h⟩ := h
        obtain ⟨i1, i2⟩ := ih wrap vec rest s2 st1 h
        refine ⟨fun v hv => List.mem_cons_of_mem _ (i1 v hv), ?_⟩
        simp only [value.size_list]
        omega
      · simp only [Res.ok.injEq] at h
        rw [← h.1]
        exact ⟨fun v hv => hv, Nat.le_refl _⟩

/-- The fuel of the writer: with four calls for each token ahead and each value to write,
and a few more, the functions of the writer return or raise. -/
theorem write_ends (P : Platform) (hP : (P.strtod (lit "0")).2 = 1) (fuel : Nat) :
    (∀ (val : value) (st : St writer), st.1.cur_token_ ≤ st.1.tokens_.length →
      (∀ a ∈ val.groups, a.listed) →
      4 * (st.1.tokens_.length - st.1.cur_token_) + 4 * val.size + 5 ≤ fuel →
      Res.ends st 0 (write_value P fuel val st)) ∧
    (∀ (braces : Bool) (m : List (Str × value)) (o : List Str) (st : St writer),
      st.1.cur_token_ ≤ st.1.tokens_.length → (∀ a ∈ (group.mk m o).groups, a.listed) →
      4 * (st.1.tokens_.length - st.1.cur_token_) + 4 * (group.mk m o).size + 8 ≤ fuel →
      Res.ends st 0 (write_group P fuel braces (.mk m o) st)) ∧
    (∀ (braces wrap : Bool) (m : List (Str × value)) (o keys : List Str) (st : St writer),
      st.1.cur_token_ ≤ st.1.tokens_.length →
      (∀ k ∈ keys, path.parse k = [k] ∧ ∃ v, map_find m k = some v ∧
        ∀ a ∈ v.groups, a.listed) →
      4 * (st.1.tokens_.length - st.1.cur_token_) + 4 * value.size_map m + 7 ≤ fuel →
      Res.ends st 0 (write_group_loop P fuel braces wrap (.mk m o) keys st)) ∧
    (∀ (vec : List value) (st : St writer), st.1.cur_token_ ≤ st.1.tokens_.length →
      (∀ v ∈ vec, ∀ a ∈ v.groups, a.listed) →
      4 * (st.1.tokens_.length - st.1.cur_token_) + 4 * value.size_list vec + 8 ≤ fuel →
      Res.ends st 0 (write_vector P fuel vec st)) ∧
    (∀ (wrap : Bool) (vec : List value) (st : St writer),
      st.1.cur_token_ ≤ st.1.tokens_.length → (∀ v ∈ vec, ∀ a ∈ v.groups, a.listed) →
      4 * (st.1.tokens_.length - st.1.cur_token_) + 4 * value.size_list vec + 6 ≤ fuel →
      Res.ends st 0 (write_vector_loop P fuel wrap vec st)) := by
  induction fuel with
  | zero =>
    refine ⟨?_, ?_, ?_, ?_, ?_⟩ <;> intros <;> omega
  | succ fuel ih =>
    obtain ⟨ihv, ihg, ihgl, ihvec, ihvl⟩ := ih
    have scalar : ∀ (st : St writer) (f : writer → writer),
        st.1.cur_token_ ≤ st.1.tokens_.length →
        4 * (st.1.tokens_.length - st.1.cur_token_) + 4 + 5 ≤ fuel + 1 →
        Res.ends st 0 ((read_value fuel st).bind fun _ st => .ok () (st.1, f st.2)) := by
      intro st f hle hf
      have e1 := (read_ends fuel).1 st hle (by omega)
      refine Res.ends_bind 0 e1 ?_ (Nat.zero_le _)
      intro v st1 h1
      exact Res.ends_ok_writer st1 (e1.2 v st1 h1).2.2 _ ()
    refine ⟨?_, ?_, ?_, ?_, ?_⟩
    · -- write_value
      intro val st hle hg hf
      cases val with
      | invalid =>
        simp only [write_value]
        exact Res.ends_ok st hle ()
      | number x =>
        simp only [value.size] at hf
        simp only [write_value]
        exact scalar st (fun wr => wr.append (stringize_number P x)) hle hf
      | string s =>
        simp only [value.size] at hf
        simp only [write_value]
        exact scalar st
          (fun wr => ((wr.append (lit "\"")).append (escape_string s)).append (lit "\"")) hle hf
      | bool b =>
        simp only [value.size] at hf
        simp only [write_value]
        exact scalar st (fun wr => wr.append (if b then lit "true" else lit "false")) hle hf
      | group g =>
        obtain ⟨m, o⟩ := g
        have hg1 : ∀ a ∈ (group.mk m o).groups, a.listed :=
          fun a ha => hg a (by simpa [value.groups] using ha)
        simp only [value.size] at hf
        simp only [write_value]
        split
        · exact ihg true m o st hle hg1 (by omega)
        · have e1 := (read_ends fuel).1 st hle (by omega)
          refine Res.ends_bind 0 e1 ?_ (Nat.zero_le _)
          intro v st1 h1
          obtain ⟨sc1, hw⟩ := (write_layout P hP fuel).2.1 m o st1.2 hg1 (by omega)
          rw [with_dummy_scanner_ok P _ st1 _ (dummy_braces 0) sc1 () _
            (make_scanner_braces P) hw]
          exact Res.ends_ok_writer st1 (e1.2 v st1 h1).2.2 _ ()
      | vector vec =>
        have hg1 : ∀ a ∈ value.groups_list vec, a.listed :=
          fun a ha => hg a (by simpa [value.groups] using ha)
        simp only [value.size] at hf
        simp only [write_value]
        split
        · exact ihvec vec st hle (fun v hv a ha => hg a (mem_groups_list vec v a hv ha))
            (by omega)
        · have e1 := (read_ends fuel).1 st hle (by omega)
          refine Res.ends_bind 0 e1 ?_ (Nat.zero_le _)
          intro v st1 h1
          obtain ⟨sc1, hw⟩ := (write_layout P hP fuel).2.2.2.1 vec st1.2 hg1 (by omega)
          rw [with_dummy_scanner_ok P _ st1 _ (dummy_brackets 0) sc1 () _
            (make_scanner_brackets P) hw]
          exact Res.ends_ok_writer st1 (e1.2 v st1 h1).2.2 _ ()
    · -- write_group
      intro braces m o st hle hg hf
      have hroot : (group.mk m o).listed := hg _ (mem_groups_self _)
      have hlo : o.length = m.length := hroot.1
      simp only [group.size] at hf
      have hkeys : ∀ k ∈ o, path.parse k = [k] ∧ ∃ v, map_find m k = some v ∧
          (∀ a ∈ v.groups, a.listed) ∧ v.size + m.length ≤ value.size_map m := by
        intro k hk
        obtain ⟨hp, hfd⟩ := hroot.2 k hk
        obtain ⟨v, hv⟩ := Option.isSome_iff_exists.1 hfd
        refine ⟨hp, v, hv, ?_, size_map_find m k v hv⟩
        intro a ha
        apply hg
        rw [groups_eq]
        exact List.mem_cons_of_mem _ (mem_groups_map_find m k v a hv ha)
      have tail : ∀ (s1 : St writer) (wrap : Bool) (close : St writer → Res (St writer) Unit),
          s1.1.cur_token_ ≤ s1.1.tokens_.length →
          4 * (s1.1.tokens_.length - s1.1.cur_token_) + 4 * value.size_map m + 7 ≤ fuel →
          4 * value.size_map m + 1 ≤ fuel →
          (∀ s3 : St writer, s3.1.cur_token_ ≤ s3.1.tokens_.length →
            Res.ends s3 0 (close s3)) →
          Res.ends s1 0 ((write_group_loop P fuel braces wrap (.mk m o) o s1).bind
            fun keys st => (write_group_rest P fuel wrap (.mk m o) keys st).bind
              fun _ st => close st) := by
        intro s1 wrap close hle1 hf1 hf2 hclose
        have e2 := ihgl braces wrap m o o s1 hle1
          (fun k hk => by
            obtain ⟨hp, v, hv, hgv, _⟩ := hkeys k hk
            exact ⟨hp, v, hv, hgv⟩) hf1
        refine Res.ends_bind 0 e2 ?_ (Nat.zero_le _)
        intro keys1 s2 h2
        obtain ⟨sub, hlen⟩ := write_group_loop_keys P fuel braces wrap _ o keys1 s1 s2 h2
        have hle2 := (e2.2 keys1 s2 h2).2.2
        obtain ⟨sc2, wr2⟩ := s2
        rw [(write_layout P hP fuel).2.2.1 m o keys1 wrap sc2 wr2 (fun k hk => by
          obtain ⟨hp, v, hv, hgv, hsz⟩ := hkeys k (sub k hk)
          exact ⟨hp, v, hv, hgv, by omega⟩) (by omega)]
        simp only [Res.bind]
        exact hclose _ hle2
      rw [write_group]
      cases braces with
      | false =>
        simp only [Bool.not_false, if_true, Res.bind, Bool.true_or, Bool.false_eq_true,
          if_false, group.order_mk]
        exact tail st true (fun st => .ok () st) hle (by omega) (by omega)
          (fun s3 h3 => Res.ends_ok s3 h3 ())
      | true =>
        have hlen := (lengths_eq P fuel).2.1 m o o 3 st (fun k hk => by
          obtain ⟨hp, v, hv, hgv, hsz⟩ := hkeys k hk
          exact ⟨hp, v, hv, hgv, by omega⟩) (by omega)
        simp only [Bool.not_true, Bool.false_eq_true, if_false, if_true, Bool.false_or,
          group.order_mk, hlen, Res.bind]
        generalize decide (((3 + estimate_entries (value.estimate_map P m) o : Nat) : Int) >
          st.2.wrap_length) = wrap
        have e1 := scanner.expect_ends '{' false
          (st.1, if wrap = true then ((st.2.append (lit "\x7b ")).indent).newline
            else (st.2.append (lit "\x7b ")).indent) hle
        simp only [Bool.false_eq_true, if_false] at e1
        refine Res.ends_bind 0 e1 ?_ (Nat.zero_le _)
        intro u s1 h1
        have a1 := e1.2 u s1 h1
        have t1 := congrArg List.length a1.1
        have c1 := a1.2.1
        have b1 := a1.2.2
        simp only at t1 c1
        refine Res.ends_mono (tail s1 wrap _ b1 (by omega) (by omega) ?_) (Nat.le_refl _)
        intro s3 h3
        have e5 := scanner.expect_ends '}' false
          (s3.1, if wrap = true then (s3.2.unindent).newline else s3.2.unindent) h3
        refine Res.ends_bind 0 e5 ?_ (Nat.zero_le _)
        intro u5 s5 h5
        exact Res.ends_ok_writer s5 (e5.2 u5 s5 h5).2.2 _ ()
    · -- write_group_loop
      intro braces wrap m o keys st hle hk hf
      rw [write_group_loop]
      split
      · have e1 := scanner.expect_identifier_ends st
        refine Res.ends_bind 0 e1 ?_ (Nat.zero_le _)
        intro key s1 h1
        have a1 := e1.2 key s1 h1
        have t1 := congrArg List.length a1.1
        have c1 := a1.2.1
        have b1 := a1.2.2
        have e2 := scanner.expect_ends '=' false s1 b1
        simp only [Bool.false_eq_true, if_false] at e2
        refine Res.ends_bind 0 e2 ?_ (Nat.zero_le _)
        intro u2 s2 h2
        have a2 := e2.2 u2 s2 h2
        have t2 := congrArg List.length a2.1
        have c2 := a2.2.1
        have b2 := a2.2.2
        have e3 : Res.ends s2 0
            (if keys.contains key = true then
              match (group.mk m o).get value_info (path.parse key) with
              | .error e => .throw e (s2.1, (s2.2.append key).append (lit " = "))
              | .ok val =>
                (write_value P fuel val (s2.1, (s2.2.append key).append (lit " = "))).bind
                  fun _ st =>
                    .ok (keys.erase key) (st.1, write_separator st.2
                      (st.1.peek_token.is_char '}' && (keys.erase key).isEmpty) wrap)
             else (read_value fuel s2).bind fun _ st => .ok keys st) := by
          by_cases hc : keys.contains key = true
          · rw [if_pos hc]
            have hmem : key ∈ keys := by simpa using hc
            obtain ⟨hp, v, hv, hgv⟩ := hk key hmem
            have hsz := size_map_find m key v hv
            rw [get_of_listed m o key v hp hv]
            have e4 := ihv v (s2.1, (s2.2.append key).append (lit " = ")) b2 hgv
              (by simp only; omega)
            refine Res.ends_bind 0 e4 ?_ (Nat.zero_le _)
            intro u5 s5 h5
            exact Res.ends_ok_writer s5 (e4.2 u5 s5 h5).2.2 _ _
          · rw [if_neg hc]
            have e4 := (read_ends fuel).1 s2 b2 (by omega)
            refine Res.ends_bind 0 e4 ?_ (Nat.zero_le _)
            intro v s5 h5
            exact Res.ends_ok s5 (e4.2 v s5 h5).2.2 _
        refine Res.ends_bind 0 e3 ?_ (Nat.zero_le _)
        intro keys2 s3 h3
        have a3 := e3.2 keys2 s3 h3
        have t3 := congrArg List.length a3.1
        have c3 := a3.2.1
        have b3 := a3.2.2
        have hk2 : ∀ k ∈ keys2, k ∈ keys := by
          by_cases hc : keys.contains key = true
          · rw [if_pos hc] at h3
            cases hget : (group.mk m o).get value_info (path.parse key) with
            | error e => rw [hget] at h3; simp at h3
            | ok val =>
              rw [hget] at h3
              replace h3 := Res.bind_ok h3
              obtain ⟨u5, s5, _, h3⟩ := h3
              simp only [Res.ok.injEq] at h3
              rw [← h3.1]
              exact fun k hk1 => List.mem_of_mem_erase hk1
          · rw [if_neg hc] at h3
            replace h3 := Res.bind_ok h3
            obtain ⟨v, s5, _, h3⟩ := h3
            simp only [Res.ok.injEq] at h3
            rw [← h3.1]
            exact fun k hk1 => hk1
        have e4 := scanner.expect_ends ',' true s3 b3
        simp only [if_true] at e4
        refine Res.ends_bind 0 e4 ?_ (Nat.zero_le _)
        intro u4 s4 h4
        have a4 := e4.2 u4 s4 h4
        have t4 := congrArg List.length a4.1
        have c4 := a4.2.1
        have b4 := a4.2.2
        split
        · exact Res.ends_ok s4 b4 _
        · exact ihgl braces wrap m o keys2 s4 b4 (fun k hk1 => hk k (hk2 k hk1)) (by omega)
      · exact Res.ends_ok st hle _
    · -- write_vector
      intro vec st hle hg hf
      have hsz : ∀ v ∈ vec, v.size + vec.length ≤ value.size_list vec + 1 :=
        fun v hv => size_list_mem vec v hv
      have hlen := (lengths_eq P fuel).2.2 vec 3 st (fun v hv =>
        ⟨hg v hv, by
          have := hsz v hv
          have := List.length_pos_of_mem hv
          omega⟩) (by omega)
      rw [write_vector]
      simp only [hlen, Res.bind]
      generalize decide (((3 + value.estimate_list P vec : Nat) : Int) > st.2.wrap_length)
        = wrap
      have e1 := scanner.expect_ends '[' false
        (st.1, if wrap = true then ((st.2.append (lit "[ ")).indent).newline
          else (st.2.append (lit "[ ")).indent) hle
      simp only [Bool.false_eq_true, if_false] at e1
      refine Res.ends_bind 0 e1 ?_ (Nat.zero_le _)
      intro u s1 h1
      have a1 := e1.2 u s1 h1
      have t1 := congrArg List.length a1.1
      have c1 := a1.2.1
      have b1 := a1.2.2
      simp only at t1 c1
      have e2 := ihvl wrap vec s1 b1 hg (by omega)
      refine Res.ends_bind 0 e2 ?_ (Nat.zero_le _)
      intro rest s2 h2
      obtain ⟨sub, hrs⟩ := write_vector_loop_rest P fuel wrap vec rest s1 s2 h2
      have hle2 := (e2.2 rest s2 h2).2.2
      obtain ⟨sc2, wr2⟩ := s2
      rw [(write_layout P hP fuel).2.2.2.2 rest wrap sc2 wr2 (fun v hv =>
        ⟨hg v (sub v hv), by
          have := size_list_mem rest v hv
          have := List.length_pos_of_mem hv
          omega⟩) (by omega)]
      simp only [Res.bind]
      have e5 := scanner.expect_ends ']' false
        (sc2, if wrap = true then ((value.layout_list P wrap rest wr2).unindent).newline
          else (value.layout_list P wrap rest wr2).unindent) hle2
      refine Res.ends_bind 0 e5 ?_ (Nat.zero_le _)
      intro u5 s5 h5
      exact Res.ends_ok_writer s5 (e5.2 u5 s5 h5).2.2 _ ()
    · -- write_vector_loop
      intro wrap vec st hle hg hf
      have tail : ∀ (vec1 : List value) (s1 : St writer),
          s1.1.cur_token_ ≤ s1.1.tokens_.length → (∀ v ∈ vec1, ∀ a ∈ v.groups, a.listed) →
          4 * (s1.1.tokens_.length - s1.1.cur_token_) + 4 * value.size_list vec1 + 6 ≤ fuel →
          Res.ends s1 0 ((scanner.expect ',' true (s1.1, write_separator s1.2
              (s1.1.peek_token.is_char ']' && vec1.isEmpty) wrap)).bind fun _ st =>
            write_vector_loop P fuel wrap vec1 st) := by
        intro vec1 s1 hle1 hg1 hf1
        have e2 := scanner.expect_ends ',' true (s1.1, write_separator s1.2
          (s1.1.peek_token.is_char ']' && vec1.isEmpty) wrap) hle1
        simp only [if_true] at e2
        refine Res.ends_bind 0 e2 ?_ (Nat.zero_le _)
        intro u2 s2 h2
        have a2 := e2.2 u2 s2 h2
        have t2 := congrArg List.length a2.1
        have c2 := a2.2.1
        have b2 := a2.2.2
        simp only at t2 c2
        exact ihvl wrap vec1 s2 b2 hg1 (by omega)
      cases vec with
      | nil =>
        rw [write_vector_loop]
        split
        · have e1 := (read_ends fuel).1 st hle (by omega)
          have e1b : Res.ends st 1 ((read_value fuel st).bind fun _ st =>
              (.ok [] st : Res (St writer) (List value))) := by
            refine Res.ends_bind 0 e1 ?_ (Nat.le_refl _)
            intro v s5 h5
            exact Res.ends_ok s5 (e1.2 v s5 h5).2.2 _
          refine Res.ends_bind 0 e1b ?_ (Nat.zero_le _)
          intro vec1 s1 h1
          have a1 := e1b.2 vec1 s1 h1
          have t1 := congrArg List.length a1.1
          have c1 := a1.2.1
          have b1 := a1.2.2
          replace h1 := Res.bind_ok h1
          obtain ⟨v, s5, _, h1⟩ := h1
          simp only [Res.ok.injEq] at h1
          rw [← h1.1]
          exact tail [] s1 b1 (by simp) (by simp only [value.size_list]; omega)
        · exact Res.ends_ok st hle _
      | cons val vec =>
        simp only [value.size_list] at hf
        rw [write_vector_loop]
        split
        · have e1 := ihv val st hle (hg val (List.mem_cons_self _ _)) (by omega)
          have e1b : Res.ends st 0 ((write_value P fuel val st).bind fun _ st =>
              (.ok vec st : Res (St writer) (List value))) := by
            refine Res.ends_bind 0 e1 ?_ (Nat.le_refl _)
            intro v s5 h5
            exact Res.ends_ok s5 (e1.2 v s5 h5).2.2 _
          refine Res.ends_bind 0 e1b ?_ (Nat.zero_le _)
          intro vec1 s1 h1
          have a1 := e1b.2 vec1 s1 h1
          have t1 := congrArg List.length a1.1
          have c1 := a1.2.1
          have b1 := a1.2.2
          replace h1 := Res.bind_ok h1
          obtain ⟨v, s5, _, h1⟩ := h1
          simp only [Res.ok.injEq] at h1
          rw [← h1.1]
          have := value.size_pos val
          exact tail vec s1 b1 (fun v hv => hg v (List.mem_cons_of_mem _ hv)) (by omega)
        · exact Res.ends_ok st hle _

/-- The fuel `write` gives the writer does not run out: when `scan` has returned or
raised, `write` returns a text or raises, whatever the old text, for a group whose keys
are listed at every depth (as in every group the interface makes). -/
theorem write_fuel_suffices (P : Platform) (hP : (P.strtod (lit "0")).2 = 1) (G : group)
    (hG : ∀ a ∈ G.groups, a.listed) (src : Str) (w : Int)
    (h : scanner.scan P (scanner.init : scanner writer) src
      ⟨some write_comment, allow_comments_flag ||| blank_line_comment_flag⟩ ≠ .diverge) :
    write P G src w ≠ .diverge := by
  obtain ⟨m, o⟩ := G
  have fresh : ∀ wr : writer,
      (match make_scanner P [] with
        | .throw e _ => (.throw e () : Res Unit Str)
        | .diverge => .diverge
        | .ok _ dummy_scanner =>
          match write_group P (write_fuel dummy_scanner (.mk m o)) false (.mk m o)
              (dummy_scanner, wr) with
          | .ok _ (_, wr) => .ok wr.buf ()
          | .throw e _ => .throw e ()
          | .diverge => .diverge) ≠ .diverge := by
    intro wr
    have hm : (make_scanner P [] : Res (scanner writer) Unit) =
        .ok () ⟨[], [], 0, true, 0, 1, 1, default_scanner_params⟩ := rfl
    rw [hm]
    simp only
    have e := (write_ends P hP (write_fuel ⟨[], [], 0, true, 0, 1, 1, default_scanner_params⟩
      (.mk m o))).2.1 false m o (⟨[], [], 0, true, 0, 1, 1, default_scanner_params⟩, wr)
      (Nat.le_refl _) hG (by simp only [write_fuel, List.length_nil]; omega)
    cases hr : write_group P (write_fuel ⟨[], [], 0, true, 0, 1, 1, default_scanner_params⟩
      (.mk m o)) false (.mk m o) (⟨[], [], 0, true, 0, 1, 1, default_scanner_params⟩, wr) with
    | ok u s => simp
    | throw e s => simp
    | diverge => exact absurd hr e.1
  simp only [write]
  cases hs : scanner.scan P (scanner.init : scanner writer) src
      ⟨some write_comment, allow_comments_flag ||| blank_line_comment_flag⟩ with
  | diverge => exact absurd hs h
  | throw e s => simp
  | ok u sc =>
    simp only
    have hc := scan_cursor P src _ sc (by rw [hs]; rfl)
    have e := (write_ends P hP (write_fuel sc (.mk m o))).2.1 false m o (sc, writer.init w)
      (by simp only [hc]; omega) hG (by simp only [write_fuel, hc]; omega)
    cases hr : write_group P (write_fuel sc (.mk m o)) false (.mk m o)
        (sc, writer.init w) with
    | ok u1 s1 => simp
    | diverge => exact absurd hr e.1
    | throw e1 s1 =>
      simp only
      split
      · exact fresh s1.2
      · simp

/-- Written against an empty old text, a group the interface can make comes out in the
layout of the specification: the root has its entries one per line, and a group in braces
or a vector has its children one per line, four blanks deeper, exactly when its estimate
exceeds the wrap width, and on one line with `, ` between them otherwise. -/
theorem write_fresh_layout (P : Platform) (hP : (P.strtod (lit "0")).2 = 1) (G : group)
    (hG : reachable G) (w : Int) : write P G [] w = .ok (layout_text P G w) () := by
  obtain ⟨m, o⟩ := G
  have hl := listed_of_reachable _ hG
  have hroot : (group.mk m o).listed := hl _ (mem_groups_self _)
  have hkeys : ∀ k ∈ o, path.parse k = [k] ∧ ∃ v, map_find m k = some v ∧
      (∀ a ∈ v.groups, a.listed) ∧
      4 * v.size + o.length + 1 ≤ 4 * (group.mk m o).size + 7 := by
    intro k hk
    obtain ⟨hp, hf⟩ := hroot.2 k hk
    obtain ⟨v, hv⟩ := Option.isSome_iff_exists.1 hf
    refine ⟨hp, v, hv, ?_, ?_⟩
    · intro a ha
      apply hl
      rw [groups_eq]
      exact List.mem_cons_of_mem _ (mem_groups_map_find m k v a hv ha)
    · have h1 := size_map_find m k v hv
      have h2 : o.length = m.length := hroot.1
      simp only [group.size]
      omega
  have hscan : scanner.scan P (scanner.init : scanner writer) []
      ⟨some write_comment, allow_comments_flag ||| blank_line_comment_flag⟩ =
      .ok () ⟨[], [], 0, true, 0, 1, 1,
        ⟨some write_comment, allow_comments_flag ||| blank_line_comment_flag⟩⟩ := rfl
  have hfuel : ∀ sc : scanner writer, sc.tokens_ = [] →
      write_fuel sc (group.mk m o) = (4 * (group.mk m o).size + 6) + 1 + 1 := by
    intro sc h
    simp only [write_fuel, h, List.length_nil]
    omega
  have hrest := (write_layout P hP (4 * (group.mk m o).size + 7)).2.2.1 m o o true
  have hf0 := hfuel ⟨[], [], 0, true, 0, 1, 1,
    ⟨some write_comment, allow_comments_flag ||| blank_line_comment_flag⟩⟩ rfl
  simp only [write, hscan, hf0]
  rw [write_group]
  simp only [Bool.not_false, if_true, Res.bind, Bool.true_or, Bool.false_eq_true, if_false,
    group.order_mk]
  have hloop : ∀ (wr : writer), write_group_loop P (4 * (group.mk m o).size + 6 + 1) false true
      (group.mk m o) o (⟨[], [], 0, true, 0, 1, 1,
        ⟨some write_comment, allow_comments_flag ||| blank_line_comment_flag⟩⟩, wr) =
      .ok o (⟨[], [], 0, true, 0, 1, 1,
        ⟨some write_comment, allow_comments_flag ||| blank_line_comment_flag⟩⟩, wr) := by
    intro wr
    rfl
  simp only [hloop, hrest _ _ hkeys (by omega), layout_text, group.layout, Bool.not_false,
    Bool.true_or, Bool.false_eq_true, if_false]

theorem tidy_of_reachable (G : group) (hG : reachable G) : ∀ a ∈ G.groups, a.tidy := by
  intro a ha
  have ho : a.order_ok := all_groups_reachable order_ok_kept G hG a ha
  have hk : ∀ k ∈ a.keys, valid_key k = true :=
    all_groups_reachable keys_valid_kept G hG a ha
  refine ⟨listed_of_reachable G hG a ha, ?_⟩
  intro k hko hm
  have hv := hk k (ho.2.mem_iff.1 hko)
  simp only [valid_key, Bool.and_eq_true, List.all_eq_true] at hv
  have := hv.2 10 hm
  simp at this

theorem write_scanned_tame (P : Platform) (src : Str) : (write_scanned P src).tame := by
  unfold write_scanned
  cases h : scanner.scan P scanner.init src
      ⟨some write_comment, allow_comments_flag ||| blank_line_comment_flag⟩ with
  | ok u sc => exact scan_tame P src _ sc h
  | throw e sc => exact scanner.tame_of_quiet _ (by simp [scanner.init])
  | diverge => exact scanner.tame_of_quiet _ (by simp [scanner.init])

/-- C33 (as amended): written against an empty old text, a group the interface can make
comes out in the layout of the specification (`layout_text`: the entries of the root one
per line; the children of a group in braces or of a vector one per line, four blanks
deeper, exactly when the estimate of the node exceeds the wrap width, and on one line with
`, ` between them otherwise). Against any old text, what `write_value` appends for a value
holds one newline for each comment (or blank line) of the old text it passes, and no other
when the value is a scalar or a node whose estimate is within the wrap width, one more at
least when it is a group or a vector whose estimate exceeds it; the groups the interface
makes and the scanner `write` makes of the old text are as the statement asks (`tidy`,
`tame`). A child of the old text that the node no longer holds leaves its separator
behind: `[ true ]` against `a = [ true, false ]` is written `[ true,  ]`. With the fuel
`write` gives it the writer returns or raises, whatever the old text. -/
theorem layout_follows_estimate (P : Platform) (hP : (P.strtod (lit "0")).2 = 1)
    (hnum : ∀ x, 10 ∉ stringize_number P x) :
    (∀ (G : group) (w : Int), reachable G → write P G [] w = .ok (layout_text P G w) ()) ∧
    (∀ (fuel : Nat) (val : value) (st st1 : St writer), st.1.tame →
      (∀ a ∈ val.groups, a.tidy) → write_value P fuel val st = .ok () st1 →
      ∃ t, st1.2.buf = st.2.buf ++ t ∧
        (val.wrapped P st.2.wrap_length = false →
          t.count 10 = (st.1.comments_between st.1.cur_token_ st1.1.cur_token_).length) ∧
        (val.wrapped P st.2.wrap_length = true →
          (st.1.comments_between st.1.cur_token_ st1.1.cur_token_).length < t.count 10)) ∧
    (∀ G : group, reachable G → ∀ a ∈ G.groups, a.tidy) ∧
    (∀ src : Str, (write_scanned P src).tame) ∧
    write sample_platform group_a_one_bool (lit "a = [ true, false ]") 120 =
      .ok (lit "a = [ true,  ]\n") () ∧
    write sample_platform group_a_bools (lit "a = [ true, false ]") 10 =
      .ok (lit "a = [ \n    true\n    false\n]\n") () ∧
    (∀ (fuel : Nat) (val : value) (st : St writer),
      st.1.cur_token_ ≤ st.1.tokens_.length → (∀ a ∈ val.groups, a.tidy) →
      4 * (st.1.tokens_.length - st.1.cur_token_) + 4 * val.size + 5 ≤ fuel →
      write_value P fuel val st ≠ .diverge) ∧
    (∀ (G : group) (src : Str) (w : Int), reachable G →
      scanner.scan P (scanner.init : scanner writer) src
        ⟨some write_comment, allow_comments_flag ||| blank_line_comment_flag⟩ ≠ .diverge →
      write P G src w ≠ .diverge) := by
  refine ⟨fun G w hG => write_fresh_layout P hP G hG w, ?_, tidy_of_reachable,
    write_scanned_tame P, by decide!, by decide!, ?_, ?_⟩
  · intro fuel val st st1 ht hg h
    obtain ⟨_, _, _, t, hb, hlo, hq⟩ :=
      (write_wrote P hP hnum st.2.wrap_length fuel).1 val st st1 rfl ht hg h
    refine ⟨t, hb, ?_, ?_⟩
    · intro hw
      rw [hw] at hq
      exact hq rfl
    · intro hw
      rw [hw] at hlo
      simp only [if_true] at hlo
      omega
  · intro fuel val st hle hg hf
    exact ((write_ends P hP fuel).1 val st hle (fun a ha => (hg a ha).1) hf).1
  · intro G src w hG hs
    exact write_fuel_suffices P hP G (listed_of_reachable G hG) src w hs

/-- Witness of C33: on the sample platform, the group `a = \x7b b = true \x7d` against an
empty old text at width 5, and the vector `[ true, false ]` written at width 120 against
the old text `[ true, // c`, newline, ` false ]`: the text appended holds the newline of
the comment and no other. -/
theorem layout_follows_estimate_witness :
    (sample_platform.strtod (lit "0")).2 = 1 ∧
    (∀ x, 10 ∉ stringize_number sample_platform x) ∧
    write sample_platform group_a_b_true [] 5 =
      .ok (layout_text sample_platform group_a_b_true 5) () ∧
    ∃ st1 t, write_value sample_platform 12 (.vector [.bool true, .bool false])
        (write_scanned sample_platform (lit "[ true, // c\n false ]"), writer.init 120) =
        .ok () st1 ∧
      st1.2.buf = lit "[ true, // c\n    false ]" ∧ st1.2.buf = [] ++ t ∧
      t.count 10 =
        ((write_scanned sample_platform (lit "[ true, // c\n false ]")).comments_between
          (write_scanned sample_platform (lit "[ true, // c\n false ]")).cur_token_
          st1.1.cur_token_).length := by
  have hP : (sample_platform.strtod (lit "0")).2 = 1 := by decide!
  have hnum : ∀ x, 10 ∉ stringize_number sample_platform x := by
    intro x
    simp only [stringize_number, sample_platform]
    split_ifs <;> decide
  have hG : reachable group_a_b_true :=
    reachable.set bool_info group.empty [lit "a", lit "b"] true group_a_b_true reachable.empty
      (fun a ha => by simp [bool_info, value.groups] at ha) rfl
  have thm := layout_follows_estimate sample_platform hP hnum
  have htame := thm.2.2.2.1 (lit "[ true, // c\n false ]")
  have key : (match write_value sample_platform 12 (.vector [.bool true, .bool false])
      (write_scanned sample_platform (lit "[ true, // c\n false ]"), writer.init 120) with
    | .ok _ s => decide (s.2.buf = lit "[ true, // c\n    false ]")
    | .throw _ _ => false
    | .diverge => false) = true := by decide!
  refine ⟨hP, hnum, thm.1 _ 5 hG, ?_⟩
  have node := thm.2.1 12 (.vector [.bool true, .bool false])
  generalize write_scanned sample_platform (lit "[ true, // c\n false ]") = ws
    at htame key ⊢
  cases hr : write_value sample_platform 12 (.vector [.bool true, .bool false])
      (ws, writer.init 120) with
  | ok u st1 =>
    rw [hr] at key
    simp only [decide_eq_true_eq] at key
    obtain ⟨t, hb, hq, _⟩ := node (ws, writer.init 120) st1 htame
      (fun a ha => by simp [value.groups, value.groups_list] at ha) hr
    exact ⟨st1, t, rfl, key, hb, hq rfl⟩
  | throw e s =>
    rw [hr] at key
    simp at key
  | diverge =>
    rw [hr] at key
    simp at key

/-- The layout of the specification on three examples: a group in braces whose estimate
exceeds the wrap width, the same group within the wrap width, and a vector within it. -/
theorem layout_text_examples :
    layout_text sample_platform group_a_b_true 5 = lit "a = \x7b \n    b = true\n\x7d" ∧
    layout_text sample_platform group_a_b_true 20 = lit "a = \x7b b = true \x7d" ∧
    layout_text sample_platform group_a_bools 120 = lit "a = [ true, false ]" ∧
    layout_text sample_platform group_a_bools 10 = lit "a = [ \n    true\n    false\n]" := by
  decide!

/-- C33 (counterexample): the vector `[ true, false ]` has the estimate 16, within the
wrap width 120, and written against the old text `a = [ true, // c`, newline, ` false ]`
its children are on two lines: the comment of the old text is written behind the first
child and ends the line. -/
theorem comment_splits_unwrapped_vector :
    vector_length sample_platform 3 [.bool true, .bool false] 3 () = .ok 16 () ∧
    write sample_platform group_a_bools (lit "a = [ true, // c\n false ]") 120 =
      .ok (lit "a = [ true, // c\n    false ]\n") () ∧
    write sample_platform group_a_bools [] 120 = .ok (lit "a = [ true, false ]") () := by
  decide!

end lightconf
